import Mathlib

/-!
# Cumulative probability arrays (cpa.c) and pair matching (match_pair.cpp)

A shallow embedding of the C sources and a verification development over it.

Modelling conventions, used throughout:

* The source computes weights, keys and subtractors in `double`.  `cpa.c` is
  embedded twice.  The definitions with the names of the source (`Cpa_entry`,
  `cpa_append`, `cpa_linear_search`, `cpa_binary_search`, ...) hold whole numbers
  (`Int`) in the `double` fields and compute exactly: they are the source run on
  whole numbers whose sums stay below `2^53`, where no sum and no difference of
  doubles rounds.  The weights and keys the repository generates are of that
  kind (1, 2, 3 in `generate_weight_default`, 1..10 in
  `cpa_generate_probability`, `rand() % cumulative_weight` and
  `rand_int_to_open(cumulative_weight)` for the keys).  The definitions with
  `Dbl.` in front of the name (`Dbl.Cpa_entry`, `Dbl.cpa_append`,
  `Dbl.cpa_linear_search`, `Dbl.cpa_binary_search`, ...) repeat the source in
  IEEE 754 `double` arithmetic (`Double`), rounding included; the theorems
  `cpa_append_all_to_dbl`, `cpa_linear_search_to_dbl` and
  `cpa_binary_search_to_dbl` show that the two embeddings agree on whole
  numbers.  What is stated for weights and keys in general is stated on the
  `Dbl.` definitions.
* `size_t` indexes are natural numbers.  `lower` and `higher` of
  `cpa_binary_search` are compared in the source after a cast to `signed`; they
  are the integers (`Int`) that cast yields, so `higher` can be `-1`.  Arrays are
  taken to hold fewer than `2^31` entries, for which the casts are exact and the
  64-slot path arrays `q` of the source are never exceeded.
* `entries[0 .. size-1]` is a list and `size` is its length; the slots between
  `size` and `capacity` hold no data.
* A `void *` payload is a natural number (its address).  The search functions
  return the index of the entry they select; the pointer the C function returns
  is the `data` field of that entry (`payloadOf`).
* An access outside an array has no defined result and is the outcome `fault`;
  a loop that is cut off by its fuel is the outcome `timeout`.
* In `match_pair` a pointer to an individual is the position of the individual
  in `population`, and that position is the payload of its array entry.
  `unsigned` values are natural numbers, with the wrap-around at `2^32` written
  out where the source can reach it.  A failed `assert` is a `fault`.  The
  generator of `randomc.h` and the vector `indices` that `random_shuffle`
  leaves are inputs of the model.
-/

namespace CPA

/-- The result of running a piece of the source. -/
inductive Outcome (α : Type) where
  | ok (a : α)
  | fault
  | timeout
deriving DecidableEq, Repr

/-- Entry in a cumulative probability array (`struct cpa_entry_s`) whose `double`
fields hold whole numbers; `Dbl.Cpa_entry` is the entry with `double` fields in
general, and `entry_to_dbl` takes the one to the other. -/
structure Cpa_entry where
  data : Nat
  weight : Int
  cumulative_weight : Int
  adder : Int
  left_subtractor : Int
  right_subtractor : Int
  linear_subtractor : Int
  found : Bool
deriving DecidableEq, Repr

/-- The array and its housekeeping fields (`struct cpa_s`). -/
structure Cpa where
  entries : List Cpa_entry
  capacity : Nat
  num_found : Nat
  cumulative_weight : Int
  error : Nat
deriving DecidableEq, Repr

/-- The field `size`: the number of appended entries. -/
def Cpa.size (cpa : Cpa) : Nat := cpa.entries.length

def OUT_OF_MEMORY : Nat := 1
def ZERO_ARRAY_SIZE : Nat := 2
def NOT_FOUND : Nat := 3

/-- The function `cpa_append`.  The assertion `weight != 0.0` and a write past
`capacity` are faults. -/
def cpa_append (cpa : Cpa) (data : Nat) (weight : Int) : Outcome Cpa :=
  if weight = 0 then .fault
  else if cpa.capacity ≤ cpa.size then .fault
  else
    let cw : Int :=
      if cpa.size = 0 then weight
      else
        match cpa.entries[cpa.size - 1]? with
        | some last => last.cumulative_weight + weight
        | none => weight
    .ok { cpa with
          entries := cpa.entries ++
            [{ data := data, weight := weight, cumulative_weight := cw, adder := 0,
               left_subtractor := 0, right_subtractor := 0, linear_subtractor := 0,
               found := false }],
          cumulative_weight := cw }

/-- Appends the items of a list one after the other (the loop of `cpa_new` over
`data[i]`, and the assignment loop of `match_pair`). -/
def cpa_append_all : Cpa → List (Nat × Int) → Outcome Cpa
  | cpa, [] => .ok cpa
  | cpa, (d, w) :: rest =>
    match cpa_append cpa d w with
    | .ok cpa1 => cpa_append_all cpa1 rest
    | .fault => .fault
    | .timeout => .timeout

/-- The array `cpa_new` sets up before it appends anything: no entries, room
for `size` of them.  `junk` is the value of the field `cumulative_weight`, which
`cpa_new` leaves uninitialised. -/
def cpa_empty (size : Nat) (junk : Int) : Cpa :=
  { entries := [], capacity := size, num_found := 0, cumulative_weight := junk, error := 0 }

/-- The function `cpa_new` with a successful allocation.  `data` is `none` for a
NULL array. -/
def cpa_new (size : Nat) (data : Option (List Nat)) (generator : Nat → Int)
    (junk : Int) : Outcome Cpa :=
  if size = 0 then
    .ok { entries := [], capacity := 0, num_found := 0, cumulative_weight := junk,
          error := ZERO_ARRAY_SIZE }
  else
    match data with
    | none => .ok (cpa_empty size junk)
    | some ds =>
      cpa_append_all (cpa_empty size junk) ((ds.take size).map (fun d => (d, generator d)))

/-- The function `cpa_all_found`. -/
def cpa_all_found (cpa : Cpa) : Bool := cpa.num_found == cpa.size

/-- The scan of `cpa_linear_search`: the index of the first entry from position
`i` on that is not found and brackets `key`. -/
def linear_search_loop (key : Int) : List Cpa_entry → Nat → Int → Option Nat
  | [], _, _ => none
  | e :: rest, i, subtractor =>
    let subtractor := subtractor + e.linear_subtractor
    if e.found = false ∧ key < e.cumulative_weight + subtractor ∧
        key ≥ e.cumulative_weight + subtractor - e.weight then
      some i
    else linear_search_loop key rest (i + 1) subtractor

/-- The function `cpa_linear_search` on whole numbers, where its sums and
comparisons are exact: the array after the call and the index of the selected
entry (`none` for NULL).  `Dbl.cpa_linear_search` is the function on doubles. -/
def cpa_linear_search (cpa : Cpa) (key : Int) : Cpa × Option Nat :=
  match linear_search_loop key cpa.entries 0 0 with
  | none => (cpa, none)
  | some i =>
    match cpa.entries[i]? with
    | none => (cpa, none)
    | some e =>
      ({ cpa with
         entries := cpa.entries.set i
           { e with found := true, linear_subtractor := e.linear_subtractor - e.weight },
         num_found := cpa.num_found + 1,
         cumulative_weight := cpa.cumulative_weight - e.weight }, some i)

/-- Reads `q[j]` for `j < q_size`; slots never written hold zero. -/
def q_read (q : List Nat) (q_size : Nat) : List Nat :=
  (List.range q_size).map (fun j => q.getD j 0)

/-- Writes `q[k] = v`, the list growing with zero slots when needed. -/
def q_write (q : List Nat) (k v : Nat) : List Nat :=
  if k < q.length then q.set k v
  else q ++ List.replicate (k - q.length) 0 ++ [v]

/-- The loop of `cpa_set_subtractors` over the path `q`, carrying the flag `set`;
`w` is `entries[found_index].weight`. -/
def set_subtractors_loop (found_index : Nat) (w : Int) :
    List Nat → Bool → List Cpa_entry → Outcome (List Cpa_entry)
  | [], _, es => .ok es
  | v :: rest, set, es =>
    if set = false ∧ found_index < v then
      match es[v]? with
      | none => .fault
      | some e =>
        set_subtractors_loop found_index w rest true
          (es.set v { e with left_subtractor := e.left_subtractor - w,
                             right_subtractor := e.right_subtractor - w })
    else if set = true ∧ v < found_index then
      match es[v]? with
      | none => .fault
      | some e =>
        set_subtractors_loop found_index w rest false
          (es.set v { e with left_subtractor := e.left_subtractor + w,
                             right_subtractor := e.right_subtractor + w })
    else if set = false ∧ v = found_index then
      match es[v]? with
      | none => .fault
      | some e =>
        set_subtractors_loop found_index w rest set
          (es.set v { e with right_subtractor := e.right_subtractor - w })
    else if set = true ∧ v = found_index then
      match es[v]? with
      | none => .fault
      | some e =>
        set_subtractors_loop found_index w rest set
          (es.set v { e with left_subtractor := e.left_subtractor + w })
    else set_subtractors_loop found_index w rest set es

/-- The function `cpa_set_subtractors`. -/
def cpa_set_subtractors (cpa : Cpa) (q : List Nat) (q_size : Nat)
    (found_index : Nat) : Outcome Cpa :=
  match cpa.entries[found_index]? with
  | none => .fault
  | some e =>
    match set_subtractors_loop found_index e.weight (q_read q q_size) false
        (cpa.entries.set found_index { e with found := true }) with
    | .ok es => .ok { cpa with entries := es, num_found := cpa.num_found + 1 }
    | .fault => .fault
    | .timeout => .timeout

/-- The `while(1)` loop of `cpa_binary_search` on whole numbers, where its sums
and comparisons are exact.  `Dbl.binary_search_loop` is the loop on doubles. -/
def binary_search_loop (key : Int) :
    Nat → Cpa → Int → Int → List Nat → Int → Outcome (Cpa × Option Nat)
  | 0, _, _, _, _, _ => .timeout
  | fuel + 1, cpa, lower, higher, q, subtractor =>
    if higher < lower then .ok (cpa, none)
    else
      let i : Nat := ((lower + higher + 1) / 2).toNat
      let q := q ++ [i]
      match cpa.entries[i]? with
      | none => .fault
      | some e =>
        let subtractor := subtractor + e.right_subtractor
        if e.cumulative_weight + subtractor ≤ key then
          binary_search_loop key fuel cpa (i + 1) higher q subtractor
        else
          let subtractor := subtractor - e.right_subtractor + e.left_subtractor
          if e.found = true ∨ e.cumulative_weight + subtractor - e.weight > key then
            binary_search_loop key fuel cpa lower (i - 1) q subtractor
          else
            match cpa_set_subtractors
                { cpa with cumulative_weight := cpa.cumulative_weight - e.weight }
                q q.length i with
            | .ok cpa1 => .ok (cpa1, some i)
            | .fault => .fault
            | .timeout => .timeout

/-- The function `cpa_binary_search`: the array after the call and the index of
the selected entry (`none` for NULL). -/
def cpa_binary_search (cpa : Cpa) (key : Int) : Outcome (Cpa × Option Nat) :=
  binary_search_loop key (cpa.size + 1) cpa 0 ((cpa.size : Int) - 1) [] 0

/-- The function `cpa_reset`. -/
def cpa_reset (cpa : Cpa) : Cpa :=
  { cpa with entries := cpa.entries.map (fun e => { e with found := false }) }

/-- The stack frames pushed by one round of `cpa_traverse` and `cpa_iterate`
after the frame `(low, high, q_size)` was popped; the head of the list is the
top of the stack, `stack[counter*3 ..]` of the source. -/
def push_frames (low high q_size : Nat) (rest : List (Nat × Nat × Nat)) :
    List (Nat × Nat × Nat) :=
  let index := (low + high + 1) / 2
  let s1 := if low < index then (low, index - 1, q_size + 1) :: rest else rest
  if index < high then (index + 1, high, q_size + 1) :: s1 else s1

/-- The `while(counter)` loop of `cpa_traverse`.  `out` collects the payloads
handed to `func`; `has_func` is false for a NULL `func`. -/
def traverse_loop (has_func : Bool) :
    Nat → Cpa → List (Nat × Nat × Nat) → List Nat → List Nat → Outcome (Cpa × List Nat)
  | _, cpa, [], _, out => .ok (cpa, out)
  | 0, _, _ :: _, _, _ => .timeout
  | fuel + 1, cpa, (low, high, q_size) :: rest, q, out =>
    let index := (low + high + 1) / 2
    let q := q_write q (q_size - 1) index
    let stack := push_frames low high q_size rest
    match cpa.entries[index]? with
    | none => .fault
    | some e =>
      let out := if has_func then out ++ [e.data] else out
      match cpa_set_subtractors
          { cpa with cumulative_weight := cpa.cumulative_weight - e.weight }
          q q_size index with
      | .ok cpa1 => traverse_loop has_func fuel cpa1 stack q out
      | .fault => .fault
      | .timeout => .timeout

/-- The function `cpa_traverse`: the array after the call and the payloads
handed to `func`, in call order. -/
def cpa_traverse (cpa : Cpa) (has_func : Bool) : Outcome (Cpa × List Nat) :=
  traverse_loop has_func (cpa.size + 1) cpa [(0, cpa.size - 1, 1)] [] []

/-- The iterator (`struct cpa_iterator_s`); `stack_size` is the length of
`stack`, whose head is the top frame. -/
structure Cpa_iterator where
  started : Bool
  stack : List (Nat × Nat × Nat)
  q : List Nat
  q_size : Nat
deriving DecidableEq, Repr

/-- A zero-initialised iterator (`Cpa_iterator iterator = {}`). -/
def iterator_zero : Cpa_iterator := { started := false, stack := [], q := [], q_size := 0 }

/-- The function `cpa_iterate_init`. -/
def cpa_iterate_init (cpa : Cpa) (it : Cpa_iterator) : Cpa_iterator :=
  { it with started := true, stack := [(0, cpa.size - 1, 1)], q_size := 0 }

/-- The `do ... while (found)` loop of `cpa_iterate`: the iterator after the
loop and the index it stopped at.  Popping the empty stack reads outside the
array `stack` and is a fault. -/
def iterate_loop (cpa : Cpa) : Nat → Cpa_iterator → Outcome (Cpa_iterator × Nat)
  | 0, _ => .timeout
  | fuel + 1, it =>
    match it.stack with
    | [] => .fault
    | (low, high, q_size) :: rest =>
      let index := (low + high + 1) / 2
      let it1 : Cpa_iterator :=
        { it with q_size := q_size, q := q_write it.q (q_size - 1) index,
                  stack := push_frames low high q_size rest }
      match cpa.entries[index]? with
      | none => .fault
      | some e => if e.found = true then iterate_loop cpa fuel it1 else .ok (it1, index)

/-- A number of rounds the loop of `cpa_iterate` cannot exceed: every round pops
a frame and pushes frames that cover one index less. -/
def iterate_fuel (it : Cpa_iterator) : Nat :=
  2 * (it.stack.map (fun f => f.2.1 + 1 - f.1)).sum + it.stack.length + 1

/-- The function `cpa_iterate`: the array and the iterator after the call, and
the index of the returned entry (`none` for NULL). -/
def cpa_iterate (cpa : Cpa) (it : Cpa_iterator) :
    Outcome (Cpa × Cpa_iterator × Option Nat) :=
  if it.stack = [] ∧ it.started = true then .ok (cpa, it, none)
  else
    let it0 := if it.stack = [] then cpa_iterate_init cpa it else it
    match iterate_loop cpa (iterate_fuel it0) it0 with
    | .fault => .fault
    | .timeout => .timeout
    | .ok (it1, index) =>
      match cpa.entries[index]? with
      | none => .fault
      | some e =>
        match cpa_set_subtractors
            { cpa with cumulative_weight := cpa.cumulative_weight - e.weight }
            it1.q it1.q_size index with
        | .ok cpa1 => .ok (cpa1, it1, some index)
        | .fault => .fault
        | .timeout => .timeout

/-- The caller loop `while ((x = cpa_iterate(cpa, &iterator))) visit(x)` of
`cpa_test`: the final array and iterator, and the payloads returned before the
NULL, in order. -/
def iterate_until_null :
    Nat → Cpa → Cpa_iterator → List Nat → Outcome (Cpa × Cpa_iterator × List Nat)
  | 0, _, _, _ => .timeout
  | fuel + 1, cpa, it, out =>
    match cpa_iterate cpa it with
    | .fault => .fault
    | .timeout => .timeout
    | .ok (cpa1, it1, none) => .ok (cpa1, it1, out)
    | .ok (cpa1, it1, some i) =>
      match cpa.entries[i]? with
      | none => .fault
      | some e => iterate_until_null fuel cpa1 it1 (out ++ [e.data])

/-- The pointer a search returns for entry `i`. -/
def payloadOf (cpa : Cpa) (i : Nat) : Option Nat := (cpa.entries[i]?).map (·.data)

/-! ## Specification-level notions -/

/-- The weight an entry still contributes: its weight unless it is found. -/
def liveWeight (e : Cpa_entry) : Int := if e.found = true then 0 else e.weight

/-- The sum of the weights of the entries not yet found. -/
def liveSum (es : List Cpa_entry) : Int := (es.map liveWeight).sum

/-- The weight an entry has given up: its weight once it is found. -/
def deadWeight (e : Cpa_entry) : Int := if e.found = true then e.weight else 0

/-- The sum of the weights of the entries already found. -/
def deadSum (es : List Cpa_entry) : Int := (es.map deadWeight).sum

/-- The sum of all weights. -/
def totalWeight (es : List Cpa_entry) : Int := (es.map (fun e => e.weight)).sum

/-- The sum of the weights of the not yet found entries with index below `i`. -/
def liveBefore (es : List Cpa_entry) (i : Nat) : Int := liveSum (es.take i)

/-- Entry `i` is not found and `key` lies in its bracket
`liveBefore i ≤ key < liveBefore i + weight i`. -/
def Brackets (es : List Cpa_entry) (key : Int) (i : Nat) : Prop :=
  match es[i]? with
  | none => False
  | some e => e.found = false ∧ liveBefore es i ≤ key ∧ key < liveBefore es i + e.weight

instance (es : List Cpa_entry) (key : Int) (i : Nat) : Decidable (Brackets es key i) := by
  unfold Brackets
  cases es[i]? <;> infer_instance

/-- What the operations other than `cpa_append` never change in an entry, and
the flag `found`. -/
def core (e : Cpa_entry) : Nat × Int × Int × Bool :=
  (e.data, e.weight, e.cumulative_weight, e.found)

/-- The entries as `cpa_append` lays them out: prefix weights are running sums
starting from `acc`. -/
def WellBuilt : List Cpa_entry → Int → Prop
  | [], _ => True
  | e :: rest, acc => e.cumulative_weight = acc + e.weight ∧ WellBuilt rest (acc + e.weight)

/-- The state of the array after `cpa_linear_search` was called with each of
`keys` in turn. -/
def linear_history (cpa : Cpa) (keys : List Int) : Cpa :=
  keys.foldl (fun c k => (cpa_linear_search c k).1) cpa

/-- Every key is inside the remaining weight at the moment it is used, the
removals being those of the searches with the earlier keys. -/
def valid_keys : Cpa → List Int → Prop
  | _, [] => True
  | cpa, k :: ks =>
    0 ≤ k ∧ k < cpa.cumulative_weight ∧ valid_keys (cpa_linear_search cpa k).1 ks

/-- Runs `cpa_linear_search` on each key in turn: per call the remaining weight
before it and the index it returns. -/
def linear_trace : Cpa → List Int → List (Int × Option Nat)
  | _, [] => []
  | cpa, k :: ks =>
    (cpa.cumulative_weight, (cpa_linear_search cpa k).2) ::
      linear_trace (cpa_linear_search cpa k).1 ks

/-- Runs `cpa_binary_search` on each key in turn: per call the remaining weight
before it and the index it returns. -/
def binary_trace : Cpa → List Int → Outcome (List (Int × Option Nat))
  | _, [] => .ok []
  | cpa, k :: ks =>
    match cpa_binary_search cpa k with
    | .fault => .fault
    | .timeout => .timeout
    | .ok (cpa1, r) =>
      match binary_trace cpa1 ks with
      | .fault => .fault
      | .timeout => .timeout
      | .ok t => .ok ((cpa.cumulative_weight, r) :: t)

/-- The midpoint node of the index range `[lo, hi]`. -/
def mid_of (lo hi : Int) : Nat := ((lo + hi + 1) / 2).toNat

/-- The subtractor invariant of the implicit search tree over `[lo, hi]`:
`carry` is the subtractor accumulated on the way to the range, and `dead k` the
weight already removed below index `k`.  At every node the carry together with
the right (left) subtractor cancels the weight removed up to and including
(strictly before) the node. -/
inductive TreeInv (es : List Cpa_entry) (dead : Nat → Int) : Int → Int → Int → Prop
  | leaf (lo hi carry : Int) (h : hi < lo) : TreeInv es dead lo hi carry
  | node (lo hi carry : Int) (e : Cpa_entry) (h : lo ≤ hi)
      (he : es[mid_of lo hi]? = some e)
      (hr : carry + e.right_subtractor = - dead (mid_of lo hi + 1))
      (hl : carry + e.left_subtractor = - dead (mid_of lo hi))
      (left : TreeInv es dead lo ((mid_of lo hi : Int) - 1) (carry + e.left_subtractor))
      (right : TreeInv es dead ((mid_of lo hi : Int) + 1) hi (carry + e.right_subtractor)) :
      TreeInv es dead lo hi carry

/-- The nodes visited when descending from the range `[lo, hi]` to index `t`. -/
inductive PathTo (t : Nat) : Int → Int → List Nat → Prop
  | here (lo hi : Int) (h : lo ≤ hi) (ht : mid_of lo hi = t) : PathTo t lo hi [t]
  | goLeft (lo hi : Int) (p : List Nat) (h : lo ≤ hi) (ht : t < mid_of lo hi)
      (rest : PathTo t lo ((mid_of lo hi : Int) - 1) p) : PathTo t lo hi (mid_of lo hi :: p)
  | goRight (lo hi : Int) (p : List Nat) (h : lo ≤ hi) (ht : mid_of lo hi < t)
      (rest : PathTo t ((mid_of lo hi : Int) + 1) hi p) : PathTo t lo hi (mid_of lo hi :: p)

/-- The order of the specification: the midpoint of `[lo, hi]`, then the whole right
sub-range, then the whole left sub-range; empty for an empty range.  `fuel`
bounds the nesting depth, and `hi - lo + 1` is enough. -/
def order : Nat → Int → Int → List Nat
  | 0, _, _ => []
  | fuel + 1, lo, hi =>
    if hi < lo then []
    else
      mid_of lo hi :: (order fuel ((mid_of lo hi : Int) + 1) hi ++
        order fuel lo ((mid_of lo hi : Int) - 1))

/-- The traversal order of an array of `n` entries. -/
def traversal_order (n : Nat) : List Nat := order n 0 ((n : Int) - 1)

/-- One call of the library on an array that changes which entries are found.
The iterator handed to `cpa_iterate` is any iterator, which covers a caller that
hands on the iterator left by an earlier call. -/
inductive Call where
  | binary (key : Int)
  | linear (key : Int)
  | iterate (it : Cpa_iterator)
deriving DecidableEq, Repr

/-- Carries out one call: the array after it and the index of the returned
entry (`none` for NULL). -/
def do_call (cpa : Cpa) : Call → Outcome (Cpa × Option Nat)
  | .binary key => cpa_binary_search cpa key
  | .linear key => .ok (cpa_linear_search cpa key)
  | .iterate it =>
    match cpa_iterate cpa it with
    | .ok (cpa1, _, r) => .ok (cpa1, r)
    | .fault => .fault
    | .timeout => .timeout

/-- Carries out a sequence of calls: the final array and what each call
returned. -/
def run_calls : Cpa → List Call → Outcome (Cpa × List (Option Nat))
  | cpa, [] => .ok (cpa, [])
  | cpa, op :: ops =>
    match do_call cpa op with
    | .fault => .fault
    | .timeout => .timeout
    | .ok (cpa1, r) =>
      match run_calls cpa1 ops with
      | .fault => .fault
      | .timeout => .timeout
      | .ok (cpa2, rs) => .ok (cpa2, r :: rs)

/-- The prefix weight `cpa_append` gives the new entry. -/
def appended_weight (cpa : Cpa) (weight : Int) : Int :=
  if cpa.size = 0 then weight
  else
    match cpa.entries[cpa.size - 1]? with
    | some last => last.cumulative_weight + weight
    | none => weight

/-- The state `cpa_linear_search` relies on and keeps: prefix weights are running
sums, weights are positive, the linear subtractor of an entry is minus its
weight once it is found, and the remaining weight is the live sum. -/
def LinearInv (cpa : Cpa) : Prop :=
  WellBuilt cpa.entries 0 ∧
  (∀ e ∈ cpa.entries, 0 < e.weight ∧
    e.linear_subtractor = if e.found = true then - e.weight else 0) ∧
  cpa.cumulative_weight = liveSum cpa.entries

/-- The array `cpa_linear_search` leaves when it selects entry `i`, which holds `e`. -/
def linear_removed (cpa : Cpa) (i : Nat) (e : Cpa_entry) : Cpa :=
  { cpa with
    entries := cpa.entries.set i
      { e with found := true, linear_subtractor := e.linear_subtractor - e.weight },
    num_found := cpa.num_found + 1,
    cumulative_weight := cpa.cumulative_weight - e.weight }

/-- The appends of the concrete scenario: weights 1, 2, 3, 4 in that order. -/
def scenario_items : List (Nat × Int) := [(101, 1), (102, 2), (103, 3), (104, 4)]

/-- The sum of the weights of the already found entries with index below `k`. -/
def deadBefore (es : List Cpa_entry) (k : Nat) : Int := deadSum (es.take k)

/-- The state `cpa_binary_search` relies on and keeps: prefix weights are running
sums, weights are positive, the left and right subtractors satisfy the tree
invariant over the whole index range, and the remaining weight is the live sum. -/
def BinaryInv (cpa : Cpa) : Prop :=
  WellBuilt cpa.entries 0 ∧
  (∀ e ∈ cpa.entries, 0 < e.weight) ∧
  TreeInv cpa.entries (deadBefore cpa.entries) 0 ((cpa.size : Int) - 1) 0 ∧
  cpa.cumulative_weight = liveSum cpa.entries

/-- The array of the concrete scenario, as the four appends leave it. -/
def scenario_cpa : Cpa :=
  { entries :=
      [{ data := 101, weight := 1, cumulative_weight := 1, adder := 0, left_subtractor := 0,
         right_subtractor := 0, linear_subtractor := 0, found := false },
       { data := 102, weight := 2, cumulative_weight := 3, adder := 0, left_subtractor := 0,
         right_subtractor := 0, linear_subtractor := 0, found := false },
       { data := 103, weight := 3, cumulative_weight := 6, adder := 0, left_subtractor := 0,
         right_subtractor := 0, linear_subtractor := 0, found := false },
       { data := 104, weight := 4, cumulative_weight := 10, adder := 0, left_subtractor := 0,
         right_subtractor := 0, linear_subtractor := 0, found := false }],
    capacity := 4, num_found := 0, cumulative_weight := 10, error := 0 }

/-- The list `es1` differs from `es` at most in left and right subtractors. -/
def SubsOnly (es es1 : List Cpa_entry) : Prop :=
  es1.length = es.length ∧
  ∀ (j : Nat) (e : Cpa_entry), es[j]? = some e →
    ∃ e1, es1[j]? = some e1 ∧ core e1 = core e ∧
      e1.linear_subtractor = e.linear_subtractor ∧ e1.adder = e.adder

/-- The indexes a stack of frames still has to visit, top frame first, each
frame in the order of the specification. -/
def stack_order (n : Nat) : List (Nat × Nat × Nat) → List Nat
  | [] => []
  | (lo, hi, _) :: rest => order n lo hi ++ stack_order n rest

/-- The number of indexes the frames of a stack cover. -/
def stack_span (stack : List (Nat × Nat × Nat)) : Nat :=
  (stack.map (fun f => f.2.1 + 1 - f.1)).sum

/-- Entry `i` exists and its found flag is set. -/
def found_at (cpa : Cpa) (i : Nat) : Prop :=
  ∃ e, cpa.entries[i]? = some e ∧ e.found = true

/-- The entries a sequence of calls returned, in order (the NULLs dropped). -/
def returned (rs : List (Option Nat)) : List Nat := rs.filterMap id

/-- The state of the array after `cpa_binary_search` was called with each of
`keys` in turn. -/
def binary_history : Cpa → List Int → Outcome Cpa
  | cpa, [] => .ok cpa
  | cpa, k :: ks =>
    match cpa_binary_search cpa k with
    | .ok (cpa1, _) => binary_history cpa1 ks
    | .fault => .fault
    | .timeout => .timeout

/-! ## Pair matching (match_pair.cpp) -/

/-- Sequencing of pieces of the source: the first fault or timeout ends the run. -/
def Outcome.bind {α β : Type} : Outcome α → (α → Outcome β) → Outcome β
  | .ok a, f => f a
  | .fault, _ => .fault
  | .timeout, _ => .timeout

instance : Monad Outcome where
  pure := Outcome.ok
  bind := Outcome.bind

/-- The array with the field `cumulative_weight` cleared when it has no entry:
`cpa_new` leaves that field uninitialised and the first append sets it. -/
def clear_junk (cpa : Cpa) : Cpa :=
  if cpa.entries = [] then { cpa with cumulative_weight := 0 } else cpa

/-- An array read `xs[i]`; outside the array it is a fault. -/
def read {α : Type} (xs : List α) (i : Nat) : Outcome α :=
  match xs[i]? with
  | some x => .ok x
  | none => .fault

/-- The statement `assert(p)` on a pointer: a NULL pointer is a fault. -/
def assert_found (p : Option Nat) : Outcome Nat :=
  match p with
  | some i => .ok i
  | none => .fault

/-- An individual (`struct indiv_s`).  The pointers `partner` and
`secondary_partner` are the position in `population` of the individual they
point to, `none` for NULL. -/
structure Indiv where
  sex : Nat
  age : Nat
  age_group : Nat
  risk_group : Nat
  eligible : Bool
  partner : Option Nat
  secondary_partner : Option Nat
deriving DecidableEq, Repr

def NUM_CPA : Nat := 96
def MALE : Nat := 0
def FEMALE : Nat := 1
def HIGHEST_AGE_GROUP : Nat := 24
def LOW : Nat := 0
def HIGH : Nat := 1

/-- The function `index`; its `size_t` arithmetic does not wrap on `unsigned`
arguments. -/
def index (sex risk age : Nat) : Nat := sex * (NUM_CPA / 2) + risk * (NUM_CPA / 4) + age

/-- The value of an `int` converted to `unsigned`. -/
def to_unsigned (v : Int) : Nat := (v % 2 ^ 32).toNat

/-- The value of an `unsigned` or a `size_t` converted to `int`. -/
def to_int (u : Nat) : Int :=
  if u % 2 ^ 32 < 2 ^ 31 then ((u % 2 ^ 32 : Nat) : Int) else ((u % 2 ^ 32 : Nat) : Int) - 2 ^ 32

/-- Modelled from the spec: the random number generator `randGen`.
`TRandomMersenne::IRandom(min, max)` comes from `randomc.h`, which is not among
the sources, and the specification gives only its interface; here it is any
function from the state of the generator and the two bounds to the number drawn
and the next state. -/
abbrev Generator : Type := Nat → Int → Int → Int × Nat

/-- The function `rand_int_range`. -/
def rand_int_range (gen : Generator) (r : Nat) (lo hi : Int) : Int × Nat := gen r lo hi

/-- The function `rand_int_to`. -/
def rand_int_to (gen : Generator) (r : Nat) (hi : Int) : Int × Nat := gen r 0 hi

/-- The function `rand_int_to_open`. -/
def rand_int_to_open (gen : Generator) (r : Nat) (hi : Int) : Int × Nat := gen r 0 (hi - 1)

/-- The function `can_pair_default`; `none` is the NULL pointer. -/
def can_pair_default (indiv : Option Indiv) : Bool :=
  match indiv with
  | some _ => true
  | none => false

/-- The loop of `search_age_groups`, in `unsigned` arithmetic: the position
returned and the state of the generator.  A read of `age_group[index]` outside
the vector is a fault. -/
def search_age_groups_loop (gen : Generator) (age_group : List Nat) (key : Nat) :
    Nat → Nat → Nat → Nat → Outcome (Nat × Nat)
  | 0, _, _, _ => .timeout
  | fuel + 1, low, high, r =>
    if high ≤ low then
      if low < age_group.length then
        .ok (to_unsigned (rand_int_range gen r (to_int high) (to_int low)).1,
             (rand_int_range gen r (to_int high) (to_int low)).2)
      else .ok (high, r)
    else
      let index := (low + high + 1) % 2 ^ 32 / 2
      match age_group[index]? with
      | none => .fault
      | some a =>
        if a = key then .ok (index, r)
        else if a > key then
          search_age_groups_loop gen age_group key fuel low ((index + 2 ^ 32 - 1) % 2 ^ 32) r
        else search_age_groups_loop gen age_group key fuel ((index + 1) % 2 ^ 32) high r

/-- The function `search_age_groups`.  Every round of its loop narrows the range
between `low` and `high`, so `size + 1` rounds are enough. -/
def search_age_groups (gen : Generator) (r : Nat) (age_group : List Nat) (key : Nat) :
    Outcome (Nat × Nat) :=
  search_age_groups_loop gen age_group key (age_group.length + 1) 0
    ((age_group.length + 2 ^ 32 - 1) % 2 ^ 32) r

/-- The function `select_age_group_default`. -/
def select_age_group_default (gen : Generator) (r : Nat) (age_group : List Nat)
    (ind : Indiv) : Outcome (Nat × Nat) :=
  search_age_groups gen r age_group ind.age_group

/-- The function `generate_weight_default`. -/
def generate_weight_default (ind : Indiv) : Nat :=
  if ind.age ≥ 15 ∧ ind.age < 40 then 3
  else if ind.age ≥ 40 ∧ ind.age < 50 then 2
  else 1

/-- The loop of `non_empty_cpa` over the age groups `i`. -/
def non_empty_scan (cpa : List Cpa) (sex risk : Nat) : List Nat → Outcome (List Nat)
  | [] => .ok []
  | i :: rest => do
    let c ← read cpa (index sex risk i)
    let cpa_counts ← non_empty_scan cpa sex risk rest
    pure (if c.size ≠ 0 then i :: cpa_counts else cpa_counts)

/-- The function `non_empty_cpa`. -/
def non_empty_cpa (cpa : List Cpa) (sex risk : Nat) : Outcome (List Nat) :=
  non_empty_scan cpa sex risk (List.range HIGHEST_AGE_GROUP)

/-- The first loop of `match_pair` over the population: the `eligible` flags it
sets and the tally `cpa_sizes`.  A write outside the 96 slots of `cpa_sizes` is
a fault. -/
def count_eligible (can_pair : Option Indiv → Bool) :
    List Indiv → List Nat → Outcome (List Indiv × List Nat)
  | [], cpa_sizes => .ok ([], cpa_sizes)
  | i :: rest, cpa_sizes =>
    if can_pair (some i) then do
      let c ← read cpa_sizes (index i.sex i.risk_group i.age_group)
      let x ← count_eligible can_pair rest
        (cpa_sizes.set (index i.sex i.risk_group i.age_group) ((c + 1) % 2 ^ 32))
      pure ({ i with eligible := true } :: x.1, x.2)
    else do
      let x ← count_eligible can_pair rest cpa_sizes
      pure ({ i with eligible := false } :: x.1, x.2)

/-- The loop of `match_pair` that calls `cpa_new(cpa_sizes[j], NULL, NULL)` for
`j` from `first` on; `junk j` is what the allocation of array `j` leaves in the
field `cumulative_weight`.  With `data` NULL `cpa_new` does not call the
generator of weights. -/
def new_cpas (junk : Nat → Int) : List Nat → Nat → Outcome (List Cpa)
  | [], _ => .ok []
  | size :: rest, first => do
    let c ← cpa_new size none (fun _ => 0) (junk first)
    let cs ← new_cpas junk rest (first + 1)
    pure (c :: cs)

/-- The loop of `match_pair` that appends each eligible individual, in the order
of `indices`, to the array of its sex, risk group and age group.  The payload of
an entry is the position of the individual in `population`. -/
def assign (generate_weight : Indiv → Nat) (population : List Indiv) :
    List Nat → List Cpa → Outcome (List Cpa)
  | [], cpa => .ok cpa
  | i :: rest, cpa => do
    let ind ← read population i
    if ind.eligible then do
      let c ← read cpa (index ind.sex ind.risk_group ind.age_group)
      let c1 ← cpa_append c i (generate_weight ind)
      assign generate_weight population rest
        (cpa.set (index ind.sex ind.risk_group ind.age_group) c1)
    else assign generate_weight population rest cpa

/-- Sets the pointer `population[i].partner`; outside `population` it is a fault. -/
def set_partner (population : List Indiv) (i : Nat) (p : Option Nat) :
    Outcome (List Indiv) :=
  match population[i]? with
  | some ind => .ok (population.set i { ind with partner := p })
  | none => .fault

/-- The statement `if (x->partner) x->partner->partner = NULL`, for the pointer
`p = x->partner`. -/
def release (population : List Indiv) (p : Option Nat) : Outcome (List Indiv) :=
  match p with
  | some b => set_partner population b none
  | none => .ok population

/-- The last four statements of the loop of `match_pair`, which link `ind_from`
and `ind_to` and release the partners they had. -/
def link (population : List Indiv) (ind_from ind_to : Nat) : Outcome (List Indiv) := do
  let f ← read population ind_from
  let p1 ← release population f.partner
  let p2 ← set_partner p1 ind_from (some ind_to)
  let t ← read p2 ind_to
  let p3 ← release p2 t.partner
  set_partner p3 ind_to (some ind_from)

/-- The variables of `match_pair` its loop works on.  `linked` is not in the
source: it lists the pairs `(ind_from, ind_to)` in the order the loop linked
them. -/
structure Match_state where
  population : List Indiv
  cpa : List Cpa
  cpa_iterator : List Cpa_iterator
  age_groups : List (List Nat)
  rand : Nat
  linked : List (Nat × Nat)
deriving DecidableEq, Repr

/-- The body of the `while` loop of `match_pair`.  `select_age_group` gets the
state of the generator and returns the next one with its result.  The
remaining weight handed to `rand_int_to_open` is an integer, which the
conversion from `double` to `int` leaves as it is. -/
def match_step (gen : Generator)
    (select_age_group : Nat → List Nat → Indiv → Outcome (Nat × Nat))
    (st : Match_state) : Outcome Match_state := do
  let male_high ← read st.age_groups (MALE * 2 + HIGH)
  let female_high ← read st.age_groups (FEMALE * 2 + HIGH)
  let s : Nat × Nat :=
    if male_high.length ≠ 0 ∧ female_high.length ≠ 0 then
      (to_unsigned (rand_int_to gen st.rand 1).1, (rand_int_to gen st.rand 1).2)
    else (if male_high.length ≠ 0 then MALE else FEMALE, st.rand)
  let from_sex := s.1
  let src ← read st.age_groups (from_sex * 2 + HIGH)
  let d := rand_int_to gen s.2 (to_int ((src.length + 2 ^ 64 - 1) % 2 ^ 64))
  let from_age_group_index := to_unsigned d.1
  let from_age_group ← read src from_age_group_index
  let cpa_from := index from_sex HIGH from_age_group % 2 ^ 32
  let c ← read st.cpa cpa_from
  let it ← read st.cpa_iterator cpa_from
  let x ← cpa_iterate c it
  let cpa1 := st.cpa.set cpa_from x.1
  let iterator1 := st.cpa_iterator.set cpa_from x.2.1
  let age_groups1 :=
    if cpa_all_found x.1 then
      st.age_groups.set (from_sex * 2 + HIGH) (src.eraseIdx from_age_group_index)
    else st.age_groups
  let i ← assert_found x.2.2
  let ind_from ← read (x.1.entries.map (fun e => e.data)) i
  let to_sex := (2 ^ 32 - 1 - from_sex) % 2
  let to_high ← read age_groups1 (to_sex * 2 + HIGH)
  let to_risk_group := if to_high.length ≠ 0 then HIGH else LOW
  let dst ← read age_groups1 (to_sex * 2 + to_risk_group)
  let f ← read st.population ind_from
  let a ← select_age_group d.2 dst f
  let to_age_group_index := a.1
  let to_age_group ← read dst to_age_group_index
  let cpa_to := index to_sex to_risk_group to_age_group % 2 ^ 32
  let ct ← read cpa1 cpa_to
  let w := rand_int_to_open gen a.2 ct.cumulative_weight
  let y ← cpa_binary_search ct w.1
  let k ← assert_found y.2
  let ind_to ← read (y.1.entries.map (fun e => e.data)) k
  let age_groups2 :=
    if cpa_all_found y.1 then
      age_groups1.set (to_sex * 2 + to_risk_group) (dst.eraseIdx to_age_group_index)
    else age_groups1
  let population1 ← link st.population ind_from ind_to
  pure { population := population1, cpa := cpa1.set cpa_to y.1, cpa_iterator := iterator1,
         age_groups := age_groups2, rand := w.2,
         linked := st.linked ++ [(ind_from, ind_to)] }

/-- The `while` loop of `match_pair`. -/
def match_loop (gen : Generator)
    (select_age_group : Nat → List Nat → Indiv → Outcome (Nat × Nat)) :
    Nat → Match_state → Outcome Match_state
  | 0, st => do
    let male_high ← read st.age_groups (MALE * 2 + HIGH)
    let female_high ← read st.age_groups (FEMALE * 2 + HIGH)
    if male_high.length + female_high.length ≠ 0 then .timeout else pure st
  | fuel + 1, st => do
    let male_high ← read st.age_groups (MALE * 2 + HIGH)
    let female_high ← read st.age_groups (FEMALE * 2 + HIGH)
    if male_high.length + female_high.length ≠ 0 then do
      let st1 ← match_step gen select_age_group st
      match_loop gen select_age_group fuel st1
    else pure st

/-- The first part of `match_pair`, which builds the arrays: the population with
the `eligible` flags set, and the 96 arrays with the eligible individuals
appended.  `indices` is the vector of that name after `random_shuffle` (of the
standard library, not among the sources). -/
def match_arrays (can_pair : Option Indiv → Bool) (generate_weight : Indiv → Nat)
    (junk : Nat → Int) (indices : List Nat) (population : List Indiv) :
    Outcome (List Indiv × List Cpa) := do
  let x ← count_eligible can_pair population (List.replicate NUM_CPA 0)
  let cpa0 ← new_cpas junk x.2 0
  let cpa ← assign generate_weight x.1 indices cpa0
  pure (x.1, cpa)

/-- The part of `match_pair` before the `while` loop: the population, the arrays
and the four vectors `age_groups`. -/
def match_init (can_pair : Option Indiv → Bool) (generate_weight : Indiv → Nat)
    (junk : Nat → Int) (indices : List Nat) (population : List Indiv) :
    Outcome (List Indiv × List Cpa × List (List Nat)) := do
  let y ← match_arrays can_pair generate_weight junk indices population
  let male_high ← non_empty_cpa y.2 MALE HIGH
  let female_high ← non_empty_cpa y.2 FEMALE HIGH
  let male_low ← non_empty_cpa y.2 MALE LOW
  let female_low ← non_empty_cpa y.2 FEMALE LOW
  pure (y.1, y.2, [male_low, male_high, female_low, female_high])

/-- The function `match_pair`, up to the release of the arrays; `rand` is the
state of the generator after `random_shuffle`.  Every round of the loop draws an
individual that was not drawn before, so the loop makes at most as many rounds
as there are individuals. -/
def match_pair (gen : Generator) (can_pair : Option Indiv → Bool)
    (select_age_group : Nat → List Nat → Indiv → Outcome (Nat × Nat))
    (generate_weight : Indiv → Nat) (junk : Nat → Int) (indices : List Nat) (rand : Nat)
    (population : List Indiv) : Outcome Match_state := do
  let x ← match_init can_pair generate_weight junk indices population
  match_loop gen select_age_group (population.length + 1)
    { population := x.1, cpa := x.2.1,
      cpa_iterator := List.replicate NUM_CPA iterator_zero,
      age_groups := x.2.2, rand := rand, linked := [] }

/-- The pointer `population[a].partner`; `none` when it is NULL or when there is
no individual `a`. -/
def partner_of (population : List Indiv) (a : Nat) : Option Nat :=
  (population[a]?).bind (fun ind => ind.partner)

/-- Partnerships are mutual: every individual has no partner or is the partner
of its partner. -/
def Consistent (population : List Indiv) : Prop :=
  ∀ a b, partner_of population a = some b → partner_of population b = some a

/-- A check of `Consistent` by running through the population. -/
def consistent_check (population : List Indiv) : Bool :=
  (List.range population.length).all (fun a =>
    match partner_of population a with
    | none => true
    | some b => partner_of population b == some a)

/-- The fields of an individual other than `partner`. -/
def other_fields (ind : Indiv) : Nat × Nat × Nat × Nat × Bool × Option Nat :=
  (ind.sex, ind.age, ind.age_group, ind.risk_group, ind.eligible, ind.secondary_partner)

/-- The array an individual is appended to. -/
def stratum (ind : Indiv) : Nat := index ind.sex ind.risk_group ind.age_group

/-- Sex and risk group are one of the two values and the age group is one of
the 24 the arrays are laid out for. -/
def in_range (ind : Indiv) : Prop :=
  ind.sex ≤ 1 ∧ ind.risk_group ≤ 1 ∧ ind.age_group < HIGHEST_AGE_GROUP

instance (ind : Indiv) : Decidable (in_range ind) := by
  unfold in_range
  infer_instance

/-- Modelled from the spec: a generator that always draws the lower bound of
the interval it is asked for (and a negative error value when the bounds are in
the wrong order). -/
def gen_low : Generator := fun r lo hi => (if hi < lo then -2147483648 else lo, r + 1)

/-- An individual without partner, with the age group `age / 5` that `main`
gives it. -/
def person (sex age risk : Nat) : Indiv :=
  { sex := sex, age := age, age_group := age / 5, risk_group := risk, eligible := false,
    partner := none, secondary_partner := none }

/-- The population of the scenario: two males of age 20 and 45, two females of
age 22 and 46, all of low risk, none with a partner. -/
def scenario_population : List Indiv :=
  [person MALE 20 LOW, person MALE 45 LOW, person FEMALE 22 LOW, person FEMALE 46 LOW]

/-- Every payload of array `j` is an individual of the population, and the
sex, risk group and age group of that individual index array `j`. -/
def Placed (population : List Indiv) (cpa : List Cpa) : Prop :=
  ∀ (j : Nat) (c : Cpa), cpa[j]? = some c →
    ∀ d ∈ c.entries.map (fun e => e.data),
      ∃ ind, population[d]? = some ind ∧ stratum ind = j

/-- The individual `a` sits in an array of HIGH risk of one sex and `b` in an
array of the other sex. -/
def Opposite (a b : Indiv) : Prop :=
  ∃ s g r h, s ≤ 1 ∧ g < HIGHEST_AGE_GROUP ∧ r ≤ 1 ∧ h < HIGHEST_AGE_GROUP ∧
    stratum a = index s HIGH g ∧ stratum b = index (1 - s) r h

/-- Every pair the loop linked was drawn from arrays of opposite sexes. -/
def Linked_ok (population : List Indiv) (linked : List (Nat × Nat)) : Prop :=
  ∀ p ∈ linked, ∃ a b, population[p.1]? = some a ∧ population[p.2]? = some b ∧ Opposite a b

/-- What every round of the loop of `match_pair` keeps true. -/
def Match_inv (st : Match_state) : Prop :=
  Consistent st.population ∧ Placed st.population st.cpa ∧ st.age_groups.length = 4 ∧
  (∀ l ∈ st.age_groups, ∀ g ∈ l, g < HIGHEST_AGE_GROUP) ∧
  Linked_ok st.population st.linked

/-- The state a run ended in; `st` when the run did not end. -/
def final_state (o : Outcome Match_state) (st : Match_state) : Match_state :=
  match o with
  | .ok st1 => st1
  | _ => st

/-- A population with a couple in it: the first male and the second female are
partners. -/
def couple_population : List Indiv :=
  [{ person MALE 20 HIGH with partner := some 3 }, person FEMALE 22 HIGH,
   person MALE 33 HIGH, { person FEMALE 40 LOW with partner := some 0 },
   person FEMALE 21 HIGH, person MALE 24 LOW]

/-- The state before anything is set up. -/
def empty_state : Match_state :=
  { population := [], cpa := [], cpa_iterator := [], age_groups := [], rand := 0, linked := [] }

/-- The midpoint as the specification words it: `low + ceil((high - low + 1) / 2)`. -/
def claimed_mid (low high : Nat) : Nat := low + (high - low + 1 + 1) / 2

/-- The midpoint `low + ceil((high - low) / 2)`: the middle of a range of odd
length, the upper of the two middle indexes of a range of even length. -/
def upper_mid (low high : Nat) : Nat := low + (high - low + 1) / 2

/-- Modelled from the spec: what the generator promises, a number between the
two bounds it is given. -/
def in_bounds (gen : Generator) : Prop :=
  ∀ (r : Nat) (lo hi : Int), lo ≤ hi → lo ≤ (gen r lo hi).1 ∧ (gen r lo hi).1 ≤ hi

/-- The `while` loop of `match_pair` cut after at most `k` rounds: the state at
the start of round `k + 1`, or the state the loop left with when it ended
earlier. -/
def match_rounds (gen : Generator)
    (select_age_group : Nat → List Nat → Indiv → Outcome (Nat × Nat)) :
    Nat → Match_state → Outcome Match_state
  | 0, st => .ok st
  | k + 1, st => do
    let male_high ← read st.age_groups (MALE * 2 + HIGH)
    let female_high ← read st.age_groups (FEMALE * 2 + HIGH)
    if male_high.length + female_high.length ≠ 0 then do
      let st1 ← match_step gen select_age_group st
      match_rounds gen select_age_group k st1
    else pure st

/-- The function `match_pair` with its loop cut after at most `k` rounds. -/
def match_pair_rounds (gen : Generator) (can_pair : Option Indiv → Bool)
    (select_age_group : Nat → List Nat → Indiv → Outcome (Nat × Nat))
    (generate_weight : Indiv → Nat) (junk : Nat → Int) (indices : List Nat) (rand : Nat)
    (population : List Indiv) (k : Nat) : Outcome Match_state := do
  let x ← match_init can_pair generate_weight junk indices population
  match_rounds gen select_age_group k
    { population := x.1, cpa := x.2.1,
      cpa_iterator := List.replicate NUM_CPA iterator_zero,
      age_groups := x.2.2, rand := rand, linked := [] }

/-- The individuals the loop selected, in the order of selection: the source
and the target of the first round, those of the second round, and so on. -/
def selected (linked : List (Nat × Nat)) : List Nat :=
  linked.flatMap (fun p => [p.1, p.2])

/-- Each of the four vectors `age_groups[sex * 2 + risk]` is strictly ascending
and holds exactly the age groups `g < 24` whose array `index(sex, risk, g)` has
`num_found < size`. -/
def Lists_exact (st : Match_state) : Prop :=
  st.age_groups.length = 4 ∧
  ∀ sex risk, sex ≤ 1 → risk ≤ 1 →
    ∃ l, st.age_groups[sex * 2 + risk]? = some l ∧ l.Pairwise (· < ·) ∧
      ∀ g, g ∈ l ↔ (g < HIGHEST_AGE_GROUP ∧
        ∃ c, st.cpa[index sex risk g]? = some c ∧ c.num_found < c.size)

/-- The number of eligible individuals of HIGH risk. -/
def high_risk_count (can_pair : Option Indiv → Bool) (population : List Indiv) : Nat :=
  population.countP (fun ind => can_pair (some ind) && ind.risk_group == HIGH)

/-- The individual `p` is the payload of an entry that is found. -/
def Drawn (cpa : List Cpa) (p : Nat) : Prop :=
  ∃ (j : Nat) (c : Cpa) (i : Nat) (e : Cpa_entry),
    cpa[j]? = some c ∧ c.entries[i]? = some e ∧ e.data = p ∧ e.found = true

/-- What the loop of `match_pair` keeps true of the individuals it draws: the
payloads sit in the array of their sex, risk group and age group, no array
holds a payload twice, the payloads are eligible, the individuals selected are
payloads of found entries and pairwise distinct, and every source sits in an
array of HIGH risk. -/
def Drawn_inv (st : Match_state) : Prop :=
  Placed st.population st.cpa ∧
  (∀ (j : Nat) (c : Cpa), st.cpa[j]? = some c → (c.entries.map (fun e => e.data)).Nodup) ∧
  (∀ (j : Nat) (c : Cpa), st.cpa[j]? = some c → ∀ d ∈ c.entries.map (fun e => e.data),
    ∃ ind, st.population[d]? = some ind ∧ ind.eligible = true) ∧
  (∀ p ∈ selected st.linked, Drawn st.cpa p) ∧
  (selected st.linked).Nodup ∧
  (∀ p ∈ st.linked, ∃ ind s g, st.population[p.1]? = some ind ∧ ind.eligible = true ∧
    s ≤ 1 ∧ g < HIGHEST_AGE_GROUP ∧ stratum ind = index s HIGH g)

/-- Every pair the loop linked is still a couple. -/
def Couples_kept (st : Match_state) : Prop :=
  ∀ p ∈ st.linked, partner_of st.population p.1 = some p.2 ∧
    partner_of st.population p.2 = some p.1

/-- The bound on the rounds of the loop as the specification words it: the
number of eligible HIGH-risk males or that of eligible HIGH-risk females,
whichever is smaller. -/
def claimed_round_bound (can_pair : Option Indiv → Bool) (population : List Indiv) : Nat :=
  min
    (population.countP (fun ind =>
      can_pair (some ind) && ind.risk_group == HIGH && ind.sex == MALE))
    (population.countP (fun ind =>
      can_pair (some ind) && ind.risk_group == HIGH && ind.sex == FEMALE))

/-- A population in which a partnership is not mutual: the second male points to
the first, who has no partner. -/
def one_sided_population : List Indiv :=
  [person MALE 20 HIGH, person FEMALE 22 LOW,
   { person MALE 30 HIGH with partner := some 0 }, person FEMALE 30 LOW]

/-! ## The arithmetic of `double` and the arrays with `double` fields

The definitions above compute with whole numbers.  The definitions of this
section repeat `cpa.c` with the `double` arithmetic of the source, rounding
included; the names are those of the source with `Dbl.` in front.  Every sum
and difference is rounded to a `double` at once, to the nearest and to the even
one of two nearest, as a compiler does that evaluates `double` expressions in
`double` (`FLT_EVAL_METHOD` 0, the x86-64 and AArch64 default); `cpa.c`
multiplies and divides no doubles, so nothing can be fused. -/

/-- A `double` (IEEE 754 binary64).  A finite value is the whole number `n` of
units `2^-1074` it holds, so that `1.0` is `fin (2^1074)`: every finite double is
a multiple of that unit.  The two zeros are the one value `fin 0`, which no
sum, difference or comparison of the source tells apart.  `inf true` is minus
infinity. -/
inductive Double where
  | fin (n : Int)
  | inf (negative : Bool)
  | nan
deriving DecidableEq, Repr

/-- One step of the search for the binary exponent of `m`: the exponent `e`
grows by `b` when `m` still reaches `2^(52 + e + b)`. -/
def ulp_exp_step (m e b : Nat) : Nat := if 2 ^ (52 + e + b) ≤ m then e + b else e

/-- The exponent of the unit in the last of the 53 significant bits of `m`: the
largest `e` with `2^(52 + e) ≤ m`, and 0 for `m < 2^53`, found bit by bit for
`m < 2^4148`, which is far more than any sum of two doubles. -/
def ulp_exp (m : Nat) : Nat :=
  [2048, 1024, 512, 256, 128, 64, 32, 16, 8, 4, 2, 1].foldl (ulp_exp_step m) 0

/-- Rounds a magnitude, in units `2^-1074`, to 53 significant bits, to the
nearest and to the even one of two nearest.  Below `2^53` units (the
subnormal numbers and the first binade) every whole number of units is a
double. -/
def round_nat (m : Nat) : Nat :=
  let u := 2 ^ ulp_exp m
  let q := m / u
  let r := m % u
  if 2 * r < u then q * u
  else if u < 2 * r then (q + 1) * u
  else if q % 2 = 0 then q * u
  else (q + 1) * u

/-- The double nearest to the real number `z * 2^-1074`; beyond the largest
finite double, `(2^53 - 1) * 2^971`, it is an infinity. -/
def Double.round (z : Int) : Double :=
  if 2 ^ 2098 ≤ z.natAbs then .inf (decide (z < 0))
  else if round_nat z.natAbs < 2 ^ 2098 then
    .fin (if z < 0 then - (round_nat z.natAbs : Int) else (round_nat z.natAbs : Int))
  else .inf (decide (z < 0))

/-- The operator `+` on doubles. -/
def Double.add : Double → Double → Double
  | .fin a, .fin b => Double.round (a + b)
  | .fin _, .inf s => .inf s
  | .inf s, .fin _ => .inf s
  | .inf s, .inf t => if s = t then .inf s else .nan
  | _, _ => .nan

/-- The operator `-` on doubles. -/
def Double.sub : Double → Double → Double
  | .fin a, .fin b => Double.round (a - b)
  | .fin _, .inf s => .inf (!s)
  | .inf s, .fin _ => .inf s
  | .inf s, .inf t => if s = t then .nan else .inf s
  | _, _ => .nan

/-- The operator `<` on doubles (`x > y` is `y < x`); false when an operand is
not a number. -/
def Double.lt : Double → Double → Bool
  | .fin a, .fin b => decide (a < b)
  | .fin _, .inf s => !s
  | .inf s, .fin _ => s
  | .inf s, .inf t => s && !t
  | _, _ => false

/-- The operator `<=` on doubles (`x >= y` is `y <= x`); false when an operand
is not a number. -/
def Double.le : Double → Double → Bool
  | .fin a, .fin b => decide (a ≤ b)
  | .fin _, .inf s => !s
  | .inf s, .fin _ => s
  | .inf s, .inf t => s || !t
  | _, _ => false

/-- The number of units `2^-1074` in `1.0`. -/
def Double.unit : Nat := 2 ^ 1074

/-- The double that holds the whole number `n`; it is exact for
`|n| ≤ 2^53`. -/
def Double.of_int (n : Int) : Double := .fin (n * (Double.unit : Int))

/-- The whole number a double holds (rounded down; 0 for an infinity and for
not-a-number). -/
def Double.to_int : Double → Int
  | .fin n => n / (Double.unit : Int)
  | _ => 0

/-- The double `m * 2^-e`, for `e ≤ 1074` and `|m| < 2^53`: the decimal
constant `0.1` of C is `dyadic 3602879701896397 55`, `0.2` is
`dyadic 3602879701896397 54` and `0.6` is `dyadic 5404319552844595 53`. -/
def Double.dyadic (m : Int) (e : Nat) : Double := .fin (m * ((2 ^ (1074 - e) : Nat) : Int))

/-- Entry in a cumulative probability array (`struct cpa_entry_s`), with its
`double` fields. -/
structure Dbl.Cpa_entry where
  data : Nat
  weight : Double
  cumulative_weight : Double
  adder : Double
  left_subtractor : Double
  right_subtractor : Double
  linear_subtractor : Double
  found : Bool
deriving DecidableEq, Repr

/-- The array and its housekeeping fields (`struct cpa_s`), with its `double`
field. -/
structure Dbl.Cpa where
  entries : List Dbl.Cpa_entry
  capacity : Nat
  num_found : Nat
  cumulative_weight : Double
  error : Nat
deriving DecidableEq, Repr

/-- The field `size`: the number of appended entries. -/
def Dbl.Cpa.size (cpa : Dbl.Cpa) : Nat := cpa.entries.length

/-- The function `cpa_append` on doubles.  The assertion `weight != 0.0` and a
write past `capacity` are faults. -/
def Dbl.cpa_append (cpa : Dbl.Cpa) (data : Nat) (weight : Double) : Outcome Dbl.Cpa :=
  if weight = Double.fin 0 then .fault
  else if cpa.capacity ≤ cpa.size then .fault
  else
    let cw : Double :=
      if cpa.size = 0 then weight
      else
        match cpa.entries[cpa.size - 1]? with
        | some last => Double.add last.cumulative_weight weight
        | none => weight
    .ok { cpa with
          entries := cpa.entries ++
            [{ data := data, weight := weight, cumulative_weight := cw,
               adder := Double.fin 0, left_subtractor := Double.fin 0,
               right_subtractor := Double.fin 0, linear_subtractor := Double.fin 0,
               found := false }],
          cumulative_weight := cw }

/-- Appends the items of a list one after the other. -/
def Dbl.cpa_append_all : Dbl.Cpa → List (Nat × Double) → Outcome Dbl.Cpa
  | cpa, [] => .ok cpa
  | cpa, (d, w) :: rest =>
    match Dbl.cpa_append cpa d w with
    | .ok cpa1 => Dbl.cpa_append_all cpa1 rest
    | .fault => .fault
    | .timeout => .timeout

/-- The array `cpa_new` sets up before it appends anything; `junk` is the value
of the field `cumulative_weight`, which `cpa_new` leaves uninitialised. -/
def Dbl.cpa_empty (size : Nat) (junk : Double) : Dbl.Cpa :=
  { entries := [], capacity := size, num_found := 0, cumulative_weight := junk, error := 0 }

/-- The scan of `cpa_linear_search` on doubles: the index of the first entry
from position `i` on that is not found and brackets `key`. -/
def Dbl.linear_search_loop (key : Double) : List Dbl.Cpa_entry → Nat → Double → Option Nat
  | [], _, _ => none
  | e :: rest, i, subtractor =>
    let subtractor := Double.add subtractor e.linear_subtractor
    if e.found = false ∧ Double.lt key (Double.add e.cumulative_weight subtractor) = true ∧
        Double.le (Double.sub (Double.add e.cumulative_weight subtractor) e.weight) key =
          true then
      some i
    else Dbl.linear_search_loop key rest (i + 1) subtractor

/-- The function `cpa_linear_search` on doubles: the array after the call and
the index of the selected entry (`none` for NULL). -/
def Dbl.cpa_linear_search (cpa : Dbl.Cpa) (key : Double) : Dbl.Cpa × Option Nat :=
  match Dbl.linear_search_loop key cpa.entries 0 (Double.fin 0) with
  | none => (cpa, none)
  | some i =>
    match cpa.entries[i]? with
    | none => (cpa, none)
    | some e =>
      ({ cpa with
         entries := cpa.entries.set i
           { e with found := true,
                    linear_subtractor := Double.sub e.linear_subtractor e.weight },
         num_found := cpa.num_found + 1,
         cumulative_weight := Double.sub cpa.cumulative_weight e.weight }, some i)

/-- The loop of `cpa_set_subtractors` on doubles over the path `q`, carrying the
flag `set`; `w` is `entries[found_index].weight`. -/
def Dbl.set_subtractors_loop (found_index : Nat) (w : Double) :
    List Nat → Bool → List Dbl.Cpa_entry → Outcome (List Dbl.Cpa_entry)
  | [], _, es => .ok es
  | v :: rest, set, es =>
    if set = false ∧ found_index < v then
      match es[v]? with
      | none => .fault
      | some e =>
        Dbl.set_subtractors_loop found_index w rest true
          (es.set v { e with left_subtractor := Double.sub e.left_subtractor w,
                             right_subtractor := Double.sub e.right_subtractor w })
    else if set = true ∧ v < found_index then
      match es[v]? with
      | none => .fault
      | some e =>
        Dbl.set_subtractors_loop found_index w rest false
          (es.set v { e with left_subtractor := Double.add e.left_subtractor w,
                             right_subtractor := Double.add e.right_subtractor w })
    else if set = false ∧ v = found_index then
      match es[v]? with
      | none => .fault
      | some e =>
        Dbl.set_subtractors_loop found_index w rest set
          (es.set v { e with right_subtractor := Double.sub e.right_subtractor w })
    else if set = true ∧ v = found_index then
      match es[v]? with
      | none => .fault
      | some e =>
        Dbl.set_subtractors_loop found_index w rest set
          (es.set v { e with left_subtractor := Double.add e.left_subtractor w })
    else Dbl.set_subtractors_loop found_index w rest set es

/-- The function `cpa_set_subtractors` on doubles. -/
def Dbl.cpa_set_subtractors (cpa : Dbl.Cpa) (q : List Nat) (q_size : Nat)
    (found_index : Nat) : Outcome Dbl.Cpa :=
  match cpa.entries[found_index]? with
  | none => .fault
  | some e =>
    match Dbl.set_subtractors_loop found_index e.weight (q_read q q_size) false
        (cpa.entries.set found_index { e with found := true }) with
    | .ok es => .ok { cpa with entries := es, num_found := cpa.num_found + 1 }
    | .fault => .fault
    | .timeout => .timeout

/-- The `while(1)` loop of `cpa_binary_search` on doubles. -/
def Dbl.binary_search_loop (key : Double) :
    Nat → Dbl.Cpa → Int → Int → List Nat → Double → Outcome (Dbl.Cpa × Option Nat)
  | 0, _, _, _, _, _ => .timeout
  | fuel + 1, cpa, lower, higher, q, subtractor =>
    if higher < lower then .ok (cpa, none)
    else
      let i : Nat := ((lower + higher + 1) / 2).toNat
      let q := q ++ [i]
      match cpa.entries[i]? with
      | none => .fault
      | some e =>
        let subtractor := Double.add subtractor e.right_subtractor
        if Double.le (Double.add e.cumulative_weight subtractor) key = true then
          Dbl.binary_search_loop key fuel cpa (i + 1) higher q subtractor
        else
          let subtractor :=
            Double.add (Double.sub subtractor e.right_subtractor) e.left_subtractor
          if e.found = true ∨
              Double.lt key
                (Double.sub (Double.add e.cumulative_weight subtractor) e.weight) = true then
            Dbl.binary_search_loop key fuel cpa lower (i - 1) q subtractor
          else
            match Dbl.cpa_set_subtractors
                { cpa with
                  cumulative_weight := Double.sub cpa.cumulative_weight e.weight }
                q q.length i with
            | .ok cpa1 => .ok (cpa1, some i)
            | .fault => .fault
            | .timeout => .timeout

/-- The function `cpa_binary_search` on doubles: the array after the call and
the index of the selected entry (`none` for NULL). -/
def Dbl.cpa_binary_search (cpa : Dbl.Cpa) (key : Double) : Outcome (Dbl.Cpa × Option Nat) :=
  Dbl.binary_search_loop key (cpa.size + 1) cpa 0 ((cpa.size : Int) - 1) [] (Double.fin 0)

/-- The function `cpa_iterate_init` for an array with `double` fields. -/
def Dbl.cpa_iterate_init (cpa : Dbl.Cpa) (it : Cpa_iterator) : Cpa_iterator :=
  { it with started := true, stack := [(0, cpa.size - 1, 1)], q_size := 0 }

/-- The `do ... while (found)` loop of `cpa_iterate` for an array with `double`
fields.  Popping the empty stack reads outside the array `stack` and is a
fault. -/
def Dbl.iterate_loop (cpa : Dbl.Cpa) : Nat → Cpa_iterator → Outcome (Cpa_iterator × Nat)
  | 0, _ => .timeout
  | fuel + 1, it =>
    match it.stack with
    | [] => .fault
    | (low, high, q_size) :: rest =>
      let index := (low + high + 1) / 2
      let it1 : Cpa_iterator :=
        { it with q_size := q_size, q := q_write it.q (q_size - 1) index,
                  stack := push_frames low high q_size rest }
      match cpa.entries[index]? with
      | none => .fault
      | some e => if e.found = true then Dbl.iterate_loop cpa fuel it1 else .ok (it1, index)

/-- The function `cpa_iterate` on doubles: the array and the iterator after the
call, and the index of the returned entry (`none` for NULL). -/
def Dbl.cpa_iterate (cpa : Dbl.Cpa) (it : Cpa_iterator) :
    Outcome (Dbl.Cpa × Cpa_iterator × Option Nat) :=
  if it.stack = [] ∧ it.started = true then .ok (cpa, it, none)
  else
    let it0 := if it.stack = [] then Dbl.cpa_iterate_init cpa it else it
    match Dbl.iterate_loop cpa (iterate_fuel it0) it0 with
    | .fault => .fault
    | .timeout => .timeout
    | .ok (it1, index) =>
      match cpa.entries[index]? with
      | none => .fault
      | some e =>
        match Dbl.cpa_set_subtractors
            { cpa with cumulative_weight := Double.sub cpa.cumulative_weight e.weight }
            it1.q it1.q_size index with
        | .ok cpa1 => .ok (cpa1, it1, some index)
        | .fault => .fault
        | .timeout => .timeout

/-- The pointer a search returns for entry `i`. -/
def Dbl.payloadOf (cpa : Dbl.Cpa) (i : Nat) : Option Nat := (cpa.entries[i]?).map (·.data)

/-- One call of the library on an array with `double` fields that changes which
entries are found; the key is any double. -/
inductive Dbl.Call where
  | binary (key : Double)
  | linear (key : Double)
  | iterate (it : Cpa_iterator)
deriving DecidableEq, Repr

/-- Carries out one call: the array after it and the index of the returned
entry (`none` for NULL). -/
def Dbl.do_call (cpa : Dbl.Cpa) : Dbl.Call → Outcome (Dbl.Cpa × Option Nat)
  | .binary key => Dbl.cpa_binary_search cpa key
  | .linear key => .ok (Dbl.cpa_linear_search cpa key)
  | .iterate it =>
    match Dbl.cpa_iterate cpa it with
    | .ok (cpa1, _, r) => .ok (cpa1, r)
    | .fault => .fault
    | .timeout => .timeout

/-- Carries out a sequence of calls: the final array and what each call
returned. -/
def Dbl.run_calls : Dbl.Cpa → List Dbl.Call → Outcome (Dbl.Cpa × List (Option Nat))
  | cpa, [] => .ok (cpa, [])
  | cpa, op :: ops =>
    match Dbl.do_call cpa op with
    | .fault => .fault
    | .timeout => .timeout
    | .ok (cpa1, r) =>
      match Dbl.run_calls cpa1 ops with
      | .fault => .fault
      | .timeout => .timeout
      | .ok (cpa2, rs) => .ok (cpa2, r :: rs)

/-- The state of the array after `cpa_linear_search` was called with each of
`keys` in turn. -/
def Dbl.linear_history (cpa : Dbl.Cpa) (keys : List Double) : Dbl.Cpa :=
  keys.foldl (fun c k => (Dbl.cpa_linear_search c k).1) cpa

/-- The state of the array after `cpa_binary_search` was called with each of
`keys` in turn. -/
def Dbl.binary_history : Dbl.Cpa → List Double → Outcome Dbl.Cpa
  | cpa, [] => .ok cpa
  | cpa, k :: ks =>
    match Dbl.cpa_binary_search cpa k with
    | .ok (cpa1, _) => Dbl.binary_history cpa1 ks
    | .fault => .fault
    | .timeout => .timeout

/-- Every key is inside the remaining weight at the moment it is used,
`0 <= key && key < cumulative_weight`, the removals being those of the linear
searches with the earlier keys. -/
def Dbl.valid_keys : Dbl.Cpa → List Double → Prop
  | _, [] => True
  | cpa, k :: ks =>
    Double.le (Double.fin 0) k = true ∧ Double.lt k cpa.cumulative_weight = true ∧
      Dbl.valid_keys (Dbl.cpa_linear_search cpa k).1 ks

/-- Runs `cpa_linear_search` on each key in turn: per call the remaining weight
before it and the index it returns. -/
def Dbl.linear_trace : Dbl.Cpa → List Double → List (Double × Option Nat)
  | _, [] => []
  | cpa, k :: ks =>
    (cpa.cumulative_weight, (Dbl.cpa_linear_search cpa k).2) ::
      Dbl.linear_trace (Dbl.cpa_linear_search cpa k).1 ks

/-- Runs `cpa_binary_search` on each key in turn: per call the remaining weight
before it and the index it returns. -/
def Dbl.binary_trace : Dbl.Cpa → List Double → Outcome (List (Double × Option Nat))
  | _, [] => .ok []
  | cpa, k :: ks =>
    match Dbl.cpa_binary_search cpa k with
    | .fault => .fault
    | .timeout => .timeout
    | .ok (cpa1, r) =>
      match Dbl.binary_trace cpa1 ks with
      | .fault => .fault
      | .timeout => .timeout
      | .ok t => .ok ((cpa.cumulative_weight, r) :: t)

/-- What the operations other than `cpa_append` never change in an entry, and
the flag `found`. -/
def Dbl.core (e : Dbl.Cpa_entry) : Nat × Double × Double × Bool :=
  (e.data, e.weight, e.cumulative_weight, e.found)

/-- The sum, as a whole number, of the weights of the entries not yet found. -/
def Dbl.liveSum (es : List Dbl.Cpa_entry) : Int :=
  (es.map (fun e => if e.found = true then 0 else Double.to_int e.weight)).sum

/-- The entry whose `double` fields hold the whole numbers of `e`. -/
def entry_to_dbl (e : Cpa_entry) : Dbl.Cpa_entry :=
  { data := e.data, weight := Double.of_int e.weight,
    cumulative_weight := Double.of_int e.cumulative_weight,
    adder := Double.of_int e.adder,
    left_subtractor := Double.of_int e.left_subtractor,
    right_subtractor := Double.of_int e.right_subtractor,
    linear_subtractor := Double.of_int e.linear_subtractor, found := e.found }

/-- The array whose `double` fields hold the whole numbers of `cpa`. -/
def to_dbl (cpa : Cpa) : Dbl.Cpa :=
  { entries := cpa.entries.map entry_to_dbl, capacity := cpa.capacity,
    num_found := cpa.num_found, cumulative_weight := Double.of_int cpa.cumulative_weight,
    error := cpa.error }

/-- The items of an append list with their whole-number weights as doubles. -/
def items_to_dbl (items : List (Nat × Int)) : List (Nat × Double) :=
  items.map (fun x => (x.1, Double.of_int x.2))

/-- Two appends with the weights `0.1` and `0.2` of C. -/
def tenth_items : List (Nat × Double) :=
  [(101, Double.dyadic 3602879701896397 55), (102, Double.dyadic 3602879701896397 54)]

/-- Four appends with the weights `0.1`, `0.2`, `0.2` and `0.6` of C. -/
def fraction_items : List (Nat × Double) :=
  [(101, Double.dyadic 3602879701896397 55), (102, Double.dyadic 3602879701896397 54),
   (103, Double.dyadic 3602879701896397 54), (104, Double.dyadic 5404319552844595 53)]

/-! ## Theorems -/

theorem totalWeight_nil : totalWeight [] = 0 := rfl

theorem totalWeight_cons (e : Cpa_entry) (es : List Cpa_entry) :
    totalWeight (e :: es) = e.weight + totalWeight es := by
  simp [totalWeight]

theorem totalWeight_append (xs ys : List Cpa_entry) :
    totalWeight (xs ++ ys) = totalWeight xs + totalWeight ys := by
  simp [totalWeight]

theorem liveSum_cons (e : Cpa_entry) (es : List Cpa_entry) :
    liveSum (e :: es) = liveWeight e + liveSum es := by
  simp [liveSum]

theorem liveSum_append (xs ys : List Cpa_entry) :
    liveSum (xs ++ ys) = liveSum xs + liveSum ys := by
  simp [liveSum]

theorem deadSum_cons (e : Cpa_entry) (es : List Cpa_entry) :
    deadSum (e :: es) = deadWeight e + deadSum es := by
  simp [deadSum]

theorem deadSum_append (xs ys : List Cpa_entry) :
    deadSum (xs ++ ys) = deadSum xs + deadSum ys := by
  simp [deadSum]

theorem live_add_dead (e : Cpa_entry) : liveWeight e + deadWeight e = e.weight := by
  unfold liveWeight deadWeight
  split <;> simp

theorem liveSum_add_deadSum (es : List Cpa_entry) :
    liveSum es + deadSum es = totalWeight es := by
  induction es with
  | nil => rfl
  | cons e es ih =>
    rw [liveSum_cons, deadSum_cons, totalWeight_cons]
    have := live_add_dead e
    omega

/-- Sums of the first `i + 1` entries split off entry `i`. -/
theorem take_succ_of_getElem? (es : List Cpa_entry) (i : Nat) (e : Cpa_entry)
    (h : es[i]? = some e) : es.take (i + 1) = es.take i ++ [e] := by
  rw [List.take_succ, h]
  rfl

theorem liveSum_take_succ (es : List Cpa_entry) (i : Nat) (e : Cpa_entry)
    (h : es[i]? = some e) : liveSum (es.take (i + 1)) = liveSum (es.take i) + liveWeight e := by
  rw [take_succ_of_getElem? es i e h, liveSum_append, liveSum_cons]
  simp [liveSum]

theorem deadSum_take_succ (es : List Cpa_entry) (i : Nat) (e : Cpa_entry)
    (h : es[i]? = some e) : deadSum (es.take (i + 1)) = deadSum (es.take i) + deadWeight e := by
  rw [take_succ_of_getElem? es i e h, deadSum_append, deadSum_cons]
  simp [deadSum]

theorem totalWeight_take_succ (es : List Cpa_entry) (i : Nat) (e : Cpa_entry)
    (h : es[i]? = some e) :
    totalWeight (es.take (i + 1)) = totalWeight (es.take i) + e.weight := by
  rw [take_succ_of_getElem? es i e h, totalWeight_append, totalWeight_cons]
  simp [totalWeight]

/-- In a well built array the prefix weight of entry `i` is the sum of the
weights up to and including it. -/
theorem WellBuilt_getElem? (es : List Cpa_entry) :
    ∀ (acc : Int) (i : Nat) (e : Cpa_entry), WellBuilt es acc → es[i]? = some e →
      e.cumulative_weight = acc + totalWeight (es.take (i + 1)) := by
  induction es with
  | nil => intro acc i e _ h; simp at h
  | cons x xs ih =>
    intro acc i e hw h
    obtain ⟨h1, h2⟩ := hw
    cases i with
    | zero =>
      simp at h
      subst h
      simp [totalWeight, h1]
    | succ j =>
      simp at h
      have := ih (acc + x.weight) j e h2 h
      rw [this, List.take_succ_cons, totalWeight_cons]
      omega

theorem WellBuilt_append (xs : List Cpa_entry) :
    ∀ (acc : Int) (e : Cpa_entry), WellBuilt xs acc →
      e.cumulative_weight = acc + totalWeight xs + e.weight → WellBuilt (xs ++ [e]) acc := by
  induction xs with
  | nil =>
    intro acc e _ h
    simp [totalWeight] at h
    exact ⟨h, trivial⟩
  | cons x xs ih =>
    intro acc e hw h
    obtain ⟨h1, h2⟩ := hw
    refine ⟨h1, ih _ _ h2 ?_⟩
    rw [totalWeight_cons] at h
    omega

/-- What a successful `cpa_append` does. -/
theorem cpa_append_eq (cpa : Cpa) (data : Nat) (weight : Int) (h0 : weight ≠ 0)
    (hcap : cpa.size < cpa.capacity) :
    cpa_append cpa data weight = .ok
      { cpa with
        entries := cpa.entries ++
          [{ data := data, weight := weight,
             cumulative_weight := appended_weight cpa weight, adder := 0,
             left_subtractor := 0, right_subtractor := 0, linear_subtractor := 0,
             found := false }],
        cumulative_weight := appended_weight cpa weight } := by
  unfold cpa_append
  rw [if_neg h0, if_neg (by omega)]
  rfl

theorem appended_weight_eq_getLast (cpa : Cpa) (weight : Int) :
    appended_weight cpa weight =
      match cpa.entries.getLast? with
      | none => weight
      | some last => last.cumulative_weight + weight := by
  unfold appended_weight Cpa.size
  rw [List.getLast?_eq_getElem?]
  by_cases h : cpa.entries.length = 0
  · rw [if_pos h]
    rw [List.length_eq_zero] at h
    simp [h]
  · rw [if_neg h]
    cases cpa.entries[cpa.entries.length - 1]? <;> rfl

theorem cpa_append_ok_inv (cpa cpa1 : Cpa) (data : Nat) (weight : Int)
    (h : cpa_append cpa data weight = .ok cpa1) :
    weight ≠ 0 ∧ cpa.size < cpa.capacity := by
  unfold cpa_append at h
  by_cases h0 : weight = 0
  · simp [h0] at h
  · by_cases h1 : cpa.capacity ≤ cpa.size
    · simp [h0, h1] at h
    · exact ⟨h0, by omega⟩

theorem appended_weight_of_WellBuilt (cpa : Cpa) (weight : Int)
    (hw : WellBuilt cpa.entries 0) :
    appended_weight cpa weight = totalWeight cpa.entries + weight := by
  rw [appended_weight_eq_getLast, List.getLast?_eq_getElem?]
  cases hl : cpa.entries[cpa.entries.length - 1]? with
  | none =>
    have : cpa.entries = [] := by
      rw [List.getElem?_eq_none_iff] at hl
      cases hes : cpa.entries with
      | nil => rfl
      | cons x xs => rw [hes] at hl; simp at hl
    simp [this, totalWeight]
  | some last =>
    have hlen : 0 < cpa.entries.length := by
      rcases Nat.eq_zero_or_pos cpa.entries.length with h | h
      · rw [List.length_eq_zero] at h; rw [h] at hl; simp at hl
      · exact h
    have := WellBuilt_getElem? cpa.entries 0 _ last hw hl
    have h2 : cpa.entries.length - 1 + 1 = cpa.entries.length := by omega
    rw [h2, List.take_length] at this
    simp only [this]
    omega

/-- The state `cpa_append_all` builds from an array in which nothing was drawn. -/
theorem cpa_append_all_inv (items : List (Nat × Int)) :
    ∀ (cpa cpa1 : Cpa), cpa_append_all cpa items = .ok cpa1 →
      WellBuilt cpa.entries 0 →
      (∀ e ∈ cpa.entries, e.found = false ∧ e.left_subtractor = 0 ∧
        e.right_subtractor = 0 ∧ e.linear_subtractor = 0) →
      (cpa.entries ≠ [] → cpa.cumulative_weight = totalWeight cpa.entries) →
      WellBuilt cpa1.entries 0 ∧
      (∀ e ∈ cpa1.entries, e.found = false ∧ e.left_subtractor = 0 ∧
        e.right_subtractor = 0 ∧ e.linear_subtractor = 0) ∧
      (cpa1.entries ≠ [] → cpa1.cumulative_weight = totalWeight cpa1.entries) ∧
      cpa1.num_found = cpa.num_found ∧
      cpa1.entries.map (fun e => (e.data, e.weight)) =
        cpa.entries.map (fun e => (e.data, e.weight)) ++ items := by
  induction items with
  | nil =>
    intro cpa cpa1 h hw hf hc
    simp only [cpa_append_all, Outcome.ok.injEq] at h
    subst h
    exact ⟨hw, hf, hc, rfl, by simp⟩
  | cons x rest ih =>
    intro cpa cpa1 h hw hf hc
    obtain ⟨d, w⟩ := x
    simp only [cpa_append_all] at h
    cases hstep : cpa_append cpa d w with
    | fault => rw [hstep] at h; simp at h
    | timeout => rw [hstep] at h; simp at h
    | ok c2 =>
      rw [hstep] at h
      simp only at h
      obtain ⟨h0, hcap⟩ := cpa_append_ok_inv cpa c2 d w hstep
      rw [cpa_append_eq cpa d w h0 hcap] at hstep
      simp only [Outcome.ok.injEq] at hstep
      have haw := appended_weight_of_WellBuilt cpa w hw
      have hw2 : WellBuilt c2.entries 0 := by
        rw [← hstep]
        apply WellBuilt_append _ _ _ hw
        simp [haw]
      have hf2 : ∀ e ∈ c2.entries, e.found = false ∧ e.left_subtractor = 0 ∧
          e.right_subtractor = 0 ∧ e.linear_subtractor = 0 := by
        rw [← hstep]
        intro e he
        simp only [List.mem_append, List.mem_singleton] at he
        rcases he with he | he
        · exact hf e he
        · subst he; simp
      have hc2 : c2.entries ≠ [] → c2.cumulative_weight = totalWeight c2.entries := by
        intro _
        rw [← hstep]
        simp [totalWeight_append, totalWeight_cons, haw, totalWeight]
      obtain ⟨r1, r2, r3, r4, r5⟩ := ih c2 cpa1 h hw2 hf2 hc2
      refine ⟨r1, r2, r3, ?_, ?_⟩
      · rw [r4, ← hstep]
      · rw [r5, ← hstep]
        simp

theorem liveSum_set (es : List Cpa_entry) :
    ∀ (i : Nat) (e e1 : Cpa_entry), es[i]? = some e →
      liveSum (es.set i e1) = liveSum es - liveWeight e + liveWeight e1 := by
  induction es with
  | nil => intro i e e1 h; simp at h
  | cons x xs ih =>
    intro i e e1 h
    cases i with
    | zero =>
      simp at h
      subst h
      simp only [List.set_cons_zero, liveSum_cons]
      omega
    | succ j =>
      simp at h
      simp only [List.set_cons_succ, liveSum_cons, ih j e e1 h]
      omega

theorem deadSum_set (es : List Cpa_entry) :
    ∀ (i : Nat) (e e1 : Cpa_entry), es[i]? = some e →
      deadSum (es.set i e1) = deadSum es - deadWeight e + deadWeight e1 := by
  induction es with
  | nil => intro i e e1 h; simp at h
  | cons x xs ih =>
    intro i e e1 h
    cases i with
    | zero =>
      simp at h
      subst h
      simp only [List.set_cons_zero, deadSum_cons]
      omega
    | succ j =>
      simp at h
      simp only [List.set_cons_succ, deadSum_cons, ih j e e1 h]
      omega

theorem WellBuilt_set (es : List Cpa_entry) :
    ∀ (acc : Int) (i : Nat) (e e1 : Cpa_entry), es[i]? = some e →
      e1.weight = e.weight → e1.cumulative_weight = e.cumulative_weight →
      WellBuilt es acc → WellBuilt (es.set i e1) acc := by
  induction es with
  | nil => intro acc i e e1 h; simp at h
  | cons x xs ih =>
    intro acc i e e1 h hw hc hb
    obtain ⟨h1, h2⟩ := hb
    cases i with
    | zero =>
      simp at h
      subst h
      simp only [List.set_cons_zero]
      exact ⟨by rw [hc, hw]; exact h1, by rw [hw]; exact h2⟩
    | succ j =>
      simp at h
      simp only [List.set_cons_succ]
      exact ⟨h1, ih _ j e e1 h hw hc h2⟩

theorem getElem?_take_eq (es : List Cpa_entry) (i k : Nat) :
    (es.take k)[i]? = if i < k then es[i]? else none := by
  by_cases h : i < k
  · rw [if_pos h, List.getElem?_take_of_lt h]
  · rw [if_neg h]
    rw [List.getElem?_eq_none_iff, List.length_take]
    omega

theorem liveBefore_set (es : List Cpa_entry) (i k : Nat) (e e1 : Cpa_entry)
    (h : es[i]? = some e) :
    liveBefore (es.set i e1) k =
      liveBefore es k + if i < k then liveWeight e1 - liveWeight e else 0 := by
  unfold liveBefore
  rw [List.set_take]
  by_cases hik : i < k
  · rw [if_pos hik, liveSum_set (es.take k) i e e1 (by rw [getElem?_take_eq, if_pos hik, h])]
    omega
  · rw [if_neg hik, List.set_eq_of_length_le (by rw [List.length_take]; omega)]
    omega

theorem liveWeight_nonneg_of_pos (e : Cpa_entry) (h : 0 < e.weight) : 0 ≤ liveWeight e := by
  unfold liveWeight
  split <;> omega

theorem liveSum_nonneg (es : List Cpa_entry) (h : ∀ e ∈ es, 0 < e.weight) :
    0 ≤ liveSum es := by
  induction es with
  | nil => simp [liveSum]
  | cons x xs ih =>
    rw [liveSum_cons]
    have h1 := liveWeight_nonneg_of_pos x (h x (List.mem_cons_self _ _))
    have h2 := ih (fun e he => h e (List.mem_cons_of_mem _ he))
    omega

/-- The live sum before an index grows with the index. -/
theorem liveBefore_mono (es : List Cpa_entry) (h : ∀ e ∈ es, 0 < e.weight) (i j : Nat)
    (hij : i ≤ j) : liveBefore es i ≤ liveBefore es j := by
  unfold liveBefore
  obtain ⟨d, rfl⟩ : ∃ d, j = i + d := ⟨j - i, by omega⟩
  rw [List.take_add, liveSum_append]
  have := liveSum_nonneg ((es.drop i).take d) (fun e he =>
    h e (List.mem_of_mem_drop (List.mem_of_mem_take he)))
  omega

/-- With positive weights at most one entry brackets a key. -/
theorem Brackets_unique (es : List Cpa_entry) (h : ∀ e ∈ es, 0 < e.weight) (key : Int)
    (i j : Nat) (hi : Brackets es key i) (hj : Brackets es key j) : i = j := by
  unfold Brackets at hi hj
  cases hei : es[i]? with
  | none => rw [hei] at hi; exact hi.elim
  | some ei =>
    cases hej : es[j]? with
    | none => rw [hej] at hj; exact hj.elim
    | some ej =>
      rw [hei] at hi
      rw [hej] at hj
      simp only at hi hj
      obtain ⟨fi, li, ui⟩ := hi
      obtain ⟨fj, lj, uj⟩ := hj
      have si : liveBefore es (i + 1) = liveBefore es i + ei.weight := by
        unfold liveBefore
        rw [liveSum_take_succ es i ei hei]
        simp [liveWeight, fi]
      have sj : liveBefore es (j + 1) = liveBefore es j + ej.weight := by
        unfold liveBefore
        rw [liveSum_take_succ es j ej hej]
        simp [liveWeight, fj]
      rcases Nat.lt_trichotomy i j with hlt | heq | hgt
      · have := liveBefore_mono es h (i + 1) j hlt
        omega
      · exact heq
      · have := liveBefore_mono es h (j + 1) i hgt
        omega

/-- The scan only ever stops at an entry that is not found. -/
theorem linear_loop_some (key : Int) (suf : List Cpa_entry) :
    ∀ (i : Nat) (sub : Int) (j : Nat), linear_search_loop key suf i sub = some j →
      ∃ k e, j = i + k ∧ suf[k]? = some e ∧ e.found = false := by
  induction suf with
  | nil => intro i sub j h; simp [linear_search_loop] at h
  | cons x xs ih =>
    intro i sub j h
    simp only [linear_search_loop] at h
    split at h
    · rename_i hc
      simp only [Option.some.injEq] at h
      exact ⟨0, x, by omega, by simp, hc.1⟩
    · obtain ⟨k, e, hk, he, hf⟩ := ih _ _ _ h
      exact ⟨k + 1, e, by omega, by simpa using he, hf⟩

/-- The scan stops at the entry whose bracket holds the key. -/
theorem linear_loop_spec (key : Int) (suf : List Cpa_entry) :
    ∀ (i : Nat) (sub acc : Int), WellBuilt suf acc →
      (∀ e ∈ suf, 0 < e.weight ∧
        e.linear_subtractor = if e.found = true then - e.weight else 0) →
      acc + sub ≤ key → key < acc + sub + liveSum suf →
      ∃ k e, suf[k]? = some e ∧ e.found = false ∧
        acc + sub + liveSum (suf.take k) ≤ key ∧
        key < acc + sub + liveSum (suf.take k) + e.weight ∧
        linear_search_loop key suf i sub = some (i + k) := by
  induction suf with
  | nil =>
    intro i sub acc _ _ h1 h2
    simp [liveSum] at h2
    omega
  | cons x xs ih =>
    intro i sub acc hb hinv h1 h2
    obtain ⟨hb1, hb2⟩ := hb
    obtain ⟨hpos, hls⟩ := hinv x (List.mem_cons_self _ _)
    have hrest : ∀ e ∈ xs, 0 < e.weight ∧
        e.linear_subtractor = if e.found = true then - e.weight else 0 :=
      fun e he => hinv e (List.mem_cons_of_mem _ he)
    rw [liveSum_cons] at h2
    simp only [linear_search_loop]
    by_cases hf : x.found = true
    · rw [if_pos hf] at hls
      have hlw : liveWeight x = 0 := by simp [liveWeight, hf]
      rw [hlw] at h2
      obtain ⟨k, e, he, hfe, hl, hu, hres⟩ :=
        ih (i + 1) (sub + x.linear_subtractor) (acc + x.weight) hb2 hrest
          (by omega) (by omega)
      refine ⟨k + 1, e, by simpa using he, hfe, ?_, ?_, ?_⟩
      · rw [List.take_succ_cons, liveSum_cons, hlw]; omega
      · rw [List.take_succ_cons, liveSum_cons, hlw]; omega
      · rw [if_neg (by simp [hf]), hres]
        congr 1
        omega
    · have hf0 : x.found = false := by simpa using hf
      rw [if_neg hf] at hls
      have hlw : liveWeight x = x.weight := by simp [liveWeight, hf0]
      rw [hlw] at h2
      by_cases hk : key < acc + sub + x.weight
      · refine ⟨0, x, by simp, hf0, by simp [liveSum]; omega, by simp [liveSum]; omega, ?_⟩
        rw [if_pos ⟨hf0, by omega, by omega⟩]
        rfl
      · obtain ⟨k, e, he, hfe, hl, hu, hres⟩ :=
          ih (i + 1) (sub + x.linear_subtractor) (acc + x.weight) hb2 hrest
            (by omega) (by omega)
        refine ⟨k + 1, e, by simpa using he, hfe, ?_, ?_, ?_⟩
        · rw [List.take_succ_cons, liveSum_cons, hlw]; omega
        · rw [List.take_succ_cons, liveSum_cons, hlw]; omega
        · rw [if_neg (by intro hc; omega), hres]
          congr 1
          omega

/-- A call of `cpa_linear_search` changes nothing and returns NULL, or removes
an entry that was not found and returns it. -/
theorem cpa_linear_search_cases (cpa : Cpa) (key : Int) :
    cpa_linear_search cpa key = (cpa, none) ∨
    ∃ i e, cpa.entries[i]? = some e ∧ e.found = false ∧
      cpa_linear_search cpa key = (linear_removed cpa i e, some i) := by
  unfold cpa_linear_search
  cases hl : linear_search_loop key cpa.entries 0 0 with
  | none => left; rfl
  | some i =>
    obtain ⟨k, e, hk, he, hf⟩ := linear_loop_some key cpa.entries 0 0 i hl
    have hik : i = k := by omega
    subst hik
    right
    refine ⟨i, e, he, hf, ?_⟩
    simp only [he]
    rfl

/-- A key inside the remaining weight: `cpa_linear_search` removes and returns
the entry whose bracket holds it. -/
theorem cpa_linear_search_spec (cpa : Cpa) (key : Int) (hinv : LinearInv cpa)
    (h0 : 0 ≤ key) (h1 : key < cpa.cumulative_weight) :
    ∃ i e, cpa.entries[i]? = some e ∧ Brackets cpa.entries key i ∧
      cpa_linear_search cpa key = (linear_removed cpa i e, some i) := by
  obtain ⟨hb, hl, hc⟩ := hinv
  obtain ⟨k, e, he, hf, hlo, hhi, hres⟩ :=
    linear_loop_spec key cpa.entries 0 0 0 hb hl (by omega) (by omega)
  refine ⟨k, e, he, ?_, ?_⟩
  · unfold Brackets
    rw [he]
    refine ⟨hf, ?_, ?_⟩
    · unfold liveBefore; omega
    · unfold liveBefore; omega
  · unfold cpa_linear_search
    rw [hres]
    simp only [Nat.zero_add, he]
    rfl

theorem LinearInv_removed (cpa : Cpa) (i : Nat) (e : Cpa_entry) (hinv : LinearInv cpa)
    (he : cpa.entries[i]? = some e) (hf : e.found = false) :
    LinearInv (linear_removed cpa i e) := by
  obtain ⟨hb, hl, hc⟩ := hinv
  have hmem : e ∈ cpa.entries := List.getElem?_mem he
  obtain ⟨hpos, hls⟩ := hl e hmem
  refine ⟨?_, ?_, ?_⟩
  · exact WellBuilt_set cpa.entries 0 i e _ he rfl rfl hb
  · intro x hx
    rcases List.mem_or_eq_of_mem_set hx with hx | hx
    · exact hl x hx
    · subst hx
      refine ⟨hpos, ?_⟩
      simp only [if_true]
      rw [hls, hf]
      simp
  · simp only [linear_removed]
    rw [liveSum_set cpa.entries i e _ he, hc]
    simp [liveWeight, hf]

theorem LinearInv_search (cpa : Cpa) (key : Int) (hinv : LinearInv cpa) :
    LinearInv (cpa_linear_search cpa key).1 := by
  rcases cpa_linear_search_cases cpa key with h | ⟨i, e, he, hf, h⟩
  · rw [h]; exact hinv
  · rw [h]; exact LinearInv_removed cpa i e hinv he hf

theorem LinearInv_history (keys : List Int) :
    ∀ cpa : Cpa, LinearInv cpa → LinearInv (linear_history cpa keys) := by
  induction keys with
  | nil => intro cpa h; exact h
  | cons k ks ih =>
    intro cpa h
    exact ih _ (LinearInv_search cpa k h)

/-- What `cpa_append_all` builds from the empty array of `cpa_new`. -/
theorem built_facts (size : Nat) (junk : Int) (items : List (Nat × Int)) (cpa : Cpa)
    (h : cpa_append_all (cpa_empty size junk) items = .ok cpa) :
    WellBuilt cpa.entries 0 ∧
    (∀ e ∈ cpa.entries, e.found = false ∧ e.left_subtractor = 0 ∧
      e.right_subtractor = 0 ∧ e.linear_subtractor = 0) ∧
    (cpa.entries ≠ [] → cpa.cumulative_weight = totalWeight cpa.entries) ∧
    cpa.num_found = 0 ∧
    cpa.entries.map (fun e => (e.data, e.weight)) = items := by
  have := cpa_append_all_inv items (cpa_empty size junk) cpa h trivial
    (by intro e he; simp [cpa_empty] at he) (by intro hne; simp [cpa_empty] at hne)
  simpa [cpa_empty] using this

theorem liveSum_eq_totalWeight_of_fresh (es : List Cpa_entry)
    (h : ∀ e ∈ es, e.found = false) : liveSum es = totalWeight es := by
  induction es with
  | nil => rfl
  | cons x xs ih =>
    rw [liveSum_cons, totalWeight_cons, ih (fun e he => h e (List.mem_cons_of_mem _ he))]
    simp [liveWeight, h x (List.mem_cons_self _ _)]

theorem built_weights_pos (items : List (Nat × Int)) (es : List Cpa_entry)
    (h : es.map (fun e => (e.data, e.weight)) = items) (hpos : ∀ x ∈ items, 0 < x.2) :
    ∀ e ∈ es, 0 < e.weight := by
  intro e he
  have : (e.data, e.weight) ∈ items := by
    rw [← h]
    exact List.mem_map_of_mem _ he
  exact hpos _ this

theorem LinearInv_built (size : Nat) (junk : Int) (items : List (Nat × Int)) (cpa : Cpa)
    (h : cpa_append_all (cpa_empty size junk) items = .ok cpa) (hne : items ≠ [])
    (hpos : ∀ x ∈ items, 0 < x.2) : LinearInv cpa := by
  obtain ⟨hb, hf, hc, _, hi⟩ := built_facts size junk items cpa h
  have hes : cpa.entries ≠ [] := by
    intro hnil
    rw [hnil] at hi
    exact hne hi.symm
  refine ⟨hb, ?_, ?_⟩
  · intro e he
    refine ⟨built_weights_pos items cpa.entries hi hpos e he, ?_⟩
    obtain ⟨h1, _, _, h4⟩ := hf e he
    rw [h4, h1]
    simp
  · rw [hc hes, liveSum_eq_totalWeight_of_fresh _ (fun e he => (hf e he).1)]

/-- On whole numbers, computed exactly: on an array built by appends of positive
weights and changed since only by `cpa_linear_search`, a key with `0 ≤ key < cumulative_weight` makes
`cpa_linear_search` return the one entry `i` that is not found and has
`liveBefore i ≤ key < liveBefore i + weight i`; the call returns that entry's
payload, sets the found flag of that entry and of no other, and changes no
other flag. -/
theorem linear_search_returns_bracket (size : Nat) (junk : Int) (items : List (Nat × Int))
    (cpa0 cpa : Cpa) (keys : List Int) (key : Int)
    (hbuild : cpa_append_all (cpa_empty size junk) items = .ok cpa0)
    (hne : items ≠ []) (hpos : ∀ x ∈ items, 0 < x.2)
    (hhist : linear_history cpa0 keys = cpa)
    (h0 : 0 ≤ key) (h1 : key < cpa.cumulative_weight) :
    ∃ i e, cpa.entries[i]? = some e ∧ e.found = false ∧
      liveBefore cpa.entries i ≤ key ∧ key < liveBefore cpa.entries i + e.weight ∧
      (∀ j, Brackets cpa.entries key j → j = i) ∧
      (cpa_linear_search cpa key).2 = some i ∧
      payloadOf cpa i = some e.data ∧
      (cpa_linear_search cpa key).1 = linear_removed cpa i e ∧
      (∀ j, ((cpa_linear_search cpa key).1.entries[j]?).map (fun x => x.found) =
        if j = i then some true else (cpa.entries[j]?).map (fun x => x.found)) := by
  have hinv : LinearInv cpa := by
    rw [← hhist]
    exact LinearInv_history keys cpa0 (LinearInv_built size junk items cpa0 hbuild hne hpos)
  obtain ⟨i, e, he, hbr, hres⟩ := cpa_linear_search_spec cpa key hinv h0 h1
  have hbr2 := hbr
  unfold Brackets at hbr2
  rw [he] at hbr2
  obtain ⟨hf, hlo, hhi⟩ := hbr2
  refine ⟨i, e, he, hf, hlo, hhi, ?_, ?_, ?_, ?_, ?_⟩
  · intro j hj
    exact Brackets_unique cpa.entries (fun x hx => (hinv.2.1 x hx).1) key j i hj hbr
  · rw [hres]
  · simp [payloadOf, he]
  · rw [hres]
  · intro j
    rw [hres]
    simp only [linear_removed]
    by_cases hji : j = i
    · subst hji
      rw [if_pos rfl, List.getElem?_set_self' , he]
      rfl
    · rw [if_neg hji, List.getElem?_set_ne (Ne.symm hji)]

/-- C5: on the array built by appending weights 1, 2, 3, 4, `cpa_binary_search`
with key 5 returns entry 2, whose weight is 3, and leaves the remaining weight
at 7; a following `cpa_binary_search` with key 2 returns entry 1, whose weight
is 2. -/
theorem scenario_first_two_draws :
    ∃ c0 c1 c2 e1 e2,
      cpa_append_all (cpa_empty 4 0) scenario_items = .ok c0 ∧
      cpa_binary_search c0 5 = .ok (c1, some 2) ∧
      c0.entries[2]? = some e1 ∧ e1.weight = 3 ∧
      c1.cumulative_weight = 7 ∧
      cpa_binary_search c1 2 = .ok (c2, some 1) ∧
      c1.entries[1]? = some e2 ∧ e2.weight = 2 :=
  ⟨_, _, _, _, _, rfl, rfl, rfl, rfl, rfl, rfl, rfl, rfl⟩

/-- C6, as stated, fails: after the draws with keys 5 and 2 the remaining
weight is 5, and `cpa_binary_search` with key 7 returns NULL and leaves the
array as it was. -/
theorem scenario_third_draw_not_found :
    ∃ c0 c1 c2,
      cpa_append_all (cpa_empty 4 0) scenario_items = .ok c0 ∧
      cpa_binary_search c0 5 = .ok (c1, some 2) ∧
      cpa_binary_search c1 2 = .ok (c2, some 1) ∧
      c2.cumulative_weight = 5 ∧
      cpa_binary_search c2 7 = .ok (c2, none) :=
  ⟨_, _, _, rfl, rfl, rfl, rfl, rfl⟩

/-- C6, amended: after the draws with keys 5 and 2, `cpa_binary_search` with key
7 returns NULL and changes nothing; the entry with weight 4 (entry 3) is what it
returns for each of the keys 1, 2, 3 and 4, the keys of the bracket `[1, 5)`. -/
theorem scenario_third_draw :
    ∃ c0 c1 c2 e,
      cpa_append_all (cpa_empty 4 0) scenario_items = .ok c0 ∧
      cpa_binary_search c0 5 = .ok (c1, some 2) ∧
      cpa_binary_search c1 2 = .ok (c2, some 1) ∧
      cpa_binary_search c2 7 = .ok (c2, none) ∧
      c2.entries[3]? = some e ∧ e.weight = 4 ∧
      (∃ c3, cpa_binary_search c2 1 = .ok (c3, some 3)) ∧
      (∃ c3, cpa_binary_search c2 2 = .ok (c3, some 3)) ∧
      (∃ c3, cpa_binary_search c2 3 = .ok (c3, some 3)) ∧
      (∃ c3, cpa_binary_search c2 4 = .ok (c3, some 3)) :=
  ⟨_, _, _, _, rfl, rfl, rfl, rfl, rfl, rfl, ⟨_, rfl⟩, ⟨_, rfl⟩, ⟨_, rfl⟩, ⟨_, rfl⟩⟩

/-- C9 fails on the code, in both directions.  On the array with the single
weight 1, after `cpa_binary_search` with key 0 has drawn the entry and
`cpa_reset` has cleared its flag, `num_found` is still 1 and `cpa_all_found`
returns true although no entry is found.  On the array with weights 1 and 2,
after `cpa_binary_search` with key 0 has drawn entry 0, `cpa_traverse` counts
both entries again: every flag is set, but `num_found` is 3, the size is 2 and
`cpa_all_found` returns false. -/
theorem all_found_disagrees_with_flags :
    (∃ c0 c1,
      cpa_append_all (cpa_empty 1 0) [(101, 1)] = .ok c0 ∧
      cpa_binary_search c0 0 = .ok (c1, some 0) ∧
      (cpa_reset c1).entries ≠ [] ∧
      (∀ e ∈ (cpa_reset c1).entries, e.found = false) ∧
      (cpa_reset c1).num_found = 1 ∧
      cpa_all_found (cpa_reset c1) = true) ∧
    (∃ c0 c1 c2 out,
      cpa_append_all (cpa_empty 2 0) [(101, 1), (102, 2)] = .ok c0 ∧
      cpa_binary_search c0 0 = .ok (c1, some 0) ∧
      cpa_traverse c1 true = .ok (c2, out) ∧
      (∀ e ∈ c2.entries, e.found = true) ∧
      c2.num_found = 3 ∧ c2.size = 2 ∧
      cpa_all_found c2 = false) :=
  ⟨⟨_, _, rfl, rfl, by decide, by decide, rfl, rfl⟩,
   ⟨_, _, _, _, rfl, rfl, rfl, by decide, rfl, rfl, rfl⟩⟩

theorem q_read_length (q : List Nat) : q_read q q.length = q := by
  unfold q_read
  apply List.ext_getElem
  · simp
  · intro i h1 h2
    simp [List.getD_eq_getElem?_getD, List.getElem?_eq_getElem h2]

theorem mid_of_bounds (lo hi : Int) (h0 : 0 ≤ lo) (h : lo ≤ hi) :
    lo ≤ (mid_of lo hi : Int) ∧ (mid_of lo hi : Int) ≤ hi := by
  unfold mid_of
  omega

/-- The tree invariant only reads the left and right subtractors inside the
range, and a uniform shift of the removed weight shifts the carry. -/
theorem TreeInv_transfer (es es1 : List Cpa_entry) (dead dead1 : Nat → Int) (delta : Int)
    (lo hi carry : Int) (h : TreeInv es dead lo hi carry) (h0 : 0 ≤ lo)
    (hes : ∀ (j : Nat) (e : Cpa_entry), lo ≤ j → (j : Int) ≤ hi → es[j]? = some e →
      ∃ e1, es1[j]? = some e1 ∧ e1.left_subtractor = e.left_subtractor ∧
        e1.right_subtractor = e.right_subtractor)
    (hd : ∀ k : Nat, lo ≤ k → (k : Int) ≤ hi + 1 → dead1 k = dead k + delta) :
    TreeInv es1 dead1 lo hi (carry - delta) := by
  induction h with
  | leaf lo hi carry h => exact TreeInv.leaf lo hi _ h
  | node lo hi carry e h he hr hl left right ihl ihr =>
    obtain ⟨m1, m2⟩ := mid_of_bounds lo hi h0 h
    obtain ⟨e1, he1, hl1, hr1⟩ := hes (mid_of lo hi) e m1 m2 he
    refine TreeInv.node lo hi _ e1 h he1 ?_ ?_ ?_ ?_
    · rw [hr1, hd (mid_of lo hi + 1) (by push_cast; omega) (by push_cast; omega)]
      omega
    · rw [hl1, hd (mid_of lo hi) m1 (by omega)]
      omega
    · have : carry - delta + e1.left_subtractor = carry + e.left_subtractor - delta := by
        rw [hl1]; omega
      rw [this]
      exact ihl h0 (fun j x h1 h2 => hes j x h1 (by omega))
        (fun k h1 h2 => hd k h1 (by omega))
    · have : carry - delta + e1.right_subtractor = carry + e.right_subtractor - delta := by
        rw [hr1]; omega
      rw [this]
      exact ihr (by omega) (fun j x h1 h2 => hes j x (by omega) h2)
        (fun k h1 h2 => hd k (by omega) h2)

theorem SubsOnly_refl (es : List Cpa_entry) : SubsOnly es es :=
  ⟨rfl, fun _ e h => ⟨e, h, rfl, rfl, rfl⟩⟩

theorem SubsOnly_trans (es es1 es2 : List Cpa_entry) (h1 : SubsOnly es es1)
    (h2 : SubsOnly es1 es2) : SubsOnly es es2 := by
  refine ⟨by rw [h2.1, h1.1], ?_⟩
  intro j e he
  obtain ⟨e1, he1, c1, l1, a1⟩ := h1.2 j e he
  obtain ⟨e2, he2, c2, l2, a2⟩ := h2.2 j e1 he1
  exact ⟨e2, he2, by rw [c2, c1], by rw [l2, l1], by rw [a2, a1]⟩

theorem SubsOnly_set (es : List Cpa_entry) (i : Nat) (e e1 : Cpa_entry)
    (he : es[i]? = some e) (hc : core e1 = core e)
    (hl : e1.linear_subtractor = e.linear_subtractor) (ha : e1.adder = e.adder) :
    SubsOnly es (es.set i e1) := by
  refine ⟨by simp, ?_⟩
  intro j x hx
  by_cases hji : i = j
  · subst hji
    rw [he] at hx
    simp only [Option.some.injEq] at hx
    subst hx
    exact ⟨e1, by rw [List.getElem?_set_self', he]; rfl, hc, hl, ha⟩
  · exact ⟨x, by rw [List.getElem?_set_ne hji]; exact hx, rfl, rfl, rfl⟩

theorem TreeInv_transfer_to (es es1 : List Cpa_entry) (dead dead1 : Nat → Int) (delta : Int)
    (lo hi carry carry1 : Int) (h : TreeInv es dead lo hi carry) (h0 : 0 ≤ lo)
    (hes : ∀ (j : Nat) (e : Cpa_entry), lo ≤ j → (j : Int) ≤ hi → es[j]? = some e →
      ∃ e1, es1[j]? = some e1 ∧ e1.left_subtractor = e.left_subtractor ∧
        e1.right_subtractor = e.right_subtractor)
    (hd : ∀ k : Nat, lo ≤ k → (k : Int) ≤ hi + 1 → dead1 k = dead k + delta)
    (hc : carry1 = carry - delta) :
    TreeInv es1 dead1 lo hi carry1 := by
  subst hc
  exact TreeInv_transfer es es1 dead dead1 delta lo hi carry h h0 hes hd

theorem TreeInv_carry (es : List Cpa_entry) (dead : Nat → Int) (lo hi carry carry1 : Int)
    (h : TreeInv es dead lo hi carry) (hc : carry1 = carry) : TreeInv es dead lo hi carry1 := by
  subst hc
  exact h

/-- Replaying the search path of entry `t` through the loop of
`cpa_set_subtractors` restores the tree invariant for the removed weights with
the weight `w` of entry `t` added. -/
theorem subtractors_update (t : Nat) (w : Int) (dead : Nat → Int) (p : List Nat)
    (lo hi : Int) (hp : PathTo t lo hi p) :
    ∀ (carry : Int) (s : Bool) (es : List Cpa_entry), 0 ≤ lo →
      TreeInv es dead lo hi carry →
      ∃ es1, set_subtractors_loop t w p s es = .ok es1 ∧
        TreeInv es1 (fun k => dead k + if t < k then w else 0) lo hi
          (carry - if s = true then w else 0) ∧
        SubsOnly es es1 ∧
        (∀ j : Nat, ((j : Int) < lo ∨ hi < (j : Int)) → es1[j]? = es[j]?) := by
  induction hp with
  | here lo hi h ht =>
    intro carry s es h0 hinv
    obtain ⟨m1, m2⟩ := mid_of_bounds lo hi h0 h
    cases hinv with
    | leaf _ _ _ hlt => omega
    | node _ _ _ e _ he hr hl left right =>
      rw [ht] at he hr hl left right m1 m2
      have hoff : ∀ (e1 : Cpa_entry) (j : Nat), ((j : Int) < lo ∨ hi < (j : Int)) →
          (es.set t e1)[j]? = es[j]? := by
        intro e1 j hj
        exact List.getElem?_set_ne (by omega)
      have hsame : ∀ (e1 : Cpa_entry) (a b : Int) (j : Nat) (x : Cpa_entry),
          (a ≤ j ∧ (j : Int) ≤ b) → (b < t ∨ (t : Int) < a) → es[j]? = some x →
          ∃ x1, (es.set t e1)[j]? = some x1 ∧ x1.left_subtractor = x.left_subtractor ∧
            x1.right_subtractor = x.right_subtractor := by
        intro e1 a b j x hj hab hx
        exact ⟨x, by rw [List.getElem?_set_ne (by omega)]; exact hx, rfl, rfl⟩
      cases s with
      | false =>
        refine ⟨es.set t { e with right_subtractor := e.right_subtractor - w }, ?_, ?_,
          SubsOnly_set es t e _ he rfl rfl rfl, hoff _⟩
        · simp [set_subtractors_loop, he]
        · refine TreeInv.node lo hi _ { e with right_subtractor := e.right_subtractor - w } h
            ?_ ?_ ?_ ?_ ?_
          · rw [ht, List.getElem?_set_self', he]; rfl
          · rw [ht]; simp only [Bool.false_eq_true, if_false]
            rw [if_pos (by omega)]; omega
          · rw [ht]; simp only [Bool.false_eq_true, if_false]
            rw [if_neg (by omega)]; omega
          · rw [ht]
            exact TreeInv_transfer_to es _ dead _ 0 lo _ _ _ left h0
              (fun j x h1 h2 hx => hsame _ lo (t - 1) j x ⟨h1, h2⟩ (Or.inl (by omega)) hx)
              (fun k h1 h2 => by
                show dead k + (if t < k then w else 0) = dead k + 0
                rw [if_neg (by omega)])
              (by simp)
          · rw [ht]
            exact TreeInv_transfer_to es _ dead _ w _ hi _ _ right (by omega)
              (fun j x h1 h2 hx => hsame _ (t + 1) hi j x ⟨h1, h2⟩ (Or.inr (by omega)) hx)
              (fun k h1 h2 => by
                show dead k + (if t < k then w else 0) = dead k + w
                rw [if_pos (by omega)])
              (by simp; omega)
      | true =>
        refine ⟨es.set t { e with left_subtractor := e.left_subtractor + w }, ?_, ?_,
          SubsOnly_set es t e _ he rfl rfl rfl, hoff _⟩
        · simp [set_subtractors_loop, he]
        · refine TreeInv.node lo hi _ { e with left_subtractor := e.left_subtractor + w } h
            ?_ ?_ ?_ ?_ ?_
          · rw [ht, List.getElem?_set_self', he]; rfl
          · rw [ht]; simp only [if_true]
            rw [if_pos (by omega)]; omega
          · rw [ht]; simp only [if_true]
            rw [if_neg (by omega)]; omega
          · rw [ht]
            exact TreeInv_transfer_to es _ dead _ 0 lo _ _ _ left h0
              (fun j x h1 h2 hx => hsame _ lo (t - 1) j x ⟨h1, h2⟩ (Or.inl (by omega)) hx)
              (fun k h1 h2 => by
                show dead k + (if t < k then w else 0) = dead k + 0
                rw [if_neg (by omega)])
              (by simp)
          · rw [ht]
            exact TreeInv_transfer_to es _ dead _ w _ hi _ _ right (by omega)
              (fun j x h1 h2 hx => hsame _ (t + 1) hi j x ⟨h1, h2⟩ (Or.inr (by omega)) hx)
              (fun k h1 h2 => by
                show dead k + (if t < k then w else 0) = dead k + w
                rw [if_pos (by omega)])
              (by simp; omega)
  | goLeft lo hi p h ht rest ih =>
    intro carry s es h0 hinv
    obtain ⟨m1, m2⟩ := mid_of_bounds lo hi h0 h
    cases hinv with
    | leaf _ _ _ hlt => omega
    | node _ _ _ e _ he hr hl left right =>
      cases s with
      | false =>
        have hleft : TreeInv (es.set (mid_of lo hi)
            { e with left_subtractor := e.left_subtractor - w,
                     right_subtractor := e.right_subtractor - w }) dead lo
            ((mid_of lo hi : Int) - 1) (carry + e.left_subtractor) :=
          TreeInv_transfer_to es _ dead dead 0 lo _ _ _ left h0
            (fun j x h1 h2 hx =>
              ⟨x, by rw [List.getElem?_set_ne (by omega)]; exact hx, rfl, rfl⟩)
            (fun k _ _ => by omega) (by omega)
        obtain ⟨es1, hloop, hinv1, hsub, hout⟩ := ih (carry + e.left_subtractor) true _ h0 hleft
        have hm : es1[mid_of lo hi]? =
            some { e with left_subtractor := e.left_subtractor - w,
                          right_subtractor := e.right_subtractor - w } := by
          rw [hout (mid_of lo hi) (Or.inr (by omega)), List.getElem?_set_self', he]
          rfl
        refine ⟨es1, ?_, ?_, SubsOnly_trans _ _ _
          (SubsOnly_set es _ e { e with left_subtractor := e.left_subtractor - w,
                                        right_subtractor := e.right_subtractor - w }
            he rfl rfl rfl) hsub, ?_⟩
        · simp only [set_subtractors_loop, ht, and_self, if_true, he]
          exact hloop
        · refine TreeInv.node lo hi _ _ h hm ?_ ?_ ?_ ?_
          · simp only [Bool.false_eq_true, if_false]
            rw [if_pos (by omega)]; omega
          · simp only [Bool.false_eq_true, if_false]
            rw [if_pos ht]; omega
          · exact TreeInv_carry _ _ _ _ _ _ hinv1 (by simp; omega)
          · exact TreeInv_transfer_to es _ dead _ w _ hi _ _ right (by omega)
              (fun j x h1 h2 hx =>
                ⟨x, by
                  rw [hout j (Or.inr (by omega)), List.getElem?_set_ne (by omega)]
                  exact hx, rfl, rfl⟩)
              (fun k h1 h2 => by
                show dead k + (if t < k then w else 0) = dead k + w
                rw [if_pos (by omega)])
              (by simp; omega)
        · intro j hj
          rw [hout j (by omega), List.getElem?_set_ne (by omega)]
      | true =>
        obtain ⟨es1, hloop, hinv1, hsub, hout⟩ := ih (carry + e.left_subtractor) true es h0 left
        have hm : es1[mid_of lo hi]? = some e := by
          rw [hout (mid_of lo hi) (Or.inr (by omega)), he]
        refine ⟨es1, ?_, ?_, hsub, ?_⟩
        · have h1 : ¬ (mid_of lo hi < t) := by omega
          have h2 : ¬ (mid_of lo hi = t) := by omega
          simp only [set_subtractors_loop, h1, h2, and_false, if_false, Bool.true_eq_false,
            false_and]
          exact hloop
        · refine TreeInv.node lo hi _ _ h hm ?_ ?_ ?_ ?_
          · simp only [if_true]
            rw [if_pos (by omega)]; omega
          · simp only [if_true]
            rw [if_pos ht]; omega
          · exact TreeInv_carry _ _ _ _ _ _ hinv1 (by simp; omega)
          · exact TreeInv_transfer_to es _ dead _ w _ hi _ _ right (by omega)
              (fun j x h1 h2 hx =>
                ⟨x, by rw [hout j (Or.inr (by omega))]; exact hx, rfl, rfl⟩)
              (fun k h1 h2 => by
                show dead k + (if t < k then w else 0) = dead k + w
                rw [if_pos (by omega)])
              (by simp; omega)
        · intro j hj
          rw [hout j (by omega)]
  | goRight lo hi p h ht rest ih =>
    intro carry s es h0 hinv
    obtain ⟨m1, m2⟩ := mid_of_bounds lo hi h0 h
    cases hinv with
    | leaf _ _ _ hlt => omega
    | node _ _ _ e _ he hr hl left right =>
      cases s with
      | true =>
        have hright : TreeInv (es.set (mid_of lo hi)
            { e with left_subtractor := e.left_subtractor + w,
                     right_subtractor := e.right_subtractor + w }) dead
            ((mid_of lo hi : Int) + 1) hi (carry + e.right_subtractor) :=
          TreeInv_transfer_to es _ dead dead 0 _ hi _ _ right (by omega)
            (fun j x h1 h2 hx =>
              ⟨x, by rw [List.getElem?_set_ne (by omega)]; exact hx, rfl, rfl⟩)
            (fun k _ _ => by omega) (by omega)
        obtain ⟨es1, hloop, hinv1, hsub, hout⟩ :=
          ih (carry + e.right_subtractor) false _ (by omega) hright
        have hm : es1[mid_of lo hi]? =
            some { e with left_subtractor := e.left_subtractor + w,
                          right_subtractor := e.right_subtractor + w } := by
          rw [hout (mid_of lo hi) (Or.inl (by omega)), List.getElem?_set_self', he]
          rfl
        refine ⟨es1, ?_, ?_, SubsOnly_trans _ _ _
          (SubsOnly_set es _ e { e with left_subtractor := e.left_subtractor + w,
                                        right_subtractor := e.right_subtractor + w }
            he rfl rfl rfl) hsub, ?_⟩
        · have h1 : ¬ (t < mid_of lo hi) := by omega
          simp only [set_subtractors_loop, h1, and_false, if_false, ht, and_self, if_true, he,
            Bool.true_eq_false, false_and]
          exact hloop
        · refine TreeInv.node lo hi _ _ h hm ?_ ?_ ?_ ?_
          · simp only [if_true]
            rw [if_neg (by omega)]; omega
          · simp only [if_true]
            rw [if_neg (by omega)]; omega
          · exact TreeInv_transfer_to es _ dead _ 0 lo _ _ _ left h0
              (fun j x h1 h2 hx =>
                ⟨x, by
                  rw [hout j (Or.inl (by omega)), List.getElem?_set_ne (by omega)]
                  exact hx, rfl, rfl⟩)
              (fun k h1 h2 => by
                show dead k + (if t < k then w else 0) = dead k + 0
                rw [if_neg (by omega)])
              (by simp)
          · exact TreeInv_carry _ _ _ _ _ _ hinv1 (by simp)
        · intro j hj
          rw [hout j (by omega), List.getElem?_set_ne (by omega)]
      | false =>
        obtain ⟨es1, hloop, hinv1, hsub, hout⟩ :=
          ih (carry + e.right_subtractor) false es (by omega) right
        have hm : es1[mid_of lo hi]? = some e := by
          rw [hout (mid_of lo hi) (Or.inl (by omega)), he]
        refine ⟨es1, ?_, ?_, hsub, ?_⟩
        · have h1 : ¬ (t < mid_of lo hi) := by omega
          have h2 : ¬ (mid_of lo hi = t) := by omega
          simp only [set_subtractors_loop, h1, h2, and_false, if_false, Bool.false_eq_true,
            false_and]
          exact hloop
        · refine TreeInv.node lo hi _ _ h hm ?_ ?_ ?_ ?_
          · simp only [Bool.false_eq_true, if_false]
            rw [if_neg (by omega)]; omega
          · simp only [Bool.false_eq_true, if_false]
            rw [if_neg (by omega)]; omega
          · exact TreeInv_transfer_to es _ dead _ 0 lo _ _ _ left h0
              (fun j x h1 h2 hx =>
                ⟨x, by rw [hout j (Or.inl (by omega))]; exact hx, rfl, rfl⟩)
              (fun k h1 h2 => by
                show dead k + (if t < k then w else 0) = dead k + 0
                rw [if_neg (by omega)])
              (by simp)
          · exact TreeInv_carry _ _ _ _ _ _ hinv1 (by simp)
        · intro j hj
          rw [hout j (by omega)]

theorem SubsOnly_map_core (es es1 : List Cpa_entry) (h : SubsOnly es es1) :
    es1.map core = es.map core := by
  apply List.ext_getElem?
  intro j
  rw [List.getElem?_map, List.getElem?_map]
  cases hj : es[j]? with
  | none =>
    have : es1[j]? = none := by
      rw [List.getElem?_eq_none_iff] at hj ⊢
      rw [h.1]; exact hj
    rw [this]
  | some e =>
    obtain ⟨e1, he1, hc, _, _⟩ := h.2 j e hj
    rw [he1]
    simp [hc]

theorem liveSum_congr (es es1 : List Cpa_entry) (h : es1.map core = es.map core) :
    liveSum es1 = liveSum es := by
  have key : ∀ l : List Cpa_entry,
      liveSum l = ((l.map core).map (fun c => if c.2.2.2 = true then 0 else c.2.1)).sum := by
    intro l
    simp only [liveSum, List.map_map, Function.comp_def, core]
    rfl
  rw [key, key, h]

theorem deadSum_congr (es es1 : List Cpa_entry) (h : es1.map core = es.map core) :
    deadSum es1 = deadSum es := by
  have key : ∀ l : List Cpa_entry,
      deadSum l = ((l.map core).map (fun c => if c.2.2.2 = true then c.2.1 else 0)).sum := by
    intro l
    simp only [deadSum, List.map_map, Function.comp_def, core]
    rfl
  rw [key, key, h]

theorem take_map_core_congr (es es1 : List Cpa_entry) (h : es1.map core = es.map core)
    (k : Nat) : (es1.take k).map core = (es.take k).map core := by
  rw [List.map_take, List.map_take, h]

theorem liveBefore_congr (es es1 : List Cpa_entry) (h : es1.map core = es.map core)
    (k : Nat) : liveBefore es1 k = liveBefore es k :=
  liveSum_congr _ _ (take_map_core_congr es es1 h k)

theorem deadBefore_congr (es es1 : List Cpa_entry) (h : es1.map core = es.map core)
    (k : Nat) : deadBefore es1 k = deadBefore es k :=
  deadSum_congr _ _ (take_map_core_congr es es1 h k)

theorem WellBuilt_congr (es1 : List Cpa_entry) :
    ∀ (es : List Cpa_entry) (acc : Int), es1.map core = es.map core →
      WellBuilt es acc → WellBuilt es1 acc := by
  induction es1 with
  | nil => intro es acc _ _; trivial
  | cons x xs ih =>
    intro es acc h hb
    cases es with
    | nil => simp at h
    | cons y ys =>
      simp only [List.map_cons, List.cons.injEq] at h
      obtain ⟨hxy, hrest⟩ := h
      simp only [core, Prod.mk.injEq] at hxy
      obtain ⟨h1, h2⟩ := hb
      exact ⟨by rw [hxy.2.2.1, hxy.2.1]; exact h1, by rw [hxy.2.1]; exact ih ys _ hrest h2⟩

theorem getElem?_core_congr (es es1 : List Cpa_entry) (h : es1.map core = es.map core)
    (j : Nat) (e1 : Cpa_entry) (h1 : es1[j]? = some e1) :
    ∃ e, es[j]? = some e ∧ core e1 = core e := by
  have : (es1.map core)[j]? = (es.map core)[j]? := by rw [h]
  rw [List.getElem?_map, List.getElem?_map, h1] at this
  cases hj : es[j]? with
  | none => rw [hj] at this; simp at this
  | some e =>
    rw [hj] at this
    simp only [Option.map_some', Option.some.injEq] at this
    exact ⟨e, rfl, this⟩

theorem pos_congr (es es1 : List Cpa_entry) (h : es1.map core = es.map core)
    (hpos : ∀ e ∈ es, 0 < e.weight) : ∀ e ∈ es1, 0 < e.weight := by
  intro e1 he1
  obtain ⟨j, hj⟩ := List.mem_iff_getElem?.mp he1
  obtain ⟨e, he, hc⟩ := getElem?_core_congr es es1 h j e1 hj
  simp only [core, Prod.mk.injEq] at hc
  rw [hc.2.1]
  exact hpos e (List.getElem?_mem he)

theorem Brackets_congr (es es1 : List Cpa_entry) (h : es1.map core = es.map core)
    (key : Int) (i : Nat) (hb : Brackets es1 key i) : Brackets es key i := by
  unfold Brackets at hb ⊢
  cases h1 : es1[i]? with
  | none => rw [h1] at hb; exact hb.elim
  | some e1 =>
    rw [h1] at hb
    obtain ⟨e, he, hc⟩ := getElem?_core_congr es es1 h i e1 h1
    simp only [core, Prod.mk.injEq] at hc
    rw [he]
    simp only at hb ⊢
    rw [← liveBefore_congr es es1 h i, ← hc.2.1, ← hc.2.2.2]
    exact hb

theorem deadSum_eq_zero_of_fresh (es : List Cpa_entry) (h : ∀ e ∈ es, e.found = false) :
    deadSum es = 0 := by
  induction es with
  | nil => rfl
  | cons x xs ih =>
    rw [deadSum_cons, ih (fun e he => h e (List.mem_cons_of_mem _ he))]
    simp [deadWeight, h x (List.mem_cons_self _ _)]

theorem deadBefore_set (es : List Cpa_entry) (i k : Nat) (e e1 : Cpa_entry)
    (h : es[i]? = some e) :
    deadBefore (es.set i e1) k =
      deadBefore es k + if i < k then deadWeight e1 - deadWeight e else 0 := by
  unfold deadBefore
  rw [List.set_take]
  by_cases hik : i < k
  · rw [if_pos hik, deadSum_set (es.take k) i e e1 (by rw [getElem?_take_eq, if_pos hik, h])]
    omega
  · rw [if_neg hik, List.set_eq_of_length_le (by rw [List.length_take]; omega)]
    omega

/-- Before anything is drawn all subtractors are zero and the tree invariant
holds with carry zero on every range. -/
theorem TreeInv_fresh (es : List Cpa_entry)
    (hf : ∀ e ∈ es, e.found = false ∧ e.left_subtractor = 0 ∧
      e.right_subtractor = 0 ∧ e.linear_subtractor = 0) :
    ∀ (n : Nat) (lo hi : Int), hi - lo + 1 ≤ n → 0 ≤ lo → hi < es.length →
      TreeInv es (deadBefore es) lo hi 0 := by
  have hdead : ∀ k, deadBefore es k = 0 := by
    intro k
    exact deadSum_eq_zero_of_fresh _ (fun e he => (hf e (List.mem_of_mem_take he)).1)
  intro n
  induction n with
  | zero =>
    intro lo hi h _ _
    exact TreeInv.leaf lo hi 0 (by omega)
  | succ n ih =>
    intro lo hi h h0 hlen
    by_cases hlt : hi < lo
    · exact TreeInv.leaf lo hi 0 hlt
    · have hle : lo ≤ hi := by omega
      obtain ⟨m1, m2⟩ := mid_of_bounds lo hi h0 hle
      have hm : mid_of lo hi < es.length := by omega
      have he : es[mid_of lo hi]? = some es[mid_of lo hi] := List.getElem?_eq_getElem hm
      obtain ⟨_, hl0, hr0, _⟩ := hf _ (List.getElem_mem hm)
      refine TreeInv.node lo hi 0 _ hle he ?_ ?_ ?_ ?_
      · rw [hr0, hdead]; rfl
      · rw [hl0, hdead]; rfl
      · exact TreeInv_carry _ _ _ _ _ _ (ih lo _ (by omega) h0 (by omega)) (by rw [hl0]; rfl)
      · exact TreeInv_carry _ _ _ _ _ _ (ih _ hi (by omega) (by omega) hlen)
          (by rw [hr0]; rfl)

theorem exists_bracket (key : Int) (es : List Cpa_entry) :
    ∀ (base : Int), (∀ e ∈ es, 0 < e.weight) → base ≤ key → key < base + liveSum es →
      ∃ k e, es[k]? = some e ∧ e.found = false ∧ base + liveSum (es.take k) ≤ key ∧
        key < base + liveSum (es.take k) + e.weight := by
  induction es with
  | nil =>
    intro base _ h1 h2
    simp [liveSum] at h2
    omega
  | cons x xs ih =>
    intro base hpos h1 h2
    rw [liveSum_cons] at h2
    by_cases hx : x.found = false ∧ key < base + x.weight
    · exact ⟨0, x, by simp, hx.1, by simp [liveSum]; omega, by simp [liveSum]; omega⟩
    · have hstep : base + liveWeight x ≤ key := by
        unfold liveWeight
        by_cases hf : x.found = true
        · rw [if_pos hf]; omega
        · rw [if_neg hf]
          have : x.found = false := by simpa using hf
          by_contra hc
          exact hx ⟨this, by omega⟩
      obtain ⟨k, e, he, hfe, hl, hu⟩ := ih (base + liveWeight x)
        (fun e he => hpos e (List.mem_cons_of_mem _ he)) hstep (by omega)
      refine ⟨k + 1, e, by simpa using he, hfe, ?_, ?_⟩
      · rw [List.take_succ_cons, liveSum_cons]; omega
      · rw [List.take_succ_cons, liveSum_cons]; omega

/-- In a well built array the prefix weight of entry `i`, less the weight
removed up to and including it, is the live sum up to and including it; less
its own weight and the weight removed before it, the live sum before it. -/
theorem node_values (es : List Cpa_entry) (hb : WellBuilt es 0) (i : Nat) (e : Cpa_entry)
    (he : es[i]? = some e) :
    e.cumulative_weight - deadBefore es (i + 1) = liveBefore es (i + 1) ∧
    e.cumulative_weight - e.weight - deadBefore es i = liveBefore es i := by
  have h1 := WellBuilt_getElem? es 0 i e hb he
  have h2 := liveSum_add_deadSum (es.take (i + 1))
  have h3 := liveSum_add_deadSum (es.take i)
  have h4 := totalWeight_take_succ es i e he
  unfold deadBefore liveBefore
  constructor <;> omega

/-- Under the tree invariant the loop of `cpa_binary_search` descends to the
entry whose bracket holds the key and hands its path to `cpa_set_subtractors`. -/
theorem binary_loop_found (cpa : Cpa) (key : Int) (t : Nat) (et : Cpa_entry)
    (het : cpa.entries[t]? = some et) (hf : et.found = false)
    (hlo : liveBefore cpa.entries t ≤ key)
    (hhi : key < liveBefore cpa.entries t + et.weight)
    (hb : WellBuilt cpa.entries 0) (hpos : ∀ e ∈ cpa.entries, 0 < e.weight) :
    ∀ (fuel : Nat) (lo hi : Int) (q : List Nat) (carry : Int),
      TreeInv cpa.entries (deadBefore cpa.entries) lo hi carry → 0 ≤ lo → lo ≤ t →
      (t : Int) ≤ hi → hi - lo + 1 ≤ fuel →
      ∃ p, PathTo t lo hi p ∧
        binary_search_loop key fuel cpa lo hi q carry =
          match cpa_set_subtractors
              { cpa with cumulative_weight := cpa.cumulative_weight - et.weight }
              (q ++ p) (q ++ p).length t with
          | .ok c1 => .ok (c1, some t)
          | .fault => .fault
          | .timeout => .timeout := by
  have hlive1 : liveBefore cpa.entries (t + 1) = liveBefore cpa.entries t + et.weight := by
    unfold liveBefore
    rw [liveSum_take_succ _ t et het]
    simp [liveWeight, hf]
  intro fuel
  induction fuel with
  | zero => intro lo hi q carry _ _ h1 h2 h3; omega
  | succ fuel ih =>
    intro lo hi q carry hinv h0 h1 h2 h3
    cases hinv with
    | leaf _ _ _ hlt => omega
    | node _ _ _ e hle he hr hl left right =>
      obtain ⟨m1, m2⟩ := mid_of_bounds lo hi h0 hle
      obtain ⟨v1, v2⟩ := node_values cpa.entries hb _ e he
      have hmid : ((lo + hi + 1) / 2).toNat = mid_of lo hi := rfl
      simp only [binary_search_loop, hmid, he]
      rw [if_neg (by omega)]
      rcases Nat.lt_trichotomy (mid_of lo hi) t with hlt | heq | hgt
      · have hm := liveBefore_mono cpa.entries hpos (mid_of lo hi + 1) t hlt
        rw [if_pos (by omega)]
        obtain ⟨p, hp, hres⟩ := ih ((mid_of lo hi : Int) + 1) hi (q ++ [mid_of lo hi])
          (carry + e.right_subtractor) right (by omega) (by omega) h2 (by omega)
        refine ⟨mid_of lo hi :: p, PathTo.goRight lo hi p hle hlt hp, ?_⟩
        rw [hres]
        simp only [List.append_assoc, List.singleton_append]
      · have hee : e = et := by
          rw [heq, het] at he
          exact (Option.some.inj he).symm
        subst hee
        rw [heq] at v1 v2 hr hl
        rw [if_neg (by omega)]
        rw [if_neg (by
          intro hc
          rcases hc with hc | hc
          · rw [hf] at hc; exact Bool.false_ne_true hc
          · omega)]
        refine ⟨[t], PathTo.here lo hi hle heq, ?_⟩
        rw [heq]
      · have hm1 := liveBefore_mono cpa.entries hpos (t + 1) (mid_of lo hi + 1) (by omega)
        have hm2 := liveBefore_mono cpa.entries hpos (t + 1) (mid_of lo hi) hgt
        rw [if_neg (by omega)]
        rw [if_pos (Or.inr (by omega))]
        obtain ⟨p, hp, hres⟩ := ih lo ((mid_of lo hi : Int) - 1) (q ++ [mid_of lo hi])
          (carry + e.right_subtractor - e.right_subtractor + e.left_subtractor)
          (TreeInv_carry _ _ _ _ _ _ left (by omega)) h0 h1 (by omega) (by omega)
        refine ⟨mid_of lo hi :: p, PathTo.goLeft lo hi p hle hgt hp, ?_⟩
        rw [hres]
        simp only [List.append_assoc, List.singleton_append]

/-- A key inside the remaining weight: `cpa_binary_search` removes and returns
the entry whose bracket holds it, and keeps the invariant. -/
theorem cpa_binary_search_spec (cpa : Cpa) (key : Int) (hinv : BinaryInv cpa)
    (h0 : 0 ≤ key) (h1 : key < cpa.cumulative_weight) :
    ∃ t et cpa1, cpa.entries[t]? = some et ∧ Brackets cpa.entries key t ∧
      cpa_binary_search cpa key = .ok (cpa1, some t) ∧ BinaryInv cpa1 ∧
      SubsOnly (cpa.entries.set t { et with found := true }) cpa1.entries ∧
      cpa1.cumulative_weight = cpa.cumulative_weight - et.weight ∧
      cpa1.num_found = cpa.num_found + 1 ∧ cpa1.capacity = cpa.capacity := by
  obtain ⟨hb, hpos, htree, hcw⟩ := hinv
  obtain ⟨t, et, het, hf, hlo, hhi⟩ :=
    exists_bracket key cpa.entries 0 hpos h0 (by omega)
  rw [Int.zero_add] at hlo hhi
  have ht : t < cpa.entries.length := by
    rcases List.getElem?_eq_some_iff.mp het with ⟨h, _⟩
    exact h
  have hbr : Brackets cpa.entries key t := by
    unfold Brackets
    rw [het]
    exact ⟨hf, hlo, hhi⟩
  obtain ⟨p, hp, hres⟩ := binary_loop_found cpa key t et het hf hlo hhi hb hpos
    (cpa.size + 1) 0 ((cpa.size : Int) - 1) [] 0 htree (le_refl 0) (by omega)
    (by unfold Cpa.size; omega) (by push_cast; omega)
  have hes0 : ∀ (j : Nat) (e : Cpa_entry), cpa.entries[j]? = some e →
      ∃ e1, (cpa.entries.set t { et with found := true })[j]? = some e1 ∧
        e1.left_subtractor = e.left_subtractor ∧
        e1.right_subtractor = e.right_subtractor := by
    intro j e he
    by_cases hjt : t = j
    · subst hjt
      rw [het] at he
      have := Option.some.inj he
      subst this
      exact ⟨{ et with found := true }, by rw [List.getElem?_set_self', het]; rfl, rfl, rfl⟩
    · exact ⟨e, by rw [List.getElem?_set_ne hjt]; exact he, rfl, rfl⟩
  have htree0 : TreeInv (cpa.entries.set t { et with found := true })
      (deadBefore cpa.entries) 0 ((cpa.size : Int) - 1) 0 :=
    TreeInv_transfer_to cpa.entries _ _ _ 0 0 _ 0 0 htree (le_refl 0)
      (fun j e _ _ he => hes0 j e he) (fun k _ _ => by omega) (by omega)
  obtain ⟨es1, hloop, hinv1, hsub, _⟩ := subtractors_update t et.weight
    (deadBefore cpa.entries) p 0 ((cpa.size : Int) - 1) hp 0 false _ (le_refl 0) htree0
  have hcore := SubsOnly_map_core _ _ hsub
  have hdead : deadBefore es1 = fun k => deadBefore cpa.entries k +
      if t < k then et.weight else 0 := by
    funext k
    rw [deadBefore_congr _ _ hcore k, deadBefore_set cpa.entries t k et _ het]
    simp [deadWeight, hf]
  refine ⟨t, et,
    { cpa with entries := es1,
               num_found := cpa.num_found + 1,
               cumulative_weight := cpa.cumulative_weight - et.weight },
    het, hbr, ?_, ?_, hsub, rfl, rfl, rfl⟩
  · unfold cpa_binary_search
    rw [hres]
    simp only [List.nil_append, cpa_set_subtractors, het, q_read_length, hloop]
  · refine ⟨?_, ?_, ?_, ?_⟩
    · exact WellBuilt_congr _ _ 0 hcore (WellBuilt_set cpa.entries 0 t et _ het rfl rfl hb)
    · apply pos_congr _ _ hcore
      intro x hx
      rcases List.mem_or_eq_of_mem_set hx with hx | hx
      · exact hpos x hx
      · rw [hx]
        exact hpos et (List.getElem?_mem het)
    · have hsize : ((es1.length : Nat) : Int) = (cpa.size : Int) := by
        rw [hsub.1, List.length_set]
        rfl
      show TreeInv es1 (deadBefore es1) 0 ((es1.length : Int) - 1) 0
      rw [hdead, hsize]
      exact TreeInv_carry _ _ _ _ _ _ hinv1 (by simp)
    · show cpa.cumulative_weight - et.weight = liveSum es1
      rw [liveSum_congr _ _ hcore, liveSum_set cpa.entries t et _ het, hcw]
      simp [liveWeight, hf]

theorem BinaryInv_built (size : Nat) (junk : Int) (items : List (Nat × Int)) (cpa : Cpa)
    (h : cpa_append_all (cpa_empty size junk) items = .ok cpa) (hne : items ≠ [])
    (hpos : ∀ x ∈ items, 0 < x.2) : BinaryInv cpa := by
  obtain ⟨hb, hf, hc, _, hi⟩ := built_facts size junk items cpa h
  have hes : cpa.entries ≠ [] := by
    intro hnil
    rw [hnil] at hi
    exact hne hi.symm
  refine ⟨hb, built_weights_pos items cpa.entries hi hpos, ?_, ?_⟩
  · exact TreeInv_fresh cpa.entries hf cpa.size 0 _ (by omega) (le_refl 0)
      (by unfold Cpa.size; omega)
  · rw [hc hes, liveSum_eq_totalWeight_of_fresh _ (fun e he => (hf e he).1)]

/-- Two arrays with the same payloads, weights and flags, one kept by
`cpa_binary_search` and one by `cpa_linear_search`, answer every sequence of
valid keys alike. -/
theorem twin_traces (keys : List Int) :
    ∀ (cb cl : Cpa), BinaryInv cb → LinearInv cl →
      cb.entries.map core = cl.entries.map core → valid_keys cl keys →
      binary_trace cb keys = .ok (linear_trace cl keys) ∧
      (∀ x ∈ linear_trace cl keys, x.2 ≠ none) := by
  induction keys with
  | nil =>
    intro cb cl _ _ _ _
    exact ⟨rfl, by intro x hx; simp [linear_trace] at hx⟩
  | cons k ks ih =>
    intro cb cl hb hl hcore hv
    obtain ⟨hk0, hk1, hv1⟩ := hv
    have hcw : cb.cumulative_weight = cl.cumulative_weight := by
      rw [hb.2.2.2, hl.2.2, liveSum_congr _ _ hcore]
    obtain ⟨i, e, he, hbri, hlin⟩ := cpa_linear_search_spec cl k hl hk0 hk1
    obtain ⟨t, et, cb1, het, hbrt, hbin, hb1, hsub, _, _, _⟩ :=
      cpa_binary_search_spec cb k hb hk0 (by omega)
    have hti : t = i :=
      Brackets_unique cl.entries (fun x hx => (hl.2.1 x hx).1) k t i
        (Brackets_congr cl.entries cb.entries hcore k t hbrt) hbri
    subst hti
    have hfe : e.found = false := by
      unfold Brackets at hbri
      rw [he] at hbri
      exact hbri.1
    have hl1 : LinearInv (linear_removed cl t e) := LinearInv_removed cl t e hl he hfe
    have hce : core et = core e := by
      obtain ⟨x, hx, hc⟩ := getElem?_core_congr cl.entries cb.entries hcore t et het
      rw [he] at hx
      rw [hc, Option.some.inj hx]
    have hcore1 : cb1.entries.map core = (linear_removed cl t e).entries.map core := by
      rw [SubsOnly_map_core _ _ hsub]
      simp only [linear_removed, List.map_set, hcore]
      congr 1
      simp only [core, Prod.mk.injEq] at hce ⊢
      exact ⟨hce.1, hce.2.1, hce.2.2.1, trivial⟩
    rw [hlin] at hv1
    obtain ⟨ih1, ih2⟩ := ih cb1 (linear_removed cl t e) hb1 hl1 hcore1 hv1
    constructor
    · simp only [binary_trace, hbin, ih1, linear_trace, hlin, hcw]
    · intro x hx
      simp only [linear_trace, hlin, List.mem_cons] at hx
      rcases hx with hx | hx
      · rw [hx]; simp
      · exact ih2 x hx

/-- On whole numbers, computed exactly: two arrays built by the same appends of
positive weights, one drawn from by `cpa_binary_search` and one by `cpa_linear_search` with the same keys, each
key inside the remaining weight at the moment it is used: at every step both
see the same remaining weight and return the entry with the same index, and no
call returns NULL. -/
theorem binary_linear_same_draws (size : Nat) (junk : Int) (items : List (Nat × Int))
    (cpa0 : Cpa) (keys : List Int)
    (hbuild : cpa_append_all (cpa_empty size junk) items = .ok cpa0)
    (hne : items ≠ []) (hpos : ∀ x ∈ items, 0 < x.2) (hvalid : valid_keys cpa0 keys) :
    binary_trace cpa0 keys = .ok (linear_trace cpa0 keys) ∧
    (linear_trace cpa0 keys).length = keys.length ∧
    (∀ x ∈ linear_trace cpa0 keys, x.2 ≠ none) := by
  obtain ⟨h1, h2⟩ := twin_traces keys cpa0 cpa0
    (BinaryInv_built size junk items cpa0 hbuild hne hpos)
    (LinearInv_built size junk items cpa0 hbuild hne hpos) rfl hvalid
  refine ⟨h1, ?_, h2⟩
  clear h1 h2 hvalid hbuild
  induction keys generalizing cpa0 with
  | nil => rfl
  | cons k ks ih => simp [linear_trace, ih]

theorem mid_of_nat (lo hi : Nat) : mid_of (lo : Int) (hi : Int) = (lo + hi + 1) / 2 := by
  unfold mid_of
  omega

theorem order_empty (f : Nat) (lo hi : Int) (h : hi < lo) : order f lo hi = [] := by
  cases f with
  | zero => rfl
  | succ f => simp [order, h]

theorem order_succ (f : Nat) (lo hi : Int) (h : lo ≤ hi) :
    order (f + 1) lo hi =
      mid_of lo hi :: (order f ((mid_of lo hi : Int) + 1) hi ++
        order f lo ((mid_of lo hi : Int) - 1)) := by
  simp [order, not_lt.mpr h]

/-- The order does not depend on the fuel once the fuel covers the range. -/
theorem order_stable (f : Nat) :
    ∀ (g : Nat) (lo hi : Int), 0 ≤ lo → hi - lo + 1 ≤ f → hi - lo + 1 ≤ g →
      order f lo hi = order g lo hi := by
  induction f with
  | zero =>
    intro g lo hi _ h1 _
    rw [order_empty 0 lo hi (by omega), order_empty g lo hi (by omega)]
  | succ f ih =>
    intro g lo hi h0 h1 h2
    by_cases hlt : hi < lo
    · rw [order_empty _ lo hi hlt, order_empty g lo hi hlt]
    · have hle : lo ≤ hi := by omega
      obtain ⟨m1, m2⟩ := mid_of_bounds lo hi h0 hle
      cases g with
      | zero => omega
      | succ g =>
        rw [order_succ f lo hi hle, order_succ g lo hi hle,
          ih g _ hi (by omega) (by omega) (by omega),
          ih g lo _ h0 (by omega) (by omega)]

/-- The order of a range lists every index of the range once. -/
theorem order_perm (f : Nat) :
    ∀ (lo len : Nat), len ≤ f →
      (order f (lo : Int) ((lo : Int) + len - 1)).Perm (List.range' lo len) := by
  induction f with
  | zero =>
    intro lo len h
    have : len = 0 := by omega
    subst this
    simp [order]
  | succ f ih =>
    intro lo len h
    cases len with
    | zero => rw [order_empty _ _ _ (by omega)]; simp
    | succ len =>
      have hle : (lo : Int) ≤ (lo : Int) + (len + 1 : Nat) - 1 := by omega
      rw [order_succ f _ _ hle]
      have hmid : mid_of (lo : Int) ((lo : Int) + (len + 1 : Nat) - 1) = lo + (len + 1) / 2 := by
        unfold mid_of
        omega
      rw [hmid]
      have hL := ih lo ((len + 1) / 2) (by omega)
      have hR := ih (lo + (len + 1) / 2 + 1) (len - (len + 1) / 2) (by omega)
      have e1 : ((lo + (len + 1) / 2 : Nat) : Int) - 1 = (lo : Int) + ((len + 1) / 2 : Nat) - 1 := by
        omega
      have e2 : ((lo + (len + 1) / 2 : Nat) : Int) + 1 = ((lo + (len + 1) / 2 + 1 : Nat) : Int) := by
        omega
      have e3 : (lo : Int) + (len + 1 : Nat) - 1 =
          ((lo + (len + 1) / 2 + 1 : Nat) : Int) + (len - (len + 1) / 2 : Nat) - 1 := by
        omega
      rw [e1, e2, e3]
      have hsplit : List.range' lo (len + 1) =
          List.range' lo ((len + 1) / 2) ++
            (lo + (len + 1) / 2) :: List.range' (lo + (len + 1) / 2 + 1) (len - (len + 1) / 2) := by
        have h1 : len + 1 = (len - (len + 1) / 2 + 1) + (len + 1) / 2 := by omega
        have h2 := List.range'_append_1 lo ((len + 1) / 2) (len - (len + 1) / 2 + 1)
        rw [← h1, List.range'_succ] at h2
        exact h2.symm
      rw [hsplit]
      refine List.Perm.trans ?_ (List.perm_middle.symm)
      refine List.Perm.cons _ ?_
      exact List.Perm.trans (List.Perm.append hR hL) List.perm_append_comm

/-- The loop of `cpa_set_subtractors` changes left and right subtractors only. -/
theorem set_subtractors_loop_sub (t : Nat) (w : Int) (p : List Nat) :
    ∀ (s : Bool) (es es1 : List Cpa_entry), set_subtractors_loop t w p s es = .ok es1 →
      SubsOnly es es1 := by
  induction p with
  | nil =>
    intro s es es1 h
    simp only [set_subtractors_loop, Outcome.ok.injEq] at h
    subst h
    exact SubsOnly_refl es
  | cons v rest ih =>
    intro s es es1 h
    simp only [set_subtractors_loop] at h
    split at h
    · cases hv : es[v]? with
      | none => rw [hv] at h; simp at h
      | some e =>
        rw [hv] at h
        simp only at h
        have h2 := ih _ _ _ h
        refine SubsOnly_trans _ _ _ ?_ h2
        exact SubsOnly_set es v e _ hv rfl rfl rfl
    · split at h
      · cases hv : es[v]? with
        | none => rw [hv] at h; simp at h
        | some e =>
          rw [hv] at h
          simp only at h
          have h2 := ih _ _ _ h
          refine SubsOnly_trans _ _ _ ?_ h2
          exact SubsOnly_set es v e _ hv rfl rfl rfl
      · split at h
        · cases hv : es[v]? with
          | none => rw [hv] at h; simp at h
          | some e =>
            rw [hv] at h
            simp only at h
            have h2 := ih _ _ _ h
            refine SubsOnly_trans _ _ _ ?_ h2
            exact SubsOnly_set es v e _ hv rfl rfl rfl
        · split at h
          · cases hv : es[v]? with
            | none => rw [hv] at h; simp at h
            | some e =>
              rw [hv] at h
              simp only at h
              have h2 := ih _ _ _ h
              refine SubsOnly_trans _ _ _ ?_ h2
              exact SubsOnly_set es v e _ hv rfl rfl rfl
          · exact ih _ _ _ h

/-- The loop of `cpa_set_subtractors` runs through when the path stays inside
the array. -/
theorem set_subtractors_loop_ok (t : Nat) (w : Int) (p : List Nat) :
    ∀ (s : Bool) (es : List Cpa_entry), (∀ v ∈ p, v < es.length) →
      ∃ es1, set_subtractors_loop t w p s es = .ok es1 := by
  induction p with
  | nil => intro s es _; exact ⟨es, rfl⟩
  | cons v rest ih =>
    intro s es hb
    have hv : v < es.length := hb v (List.mem_cons_self _ _)
    have hrest : ∀ (e1 : Cpa_entry), ∀ x ∈ rest, x < (es.set v e1).length := by
      intro e1 x hx
      rw [List.length_set]
      exact hb x (List.mem_cons_of_mem _ hx)
    have he : es[v]? = some es[v] := List.getElem?_eq_getElem hv
    simp only [set_subtractors_loop, he]
    split
    · exact ih _ _ (hrest _)
    · split
      · exact ih _ _ (hrest _)
      · split
        · exact ih _ _ (hrest _)
        · split
          · exact ih _ _ (hrest _)
          · exact ih _ _ (fun x hx => hb x (List.mem_cons_of_mem _ hx))

/-- What a successful `cpa_set_subtractors` does. -/
theorem cpa_set_subtractors_effect (cpa cpa1 : Cpa) (q : List Nat) (q_size i : Nat)
    (h : cpa_set_subtractors cpa q q_size i = .ok cpa1) :
    ∃ e, cpa.entries[i]? = some e ∧
      SubsOnly (cpa.entries.set i { e with found := true }) cpa1.entries ∧
      cpa1.num_found = cpa.num_found + 1 ∧
      cpa1.cumulative_weight = cpa.cumulative_weight ∧
      cpa1.capacity = cpa.capacity ∧ cpa1.error = cpa.error := by
  unfold cpa_set_subtractors at h
  cases he : cpa.entries[i]? with
  | none => rw [he] at h; simp at h
  | some e =>
    rw [he] at h
    simp only at h
    cases hl : set_subtractors_loop i e.weight (q_read q q_size) false
        (cpa.entries.set i { e with found := true }) with
    | fault => rw [hl] at h; simp at h
    | timeout => rw [hl] at h; simp at h
    | ok es1 =>
      rw [hl] at h
      simp only [Outcome.ok.injEq] at h
      subst h
      exact ⟨e, rfl, set_subtractors_loop_sub _ _ _ _ _ _ hl, rfl, rfl, rfl, rfl⟩

theorem cpa_set_subtractors_ok (cpa : Cpa) (q : List Nat) (q_size i : Nat)
    (hi : i < cpa.size) (hq : ∀ v ∈ q_read q q_size, v < cpa.size) :
    ∃ cpa1, cpa_set_subtractors cpa q q_size i = .ok cpa1 := by
  unfold cpa_set_subtractors
  have he : cpa.entries[i]? = some cpa.entries[i] := List.getElem?_eq_getElem hi
  rw [he]
  simp only
  obtain ⟨es1, h1⟩ := set_subtractors_loop_ok i cpa.entries[i].weight (q_read q q_size) false
    (cpa.entries.set i { cpa.entries[i] with found := true })
    (by intro v hv; rw [List.length_set]; exact hq v hv)
  rw [h1]
  exact ⟨_, rfl⟩

theorem q_read_bound (q : List Nat) (q_size n : Nat) (hn : 0 < n) (hq : ∀ v ∈ q, v < n) :
    ∀ v ∈ q_read q q_size, v < n := by
  intro v hv
  unfold q_read at hv
  rw [List.mem_map] at hv
  obtain ⟨j, _, hj⟩ := hv
  subst hj
  rw [List.getD_eq_getElem?_getD]
  cases h : q[j]? with
  | none => simpa using hn
  | some x => simpa using hq x (List.getElem?_mem h)

theorem q_write_bound (q : List Nat) (k x n : Nat) (hn : 0 < n) (hx : x < n)
    (hq : ∀ v ∈ q, v < n) : ∀ v ∈ q_write q k x, v < n := by
  intro v hv
  unfold q_write at hv
  split at hv
  · rcases List.mem_or_eq_of_mem_set hv with h | h
    · exact hq v h
    · rw [h]; exact hx
  · simp only [List.mem_append, List.mem_replicate, List.mem_singleton] at hv
    rcases hv with (h | h) | h
    · exact hq v h
    · rw [h.2]; exact hn
    · rw [h]; exact hx

theorem push_frames_order (n lo hi q_size : Nat) (rest : List (Nat × Nat × Nat))
    (h : lo ≤ hi) (hn : hi < n) :
    order n lo hi ++ stack_order n rest =
      (lo + hi + 1) / 2 :: stack_order n (push_frames lo hi q_size rest) := by
  obtain ⟨m, rfl⟩ : ∃ m, n = m + 1 := ⟨n - 1, by omega⟩
  have hle : (lo : Int) ≤ (hi : Int) := by omega
  rw [order_succ m _ _ hle, mid_of_nat]
  have hR : order m (((lo + hi + 1) / 2 : Nat) + 1 : Int) hi =
      order (m + 1) (((lo + hi + 1) / 2 : Nat) + 1 : Int) hi :=
    order_stable m (m + 1) _ _ (by omega) (by omega) (by omega)
  have hL : order m (lo : Int) (((lo + hi + 1) / 2 : Nat) - 1 : Int) =
      order (m + 1) (lo : Int) (((lo + hi + 1) / 2 : Nat) - 1 : Int) :=
    order_stable m (m + 1) _ _ (by omega) (by omega) (by omega)
  rw [hR, hL]
  unfold push_frames
  simp only [List.cons_append, List.cons.injEq, true_and, List.append_assoc]
  by_cases h1 : (lo + hi + 1) / 2 < hi
  · rw [if_pos h1]
    by_cases h2 : lo < (lo + hi + 1) / 2
    · rw [if_pos h2]
      simp only [stack_order, List.append_assoc]
      have e1 : (((lo + hi + 1) / 2 + 1 : Nat) : Int) = (((lo + hi + 1) / 2 : Nat) : Int) + 1 := by
        omega
      have e2 : (((lo + hi + 1) / 2 - 1 : Nat) : Int) = (((lo + hi + 1) / 2 : Nat) : Int) - 1 := by
        omega
      rw [e1, e2]
    · rw [if_neg h2]
      simp only [stack_order]
      have e1 : (((lo + hi + 1) / 2 + 1 : Nat) : Int) = (((lo + hi + 1) / 2 : Nat) : Int) + 1 := by
        omega
      rw [e1, order_empty _ (lo : Int) _ (by omega)]
      simp
  · rw [if_neg h1]
    rw [order_empty _ _ (hi : Int) (by omega)]
    by_cases h2 : lo < (lo + hi + 1) / 2
    · rw [if_pos h2]
      simp only [stack_order, List.nil_append]
      have e2 : (((lo + hi + 1) / 2 - 1 : Nat) : Int) = (((lo + hi + 1) / 2 : Nat) : Int) - 1 := by
        omega
      rw [e2]
    · rw [if_neg h2]
      rw [order_empty _ (lo : Int) _ (by omega)]
      simp

theorem push_frames_ok (n lo hi q_size : Nat) (rest : List (Nat × Nat × Nat))
    (hn : hi < n) (hrest : ∀ f ∈ rest, f.1 ≤ f.2.1 ∧ f.2.1 < n) :
    ∀ f ∈ push_frames lo hi q_size rest, f.1 ≤ f.2.1 ∧ f.2.1 < n := by
  intro f hf
  unfold push_frames at hf
  simp only at hf
  split at hf
  · rcases List.mem_cons.mp hf with hf | hf
    · subst hf; simp only; omega
    · split at hf
      · rcases List.mem_cons.mp hf with hf | hf
        · subst hf; simp only; omega
        · exact hrest f hf
      · exact hrest f hf
  · split at hf
    · rcases List.mem_cons.mp hf with hf | hf
      · subst hf; simp only; omega
      · exact hrest f hf
    · exact hrest f hf

theorem push_frames_span (lo hi q_size : Nat) (rest : List (Nat × Nat × Nat)) (h : lo ≤ hi) :
    stack_span (push_frames lo hi q_size rest) + 1 = stack_span ((lo, hi, q_size) :: rest) := by
  unfold push_frames stack_span
  simp only [List.map_cons, List.sum_cons]
  split <;> split <;> (try simp only [List.map_cons, List.sum_cons]) <;> omega

theorem SubsOnly_payload (es es1 : List Cpa_entry) (h : SubsOnly es es1) (j : Nat) :
    (es1[j]?).map (fun e => e.data) = (es[j]?).map (fun e => e.data) := by
  cases hj : es[j]? with
  | none =>
    have : es1[j]? = none := by
      rw [List.getElem?_eq_none_iff] at hj ⊢
      rw [h.1]; exact hj
    rw [this]
  | some e =>
    obtain ⟨e1, he1, hc, _, _⟩ := h.2 j e hj
    rw [he1]
    simp only [core, Prod.mk.injEq] at hc
    simp [hc.1]

/-- `cpa_set_subtractors` keeps the size and the payloads. -/
theorem cpa_set_subtractors_payload (cpa cpa1 : Cpa) (q : List Nat) (q_size i : Nat)
    (h : cpa_set_subtractors cpa q q_size i = .ok cpa1) :
    cpa1.size = cpa.size ∧ ∀ j, payloadOf cpa1 j = payloadOf cpa j := by
  obtain ⟨e, he, hsub, _⟩ := cpa_set_subtractors_effect cpa cpa1 q q_size i h
  constructor
  · unfold Cpa.size
    rw [hsub.1, List.length_set]
  · intro j
    unfold payloadOf
    rw [SubsOnly_payload _ _ hsub j]
    by_cases hij : i = j
    · subst hij
      rw [List.getElem?_set_self', he]
      rfl
    · rw [List.getElem?_set_ne hij]

/-- The loop of `cpa_traverse` runs through the frames of its stack in the order
of the specification and hands the payloads of the entries to `func`. -/
theorem traverse_loop_spec (n : Nat) (hn : 0 < n) (has_func : Bool) :
    ∀ (fuel : Nat) (cpa : Cpa) (stack : List (Nat × Nat × Nat)) (q out : List Nat),
      cpa.size = n → (∀ f ∈ stack, f.1 ≤ f.2.1 ∧ f.2.1 < n) → (∀ v ∈ q, v < n) →
      stack_span stack ≤ fuel →
      ∃ cpa1, traverse_loop has_func fuel cpa stack q out =
          .ok (cpa1, if has_func = true then
            out ++ (stack_order n stack).filterMap (payloadOf cpa) else out) ∧
        cpa1.size = n ∧ ∀ j, payloadOf cpa1 j = payloadOf cpa j := by
  intro fuel
  induction fuel with
  | zero =>
    intro cpa stack q out hsz hfr hq hspan
    cases stack with
    | nil =>
      refine ⟨cpa, ?_, hsz, fun _ => rfl⟩
      simp [traverse_loop, stack_order]
    | cons f rest =>
      have := hfr f (List.mem_cons_self _ _)
      simp only [stack_span, List.map_cons, List.sum_cons] at hspan
      omega
  | succ fuel ih =>
    intro cpa stack q out hsz hfr hq hspan
    cases stack with
    | nil =>
      refine ⟨cpa, ?_, hsz, fun _ => rfl⟩
      simp [traverse_loop, stack_order]
    | cons f rest =>
      obtain ⟨lo, hi, qs⟩ := f
      have hf := hfr (lo, hi, qs) (List.mem_cons_self _ _)
      simp only at hf
      have hlen : cpa.entries.length = n := hsz
      have hidx : (lo + hi + 1) / 2 < cpa.entries.length := by omega
      have he : cpa.entries[(lo + hi + 1) / 2]? = some cpa.entries[(lo + hi + 1) / 2] :=
        List.getElem?_eq_getElem hidx
      have hq1 : ∀ v ∈ q_write q (qs - 1) ((lo + hi + 1) / 2), v < n :=
        q_write_bound q _ _ n hn (by omega) hq
      obtain ⟨cpa1, h1⟩ := cpa_set_subtractors_ok
        { cpa with cumulative_weight := cpa.cumulative_weight -
            cpa.entries[(lo + hi + 1) / 2].weight }
        (q_write q (qs - 1) ((lo + hi + 1) / 2)) qs ((lo + hi + 1) / 2) hidx
        (by
          intro v hv
          have := q_read_bound _ qs n hn hq1 v hv
          show v < cpa.entries.length
          omega)
      obtain ⟨hsz1, hpay1⟩ := cpa_set_subtractors_payload _ _ _ _ _ h1
      have hspan1 := push_frames_span lo hi qs rest hf.1
      obtain ⟨cpa2, h2, hsz2, hpay2⟩ := ih cpa1 (push_frames lo hi qs rest)
        (q_write q (qs - 1) ((lo + hi + 1) / 2))
        (if has_func = true then out ++ [cpa.entries[(lo + hi + 1) / 2].data] else out)
        (by rw [hsz1]; exact hsz)
        (push_frames_ok n lo hi qs rest hf.2
          (fun g hg => hfr g (List.mem_cons_of_mem _ hg)))
        hq1 (by omega)
      refine ⟨cpa2, ?_, hsz2, fun j => by rw [hpay2, hpay1]; rfl⟩
      simp only [traverse_loop, he, h1, h2]
      cases has_func with
      | false => rfl
      | true =>
        simp only [if_true]
        have hpo := push_frames_order n lo hi qs rest hf.1 hf.2
        have hfun : payloadOf cpa1 = payloadOf cpa := by
          funext j
          rw [hpay1]
          rfl
        have hpi : payloadOf cpa ((lo + hi + 1) / 2) =
            some cpa.entries[(lo + hi + 1) / 2].data := by
          simp [payloadOf, he]
        simp only [stack_order, hpo, hfun, List.filterMap_cons, hpi, List.append_assoc,
          List.singleton_append]

theorem traverse_loop_mono (has_func : Bool) :
    ∀ (fuel : Nat) (cpa : Cpa) (stack : List (Nat × Nat × Nat)) (q out : List Nat)
      (r : Cpa × List Nat), traverse_loop has_func fuel cpa stack q out = .ok r →
      traverse_loop has_func (fuel + 1) cpa stack q out = .ok r := by
  intro fuel
  induction fuel with
  | zero =>
    intro cpa stack q out r h
    cases stack with
    | nil => simpa [traverse_loop] using h
    | cons f rest => simp [traverse_loop] at h
  | succ fuel ih =>
    intro cpa stack q out r h
    cases stack with
    | nil => simpa [traverse_loop] using h
    | cons f rest =>
      obtain ⟨lo, hi, qs⟩ := f
      simp only [traverse_loop] at h ⊢
      cases he : cpa.entries[(lo + hi + 1) / 2]? with
      | none => rw [he] at h; simp at h
      | some e =>
        rw [he] at h
        simp only at h ⊢
        cases hs : cpa_set_subtractors
            { cpa with cumulative_weight := cpa.cumulative_weight - e.weight }
            (q_write q (qs - 1) ((lo + hi + 1) / 2)) qs ((lo + hi + 1) / 2) with
        | fault => rw [hs] at h; simp at h
        | timeout => rw [hs] at h; simp at h
        | ok cpa1 =>
          rw [hs] at h
          simp only at h ⊢
          exact ih _ _ _ _ _ h

theorem order_unfold (f : Nat) (lo hi : Int) (h0 : 0 ≤ lo) (h : lo ≤ hi)
    (hf : hi - lo + 1 ≤ f) :
    order f lo hi =
      mid_of lo hi :: (order f ((mid_of lo hi : Int) + 1) hi ++
        order f lo ((mid_of lo hi : Int) - 1)) := by
  obtain ⟨m1, m2⟩ := mid_of_bounds lo hi h0 h
  obtain ⟨g, rfl⟩ : ∃ g, f = g + 1 := ⟨f - 1, by omega⟩
  rw [order_succ g lo hi h,
    order_stable g (g + 1) _ hi (by omega) (by omega) (by omega),
    order_stable g (g + 1) lo _ h0 (by omega) (by omega)]

theorem traversal_order_perm (n : Nat) : (traversal_order n).Perm (List.range n) := by
  have h := order_perm n 0 n (le_refl n)
  rw [List.range_eq_range']
  unfold traversal_order
  have e : ((0 : Nat) : Int) + (n : Int) - 1 = (n : Int) - 1 := by omega
  rw [e] at h
  exact h

theorem built_size (size : Nat) (junk : Int) (items : List (Nat × Int)) (cpa : Cpa)
    (h : cpa_append_all (cpa_empty size junk) items = .ok cpa) :
    cpa.size = items.length ∧ ∀ i, payloadOf cpa i = (items[i]?).map (fun x => x.1) := by
  obtain ⟨_, _, _, _, hi⟩ := built_facts size junk items cpa h
  constructor
  · unfold Cpa.size
    rw [← hi, List.length_map]
  · intro i
    unfold payloadOf
    rw [← hi, List.getElem?_map]
    cases cpa.entries[i]? <;> rfl

/-- The whole of `cpa_traverse` on an array that is not empty. -/
theorem cpa_traverse_spec (cpa : Cpa) (hn : 0 < cpa.size) (fuel : Nat) (hfuel : cpa.size ≤ fuel) :
    ∃ cpa1, traverse_loop true fuel cpa [(0, cpa.size - 1, 1)] [] [] =
      .ok (cpa1, (traversal_order cpa.size).filterMap (payloadOf cpa)) := by
  obtain ⟨cpa1, h1, _, _⟩ := traverse_loop_spec cpa.size hn true fuel cpa
    [(0, cpa.size - 1, 1)] [] [] rfl
    (by intro f hf; simp only [List.mem_singleton] at hf; subst hf; simp only; omega)
    (by intro v hv; simp at hv)
    (by simp only [stack_span, List.map_cons, List.map_nil, List.sum_cons, List.sum_nil]; omega)
  refine ⟨cpa1, ?_⟩
  rw [h1]
  have e : ((cpa.size - 1 : Nat) : Int) = (cpa.size : Int) - 1 := by omega
  simp only [if_true, stack_order, List.append_nil, List.nil_append, traversal_order, e,
    Nat.cast_zero]

/-- C4: on an array of `n ≥ 1` freshly appended entries, whatever the weights,
`cpa_traverse` runs through and hands to `func` the payloads of the entries in
the order `order(0, n-1)`, where `order(lo, hi)` is the midpoint of the range,
then the order of the right sub-range, then the order of the left sub-range,
and the order of an empty range is empty; that order lists each index
`0 .. n-1` once, and for `n = 4` it is 2, 3, 1, 0. -/
theorem traverse_visits_in_order (size : Nat) (junk : Int) (items : List (Nat × Int))
    (cpa : Cpa) (hbuild : cpa_append_all (cpa_empty size junk) items = .ok cpa)
    (hne : items ≠ []) :
    (∃ cpa1, cpa_traverse cpa true =
      .ok (cpa1, (traversal_order items.length).filterMap (payloadOf cpa))) ∧
    (∀ i, payloadOf cpa i = (items[i]?).map (fun x => x.1)) ∧
    (traversal_order items.length).Perm (List.range items.length) ∧
    (∀ (f : Nat) (lo hi : Int), 0 ≤ lo → lo ≤ hi → hi - lo + 1 ≤ f →
      order f lo hi =
        mid_of lo hi :: (order f ((mid_of lo hi : Int) + 1) hi ++
          order f lo ((mid_of lo hi : Int) - 1))) ∧
    (∀ (f : Nat) (lo hi : Int), hi < lo → order f lo hi = []) ∧
    traversal_order 4 = [2, 3, 1, 0] := by
  obtain ⟨hsz, hpay⟩ := built_size size junk items cpa hbuild
  have hn : 0 < cpa.size := by
    rw [hsz]
    exact List.length_pos.mpr hne
  refine ⟨?_, hpay, traversal_order_perm _, order_unfold, order_empty, by decide⟩
  obtain ⟨cpa1, h1⟩ := cpa_traverse_spec cpa hn (cpa.size + 1) (by omega)
  rw [← hsz]
  exact ⟨cpa1, h1⟩

theorem traverse_visits_in_order_witness :
    ∃ cpa1, cpa_traverse scenario_cpa true = .ok (cpa1, [103, 104, 102, 101]) := by
  obtain ⟨cpa1, h⟩ :=
    (traverse_visits_in_order 4 0 scenario_items scenario_cpa rfl (by decide)).1
  exact ⟨cpa1, by rw [h]; rfl⟩

theorem cpa_iterate_nonempty (cpa cpa1 : Cpa) (started : Bool) (lo hi qs : Nat)
    (rest : List (Nat × Nat × Nat)) (q : List Nat) (q_size : Nat) (e : Cpa_entry)
    (he : cpa.entries[(lo + hi + 1) / 2]? = some e) (hf : e.found = false)
    (hs : cpa_set_subtractors
      { cpa with cumulative_weight := cpa.cumulative_weight - e.weight }
      (q_write q (qs - 1) ((lo + hi + 1) / 2)) qs ((lo + hi + 1) / 2) = .ok cpa1) :
    cpa_iterate cpa { started := started, stack := (lo, hi, qs) :: rest, q := q,
                      q_size := q_size } =
      .ok (cpa1, { started := started, stack := push_frames lo hi qs rest,
                   q := q_write q (qs - 1) ((lo + hi + 1) / 2), q_size := qs },
           some ((lo + hi + 1) / 2)) := by
  simp [cpa_iterate, iterate_fuel, iterate_loop, he, hf, hs]

theorem cpa_iterate_exhausted (cpa : Cpa) (q : List Nat) (q_size : Nat) :
    cpa_iterate cpa { started := true, stack := [], q := q, q_size := q_size } =
      .ok (cpa, { started := true, stack := [], q := q, q_size := q_size }, none) := by
  simp [cpa_iterate]

theorem cpa_iterate_zero (cpa : Cpa) :
    cpa_iterate cpa iterator_zero =
      cpa_iterate cpa { started := true, stack := [(0, cpa.size - 1, 1)], q := [],
                        q_size := 0 } := by
  simp [cpa_iterate, iterator_zero, cpa_iterate_init]

/-- As long as the frames of the stack hold entries that are not found, the
caller loop over `cpa_iterate` does what the loop of `cpa_traverse` does. -/
theorem iterate_matches_traverse (n : Nat) :
    ∀ (fuel : Nat) (cpa : Cpa) (stack : List (Nat × Nat × Nat)) (q out : List Nat)
      (q_size : Nat) (r : Cpa × List Nat),
      cpa.size = n → (∀ f ∈ stack, f.1 ≤ f.2.1 ∧ f.2.1 < n) →
      (stack_order n stack).Nodup →
      (∀ i ∈ stack_order n stack, ∃ e, cpa.entries[i]? = some e ∧ e.found = false) →
      traverse_loop true fuel cpa stack q out = .ok r →
      ∃ it1, iterate_until_null (fuel + 1) cpa
        { started := true, stack := stack, q := q, q_size := q_size } out =
          .ok (r.1, it1, r.2) := by
  intro fuel
  induction fuel with
  | zero =>
    intro cpa stack q out q_size r hsz hfr hnd hun h
    cases stack with
    | nil =>
      simp only [traverse_loop, Outcome.ok.injEq] at h
      subst h
      exact ⟨{ started := true, stack := [], q := q, q_size := q_size },
        by simp only [iterate_until_null, cpa_iterate_exhausted]⟩
    | cons f rest => simp [traverse_loop] at h
  | succ fuel ih =>
    intro cpa stack q out q_size r hsz hfr hnd hun h
    cases stack with
    | nil =>
      simp only [traverse_loop, Outcome.ok.injEq] at h
      subst h
      exact ⟨{ started := true, stack := [], q := q, q_size := q_size },
        by simp only [iterate_until_null, cpa_iterate_exhausted]⟩
    | cons f rest =>
      obtain ⟨lo, hi, qs⟩ := f
      have hf := hfr (lo, hi, qs) (List.mem_cons_self _ _)
      simp only at hf
      have hpo := push_frames_order n lo hi qs rest hf.1 hf.2
      simp only [traverse_loop] at h
      cases he : cpa.entries[(lo + hi + 1) / 2]? with
      | none => rw [he] at h; simp at h
      | some e =>
        rw [he] at h
        simp only at h
        cases hs : cpa_set_subtractors
            { cpa with cumulative_weight := cpa.cumulative_weight - e.weight }
            (q_write q (qs - 1) ((lo + hi + 1) / 2)) qs ((lo + hi + 1) / 2) with
        | fault => rw [hs] at h; simp at h
        | timeout => rw [hs] at h; simp at h
        | ok cpa1 =>
          rw [hs] at h
          simp only [if_true] at h
          simp only [stack_order] at hnd hun
          rw [hpo] at hnd hun
          have hfe : e.found = false := by
            obtain ⟨x, hx, hxf⟩ := hun _ (List.mem_cons_self _ _)
            rw [he] at hx
            rw [Option.some.inj hx]
            exact hxf
          obtain ⟨e0, he0, hsub, _⟩ := cpa_set_subtractors_effect _ _ _ _ _ hs
          obtain ⟨hsz1, _⟩ := cpa_set_subtractors_payload _ _ _ _ _ hs
          have hun1 : ∀ i ∈ stack_order n (push_frames lo hi qs rest),
              ∃ x, cpa1.entries[i]? = some x ∧ x.found = false := by
            intro i hi1
            have hne : (lo + hi + 1) / 2 ≠ i := by
              intro hc
              rw [← hc] at hi1
              exact (List.nodup_cons.mp hnd).1 hi1
            obtain ⟨x, hx, hxf⟩ := hun i (List.mem_cons_of_mem _ hi1)
            obtain ⟨x1, hx1, hc1, _, _⟩ := hsub.2 i x (by
              show (cpa.entries.set _ _)[i]? = some x
              rw [List.getElem?_set_ne hne]
              exact hx)
            refine ⟨x1, hx1, ?_⟩
            simp only [core, Prod.mk.injEq] at hc1
            rw [hc1.2.2.2]
            exact hxf
          obtain ⟨it1, hit⟩ := ih cpa1 (push_frames lo hi qs rest)
            (q_write q (qs - 1) ((lo + hi + 1) / 2)) (out ++ [e.data]) qs r
            (by rw [hsz1]; exact hsz)
            (push_frames_ok n lo hi qs rest hf.2
              (fun g hg => hfr g (List.mem_cons_of_mem _ hg)))
            (List.nodup_cons.mp hnd).2 hun1 h
          refine ⟨it1, ?_⟩
          simp only [iterate_until_null,
            cpa_iterate_nonempty cpa cpa1 true lo hi qs rest q q_size e he hfe hs, he]
          exact hit

theorem iterate_until_null_zero (fuel : Nat) (cpa : Cpa) (out : List Nat) :
    iterate_until_null (fuel + 1) cpa iterator_zero out =
      iterate_until_null (fuel + 1) cpa
        { started := true, stack := [(0, cpa.size - 1, 1)], q := [], q_size := 0 } out := by
  simp only [iterate_until_null, cpa_iterate_zero]

/-- C3: on an array of `n ≥ 1` freshly appended entries, calling `cpa_iterate`
with a zero-initialised iterator until it returns NULL returns the payloads
that one call of `cpa_traverse` hands to its visit function, in the same
order, and leaves the array in the same state (every field of every entry,
`num_found`, `cumulative_weight`). -/
theorem iterate_drains_like_traverse (size : Nat) (junk : Int) (items : List (Nat × Int))
    (cpa : Cpa) (hbuild : cpa_append_all (cpa_empty size junk) items = .ok cpa)
    (hne : items ≠ []) :
    ∃ cpa1 it1 out,
      cpa_traverse cpa true = .ok (cpa1, out) ∧
      iterate_until_null (cpa.size + 1) cpa iterator_zero [] = .ok (cpa1, it1, out) := by
  obtain ⟨hsz, _⟩ := built_size size junk items cpa hbuild
  obtain ⟨_, hfresh, _, _, _⟩ := built_facts size junk items cpa hbuild
  have hn : 0 < cpa.size := by
    rw [hsz]
    exact List.length_pos.mpr hne
  obtain ⟨cpa1, h1⟩ := cpa_traverse_spec cpa hn cpa.size (le_refl _)
  have hperm := traversal_order_perm cpa.size
  have hso : stack_order cpa.size [(0, cpa.size - 1, 1)] = traversal_order cpa.size := by
    have e : ((cpa.size - 1 : Nat) : Int) = (cpa.size : Int) - 1 := by omega
    simp only [stack_order, List.append_nil, traversal_order, e, Nat.cast_zero]
  obtain ⟨it1, h2⟩ := iterate_matches_traverse cpa.size cpa.size cpa
    [(0, cpa.size - 1, 1)] [] [] 0 _ rfl
    (by intro f hf; simp only [List.mem_singleton] at hf; subst hf; simp only; omega)
    (by rw [hso]; exact hperm.nodup_iff.mpr (List.nodup_range _))
    (by
      intro i hi
      rw [hso] at hi
      have hlt : i < cpa.entries.length := by
        have := hperm.mem_iff.mp hi
        simpa using this
      exact ⟨cpa.entries[i], List.getElem?_eq_getElem hlt,
        (hfresh _ (List.getElem_mem hlt)).1⟩)
    h1
  refine ⟨cpa1, it1, _, traverse_loop_mono true _ _ _ _ _ _ h1, ?_⟩
  rw [iterate_until_null_zero]
  exact h2

theorem iterate_drains_like_traverse_witness :
    ∃ cpa1 it1,
      cpa_traverse scenario_cpa true = .ok (cpa1, [103, 104, 102, 101]) ∧
      iterate_until_null 5 scenario_cpa iterator_zero [] =
        .ok (cpa1, it1, [103, 104, 102, 101]) := by
  obtain ⟨cpa1, it1, out, h1, h2⟩ :=
    iterate_drains_like_traverse 4 0 scenario_items scenario_cpa rfl (by decide)
  have hout : out = [103, 104, 102, 101] := by
    have h3 : cpa_traverse scenario_cpa true = .ok (cpa1, out) := h1
    have h4 : ∃ c, cpa_traverse scenario_cpa true = .ok (c, [103, 104, 102, 101]) :=
      ⟨_, rfl⟩
    obtain ⟨c, h4⟩ := h4
    rw [h4] at h3
    simp only [Outcome.ok.injEq, Prod.mk.injEq] at h3
    exact h3.2.symm
  subst hout
  exact ⟨cpa1, it1, h1, h2⟩

/-- Whatever the state of the subtractors, the loop of `cpa_binary_search`
returns NULL and changes nothing, or stops at an entry that is not found and
hands it to `cpa_set_subtractors`. -/
theorem binary_loop_effect (key : Int) (cpa : Cpa) :
    ∀ (fuel : Nat) (lo hi : Int) (q : List Nat) (sub : Int) (cpa1 : Cpa) (r : Option Nat),
      binary_search_loop key fuel cpa lo hi q sub = .ok (cpa1, r) →
      (r = none ∧ cpa1 = cpa) ∨
      ∃ i e q1, r = some i ∧ cpa.entries[i]? = some e ∧ e.found = false ∧
        cpa_set_subtractors
          { cpa with cumulative_weight := cpa.cumulative_weight - e.weight }
          q1 q1.length i = .ok cpa1 := by
  intro fuel
  induction fuel with
  | zero => intro lo hi q sub cpa1 r h; simp [binary_search_loop] at h
  | succ fuel ih =>
    intro lo hi q sub cpa1 r h
    simp only [binary_search_loop] at h
    split at h
    · simp only [Outcome.ok.injEq, Prod.mk.injEq] at h
      exact Or.inl ⟨h.2.symm, h.1.symm⟩
    · cases he : cpa.entries[((lo + hi + 1) / 2).toNat]? with
      | none => rw [he] at h; simp at h
      | some e =>
        rw [he] at h
        simp only at h
        split at h
        · exact ih _ _ _ _ _ _ h
        · split at h
          · exact ih _ _ _ _ _ _ h
          · rename_i hc1 hc2
            have hf : e.found = false := by
              cases hfe : e.found with
              | false => rfl
              | true => exact absurd (Or.inl hfe) hc2
            cases hs : cpa_set_subtractors
                { cpa with cumulative_weight := cpa.cumulative_weight - e.weight }
                (q ++ [((lo + hi + 1) / 2).toNat]) (q ++ [((lo + hi + 1) / 2).toNat]).length
                ((lo + hi + 1) / 2).toNat with
            | fault => rw [hs] at h; simp at h
            | timeout => rw [hs] at h; simp at h
            | ok c2 =>
              rw [hs] at h
              simp only [Outcome.ok.injEq, Prod.mk.injEq] at h
              right
              refine ⟨_, e, q ++ [((lo + hi + 1) / 2).toNat], h.2.symm, he, hf, ?_⟩
              rw [← h.1]
              exact hs

/-- The loop of `cpa_iterate` only stops at an entry that is not found. -/
theorem iterate_loop_effect (cpa : Cpa) :
    ∀ (fuel : Nat) (it it1 : Cpa_iterator) (index : Nat),
      iterate_loop cpa fuel it = .ok (it1, index) →
      ∃ e, cpa.entries[index]? = some e ∧ e.found = false := by
  intro fuel
  induction fuel with
  | zero => intro it it1 index h; simp [iterate_loop] at h
  | succ fuel ih =>
    intro it it1 index h
    simp only [iterate_loop] at h
    cases hst : it.stack with
    | nil => rw [hst] at h; simp at h
    | cons f rest =>
      obtain ⟨lo, hi, qs⟩ := f
      rw [hst] at h
      simp only at h
      cases he : cpa.entries[(lo + hi + 1) / 2]? with
      | none => rw [he] at h; simp at h
      | some e =>
        rw [he] at h
        simp only at h
        split at h
        · exact ih _ _ _ h
        · rename_i hf
          simp only [Outcome.ok.injEq, Prod.mk.injEq] at h
          rw [← h.2]
          exact ⟨e, he, by simpa using hf⟩

theorem set_subtractors_call_effect (cpa cpa1 : Cpa) (q : List Nat) (q_size i : Nat)
    (e : Cpa_entry) (he : cpa.entries[i]? = some e)
    (h : cpa_set_subtractors
      { cpa with cumulative_weight := cpa.cumulative_weight - e.weight } q q_size i =
        .ok cpa1) :
    cpa1.entries.map core = (cpa.entries.set i { e with found := true }).map core ∧
    cpa1.num_found = cpa.num_found + 1 ∧
    cpa1.cumulative_weight = cpa.cumulative_weight - e.weight := by
  obtain ⟨e0, he0, hsub, hnum, hcw, _, _⟩ := cpa_set_subtractors_effect _ _ _ _ _ h
  have hee : e0 = e := by
    have h1 : cpa.entries[i]? = some e0 := he0
    rw [he] at h1
    exact (Option.some.inj h1).symm
  subst hee
  exact ⟨SubsOnly_map_core _ _ hsub, hnum, hcw⟩

/-- A call either returns NULL and changes nothing, or returns an entry that
was not found, sets its flag, counts it and takes its weight off the remaining
weight; payloads, weights, prefix weights and the other flags stay. -/
theorem do_call_effect (cpa cpa1 : Cpa) (op : Call) (r : Option Nat)
    (h : do_call cpa op = .ok (cpa1, r)) :
    (r = none ∧ cpa1 = cpa) ∨
    ∃ i e, r = some i ∧ cpa.entries[i]? = some e ∧ e.found = false ∧
      cpa1.entries.map core = (cpa.entries.set i { e with found := true }).map core ∧
      cpa1.num_found = cpa.num_found + 1 ∧
      cpa1.cumulative_weight = cpa.cumulative_weight - e.weight := by
  cases op with
  | binary key =>
    simp only [do_call, cpa_binary_search] at h
    rcases binary_loop_effect key cpa _ _ _ _ _ _ _ h with h1 | ⟨i, e, q1, hr, he, hf, hs⟩
    · exact Or.inl h1
    · exact Or.inr ⟨i, e, hr, he, hf, set_subtractors_call_effect cpa cpa1 _ _ i e he hs⟩
  | linear key =>
    simp only [do_call, Outcome.ok.injEq] at h
    rcases cpa_linear_search_cases cpa key with h1 | ⟨i, e, he, hf, h1⟩
    · rw [h1] at h
      simp only [Prod.mk.injEq] at h
      exact Or.inl ⟨h.2.symm, h.1.symm⟩
    · rw [h1] at h
      simp only [Prod.mk.injEq] at h
      right
      refine ⟨i, e, h.2.symm, he, hf, ?_, ?_, ?_⟩
      · rw [← h.1]
        simp only [linear_removed, List.map_set]
        rfl
      · rw [← h.1]; rfl
      · rw [← h.1]; rfl
  | iterate it =>
    simp only [do_call] at h
    cases hit : cpa_iterate cpa it with
    | fault => rw [hit] at h; simp at h
    | timeout => rw [hit] at h; simp at h
    | ok x =>
      obtain ⟨c1, it1, r1⟩ := x
      rw [hit] at h
      simp only [Outcome.ok.injEq, Prod.mk.injEq] at h
      obtain ⟨hc, hr⟩ := h
      subst hc hr
      unfold cpa_iterate at hit
      split at hit
      · simp only [Outcome.ok.injEq, Prod.mk.injEq] at hit
        exact Or.inl ⟨hit.2.2.symm, hit.1.symm⟩
      · simp only at hit
        cases hl : iterate_loop cpa
            (iterate_fuel (if it.stack = [] then cpa_iterate_init cpa it else it))
            (if it.stack = [] then cpa_iterate_init cpa it else it) with
        | fault => rw [hl] at hit; simp at hit
        | timeout => rw [hl] at hit; simp at hit
        | ok y =>
          obtain ⟨it2, index⟩ := y
          rw [hl] at hit
          simp only at hit
          obtain ⟨e, he, hf⟩ := iterate_loop_effect cpa _ _ _ _ hl
          rw [he] at hit
          simp only at hit
          cases hs : cpa_set_subtractors
              { cpa with cumulative_weight := cpa.cumulative_weight - e.weight }
              it2.q it2.q_size index with
          | fault => rw [hs] at hit; simp at hit
          | timeout => rw [hs] at hit; simp at hit
          | ok c2 =>
            rw [hs] at hit
            simp only [Outcome.ok.injEq, Prod.mk.injEq] at hit
            obtain ⟨h1, _, h3⟩ := hit
            subst h1
            exact Or.inr ⟨index, e, h3.symm, he, hf,
              set_subtractors_call_effect cpa c2 _ _ index e he hs⟩

/-- The loop of `cpa_binary_search` always returns: it stays inside the array
and the fuel outlasts the shrinking range. -/
theorem binary_loop_returns (key : Int) (cpa : Cpa) :
    ∀ (fuel : Nat) (lo hi : Int) (q : List Nat) (sub : Int),
      0 ≤ lo → lo ≤ hi + 1 → hi < cpa.size → hi - lo + 1 < fuel →
      (∀ v ∈ q, v < cpa.size) →
      ∃ r, binary_search_loop key fuel cpa lo hi q sub = .ok r := by
  intro fuel
  induction fuel with
  | zero => intro lo hi q sub _ h1 _ h3 _; omega
  | succ fuel ih =>
    intro lo hi q sub h0 h1 h2 h3 hq
    simp only [binary_search_loop]
    by_cases hlt : hi < lo
    · rw [if_pos hlt]
      exact ⟨_, rfl⟩
    · rw [if_neg hlt]
      have hle : lo ≤ hi := by omega
      obtain ⟨m1, m2⟩ := mid_of_bounds lo hi h0 hle
      have hmid : ((lo + hi + 1) / 2).toNat = mid_of lo hi := rfl
      rw [hmid]
      have hm : mid_of lo hi < cpa.entries.length := by
        have : (cpa.size : Int) = cpa.entries.length := rfl
        omega
      have he : cpa.entries[mid_of lo hi]? = some cpa.entries[mid_of lo hi] :=
        List.getElem?_eq_getElem hm
      have hq1 : ∀ v ∈ q ++ [mid_of lo hi], v < cpa.size := by
        intro v hv
        simp only [List.mem_append, List.mem_singleton] at hv
        rcases hv with hv | hv
        · exact hq v hv
        · rw [hv]; exact hm
      rw [he]
      simp only
      split
      · exact ih _ _ _ _ (by omega) (by omega) h2 (by omega) hq1
      · split
        · exact ih _ _ _ _ h0 (by omega) (by omega) (by omega) hq1
        · obtain ⟨c1, hc1⟩ := cpa_set_subtractors_ok
            { cpa with cumulative_weight := cpa.cumulative_weight -
                cpa.entries[mid_of lo hi].weight }
            (q ++ [mid_of lo hi]) (q ++ [mid_of lo hi]).length (mid_of lo hi) hm
            (by rw [q_read_length]; exact hq1)
          rw [hc1]
          exact ⟨_, rfl⟩

/-- In every state `cpa_binary_search` returns. -/
theorem cpa_binary_search_returns (cpa : Cpa) (key : Int) :
    ∃ r, cpa_binary_search cpa key = .ok r := by
  unfold cpa_binary_search
  exact binary_loop_returns key cpa (cpa.size + 1) 0 _ [] 0 (le_refl 0) (by omega) (by omega)
    (by push_cast; omega) (by intro v hv; simp at hv)

/-- One call keeps the remaining weight equal to the live sum; it lowers it by
the weight of the entry it returns, and leaves it alone when it returns NULL. -/
theorem do_call_weight (cpa cpa1 : Cpa) (op : Call) (r : Option Nat)
    (h : do_call cpa op = .ok (cpa1, r))
    (hinv : cpa.cumulative_weight = liveSum cpa.entries) :
    cpa1.cumulative_weight = liveSum cpa1.entries ∧
    (∀ i, r = some i → ∃ e, cpa.entries[i]? = some e ∧
      cpa1.cumulative_weight = cpa.cumulative_weight - e.weight) ∧
    (r = none → cpa1.cumulative_weight = cpa.cumulative_weight) := by
  rcases do_call_effect cpa cpa1 op r h with ⟨hr, hc⟩ | ⟨i, e, hr, he, hf, hcore, _, hcw⟩
  · subst hr hc
    exact ⟨hinv, fun i hi => by simp at hi, fun _ => rfl⟩
  · subst hr
    refine ⟨?_, fun j hj => ?_, fun hn => by simp at hn⟩
    · rw [hcw, liveSum_congr _ _ hcore, liveSum_set cpa.entries i e _ he, hinv]
      simp [liveWeight, hf]
    · simp only [Option.some.injEq] at hj
      subst hj
      exact ⟨e, he, hcw⟩

theorem run_calls_weight (calls : List Call) :
    ∀ (cpa cpa1 : Cpa) (rs : List (Option Nat)), run_calls cpa calls = .ok (cpa1, rs) →
      cpa.cumulative_weight = liveSum cpa.entries →
      cpa1.cumulative_weight = liveSum cpa1.entries := by
  induction calls with
  | nil =>
    intro cpa cpa1 rs h hinv
    simp only [run_calls, Outcome.ok.injEq, Prod.mk.injEq] at h
    rw [← h.1]
    exact hinv
  | cons op ops ih =>
    intro cpa cpa1 rs h hinv
    simp only [run_calls] at h
    cases h1 : do_call cpa op with
    | fault => rw [h1] at h; simp at h
    | timeout => rw [h1] at h; simp at h
    | ok x =>
      obtain ⟨c2, r⟩ := x
      rw [h1] at h
      simp only at h
      cases h2 : run_calls c2 ops with
      | fault => rw [h2] at h; simp at h
      | timeout => rw [h2] at h; simp at h
      | ok y =>
        obtain ⟨c3, rs2⟩ := y
        rw [h2] at h
        simp only [Outcome.ok.injEq, Prod.mk.injEq] at h
        rw [← h.1]
        exact ih c2 c3 rs2 h2 (do_call_weight cpa c2 op r h1 hinv).1

/-- One call keeps the size; a returned entry was not found before, is found
after, is counted once, and no other flag changes. -/
theorem do_call_found (cpa cpa1 : Cpa) (op : Call) (r : Option Nat)
    (h : do_call cpa op = .ok (cpa1, r)) :
    cpa1.size = cpa.size ∧
    (r = none → cpa1 = cpa) ∧
    (∀ i, r = some i → i < cpa.size ∧ ¬ found_at cpa i ∧
      (∀ j, found_at cpa1 j ↔ (j = i ∨ found_at cpa j)) ∧
      cpa1.num_found = cpa.num_found + 1) := by
  rcases do_call_effect cpa cpa1 op r h with ⟨hr, hc⟩ | ⟨i, e, hr, he, hf, hcore, hnum, _⟩
  · subst hr hc
    exact ⟨rfl, fun _ => rfl, fun i hi => by simp at hi⟩
  · subst hr
    have hlen : cpa1.entries.length = cpa.entries.length := by
      have := congrArg List.length hcore
      simpa using this
    have hi : i < cpa.entries.length := (List.getElem?_eq_some_iff.mp he).1
    refine ⟨hlen, fun hn => by simp at hn, fun j hj => ?_⟩
    simp only [Option.some.injEq] at hj
    subst hj
    refine ⟨hi, ?_, ?_, hnum⟩
    · rintro ⟨x, hx, hxf⟩
      rw [he] at hx
      rw [← Option.some.inj hx, hf] at hxf
      exact Bool.false_ne_true hxf
    · intro j
      constructor
      · rintro ⟨x, hx, hxf⟩
        obtain ⟨y, hy, hc⟩ := getElem?_core_congr _ _ hcore j x hx
        by_cases hji : j = i
        · exact Or.inl hji
        · right
          rw [List.getElem?_set_ne (Ne.symm hji)] at hy
          refine ⟨y, hy, ?_⟩
          simp only [core, Prod.mk.injEq] at hc
          rw [← hc.2.2.2]
          exact hxf
      · intro hj
        have hget : ∀ (y : Cpa_entry),
            (cpa.entries.set i { e with found := true })[j]? = some y →
            y.found = true → found_at cpa1 j := by
          intro y hy hyf
          obtain ⟨x, hx, hc⟩ := getElem?_core_congr _ _ hcore.symm j y hy
          refine ⟨x, hx, ?_⟩
          simp only [core, Prod.mk.injEq] at hc
          rw [← hc.2.2.2]
          exact hyf
        rcases hj with hj | ⟨y, hy, hyf⟩
        · subst hj
          exact hget _ (by rw [List.getElem?_set_self', he]; rfl) rfl
        · by_cases hji : j = i
          · subst hji
            exact hget _ (by rw [List.getElem?_set_self', he]; rfl) rfl
          · exact hget y (by rw [List.getElem?_set_ne (Ne.symm hji)]; exact hy) hyf

theorem run_calls_found (calls : List Call) :
    ∀ (cpa cpa1 : Cpa) (rs : List (Option Nat)) (acc : List Nat),
      run_calls cpa calls = .ok (cpa1, rs) → acc.Nodup →
      (∀ j, found_at cpa j ↔ j ∈ acc) → cpa.num_found = acc.length →
      (acc ++ returned rs).Nodup ∧
      (∀ j, found_at cpa1 j ↔ j ∈ acc ++ returned rs) ∧
      cpa1.num_found = (acc ++ returned rs).length ∧ cpa1.size = cpa.size ∧
      rs.length = calls.length := by
  induction calls with
  | nil =>
    intro cpa cpa1 rs acc h hnd hfa hnum
    simp only [run_calls, Outcome.ok.injEq, Prod.mk.injEq] at h
    obtain ⟨h1, h2⟩ := h
    subst h1 h2
    exact ⟨by simpa [returned] using hnd, by simpa [returned] using hfa,
      by simpa [returned] using hnum, rfl, rfl⟩
  | cons op ops ih =>
    intro cpa cpa1 rs acc h hnd hfa hnum
    simp only [run_calls] at h
    cases h1 : do_call cpa op with
    | fault => rw [h1] at h; simp at h
    | timeout => rw [h1] at h; simp at h
    | ok x =>
      obtain ⟨c2, r⟩ := x
      rw [h1] at h
      simp only at h
      cases h2 : run_calls c2 ops with
      | fault => rw [h2] at h; simp at h
      | timeout => rw [h2] at h; simp at h
      | ok y =>
        obtain ⟨c3, rs2⟩ := y
        rw [h2] at h
        simp only [Outcome.ok.injEq, Prod.mk.injEq] at h
        obtain ⟨h3, h4⟩ := h
        subst h3 h4
        obtain ⟨hsz, hnone, hsome⟩ := do_call_found cpa c2 op r h1
        cases r with
        | none =>
          have hc := hnone rfl
          subst hc
          obtain ⟨r1, r2, r3, r4, r5⟩ := ih c2 c3 rs2 acc h2 hnd hfa hnum
          refine ⟨?_, ?_, ?_, r4, by simp [r5]⟩
          · simpa [returned] using r1
          · simpa [returned] using r2
          · simpa [returned] using r3
        | some i =>
          obtain ⟨_, hnf, hiff, hnum1⟩ := hsome i rfl
          have hni : i ∉ acc := fun hc => hnf ((hfa i).mpr hc)
          obtain ⟨r1, r2, r3, r4, r5⟩ := ih c2 c3 rs2 (acc ++ [i]) h2
            (by
              rw [List.nodup_append]
              refine ⟨hnd, List.nodup_singleton i, ?_⟩
              intro a ha hb
              simp only [List.mem_singleton] at hb
              subst hb
              exact hni ha)
            (by
              intro j
              rw [hiff j, hfa j]
              simp only [List.mem_append, List.mem_singleton]
              tauto)
            (by rw [hnum1, hnum]; simp)
          have hret : acc ++ returned (some i :: rs2) = acc ++ [i] ++ returned rs2 := by
            simp [returned]
          rw [hret]
          exact ⟨r1, r2, r3, by rw [r4, hsz], by simp [r5]⟩

/-- C10: on an array of size `n` built by appends only, after any sequence of
`cpa_binary_search`, `cpa_linear_search` and `cpa_iterate` calls that return,
of which `N` returned an entry: the returned entries are pairwise distinct,
`num_found = N`, and `cpa_all_found` is true exactly when `N = n`; the found
flags set are those of the returned entries. -/
theorem draws_distinct_and_counted (size : Nat) (junk : Int) (items : List (Nat × Int))
    (cpa0 cpa : Cpa) (calls : List Call) (rs : List (Option Nat))
    (hbuild : cpa_append_all (cpa_empty size junk) items = .ok cpa0)
    (hrun : run_calls cpa0 calls = .ok (cpa, rs)) :
    cpa.size = items.length ∧
    (returned rs).Nodup ∧
    cpa.num_found = (returned rs).length ∧
    (cpa_all_found cpa = true ↔ (returned rs).length = items.length) ∧
    (∀ j, found_at cpa j ↔ j ∈ returned rs) := by
  obtain ⟨_, hf, _, hnum, _⟩ := built_facts size junk items cpa0 hbuild
  obtain ⟨hsz, _⟩ := built_size size junk items cpa0 hbuild
  obtain ⟨r1, r2, r3, r4, _⟩ := run_calls_found calls cpa0 cpa rs [] hrun List.nodup_nil
    (by
      intro j
      constructor
      · rintro ⟨e, he, hfe⟩
        have := (hf e (List.getElem?_mem he)).1
        rw [this] at hfe
        exact absurd hfe Bool.false_ne_true
      · intro hj
        simp at hj)
    (by rw [hnum]; rfl)
  simp only [List.nil_append] at r1 r2 r3
  refine ⟨by rw [r4, hsz], r1, r3, ?_, r2⟩
  unfold cpa_all_found
  rw [r3, r4, hsz]
  simp

theorem draws_distinct_and_counted_witness :
    ∃ cpa, run_calls scenario_cpa
        [.binary 5, .linear 9, .iterate iterator_zero, .linear 0, .binary 42] =
          .ok (cpa, [some 2, some 3, some 1, some 0, none]) ∧
      cpa.num_found = 4 ∧ cpa_all_found cpa = true := by
  have h := draws_distinct_and_counted 4 0 scenario_items scenario_cpa _
    [.binary 5, .linear 9, .iterate iterator_zero, .linear 0, .binary 42]
    [some 2, some 3, some 1, some 0, none] rfl rfl
  exact ⟨_, rfl, h.2.2.1, h.2.2.2.1.mpr rfl⟩

/-- C12: `cpa_reset` sets the found flag of every entry to 0 and changes nothing
else: `cumulative_weight`, `size`, `capacity`, `num_found`, `error` and, in
every entry, payload, weight, prefix weight, adder and the left, right and
linear subtractors are as before. -/
theorem cpa_reset_frame (cpa : Cpa) :
    (cpa_reset cpa).cumulative_weight = cpa.cumulative_weight ∧
    (cpa_reset cpa).size = cpa.size ∧
    (cpa_reset cpa).capacity = cpa.capacity ∧
    (cpa_reset cpa).num_found = cpa.num_found ∧
    (cpa_reset cpa).error = cpa.error ∧
    (∀ i : Nat, (cpa_reset cpa).entries[i]? =
      (cpa.entries[i]?).map (fun (e : Cpa_entry) => { e with found := false })) ∧
    (∀ e ∈ (cpa_reset cpa).entries, e.found = false) := by
  refine ⟨rfl, ?_, rfl, rfl, rfl, ?_, ?_⟩
  · simp [cpa_reset, Cpa.size]
  · intro i
    simp [cpa_reset]
  · intro e he
    simp only [cpa_reset, List.mem_map] at he
    obtain ⟨x, _, hx⟩ := he
    rw [← hx]

theorem liveBefore_nonneg (es : List Cpa_entry) (h : ∀ e ∈ es, 0 < e.weight) (k : Nat) :
    0 ≤ liveBefore es k :=
  liveSum_nonneg _ (fun e he => h e (List.mem_of_mem_take he))

theorem liveBefore_le_liveSum (es : List Cpa_entry) (h : ∀ e ∈ es, 0 < e.weight) (k : Nat) :
    liveBefore es k ≤ liveSum es := by
  by_cases hk : k ≤ es.length
  · have := liveBefore_mono es h k es.length hk
    unfold liveBefore at this ⊢
    rw [List.take_length] at this
    exact this
  · unfold liveBefore
    rw [List.take_of_length_le (by omega)]

/-- Under the tree invariant a key outside the remaining weight drives the loop
of `cpa_binary_search` to an empty range: it returns NULL and changes nothing. -/
theorem binary_loop_outside (cpa : Cpa) (key : Int)
    (hb : WellBuilt cpa.entries 0) (hpos : ∀ e ∈ cpa.entries, 0 < e.weight)
    (hkey : key < 0 ∨ liveSum cpa.entries ≤ key) :
    ∀ (fuel : Nat) (lo hi : Int) (q : List Nat) (carry : Int),
      TreeInv cpa.entries (deadBefore cpa.entries) lo hi carry → 0 ≤ lo → lo ≤ hi + 1 →
      hi - lo + 1 < fuel →
      binary_search_loop key fuel cpa lo hi q carry = .ok (cpa, none) := by
  intro fuel
  induction fuel with
  | zero => intro lo hi q carry _ _ h1 h2; omega
  | succ fuel ih =>
    intro lo hi q carry hinv h0 h1 h2
    cases hinv with
    | leaf _ _ _ hlt =>
      simp only [binary_search_loop]
      rw [if_pos hlt]
    | node _ _ _ e hle he hr hl left right =>
      obtain ⟨m1, m2⟩ := mid_of_bounds lo hi h0 hle
      obtain ⟨v1, v2⟩ := node_values cpa.entries hb _ e he
      have hmid : ((lo + hi + 1) / 2).toNat = mid_of lo hi := rfl
      have n1 := liveBefore_nonneg cpa.entries hpos (mid_of lo hi + 1)
      have n2 := liveBefore_nonneg cpa.entries hpos (mid_of lo hi)
      have u1 := liveBefore_le_liveSum cpa.entries hpos (mid_of lo hi + 1)
      simp only [binary_search_loop, hmid, he]
      rw [if_neg (by omega)]
      rcases hkey with hk | hk
      · rw [if_neg (by omega), if_pos (Or.inr (by omega))]
        exact ih lo _ _ _ (TreeInv_carry _ _ _ _ _ _ left (by omega)) h0 (by omega) (by omega)
      · rw [if_pos (by omega)]
        exact ih _ hi _ _ right (by omega) (by omega) (by omega)

theorem cpa_binary_search_outside (cpa : Cpa) (key : Int) (hinv : BinaryInv cpa)
    (hkey : key < 0 ∨ cpa.cumulative_weight ≤ key) :
    cpa_binary_search cpa key = .ok (cpa, none) := by
  obtain ⟨hb, hpos, htree, hcw⟩ := hinv
  unfold cpa_binary_search
  exact binary_loop_outside cpa key hb hpos (by rw [← hcw]; exact hkey) (cpa.size + 1) 0 _ []
    0 htree (le_refl 0) (by omega) (by push_cast; omega)

/-- Every call of `cpa_binary_search` keeps the invariant. -/
theorem BinaryInv_search (cpa cpa1 : Cpa) (key : Int) (r : Option Nat) (hinv : BinaryInv cpa)
    (h : cpa_binary_search cpa key = .ok (cpa1, r)) : BinaryInv cpa1 := by
  by_cases hk : key < 0 ∨ cpa.cumulative_weight ≤ key
  · rw [cpa_binary_search_outside cpa key hinv hk] at h
    simp only [Outcome.ok.injEq, Prod.mk.injEq] at h
    rw [← h.1]
    exact hinv
  · obtain ⟨t, et, c2, _, _, h2, hinv2, _⟩ :=
      cpa_binary_search_spec cpa key hinv (by omega) (by omega)
    rw [h2] at h
    simp only [Outcome.ok.injEq, Prod.mk.injEq] at h
    rw [← h.1]
    exact hinv2

theorem BinaryInv_history (keys : List Int) :
    ∀ (cpa cpa1 : Cpa), BinaryInv cpa → binary_history cpa keys = .ok cpa1 →
      BinaryInv cpa1 := by
  induction keys with
  | nil =>
    intro cpa cpa1 hinv h
    simp only [binary_history, Outcome.ok.injEq] at h
    rw [← h]
    exact hinv
  | cons k ks ih =>
    intro cpa cpa1 hinv h
    simp only [binary_history] at h
    cases hs : cpa_binary_search cpa k with
    | fault => rw [hs] at h; simp at h
    | timeout => rw [hs] at h; simp at h
    | ok x =>
      obtain ⟨c2, r⟩ := x
      rw [hs] at h
      exact ih c2 cpa1 (BinaryInv_search cpa c2 k r hinv hs) h

theorem binary_history_returns (keys : List Int) :
    ∀ (cpa : Cpa), ∃ cpa1, binary_history cpa keys = .ok cpa1 := by
  induction keys with
  | nil => intro cpa; exact ⟨cpa, rfl⟩
  | cons k ks ih =>
    intro cpa
    obtain ⟨⟨c2, r⟩, hs⟩ := cpa_binary_search_returns cpa k
    obtain ⟨c3, h3⟩ := ih c2
    exact ⟨c3, by simp only [binary_history, hs, h3]⟩

/-- The scan of `cpa_linear_search` finds nothing below the live sum before
its start. -/
theorem linear_loop_below (key : Int) (suf : List Cpa_entry) :
    ∀ (i : Nat) (sub acc : Int), WellBuilt suf acc →
      (∀ e ∈ suf, 0 < e.weight ∧
        e.linear_subtractor = if e.found = true then - e.weight else 0) →
      key < acc + sub → linear_search_loop key suf i sub = none := by
  induction suf with
  | nil => intro i sub acc _ _ _; rfl
  | cons x xs ih =>
    intro i sub acc hb hinv h1
    obtain ⟨hb1, hb2⟩ := hb
    obtain ⟨hpos, hls⟩ := hinv x (List.mem_cons_self _ _)
    simp only [linear_search_loop]
    by_cases hf : x.found = true
    · rw [if_pos hf] at hls
      rw [if_neg (by simp [hf])]
      exact ih _ _ (acc + x.weight) hb2 (fun e he => hinv e (List.mem_cons_of_mem _ he))
        (by omega)
    · rw [if_neg hf] at hls
      rw [if_neg (by intro hc; omega)]
      exact ih _ _ (acc + x.weight) hb2 (fun e he => hinv e (List.mem_cons_of_mem _ he))
        (by omega)

/-- The scan of `cpa_linear_search` finds nothing at or above the live sum
after its end. -/
theorem linear_loop_above (key : Int) (suf : List Cpa_entry) :
    ∀ (i : Nat) (sub acc : Int), WellBuilt suf acc →
      (∀ e ∈ suf, 0 < e.weight ∧
        e.linear_subtractor = if e.found = true then - e.weight else 0) →
      acc + sub + liveSum suf ≤ key → linear_search_loop key suf i sub = none := by
  induction suf with
  | nil => intro i sub acc _ _ _; rfl
  | cons x xs ih =>
    intro i sub acc hb hinv h1
    obtain ⟨hb1, hb2⟩ := hb
    obtain ⟨hpos, hls⟩ := hinv x (List.mem_cons_self _ _)
    have hrest : ∀ e ∈ xs, 0 < e.weight := fun e he => (hinv e (List.mem_cons_of_mem _ he)).1
    have hnn := liveSum_nonneg xs hrest
    rw [liveSum_cons] at h1
    simp only [linear_search_loop]
    by_cases hf : x.found = true
    · rw [if_pos hf] at hls
      have hlw : liveWeight x = 0 := by simp [liveWeight, hf]
      rw [if_neg (by simp [hf])]
      exact ih _ _ (acc + x.weight) hb2 (fun e he => hinv e (List.mem_cons_of_mem _ he))
        (by omega)
    · rw [if_neg hf] at hls
      have hlw : liveWeight x = x.weight := by simp [liveWeight, hf]
      rw [if_neg (by intro hc; omega)]
      exact ih _ _ (acc + x.weight) hb2 (fun e he => hinv e (List.mem_cons_of_mem _ he))
        (by omega)

theorem cpa_linear_search_outside (cpa : Cpa) (key : Int) (hinv : LinearInv cpa)
    (hkey : key < 0 ∨ cpa.cumulative_weight ≤ key) :
    cpa_linear_search cpa key = (cpa, none) := by
  obtain ⟨hb, hl, hcw⟩ := hinv
  unfold cpa_linear_search
  have : linear_search_loop key cpa.entries 0 0 = none := by
    rcases hkey with hk | hk
    · exact linear_loop_below key cpa.entries 0 0 0 hb hl (by omega)
    · exact linear_loop_above key cpa.entries 0 0 0 hb hl (by omega)
  rw [this]

/-- On whole numbers, computed exactly: on an array built by appends of positive
weights and changed since only by `cpa_binary_search` (respectively only by `cpa_linear_search`), a call of
`cpa_binary_search` (respectively `cpa_linear_search`) returns NULL exactly
when `key < 0` or `key ≥ cumulative_weight`; and when it returns NULL the
whole array is as it was before the call. -/
theorem not_found_contract (size : Nat) (junk : Int) (items : List (Nat × Int))
    (cpa0 : Cpa) (keys : List Int) (key : Int)
    (hbuild : cpa_append_all (cpa_empty size junk) items = .ok cpa0)
    (hne : items ≠ []) (hpos : ∀ x ∈ items, 0 < x.2) :
    (∃ cpab cpa1 r, binary_history cpa0 keys = .ok cpab ∧
      cpa_binary_search cpab key = .ok (cpa1, r) ∧
      (r = none ↔ (key < 0 ∨ cpab.cumulative_weight ≤ key)) ∧
      (r = none → cpa1 = cpab)) ∧
    ((cpa_linear_search (linear_history cpa0 keys) key).2 = none ↔
      (key < 0 ∨ (linear_history cpa0 keys).cumulative_weight ≤ key)) ∧
    ((cpa_linear_search (linear_history cpa0 keys) key).2 = none →
      (cpa_linear_search (linear_history cpa0 keys) key).1 = linear_history cpa0 keys) := by
  refine ⟨?_, ?_, ?_⟩
  · obtain ⟨cpab, hh⟩ := binary_history_returns keys cpa0
    have hinv := BinaryInv_history keys cpa0 cpab
      (BinaryInv_built size junk items cpa0 hbuild hne hpos) hh
    by_cases hk : key < 0 ∨ cpab.cumulative_weight ≤ key
    · exact ⟨cpab, cpab, none, hh, cpa_binary_search_outside cpab key hinv hk,
        ⟨fun _ => hk, fun _ => rfl⟩, fun _ => rfl⟩
    · obtain ⟨t, et, c2, _, _, h2, _⟩ :=
        cpa_binary_search_spec cpab key hinv (by omega) (by omega)
      exact ⟨cpab, c2, some t, hh, h2, ⟨fun h => by simp at h, fun h => absurd h hk⟩,
        fun h => by simp at h⟩
  · have hinv := LinearInv_history keys cpa0
      (LinearInv_built size junk items cpa0 hbuild hne hpos)
    constructor
    · intro h
      by_contra hk
      obtain ⟨i, e, _, _, h2⟩ :=
        cpa_linear_search_spec (linear_history cpa0 keys) key hinv (by omega) (by omega)
      rw [h2] at h
      simp at h
    · intro hk
      rw [cpa_linear_search_outside _ key hinv hk]
  · intro h
    rcases cpa_linear_search_cases (linear_history cpa0 keys) key with h1 | ⟨i, e, _, _, h1⟩
    · rw [h1]
    · rw [h1] at h
      simp at h

/-- `cpa_iterate` returns NULL only on an exhausted iterator, and then changes
nothing. -/
theorem cpa_iterate_none (cpa cpa1 : Cpa) (it it1 : Cpa_iterator)
    (h : cpa_iterate cpa it = .ok (cpa1, it1, none)) :
    cpa1 = cpa ∧ it1 = it ∧ it.stack = [] ∧ it.started = true := by
  unfold cpa_iterate at h
  split at h
  · rename_i hc
    simp only [Outcome.ok.injEq, Prod.mk.injEq] at h
    exact ⟨h.1.symm, h.2.1.symm, hc.1, hc.2⟩
  · simp only at h
    cases hl : iterate_loop cpa
        (iterate_fuel (if it.stack = [] then cpa_iterate_init cpa it else it))
        (if it.stack = [] then cpa_iterate_init cpa it else it) with
    | fault => rw [hl] at h; simp at h
    | timeout => rw [hl] at h; simp at h
    | ok y =>
      obtain ⟨it2, index⟩ := y
      rw [hl] at h
      simp only at h
      cases he : cpa.entries[index]? with
      | none => rw [he] at h; simp at h
      | some e =>
        rw [he] at h
        simp only at h
        cases hs : cpa_set_subtractors
            { cpa with cumulative_weight := cpa.cumulative_weight - e.weight }
            it2.q it2.q_size index with
        | fault => rw [hs] at h; simp at h
        | timeout => rw [hs] at h; simp at h
        | ok c2 => rw [hs] at h; simp at h

/-- Once the caller loop has seen the NULL, every further call returns NULL. -/
theorem iterate_until_null_then_null :
    ∀ (fuel : Nat) (cpa cpa1 : Cpa) (it it1 : Cpa_iterator) (out out1 : List Nat),
      iterate_until_null fuel cpa it out = .ok (cpa1, it1, out1) →
      cpa_iterate cpa1 it1 = .ok (cpa1, it1, none) := by
  intro fuel
  induction fuel with
  | zero => intro cpa cpa1 it it1 out out1 h; simp [iterate_until_null] at h
  | succ fuel ih =>
    intro cpa cpa1 it it1 out out1 h
    simp only [iterate_until_null] at h
    cases hc : cpa_iterate cpa it with
    | fault => rw [hc] at h; simp at h
    | timeout => rw [hc] at h; simp at h
    | ok x =>
      obtain ⟨c2, it2, r⟩ := x
      rw [hc] at h
      cases r with
      | none =>
        simp only [Outcome.ok.injEq, Prod.mk.injEq] at h
        obtain ⟨h1, h2, _⟩ := h
        subst h1 h2
        obtain ⟨e1, e2, _, _⟩ := cpa_iterate_none cpa c2 it it2 hc
        subst e1 e2
        exact hc
      | some i =>
        simp only at h
        cases he : cpa.entries[i]? with
        | none => rw [he] at h; simp at h
        | some e =>
          rw [he] at h
          exact ih _ _ _ _ _ _ h

theorem cpa_reset_size (cpa : Cpa) : (cpa_reset cpa).size = cpa.size := by
  simp [cpa_reset, Cpa.size]

theorem cpa_reset_unfound (cpa : Cpa) : ∀ e ∈ (cpa_reset cpa).entries, e.found = false := by
  intro e he
  simp only [cpa_reset, List.mem_map] at he
  obtain ⟨x, _, hx⟩ := he
  rw [← hx]

theorem payloadOf_reset (cpa : Cpa) : payloadOf (cpa_reset cpa) = payloadOf cpa := by
  funext i
  simp only [payloadOf, cpa_reset, List.getElem?_map]
  cases cpa.entries[i]? <;> rfl

/-- On any array that is not empty and holds no found entry, the caller loop
over `cpa_iterate` from a zero iterator does what `cpa_traverse` does. -/
theorem iterate_all_unfound (cpa : Cpa) (hn : 0 < cpa.size)
    (hun : ∀ e ∈ cpa.entries, e.found = false) :
    ∃ cpa1 it1,
      cpa_traverse cpa true =
        .ok (cpa1, (traversal_order cpa.size).filterMap (payloadOf cpa)) ∧
      iterate_until_null (cpa.size + 1) cpa iterator_zero [] =
        .ok (cpa1, it1, (traversal_order cpa.size).filterMap (payloadOf cpa)) := by
  obtain ⟨cpa1, h1⟩ := cpa_traverse_spec cpa hn cpa.size (le_refl _)
  have hperm := traversal_order_perm cpa.size
  have hso : stack_order cpa.size [(0, cpa.size - 1, 1)] = traversal_order cpa.size := by
    have e : ((cpa.size - 1 : Nat) : Int) = (cpa.size : Int) - 1 := by omega
    simp only [stack_order, List.append_nil, traversal_order, e, Nat.cast_zero]
  obtain ⟨it1, h2⟩ := iterate_matches_traverse cpa.size cpa.size cpa
    [(0, cpa.size - 1, 1)] [] [] 0 _ rfl
    (by intro f hf; simp only [List.mem_singleton] at hf; subst hf; simp only; omega)
    (by rw [hso]; exact hperm.nodup_iff.mpr (List.nodup_range _))
    (by
      intro i hi
      rw [hso] at hi
      have hlt : i < cpa.entries.length := by
        have := hperm.mem_iff.mp hi
        simpa using this
      exact ⟨cpa.entries[i], List.getElem?_eq_getElem hlt, hun _ (List.getElem_mem hlt)⟩)
    h1
  refine ⟨cpa1, it1, traverse_loop_mono true _ _ _ _ _ _ h1, ?_⟩
  rw [iterate_until_null_zero]
  exact h2

/-- C13: for every array of `n ≥ 1` entries, in whatever state, after
`cpa_reset` the caller loop over `cpa_iterate` with a zero-initialised iterator
returns the payload of each of the `n` entries once, in the traversal order of
`cpa_traverse`, and then returns NULL, as does every later call. -/
theorem iterate_after_reset (cpa : Cpa) (hn : 0 < cpa.size) :
    ∃ cpa1 it1,
      iterate_until_null (cpa.size + 1) (cpa_reset cpa) iterator_zero [] =
        .ok (cpa1, it1, (traversal_order cpa.size).filterMap (payloadOf cpa)) ∧
      cpa_traverse (cpa_reset cpa) true =
        .ok (cpa1, (traversal_order cpa.size).filterMap (payloadOf cpa)) ∧
      (traversal_order cpa.size).Perm (List.range cpa.size) ∧
      ((traversal_order cpa.size).filterMap (payloadOf cpa)).length = cpa.size ∧
      cpa_iterate cpa1 it1 = .ok (cpa1, it1, none) := by
  have hsz : (cpa_reset cpa).size = cpa.size := cpa_reset_size cpa
  obtain ⟨cpa1, it1, h1, h2⟩ := iterate_all_unfound (cpa_reset cpa) (by rw [hsz]; exact hn)
    (cpa_reset_unfound cpa)
  rw [hsz, payloadOf_reset] at h1 h2
  refine ⟨cpa1, it1, h2, h1, traversal_order_perm _, ?_,
    iterate_until_null_then_null _ _ _ _ _ _ _ h2⟩
  have hall : ∀ i ∈ traversal_order cpa.size, ∃ p, payloadOf cpa i = some p := by
    intro i hi
    have hlt : i < cpa.entries.length := by
      have := (traversal_order_perm cpa.size).mem_iff.mp hi
      simpa using this
    exact ⟨cpa.entries[i].data, by simp [payloadOf, List.getElem?_eq_getElem hlt]⟩
  have hlen : ∀ l : List Nat, (∀ i ∈ l, ∃ p, payloadOf cpa i = some p) →
      (l.filterMap (payloadOf cpa)).length = l.length := by
    intro l
    induction l with
    | nil => intro _; rfl
    | cons x xs ih =>
      intro hx
      obtain ⟨p, hp⟩ := hx x (List.mem_cons_self _ _)
      rw [List.filterMap_cons, hp]
      simp [ih (fun i hi => hx i (List.mem_cons_of_mem _ hi))]
  rw [hlen _ hall, (traversal_order_perm cpa.size).length_eq, List.length_range]

theorem iterate_after_reset_witness :
    0 < (linear_history scenario_cpa [5, 0]).size ∧
    ∃ cpa1 it1,
      iterate_until_null ((linear_history scenario_cpa [5, 0]).size + 1)
          (cpa_reset (linear_history scenario_cpa [5, 0])) iterator_zero [] =
        .ok (cpa1, it1, (traversal_order (linear_history scenario_cpa [5, 0]).size).filterMap
          (payloadOf (linear_history scenario_cpa [5, 0]))) ∧
      cpa_traverse (cpa_reset (linear_history scenario_cpa [5, 0])) true =
        .ok (cpa1, (traversal_order (linear_history scenario_cpa [5, 0]).size).filterMap
          (payloadOf (linear_history scenario_cpa [5, 0]))) ∧
      (traversal_order (linear_history scenario_cpa [5, 0]).size).Perm
        (List.range (linear_history scenario_cpa [5, 0]).size) ∧
      ((traversal_order (linear_history scenario_cpa [5, 0]).size).filterMap
        (payloadOf (linear_history scenario_cpa [5, 0]))).length =
        (linear_history scenario_cpa [5, 0]).size ∧
      cpa_iterate cpa1 it1 = .ok (cpa1, it1, none) :=
  ⟨by decide, iterate_after_reset (linear_history scenario_cpa [5, 0]) (by decide)⟩

/-- C14, failing input: the array with weights 1 and 2, entry 0 removed by
`cpa_binary_search` with key 0.  The first `cpa_iterate` with a zero iterator
returns entry 1, the only entry left; the next call pops the frame `(0, 0)`,
finds entry 0 already found, and pops the then empty stack, reading outside it,
instead of returning NULL. -/
theorem iterate_after_removal_faults :
    ∃ c0 c1 c2 it2,
      cpa_append_all (cpa_empty 2 0) [(101, 1), (102, 2)] = .ok c0 ∧
      cpa_binary_search c0 0 = .ok (c1, some 0) ∧
      cpa_iterate c1 iterator_zero = .ok (c2, it2, some 1) ∧
      it2.stack = [(0, 0, 2)] ∧
      cpa_iterate c2 it2 = .fault :=
  ⟨_, _, _, _, rfl, rfl, rfl, rfl, rfl⟩

/-- C15, as stated, fails: on the array with weights 1 and 2, after
`cpa_binary_search` with key 0 has removed entry 0, `cpa_traverse` hands both
payloads to `func`, the one of the removed entry included. -/
theorem traverse_visits_removed_entry :
    ∃ c0 c1 c2,
      cpa_append_all (cpa_empty 2 0) [(101, 1), (102, 2)] = .ok c0 ∧
      cpa_binary_search c0 0 = .ok (c1, some 0) ∧
      found_at c1 0 ∧ payloadOf c1 0 = some 101 ∧
      cpa_traverse c1 true = .ok (c2, [102, 101]) :=
  ⟨_, _, _, rfl, rfl, ⟨_, rfl, rfl⟩, rfl, rfl⟩

theorem traversal_payloads_length (cpa : Cpa) :
    ((traversal_order cpa.size).filterMap (payloadOf cpa)).length = cpa.size := by
  have hall : ∀ i ∈ traversal_order cpa.size, ∃ p, payloadOf cpa i = some p := by
    intro i hi
    have hlt : i < cpa.entries.length := by
      have := (traversal_order_perm cpa.size).mem_iff.mp hi
      simpa using this
    exact ⟨cpa.entries[i].data, by simp [payloadOf, List.getElem?_eq_getElem hlt]⟩
  have hlen : ∀ l : List Nat, (∀ i ∈ l, ∃ p, payloadOf cpa i = some p) →
      (l.filterMap (payloadOf cpa)).length = l.length := by
    intro l
    induction l with
    | nil => intro _; rfl
    | cons x xs ih =>
      intro hx
      obtain ⟨p, hp⟩ := hx x (List.mem_cons_self _ _)
      rw [List.filterMap_cons, hp]
      simp [ih (fun i hi => hx i (List.mem_cons_of_mem _ hi))]
  rw [hlen _ hall, (traversal_order_perm cpa.size).length_eq, List.length_range]

/-- C15, amended: on every array of `n ≥ 1` entries, whatever entries earlier
draws have removed, `cpa_traverse` calls the visit function exactly once on
each of the `n` entries, in traversal order, whether the found flag of the
entry was set or not. -/
theorem traverse_visits_every_entry (cpa : Cpa) (hn : 0 < cpa.size) :
    ∃ cpa1,
      cpa_traverse cpa true =
        .ok (cpa1, (traversal_order cpa.size).filterMap (payloadOf cpa)) ∧
      (traversal_order cpa.size).Perm (List.range cpa.size) ∧
      ((traversal_order cpa.size).filterMap (payloadOf cpa)).length = cpa.size := by
  obtain ⟨cpa1, h1⟩ := cpa_traverse_spec cpa hn (cpa.size + 1) (by omega)
  exact ⟨cpa1, h1, traversal_order_perm _, traversal_payloads_length cpa⟩

theorem traverse_visits_every_entry_witness :
    0 < (linear_history scenario_cpa [5, 0]).size ∧
    found_at (linear_history scenario_cpa [5, 0]) 2 ∧
    ∃ cpa1,
      cpa_traverse (linear_history scenario_cpa [5, 0]) true =
        .ok (cpa1, (traversal_order (linear_history scenario_cpa [5, 0]).size).filterMap
          (payloadOf (linear_history scenario_cpa [5, 0]))) ∧
      (traversal_order (linear_history scenario_cpa [5, 0]).size).Perm
        (List.range (linear_history scenario_cpa [5, 0]).size) ∧
      ((traversal_order (linear_history scenario_cpa [5, 0]).size).filterMap
        (payloadOf (linear_history scenario_cpa [5, 0]))).length =
        (linear_history scenario_cpa [5, 0]).size :=
  ⟨by decide, ⟨_, rfl, rfl⟩,
    traverse_visits_every_entry (linear_history scenario_cpa [5, 0]) (by decide)⟩

/-- The indexes `cpa_linear_search` returns for valid keys are pairwise distinct
indexes of entries that were not found at the start. -/
theorem linear_trace_distinct (keys : List Int) :
    ∀ cl : Cpa, LinearInv cl → valid_keys cl keys →
      ∃ idx : List Nat, (linear_trace cl keys).map (fun x => x.2) = idx.map some ∧
        idx.length = keys.length ∧ idx.Nodup ∧
        ∀ i ∈ idx, ∃ e, cl.entries[i]? = some e ∧ e.found = false := by
  induction keys with
  | nil =>
    intro cl _ _
    exact ⟨[], rfl, rfl, List.nodup_nil, by intro i hi; simp at hi⟩
  | cons k ks ih =>
    intro cl hl hv
    obtain ⟨hk0, hk1, hv1⟩ := hv
    obtain ⟨i, e, he, hbri, hlin⟩ := cpa_linear_search_spec cl k hl hk0 hk1
    have hfe : e.found = false := by
      unfold Brackets at hbri
      rw [he] at hbri
      exact hbri.1
    rw [hlin] at hv1
    obtain ⟨idx, h1, h2, h3, h4⟩ := ih (linear_removed cl i e)
      (LinearInv_removed cl i e hl he hfe) hv1
    have hilt : i < cl.entries.length := by
      by_contra hge
      rw [List.getElem?_eq_none (by omega)] at he
      exact Option.noConfusion he
    have hni : i ∉ idx := by
      intro hi
      obtain ⟨e1, he1, hf1⟩ := h4 i hi
      simp only [linear_removed, List.getElem?_set_self hilt, Option.some.injEq] at he1
      rw [← he1] at hf1
      exact Bool.noConfusion hf1
    refine ⟨i :: idx, ?_, by simp [h2], List.nodup_cons.mpr ⟨hni, h3⟩, ?_⟩
    · simp only [linear_trace, hlin, List.map_cons, h1]
    · intro j hj
      rcases List.mem_cons.mp hj with rfl | hj
      · exact ⟨e, he, hfe⟩
      · obtain ⟨e1, he1, hf1⟩ := h4 j hj
        have hji : i ≠ j := fun h => hni (h ▸ hj)
        simp only [linear_removed, List.getElem?_set_ne hji] at he1
        exact ⟨e1, he1, hf1⟩

theorem filterMap_range_getElem {α β : Type} (f : α → β) (l : List α) :
    (List.range l.length).filterMap (fun i => (l[i]?).map f) = l.map f := by
  induction l using List.reverseRecOn with
  | nil => rfl
  | append_singleton l a ih =>
    rw [List.length_append, List.length_singleton, List.range_succ, List.filterMap_append,
      List.map_append]
    congr 1
    · rw [← ih]
      apply List.filterMap_congr
      intro i hi
      rw [List.getElem?_append_left (List.mem_range.mp hi)]
    · simp

/-- On whole numbers, computed exactly: on an array built by `n ≥ 1` appends of
positive weights, `n` draws made all by `cpa_binary_search` or all by `cpa_linear_search`, each with
a key inside the remaining weight at the time of the call: either strategy
returns an entry at every draw, both return the same entries, and the `n`
payloads returned are the `n` appended payloads, each once. -/
theorem uniform_round_trip (size : Nat) (junk : Int) (items : List (Nat × Int))
    (cpa0 : Cpa) (keys : List Int)
    (hbuild : cpa_append_all (cpa_empty size junk) items = .ok cpa0)
    (hne : items ≠ []) (hpos : ∀ x ∈ items, 0 < x.2) (hvalid : valid_keys cpa0 keys)
    (hlen : keys.length = items.length) :
    ∃ idx : List Nat,
      (linear_trace cpa0 keys).map (fun x => x.2) = idx.map some ∧
      binary_trace cpa0 keys = .ok (linear_trace cpa0 keys) ∧
      idx.Perm (List.range items.length) ∧
      (idx.filterMap (payloadOf cpa0)).Perm (items.map (fun x => x.1)) := by
  have hl := LinearInv_built size junk items cpa0 hbuild hne hpos
  obtain ⟨hb, _⟩ := twin_traces keys cpa0 cpa0
    (BinaryInv_built size junk items cpa0 hbuild hne hpos) hl rfl hvalid
  obtain ⟨hsz, hpay⟩ := built_size size junk items cpa0 hbuild
  obtain ⟨idx, h1, h2, h3, h4⟩ := linear_trace_distinct keys cpa0 hl hvalid
  have hsub : idx ⊆ List.range items.length := by
    intro i hi
    obtain ⟨e, he, _⟩ := h4 i hi
    have hilt : i < cpa0.entries.length := by
      by_contra hge
      rw [List.getElem?_eq_none (by omega)] at he
      exact Option.noConfusion he
    rw [List.mem_range, ← hsz]
    exact hilt
  have hperm : idx.Perm (List.range items.length) :=
    (List.subperm_of_subset h3 hsub).perm_of_length_le
      (by rw [List.length_range, h2, hlen])
  refine ⟨idx, h1, hb, hperm, ?_⟩
  have hr : (List.range items.length).filterMap (payloadOf cpa0) =
      items.map (fun x => x.1) := by
    rw [← filterMap_range_getElem (fun x : Nat × Int => x.1) items]
    congr 1
    funext j
    exact hpay j
  rw [← hr]
  exact hperm.filterMap _

theorem bind_eq_ok {α β : Type} (x : Outcome α) (f : α → Outcome β) (b : β) :
    (x >>= f) = .ok b ↔ ∃ a, x = .ok a ∧ f a = .ok b := by
  cases x with
  | ok a =>
    constructor
    · intro h; exact ⟨a, rfl, h⟩
    · rintro ⟨a1, h1, h2⟩
      cases h1
      exact h2
  | fault =>
    constructor
    · intro h; exact Outcome.noConfusion h
    · rintro ⟨a1, h1, _⟩; exact Outcome.noConfusion h1
  | timeout =>
    constructor
    · intro h; exact Outcome.noConfusion h
    · rintro ⟨a1, h1, _⟩; exact Outcome.noConfusion h1

theorem ok_bind {α β : Type} (a : α) (f : α → Outcome β) : (Outcome.ok a >>= f) = f a := rfl

theorem fault_bind {α β : Type} (f : α → Outcome β) :
    ((Outcome.fault : Outcome α) >>= f) = .fault := rfl

theorem pure_eq_ok {α : Type} (a b : α) : (pure a : Outcome α) = .ok b ↔ a = b := by
  constructor
  · intro h; exact Outcome.ok.inj h
  · intro h; rw [h]; rfl

theorem read_eq_ok {α : Type} (xs : List α) (i : Nat) (x : α) :
    read xs i = .ok x ↔ xs[i]? = some x := by
  unfold read
  cases xs[i]? with
  | none => simp
  | some y => simp

theorem assert_found_eq_ok (p : Option Nat) (i : Nat) : assert_found p = .ok i ↔ p = some i := by
  cases p <;> simp [assert_found]

theorem partner_of_lt (population : List Indiv) (a b : Nat)
    (h : partner_of population a = some b) : a < population.length := by
  by_contra hge
  unfold partner_of at h
  rw [List.getElem?_eq_none (by omega)] at h
  exact Option.noConfusion h

/-- What `set_partner` does inside the population. -/
theorem set_partner_spec (population : List Indiv) (i : Nat) (p : Option Nat)
    (hi : i < population.length) :
    ∃ pop1, set_partner population i p = .ok pop1 ∧ pop1.length = population.length ∧
      (∀ x, partner_of pop1 x = if x = i then p else partner_of population x) ∧
      (∀ x : Nat, (pop1[x]?).map other_fields = (population[x]?).map other_fields) := by
  unfold set_partner
  rw [List.getElem?_eq_getElem hi]
  refine ⟨_, rfl, List.length_set _ _ _, ?_, ?_⟩
  · intro x
    unfold partner_of
    by_cases hx : x = i
    · subst hx
      simp [List.getElem?_set_self hi]
    · rw [if_neg hx, List.getElem?_set_ne (Ne.symm hx)]
  · intro x
    by_cases hx : x = i
    · subst hx
      simp [List.getElem?_set_self hi, List.getElem?_eq_getElem hi, other_fields]
    · rw [List.getElem?_set_ne (Ne.symm hx)]

/-- What the four link statements do to a population with mutual partnerships. -/
theorem link_spec (population : List Indiv) (f t : Nat) (hf : f < population.length)
    (ht : t < population.length) (hft : f ≠ t) (hc : Consistent population) :
    ∃ pop1, link population f t = .ok pop1 ∧ pop1.length = population.length ∧
      (∀ x : Nat, (pop1[x]?).map other_fields = (population[x]?).map other_fields) ∧
      (∀ x, partner_of pop1 x =
        if x = f then some t else if x = t then some f
        else if partner_of population f = some x ∨ partner_of population t = some x then none
        else partner_of population x) := by
  unfold link
  have hrf : read population f = .ok population[f] := by
    rw [read_eq_ok]; exact List.getElem?_eq_getElem hf
  rw [hrf, ok_bind]
  have hpf : partner_of population f = population[f].partner := by
    simp [partner_of, List.getElem?_eq_getElem hf]
  -- the first release
  have h1 : ∃ p1, release population population[f].partner = Outcome.ok p1 ∧ p1.length = population.length ∧
      (∀ x, partner_of p1 x =
        if partner_of population f = some x then none else partner_of population x) ∧
      (∀ x : Nat, (p1[x]?).map other_fields = (population[x]?).map other_fields) := by
    cases hb : population[f].partner with
    | none =>
      refine ⟨population, rfl, rfl, ?_, fun _ => rfl⟩
      intro x
      rw [hpf, hb]
      simp
    | some b =>
      have hbl : b < population.length :=
        partner_of_lt population b f (hc f b (by rw [hpf, hb]))
      obtain ⟨p1, e1, l1, q1, o1⟩ := set_partner_spec population b none hbl
      refine ⟨p1, e1, l1, ?_, o1⟩
      intro x
      rw [q1 x, hpf, hb]
      by_cases hx : x = b
      · subst hx; simp
      · rw [if_neg hx, if_neg (by intro h; exact hx (Option.some.inj h).symm)]
  obtain ⟨p1, e1, l1, q1, o1⟩ := h1
  rw [e1, ok_bind]
  obtain ⟨p2, e2, l2, q2, o2⟩ := set_partner_spec p1 f (some t) (by omega)
  rw [e2, ok_bind]
  have ht2 : t < p2.length := by omega
  have hrt : read p2 t = .ok p2[t] := by
    rw [read_eq_ok]; exact List.getElem?_eq_getElem ht2
  rw [hrt, ok_bind]
  have hpt : partner_of p2 t = p2[t].partner := by
    simp [partner_of, List.getElem?_eq_getElem ht2]
  have hp2t : partner_of p2 t =
      if partner_of population f = some t then none else partner_of population t := by
    rw [q2 t, if_neg (Ne.symm hft), q1 t]
  have h3 : ∃ p3, release p2 p2[t].partner = Outcome.ok p3 ∧ p3.length = population.length ∧
      (∀ x, partner_of p3 x = if partner_of p2 t = some x then none else partner_of p2 x) ∧
      (∀ x : Nat, (p3[x]?).map other_fields = (p2[x]?).map other_fields) := by
    cases hd : p2[t].partner with
    | none =>
      refine ⟨p2, rfl, by omega, ?_, fun _ => rfl⟩
      intro x
      rw [hpt, hd]
      simp
    | some d =>
      have hd0 : partner_of population t = some d := by
        rw [hpt, hd] at hp2t
        by_cases hq : partner_of population f = some t
        · rw [if_pos hq] at hp2t; exact Option.noConfusion hp2t
        · rw [if_neg hq] at hp2t; exact hp2t.symm
      have hdl : d < p2.length := by
        have := partner_of_lt population d t (hc t d hd0)
        omega
      obtain ⟨p3, e3, l3, q3, o3⟩ := set_partner_spec p2 d none hdl
      refine ⟨p3, e3, by omega, ?_, o3⟩
      intro x
      rw [q3 x, hpt, hd]
      by_cases hx : x = d
      · subst hx; simp
      · rw [if_neg hx, if_neg (by intro h; exact hx (Option.some.inj h).symm)]
  obtain ⟨p3, e3, l3, q3, o3⟩ := h3
  rw [e3, ok_bind]
  obtain ⟨p4, e4, l4, q4, o4⟩ := set_partner_spec p3 t (some f) (by omega)
  refine ⟨p4, e4, by omega, ?_, ?_⟩
  · intro x
    rw [o4 x, o3 x, o2 x, o1 x]
  · intro x
    rw [q4 x]
    by_cases hxt : x = t
    · subst hxt
      rw [if_pos rfl, if_neg (Ne.symm hft), if_pos rfl]
    · rw [if_neg hxt, q3 x, hp2t, q2 x]
      by_cases hxf : x = f
      · subst hxf
        rw [if_pos rfl, if_pos rfl]
        by_cases hq : partner_of population x = some t
        · rw [if_pos hq]; simp
        · rw [if_neg hq]
          have : partner_of population t ≠ some x := fun h => hq (hc t x h)
          rw [if_neg this]
      · rw [if_neg hxf, if_neg hxf, if_neg hxt, q1 x]
        by_cases hq : partner_of population f = some t
        · rw [if_pos hq]
          have h1 : partner_of population f ≠ some x := by
            rw [hq]; intro h; exact hxt (Option.some.inj h).symm
          have h2 : partner_of population t ≠ some x := by
            rw [hc f t hq]; intro h; exact hxf (Option.some.inj h).symm
          simp [h1, h2]
        · rw [if_neg hq]
          by_cases h1 : partner_of population f = some x
          · simp [h1]
          · by_cases h2 : partner_of population t = some x
            · simp [h2]
            · simp [h1, h2]

/-- The link statements keep partnerships mutual. -/
theorem link_consistent (population pop1 : List Indiv) (f t : Nat)
    (hft : f ≠ t) (hc : Consistent population)
    (hp : ∀ x, partner_of pop1 x =
        if x = f then some t else if x = t then some f
        else if partner_of population f = some x ∨ partner_of population t = some x then none
        else partner_of population x) : Consistent pop1 := by
  intro a b hab
  rw [hp a] at hab
  rw [hp b]
  by_cases haf : a = f
  · subst haf
    rw [if_pos rfl] at hab
    have hb : b = t := (Option.some.inj hab).symm
    subst hb
    rw [if_neg (Ne.symm hft), if_pos rfl]
  · rw [if_neg haf] at hab
    by_cases hat : a = t
    · subst hat
      rw [if_pos rfl] at hab
      have hb : b = f := (Option.some.inj hab).symm
      subst hb
      rw [if_pos rfl]
    · rw [if_neg hat] at hab
      by_cases hq : partner_of population f = some a ∨ partner_of population t = some a
      · rw [if_pos hq] at hab; exact Option.noConfusion hab
      · rw [if_neg hq] at hab
        have hba := hc a b hab
        have hbf : b ≠ f := by
          intro h; subst h; exact hq (Or.inl hba)
        have hbt : b ≠ t := by
          intro h; subst h; exact hq (Or.inr hba)
        rw [if_neg hbf, if_neg hbt]
        have hq2 : ¬ (partner_of population f = some b ∨ partner_of population t = some b) := by
          rintro (h | h)
          · have := hc f b h
            rw [hba] at this
            exact haf (Option.some.inj this)
          · have := hc t b h
            rw [hba] at this
            exact hat (Option.some.inj this)
        rw [if_neg hq2]
        exact hba

theorem consistent_of_check (population : List Indiv) (h : consistent_check population = true) :
    Consistent population := by
  intro a b hab
  have ha := partner_of_lt population a b hab
  unfold consistent_check at h
  rw [List.all_eq_true] at h
  have := h a (List.mem_range.mpr ha)
  rw [hab] at this
  simpa using this

/-- C18: the link statements, run on the 'from' individual F and the 'to'
individual T the loop drew, two different individuals of a population with
mutually consistent partnerships of which neither is its own partner, where
F.partner = B and T.partner = D beforehand (either possibly none), leave
F.partner = T and T.partner = F, B.partner = none if B exists and B is not T,
D.partner = none if D exists and D is not F, and the partner of every other
individual as it was; every other field of every individual stays and the
partnerships are mutually consistent again. -/
theorem link_effect (population : List Indiv) (f t : Nat) (hf : f < population.length)
    (ht : t < population.length) (hft : f ≠ t) (hc : Consistent population)
    (hsf : partner_of population f ≠ some f) (hst : partner_of population t ≠ some t) :
    ∃ pop1, link population f t = .ok pop1 ∧
      partner_of pop1 f = some t ∧ partner_of pop1 t = some f ∧
      (∀ b, partner_of population f = some b → b ≠ t → partner_of pop1 b = none) ∧
      (∀ d, partner_of population t = some d → d ≠ f → partner_of pop1 d = none) ∧
      (∀ x, x ≠ f → x ≠ t → partner_of population f ≠ some x →
        partner_of population t ≠ some x → partner_of pop1 x = partner_of population x) ∧
      pop1.length = population.length ∧
      (∀ x : Nat, (pop1[x]?).map other_fields = (population[x]?).map other_fields) ∧
      Consistent pop1 := by
  obtain ⟨pop1, h1, h2, h3, h4⟩ := link_spec population f t hf ht hft hc
  refine ⟨pop1, h1, ?_, ?_, ?_, ?_, ?_, h2, h3,
    link_consistent population pop1 f t hft hc h4⟩
  · rw [h4 f, if_pos rfl]
  · rw [h4 t, if_neg (Ne.symm hft), if_pos rfl]
  · intro b hb hbt
    have hbf : b ≠ f := fun e => hsf (e ▸ hb)
    rw [h4 b, if_neg hbf, if_neg hbt, if_pos (Or.inl hb)]
  · intro d hd hdf
    have hdt : d ≠ t := fun e => hst (e ▸ hd)
    rw [h4 d, if_neg hdf, if_neg hdt, if_pos (Or.inr hd)]
  · intro x hxf hxt h5 h6
    rw [h4 x, if_neg hxf, if_neg hxt, if_neg (by tauto)]

theorem link_effect_witness :
    ∃ pop1,
      link [{ person MALE 20 HIGH with partner := some 1 },
            { person FEMALE 22 LOW with partner := some 0 }, person FEMALE 30 HIGH] 0 2 =
        .ok pop1 ∧
      partner_of pop1 0 = some 2 ∧ partner_of pop1 2 = some 0 ∧ partner_of pop1 1 = none := by
  obtain ⟨pop1, h1, h2, h3, h4, _⟩ := link_effect
    [{ person MALE 20 HIGH with partner := some 1 },
     { person FEMALE 22 LOW with partner := some 0 }, person FEMALE 30 HIGH] 0 2
    (by decide) (by decide) (by decide) (consistent_of_check _ (by decide))
    (by decide) (by decide)
  exact ⟨pop1, h1, h2, h3, h4 1 rfl (by decide)⟩

theorem timeout_bind {α β : Type} (f : α → Outcome β) :
    ((Outcome.timeout : Outcome α) >>= f) = .timeout := rfl

theorem map_ok {α β : Type} (f : α → β) (a : α) : f <$> Outcome.ok a = Outcome.ok (f a) := rfl

theorem map_fault {α β : Type} (f : α → β) : f <$> (Outcome.fault : Outcome α) = .fault := rfl

theorem map_timeout {α β : Type} (f : α → β) :
    f <$> (Outcome.timeout : Outcome α) = .timeout := rfl

theorem clear_junk_idem (c : Cpa) : clear_junk (clear_junk c) = clear_junk c := by
  unfold clear_junk
  by_cases h : c.entries = []
  · simp [h]
  · simp [h]

theorem clear_junk_entries (c : Cpa) : (clear_junk c).entries = c.entries := by
  unfold clear_junk
  split <;> rfl

theorem cpa_append_clear_junk (c : Cpa) (d : Nat) (w : Int) :
    cpa_append (clear_junk c) d w = cpa_append c d w := by
  unfold clear_junk
  by_cases h : c.entries = []
  · rw [if_pos h]
    unfold cpa_append
    simp [Cpa.size, h]
  · rw [if_neg h]

theorem cpa_append_nonempty (c c1 : Cpa) (d : Nat) (w : Int) (h : cpa_append c d w = .ok c1) :
    clear_junk c1 = c1 := by
  unfold cpa_append at h
  split at h
  · exact Outcome.noConfusion h
  · split at h
    · exact Outcome.noConfusion h
    · simp only [Outcome.ok.injEq] at h
      subst h
      simp [clear_junk]

theorem read_map {α β : Type} (f : α → β) (xs : List α) (i : Nat) :
    read (xs.map f) i = f <$> read xs i := by
  unfold read
  rw [List.getElem?_map]
  cases xs[i]? <;> rfl

/-- The appends of `match_pair` do not depend on what `cpa_new` left in the
field `cumulative_weight` of the arrays. -/
theorem assign_clear_junk (generate_weight : Indiv → Nat) (population : List Indiv) :
    ∀ (l : List Nat) (cpa : List Cpa),
      (List.map clear_junk) <$> assign generate_weight population l cpa =
        (List.map clear_junk) <$> assign generate_weight population l (cpa.map clear_junk) := by
  intro l
  induction l with
  | nil =>
    intro cpa
    simp only [assign, map_ok, List.map_map]
    congr 2
    funext c
    exact (clear_junk_idem c).symm
  | cons i rest ih =>
    intro cpa
    simp only [assign]
    cases hr : read population i with
    | fault => rfl
    | timeout => rfl
    | ok ind =>
      simp only [ok_bind]
      by_cases he : ind.eligible = true
      · simp only [he, if_true]
        rw [read_map]
        cases hc : read cpa (index ind.sex ind.risk_group ind.age_group) with
        | fault => rfl
        | timeout => rfl
        | ok c =>
          simp only [ok_bind, map_ok, cpa_append_clear_junk]
          cases ha : cpa_append c i (generate_weight ind) with
          | fault => rfl
          | timeout => rfl
          | ok c1 =>
            simp only [ok_bind]
            rw [ih (cpa.set _ c1), List.map_set, cpa_append_nonempty c c1 _ _ ha]
      · simp only [he]
        exact ih cpa

theorem cpa_new_clear_junk (size : Nat) (j j1 : Int) :
    ∃ c c1, cpa_new size none (fun _ => 0) j = .ok c ∧
      cpa_new size none (fun _ => 0) j1 = .ok c1 ∧ clear_junk c = clear_junk c1 := by
  unfold cpa_new
  by_cases h : size = 0
  · simp only [h, if_true]
    exact ⟨_, _, rfl, rfl, by simp [clear_junk]⟩
  · simp only [h, if_false]
    exact ⟨_, _, rfl, rfl, by simp [clear_junk, cpa_empty]⟩

theorem new_cpas_clear_junk (junk : Nat → Int) :
    ∀ (sizes : List Nat) (first : Nat),
      (List.map clear_junk) <$> new_cpas junk sizes first =
        (List.map clear_junk) <$> new_cpas (fun _ => 0) sizes first := by
  intro sizes
  induction sizes with
  | nil => intro first; rfl
  | cons size rest ih =>
    intro first
    simp only [new_cpas]
    obtain ⟨c, c1, e, e1, hcc⟩ := cpa_new_clear_junk size (junk first) 0
    rw [e, e1]
    simp only [ok_bind]
    have ih1 := ih (first + 1)
    cases ha : new_cpas junk rest (first + 1) with
    | fault =>
      rw [ha] at ih1
      cases hb : new_cpas (fun _ => 0) rest (first + 1) with
      | fault => rfl
      | timeout => rw [hb] at ih1; exact Outcome.noConfusion ih1
      | ok b => rw [hb] at ih1; exact Outcome.noConfusion ih1
    | timeout =>
      rw [ha] at ih1
      cases hb : new_cpas (fun _ => 0) rest (first + 1) with
      | fault => rw [hb] at ih1; exact Outcome.noConfusion ih1
      | timeout => rfl
      | ok b => rw [hb] at ih1; exact Outcome.noConfusion ih1
    | ok a =>
      rw [ha] at ih1
      cases hb : new_cpas (fun _ => 0) rest (first + 1) with
      | fault => rw [hb] at ih1; exact Outcome.noConfusion ih1
      | timeout => rw [hb] at ih1; exact Outcome.noConfusion ih1
      | ok b =>
        rw [hb] at ih1
        simp only [map_ok, Outcome.ok.injEq] at ih1
        simp only [ok_bind, map_ok, pure, List.map_cons, Outcome.ok.injEq, List.cons.injEq]
        exact ⟨hcc, ih1⟩

theorem non_empty_scan_clear_junk (cpa : List Cpa) (sex risk : Nat) :
    ∀ l : List Nat, non_empty_scan (cpa.map clear_junk) sex risk l =
      non_empty_scan cpa sex risk l := by
  intro l
  induction l with
  | nil => rfl
  | cons i rest ih =>
    simp only [non_empty_scan]
    rw [read_map, ih]
    cases read cpa (index sex risk i) with
    | fault => rfl
    | timeout => rfl
    | ok c =>
      simp only [map_ok, ok_bind, Cpa.size, clear_junk_entries]


theorem map_eq_cases {α β : Type} (f : α → β) (x y : Outcome α) (h : f <$> x = f <$> y) :
    (x = .fault ∧ y = .fault) ∨ (x = .timeout ∧ y = .timeout) ∨
      ∃ a b, x = .ok a ∧ y = .ok b ∧ f a = f b := by
  cases x with
  | fault =>
    cases y with
    | fault => exact Or.inl ⟨rfl, rfl⟩
    | timeout => exact Outcome.noConfusion h
    | ok b => exact Outcome.noConfusion h
  | timeout =>
    cases y with
    | fault => exact Outcome.noConfusion h
    | timeout => exact Or.inr (Or.inl ⟨rfl, rfl⟩)
    | ok b => exact Outcome.noConfusion h
  | ok a =>
    cases y with
    | fault => exact Outcome.noConfusion h
    | timeout => exact Outcome.noConfusion h
    | ok b => exact Or.inr (Or.inr ⟨a, b, rfl, rfl, Outcome.ok.inj h⟩)

theorem non_empty_cpa_congr (cpa cpa1 : List Cpa) (sex risk : Nat)
    (h : cpa.map clear_junk = cpa1.map clear_junk) :
    non_empty_cpa cpa sex risk = non_empty_cpa cpa1 sex risk := by
  unfold non_empty_cpa
  rw [← non_empty_scan_clear_junk cpa, h, non_empty_scan_clear_junk]

/-- The population and the arrays that the first part of `match_pair` builds do
not depend on what `cpa_new` left in the field `cumulative_weight`, up to that
field in the arrays that stay empty. -/
theorem match_arrays_junk (can_pair : Option Indiv → Bool) (generate_weight : Indiv → Nat)
    (junk : Nat → Int) (indices : List Nat) (population : List Indiv) :
    (fun y => (y.1, y.2.map clear_junk)) <$>
        match_arrays can_pair generate_weight junk indices population =
      (fun y => (y.1, y.2.map clear_junk)) <$>
        match_arrays can_pair generate_weight (fun _ => 0) indices population := by
  unfold match_arrays
  cases count_eligible can_pair population (List.replicate NUM_CPA 0) with
  | fault => rfl
  | timeout => rfl
  | ok x =>
    simp only [ok_bind]
    rcases map_eq_cases _ _ _ (new_cpas_clear_junk junk x.2 0) with
      ⟨h1, h2⟩ | ⟨h1, h2⟩ | ⟨a, b, h1, h2, hab⟩
    · rw [h1, h2]
    · rw [h1, h2]
    · rw [h1, h2]
      simp only [ok_bind]
      have hassign : (List.map clear_junk) <$> assign generate_weight x.1 indices a =
          (List.map clear_junk) <$> assign generate_weight x.1 indices b := by
        rw [assign_clear_junk generate_weight x.1 indices a,
          assign_clear_junk generate_weight x.1 indices b, hab]
      rcases map_eq_cases _ _ _ hassign with ⟨h1, h2⟩ | ⟨h1, h2⟩ | ⟨c, d, h1, h2, hcd⟩
      · rw [h1, h2]
      · rw [h1, h2]
      · rw [h1, h2]
        simp only [ok_bind, pure, map_ok, hcd]

/-- The population and the vectors `age_groups` that `match_pair` computes before
its loop do not depend on what `cpa_new` left in the field `cumulative_weight`. -/
theorem match_init_junk (can_pair : Option Indiv → Bool) (generate_weight : Indiv → Nat)
    (junk : Nat → Int) (indices : List Nat) (population : List Indiv) :
    (fun x => (x.1, x.2.2)) <$> match_init can_pair generate_weight junk indices population =
      (fun x => (x.1, x.2.2)) <$>
        match_init can_pair generate_weight (fun _ => 0) indices population := by
  unfold match_init
  rcases map_eq_cases _ _ _
      (match_arrays_junk can_pair generate_weight junk indices population) with
    ⟨h1, h2⟩ | ⟨h1, h2⟩ | ⟨c, d, h1, h2, hcd⟩
  · rw [h1, h2]
  · rw [h1, h2]
  · rw [h1, h2]
    simp only [ok_bind]
    simp only [Prod.mk.injEq] at hcd
    obtain ⟨hp, hcd⟩ := hcd
    rw [non_empty_cpa_congr c.2 d.2 MALE HIGH hcd, non_empty_cpa_congr c.2 d.2 FEMALE HIGH hcd,
      non_empty_cpa_congr c.2 d.2 MALE LOW hcd, non_empty_cpa_congr c.2 d.2 FEMALE LOW hcd, hp]
    cases non_empty_cpa d.2 MALE HIGH with
    | fault => rfl
    | timeout => rfl
    | ok g1 =>
      cases non_empty_cpa d.2 FEMALE HIGH with
      | fault => rfl
      | timeout => rfl
      | ok g2 =>
        cases non_empty_cpa d.2 MALE LOW with
        | fault => rfl
        | timeout => rfl
        | ok g3 =>
          cases non_empty_cpa d.2 FEMALE LOW with
          | fault => rfl
          | timeout => rfl
          | ok g4 => rfl

/-- With both vectors of HIGH risk age groups empty the loop of `match_pair`
does not run. -/
theorem match_loop_exit (gen : Generator)
    (select_age_group : Nat → List Nat → Indiv → Outcome (Nat × Nat)) (fuel : Nat)
    (st : Match_state) (g0 g2 : List Nat) (h : st.age_groups = [g0, [], g2, []]) :
    match_loop gen select_age_group fuel st = .ok st := by
  cases fuel with
  | zero => simp [match_loop, h, read, MALE, FEMALE, HIGH, ok_bind, pure]
  | succ fuel => simp [match_loop, h, read, MALE, FEMALE, HIGH, ok_bind, pure]

set_option maxRecDepth 100000 in
/-- The four individuals of the scenario go to four different arrays, so the
arrays the appends build are the same for every order of the indices. -/
theorem scenario_arrays :
    ∀ indices ∈ [[0, 1, 2, 3], [1, 0, 2, 3], [2, 1, 0, 3], [1, 2, 0, 3], [2, 0, 1, 3],
      [0, 2, 1, 3], [3, 2, 1, 0], [2, 3, 1, 0], [3, 1, 2, 0], [1, 3, 2, 0], [2, 1, 3, 0],
      [1, 2, 3, 0], [3, 0, 1, 2], [0, 3, 1, 2], [3, 1, 0, 2], [1, 3, 0, 2], [0, 1, 3, 2],
      [1, 0, 3, 2], [3, 0, 2, 1], [0, 3, 2, 1], [3, 2, 0, 1], [2, 3, 0, 1], [0, 2, 3, 1],
      [2, 0, 3, 1]],
      match_arrays can_pair_default generate_weight_default (fun _ => 0) indices
        scenario_population =
      match_arrays can_pair_default generate_weight_default (fun _ => 0) [0, 1, 2, 3]
        scenario_population := by
  decide

set_option maxRecDepth 100000 in
theorem scenario_init_ordered :
    (fun x => (x.1, x.2.2)) <$> match_init can_pair_default generate_weight_default
        (fun _ => 0) [0, 1, 2, 3] scenario_population =
      .ok (scenario_population.map (fun ind => { ind with eligible := true }),
        [[4, 9], [], [4, 9], []]) := by
  decide

theorem scenario_init (indices : List Nat)
    (h : indices ∈ [[0, 1, 2, 3], [1, 0, 2, 3], [2, 1, 0, 3], [1, 2, 0, 3], [2, 0, 1, 3],
      [0, 2, 1, 3], [3, 2, 1, 0], [2, 3, 1, 0], [3, 1, 2, 0], [1, 3, 2, 0], [2, 1, 3, 0],
      [1, 2, 3, 0], [3, 0, 1, 2], [0, 3, 1, 2], [3, 1, 0, 2], [1, 3, 0, 2], [0, 1, 3, 2],
      [1, 0, 3, 2], [3, 0, 2, 1], [0, 3, 2, 1], [3, 2, 0, 1], [2, 3, 0, 1], [0, 2, 3, 1],
      [2, 0, 3, 1]]) :
    (fun x => (x.1, x.2.2)) <$> match_init can_pair_default generate_weight_default
        (fun _ => 0) indices scenario_population =
      .ok (scenario_population.map (fun ind => { ind with eligible := true }),
        [[4, 9], [], [4, 9], []]) := by
  rw [← scenario_init_ordered]
  unfold match_init
  rw [scenario_arrays indices h]

set_option maxRecDepth 100000 in
/-- C17, as stated, fails: with the indices left in their order and the
generator that draws the lower bounds, `match_pair` returns with every
individual of the scenario still without partner. -/
theorem scenario_nobody_matched :
    ∃ st,
      match_pair gen_low can_pair_default (select_age_group_default gen_low)
        generate_weight_default (fun _ => 0) [0, 1, 2, 3] 0 scenario_population = .ok st ∧
      st.population.map (fun ind => ind.partner) = [none, none, none, none] ∧
      st.linked = [] :=
  ⟨_, rfl, rfl, rfl⟩

theorem range_four_permutations (indices : List Nat) (h : indices.Perm (List.range 4)) :
    indices ∈ [[0, 1, 2, 3], [1, 0, 2, 3], [2, 1, 0, 3], [1, 2, 0, 3], [2, 0, 1, 3],
      [0, 2, 1, 3], [3, 2, 1, 0], [2, 3, 1, 0], [3, 1, 2, 0], [1, 3, 2, 0], [2, 1, 3, 0],
      [1, 2, 3, 0], [3, 0, 1, 2], [0, 3, 1, 2], [3, 1, 0, 2], [1, 3, 0, 2], [0, 1, 3, 2],
      [1, 0, 3, 2], [3, 0, 2, 1], [0, 3, 2, 1], [3, 2, 0, 1], [2, 3, 0, 1], [0, 2, 3, 1],
      [2, 0, 3, 1]] := by
  have hl : indices.length = 4 := h.length_eq
  have hn : indices.Nodup := h.nodup_iff.mpr (List.nodup_range 4)
  have hm : ∀ x ∈ indices, x < 4 := fun x hx => List.mem_range.mp (h.mem_iff.mp hx)
  match indices, hl, hn, hm with
  | [a, b, c, d], _, hn, hm =>
    have ha : a < 4 := hm a (by simp)
    have hb : b < 4 := hm b (by simp)
    have hc : c < 4 := hm c (by simp)
    have hd : d < 4 := hm d (by simp)
    clear hm
    interval_cases a <;> interval_cases b <;> interval_cases c <;> interval_cases d <;>
      first
        | (exfalso; revert hn; decide)
        | decide

/-- C17, amended: for the population of two males of age 20 and 45 and two
females of age 22 and 46, all of risk group LOW and without partner, one
`match_pair` call with the default callbacks returns, whatever the shuffle and
the generator, without having linked anybody: its loop runs only while an array
of HIGH risk individuals is left, so every individual still has no partner. -/
theorem scenario_low_risk_unmatched (gen : Generator) (junk : Nat → Int) (rand : Nat)
    (indices : List Nat) (h : indices.Perm (List.range 4)) :
    ∃ st,
      match_pair gen can_pair_default (select_age_group_default gen)
        generate_weight_default junk indices rand scenario_population = .ok st ∧
      st.linked = [] ∧
      st.population = scenario_population.map (fun ind => { ind with eligible := true }) ∧
      st.population.map (fun ind => ind.partner) = [none, none, none, none] ∧
      st.age_groups = [[4, 9], [], [4, 9], []] := by
  have h0 := scenario_init indices (range_four_permutations indices h)
  have hj := match_init_junk can_pair_default generate_weight_default junk indices
    scenario_population
  rw [h0] at hj
  cases hx : match_init can_pair_default generate_weight_default junk indices
      scenario_population with
  | fault => rw [hx] at hj; exact Outcome.noConfusion hj
  | timeout => rw [hx] at hj; exact Outcome.noConfusion hj
  | ok x =>
    rw [hx] at hj
    simp only [map_ok, Outcome.ok.injEq, Prod.mk.injEq] at hj
    obtain ⟨hp, hg⟩ := hj
    unfold match_pair
    rw [hx, ok_bind, match_loop_exit gen _ _ _ [4, 9] [4, 9] hg]
    exact ⟨_, rfl, rfl, hp, by rw [hp]; rfl, hg⟩

theorem scenario_low_risk_unmatched_witness :
    ∃ st,
      match_pair gen_low can_pair_default (select_age_group_default gen_low)
        generate_weight_default (fun _ => 0) [2, 0, 3, 1] 7 scenario_population = .ok st ∧
      st.linked = [] ∧
      st.population = scenario_population.map (fun ind => { ind with eligible := true }) ∧
      st.population.map (fun ind => ind.partner) = [none, none, none, none] ∧
      st.age_groups = [[4, 9], [], [4, 9], []] :=
  scenario_low_risk_unmatched gen_low (fun _ => 0) 7 [2, 0, 3, 1] (by decide)

/-- On an empty vector `search_age_groups` reads `age_group[0]`: `high` wraps to
`UINT_MAX` and the midpoint `(low + high + 1) / 2` wraps to 0. -/
theorem search_age_groups_empty (gen : Generator) (r key : Nat) :
    search_age_groups gen r [] key = .fault := by
  simp [search_age_groups, search_age_groups_loop]

set_option maxRecDepth 100000 in
/-- C20, failing input: a population of one male of HIGH risk (age 20, age
group 4), and a population of two such males and one female of LOW risk.  In
the first the loop draws the male and finds both vectors of female age groups
empty; in the second the first round links the first male and the female and
the second round draws the other male with no female left.  The empty vector
goes to `select_age_group`, and `search_age_groups` reads outside it. -/
theorem no_target_left_faults :
    in_range (person MALE 20 HIGH) ∧ in_range (person MALE 30 HIGH) ∧
    in_range (person FEMALE 22 LOW) ∧
    (fun x => x.2.2) <$> match_init can_pair_default generate_weight_default (fun _ => 0) [0]
      [person MALE 20 HIGH] = .ok [[], [4], [], []] ∧
    match_pair gen_low can_pair_default (select_age_group_default gen_low)
      generate_weight_default (fun _ => 0) [0] 0 [person MALE 20 HIGH] = .fault ∧
    (fun x => x.2.2) <$> match_init can_pair_default generate_weight_default (fun _ => 0)
      [0, 1, 2] [person MALE 20 HIGH, person MALE 30 HIGH, person FEMALE 22 LOW] =
        .ok [[], [4, 6], [4], []] ∧
    match_pair gen_low can_pair_default (select_age_group_default gen_low)
      generate_weight_default (fun _ => 0) [0, 1, 2] 0
      [person MALE 20 HIGH, person MALE 30 HIGH, person FEMALE 22 LOW] = .fault := by
  refine ⟨by decide, by decide, by decide, ?_, ?_, ?_, ?_⟩ <;> decide

/-- No call changes a payload. -/
theorem do_call_data (cpa cpa1 : Cpa) (op : Call) (r : Option Nat)
    (h : do_call cpa op = .ok (cpa1, r)) :
    cpa1.entries.map (fun e => e.data) = cpa.entries.map (fun e => e.data) := by
  rcases do_call_effect cpa cpa1 op r h with ⟨_, hc⟩ | ⟨i, e, _, he, _, hcore, _, _⟩
  · rw [hc]
  · have h1 : ∀ es : List Cpa_entry,
        es.map (fun e => e.data) = (es.map core).map (fun x => x.1) := by
      intro es
      rw [List.map_map]
      rfl
    rw [h1, hcore, ← h1]
    apply List.ext_getElem?
    intro j
    rw [List.getElem?_map, List.getElem?_map]
    by_cases hij : i = j
    · subst hij
      rw [List.getElem?_set_self', he]
      rfl
    · rw [List.getElem?_set_ne hij]

theorem Placed_set (population : List Indiv) (cpa : List Cpa) (j : Nat) (c c1 : Cpa)
    (hp : Placed population cpa) (hc : cpa[j]? = some c)
    (hd : c1.entries.map (fun e => e.data) = c.entries.map (fun e => e.data)) :
    Placed population (cpa.set j c1) := by
  intro k ck hk d hdm
  by_cases hjk : j = k
  · subst hjk
    have hlt : j < cpa.length := (List.getElem?_eq_some_iff.mp hc).1
    rw [List.getElem?_set_self hlt] at hk
    cases hk
    rw [hd] at hdm
    exact hp j c hc d hdm
  · rw [List.getElem?_set_ne hjk] at hk
    exact hp k ck hk d hdm

theorem stratum_of_fields (a b : Indiv) (h : other_fields a = other_fields b) :
    stratum a = stratum b := by
  simp only [other_fields, Prod.mk.injEq] at h
  unfold stratum
  rw [h.1, h.2.2.1, h.2.2.2.1]

theorem fields_getElem (population pop1 : List Indiv)
    (h : ∀ x : Nat, (pop1[x]?).map other_fields = (population[x]?).map other_fields)
    (d : Nat) (ind : Indiv) (hd : population[d]? = some ind) :
    ∃ ind1, pop1[d]? = some ind1 ∧ other_fields ind1 = other_fields ind := by
  have := h d
  rw [hd] at this
  cases h1 : pop1[d]? with
  | none => rw [h1] at this; exact Option.noConfusion this
  | some ind1 =>
    rw [h1] at this
    exact ⟨ind1, rfl, Option.some.inj this⟩

theorem Placed_fields (population pop1 : List Indiv) (cpa : List Cpa)
    (h : ∀ x : Nat, (pop1[x]?).map other_fields = (population[x]?).map other_fields)
    (hp : Placed population cpa) : Placed pop1 cpa := by
  intro j c hc d hd
  obtain ⟨ind, hi, hs⟩ := hp j c hc d hd
  obtain ⟨ind1, h1, h2⟩ := fields_getElem population pop1 h d ind hi
  exact ⟨ind1, h1, by rw [stratum_of_fields ind1 ind h2, hs]⟩

theorem Linked_ok_fields (population pop1 : List Indiv) (linked : List (Nat × Nat))
    (h : ∀ x : Nat, (pop1[x]?).map other_fields = (population[x]?).map other_fields)
    (hl : Linked_ok population linked) : Linked_ok pop1 linked := by
  intro p hp
  obtain ⟨a, b, ha, hb, s, g, r, k, h1, h2, h3, h4, h5, h6⟩ := hl p hp
  obtain ⟨a1, ha1, hfa⟩ := fields_getElem population pop1 h p.1 a ha
  obtain ⟨b1, hb1, hfb⟩ := fields_getElem population pop1 h p.2 b hb
  exact ⟨a1, b1, ha1, hb1, s, g, r, k, h1, h2, h3, h4,
    by rw [stratum_of_fields a1 a hfa, h5], by rw [stratum_of_fields b1 b hfb, h6]⟩

theorem groups_erase (groups : List (List Nat)) (k i : Nat) (src : List Nat) (b : Bool)
    (hg : ∀ l ∈ groups, ∀ g ∈ l, g < HIGHEST_AGE_GROUP) (hs : groups[k]? = some src) :
    (if b = true then groups.set k (src.eraseIdx i) else groups).length = groups.length ∧
    ∀ l ∈ (if b = true then groups.set k (src.eraseIdx i) else groups),
      ∀ g ∈ l, g < HIGHEST_AGE_GROUP := by
  cases b with
  | false => exact ⟨rfl, hg⟩
  | true =>
    simp only [if_true]
    refine ⟨List.length_set _ _ _, ?_⟩
    intro l hl g hgl
    rcases List.mem_or_eq_of_mem_set hl with h1 | h1
    · exact hg l h1 g hgl
    · subst h1
      exact hg src (List.getElem?_mem hs) g ((List.eraseIdx_sublist src i).subset hgl)

/-- Individuals of arrays of opposite sexes are of opposite sexes when their
sex, risk group and age group are in range. -/
theorem Opposite_sex (a b : Indiv) (h : Opposite a b) (ha : in_range a) (hb : in_range b) :
    (a.sex = MALE ∧ b.sex = FEMALE) ∨ (a.sex = FEMALE ∧ b.sex = MALE) := by
  obtain ⟨s, g, r, k, h1, h2, h3, h4, h5, h6⟩ := h
  obtain ⟨a1, a2, a3⟩ := ha
  obtain ⟨b1, b2, b3⟩ := hb
  simp only [stratum, index, NUM_CPA, HIGH, HIGHEST_AGE_GROUP] at *
  simp only [MALE, FEMALE]
  omega

theorem Opposite_ne (a b : Indiv) (h : Opposite a b) : stratum a ≠ stratum b := by
  obtain ⟨s, g, r, k, h1, h2, h3, h4, h5, h6⟩ := h
  rw [h5, h6]
  simp only [index, NUM_CPA, HIGH, HIGHEST_AGE_GROUP] at *
  omega


/-- One round of the loop of `match_pair` keeps the invariant and links two
individuals of arrays of opposite sexes. -/
theorem match_step_inv (gen : Generator)
    (select_age_group : Nat → List Nat → Indiv → Outcome (Nat × Nat))
    (st st1 : Match_state) (h : match_step gen select_age_group st = .ok st1)
    (hinv : Match_inv st) :
    Match_inv st1 ∧ st1.population.length = st.population.length ∧
    (∀ x : Nat, (st1.population[x]?).map other_fields =
      (st.population[x]?).map other_fields) := by
  obtain ⟨hcons, hplaced, hlen, hgr, hlinked⟩ := hinv
  simp only [match_step, bind_eq_ok, read_eq_ok, assert_found_eq_ok, pure_eq_ok] at h
  obtain ⟨mh, hmh, fh, hfh, src, hsrc, fag, hfag, c, hc, it, hit, x, hx, i, hi, ind_from, hif,
    th, hth, dst, hdst, f, hf, a, ha, tag, htag, ct, hct, y, hy, k, hk, ind_to, hito, pop1,
    hlink, hst⟩ := h
  subst hst
  generalize (if mh.length ≠ 0 ∧ fh.length ≠ 0 then
      (to_unsigned (rand_int_to gen st.rand 1).1, (rand_int_to gen st.rand 1).2)
    else (if mh.length ≠ 0 then MALE else FEMALE, st.rand)) = s at *
  generalize to_unsigned (rand_int_to gen s.2 (to_int ((src.length + 2 ^ 64 - 1) % 2 ^ 64))).1 =
    idx at *
  -- the source array
  have hs1 : s.1 ≤ 1 := by
    have := (List.getElem?_eq_some_iff.mp hsrc).1
    simp only [HIGH] at this
    omega
  have hfag24 : fag < HIGHEST_AGE_GROUP :=
    hgr src (List.getElem?_mem hsrc) fag (List.getElem?_mem hfag)
  have hcf : index s.1 HIGH fag % 2 ^ 32 = index s.1 HIGH fag := by
    apply Nat.mod_eq_of_lt
    simp only [index, NUM_CPA, HIGH, HIGHEST_AGE_GROUP] at *
    omega
  rw [hcf] at hc hit hct ⊢
  have hdx : x.1.entries.map (fun e => e.data) = c.entries.map (fun e => e.data) :=
    do_call_data c x.1 (.iterate it) x.2.2 (by simp only [do_call, hx])
  obtain ⟨indF, hF, hFs⟩ := hplaced _ c hc ind_from (by rw [← hdx]; exact List.getElem?_mem hif)
  -- the vectors of age groups after the first erase
  obtain ⟨hlen1, hgr1⟩ := groups_erase st.age_groups (s.1 * 2 + HIGH) idx src
    (cpa_all_found x.1) hgr hsrc
  generalize (if cpa_all_found x.1 = true then
      st.age_groups.set (s.1 * 2 + HIGH) (src.eraseIdx idx) else st.age_groups) = groups1 at *
  have hts : (2 ^ 32 - 1 - s.1) % 2 = 1 - s.1 := by omega
  rw [hts] at hth hdst hct ⊢
  have hrisk : (if th.length ≠ 0 then HIGH else LOW) ≤ 1 := by
    split <;> simp [HIGH, LOW]
  generalize (if th.length ≠ 0 then HIGH else LOW) = to_risk at *
  have htag24 : tag < HIGHEST_AGE_GROUP :=
    hgr1 dst (List.getElem?_mem hdst) tag (List.getElem?_mem htag)
  have hct1 : index (1 - s.1) to_risk tag % 2 ^ 32 = index (1 - s.1) to_risk tag := by
    apply Nat.mod_eq_of_lt
    simp only [index, NUM_CPA, HIGHEST_AGE_GROUP] at *
    omega
  rw [hct1] at hct ⊢
  have hne : index s.1 HIGH fag ≠ index (1 - s.1) to_risk tag := by
    simp only [index, NUM_CPA, HIGH, HIGHEST_AGE_GROUP] at *
    omega
  rw [List.getElem?_set_ne hne] at hct
  have hdy : y.1.entries.map (fun e => e.data) = ct.entries.map (fun e => e.data) :=
    do_call_data ct y.1 (.binary _) y.2 (by simp only [do_call]; exact hy)
  obtain ⟨indT, hT, hTs⟩ := hplaced _ ct hct ind_to (by rw [← hdy]; exact List.getElem?_mem hito)
  have hft : ind_from ≠ ind_to := by
    intro heq
    rw [heq, hT] at hF
    cases hF
    exact hne (hFs.symm.trans hTs)
  have hFl : ind_from < st.population.length := (List.getElem?_eq_some_iff.mp hF).1
  have hTl : ind_to < st.population.length := (List.getElem?_eq_some_iff.mp hT).1
  obtain ⟨pop2, h1, h2, h3, h4⟩ := link_spec st.population ind_from ind_to hFl hTl hft hcons
  rw [h1] at hlink
  have hpe : pop2 = pop1 := Outcome.ok.inj hlink
  subst hpe
  have hp1 : Placed st.population (st.cpa.set (index s.1 HIGH fag) x.1) :=
    Placed_set _ _ _ c x.1 hplaced hc hdx
  have hp2 : Placed st.population
      ((st.cpa.set (index s.1 HIGH fag) x.1).set (index (1 - s.1) to_risk tag) y.1) :=
    Placed_set _ _ _ ct y.1 hp1 (by rw [List.getElem?_set_ne hne]; exact hct) hdy
  obtain ⟨hlen2, hgr2⟩ := groups_erase groups1 ((1 - s.1) * 2 + to_risk) a.1 dst
    (cpa_all_found y.1) hgr1 hdst
  refine ⟨⟨link_consistent st.population pop2 ind_from ind_to hft hcons h4,
    Placed_fields _ _ _ h3 hp2, by rw [hlen2, hlen1, hlen], hgr2, ?_⟩, h2, h3⟩
  intro p hp
  rcases List.mem_append.mp hp with hp | hp
  · exact Linked_ok_fields _ _ _ h3 hlinked p hp
  · simp only [List.mem_singleton] at hp
    subst hp
    obtain ⟨a1, ha1, hfa⟩ := fields_getElem st.population pop2 h3 ind_from indF hF
    obtain ⟨b1, hb1, hfb⟩ := fields_getElem st.population pop2 h3 ind_to indT hT
    exact ⟨a1, b1, ha1, hb1, s.1, fag, to_risk, tag, hs1, hfag24, hrisk, htag24,
      by rw [stratum_of_fields a1 indF hfa, hFs],
      by rw [stratum_of_fields b1 indT hfb, hTs]⟩

/-- The loop of `match_pair` keeps the invariant. -/
theorem match_loop_inv (gen : Generator)
    (select_age_group : Nat → List Nat → Indiv → Outcome (Nat × Nat)) :
    ∀ (fuel : Nat) (st st1 : Match_state),
      match_loop gen select_age_group fuel st = .ok st1 → Match_inv st →
      Match_inv st1 ∧ st1.population.length = st.population.length ∧
      (∀ x : Nat, (st1.population[x]?).map other_fields =
        (st.population[x]?).map other_fields) := by
  intro fuel
  induction fuel with
  | zero =>
    intro st st1 h hinv
    simp only [match_loop, bind_eq_ok, read_eq_ok] at h
    obtain ⟨mh, _, fh, _, h⟩ := h
    split at h
    · exact Outcome.noConfusion h
    · rw [pure_eq_ok] at h
      subst h
      exact ⟨hinv, rfl, fun _ => rfl⟩
  | succ fuel ih =>
    intro st st1 h hinv
    simp only [match_loop, bind_eq_ok, read_eq_ok] at h
    obtain ⟨mh, _, fh, _, h⟩ := h
    split at h
    · rw [bind_eq_ok] at h
      obtain ⟨st2, hs, hl⟩ := h
      obtain ⟨i1, l1, f1⟩ := match_step_inv gen select_age_group st st2 hs hinv
      obtain ⟨i2, l2, f2⟩ := ih st2 st1 hl i1
      exact ⟨i2, by rw [l2, l1], fun x => by rw [f2 x, f1 x]⟩
    · rw [pure_eq_ok] at h
      subst h
      exact ⟨hinv, rfl, fun _ => rfl⟩


/-- The first loop of `match_pair` changes the `eligible` flags only. -/
theorem count_eligible_population (can_pair : Option Indiv → Bool) :
    ∀ (population : List Indiv) (cpa_sizes : List Nat) (x : List Indiv × List Nat),
      count_eligible can_pair population cpa_sizes = .ok x →
      x.1 = population.map (fun i => { i with eligible := can_pair (some i) }) := by
  intro population
  induction population with
  | nil =>
    intro cpa_sizes x h
    simp only [count_eligible, Outcome.ok.injEq] at h
    rw [← h]
    rfl
  | cons i rest ih =>
    intro cpa_sizes x h
    simp only [count_eligible] at h
    by_cases hc : can_pair (some i) = true
    · rw [if_pos hc] at h
      simp only [bind_eq_ok, read_eq_ok, pure_eq_ok] at h
      obtain ⟨c, _, y, hy, hx⟩ := h
      rw [← hx]
      simp only [List.map_cons, hc]
      rw [ih _ y hy]
    · rw [if_neg hc] at h
      simp only [bind_eq_ok, pure_eq_ok] at h
      obtain ⟨y, hy, hx⟩ := h
      rw [← hx]
      have hcf : can_pair (some i) = false := by
        cases hv : can_pair (some i) with
        | true => exact absurd hv hc
        | false => rfl
      simp only [List.map_cons, hcf]
      rw [ih _ y hy]

theorem new_cpas_empty (junk : Nat → Int) :
    ∀ (sizes : List Nat) (first : Nat) (cs : List Cpa),
      new_cpas junk sizes first = .ok cs → ∀ c ∈ cs, c.entries = [] := by
  intro sizes
  induction sizes with
  | nil =>
    intro first cs h c hc
    simp only [new_cpas, Outcome.ok.injEq] at h
    rw [← h] at hc
    simp at hc
  | cons size rest ih =>
    intro first cs h c hc
    simp only [new_cpas, bind_eq_ok, pure_eq_ok] at h
    obtain ⟨c0, h0, cs0, h1, h2⟩ := h
    rw [← h2] at hc
    rcases List.mem_cons.mp hc with hc | hc
    · subst hc
      unfold cpa_new at h0
      split at h0
      · simp only [Outcome.ok.injEq] at h0
        rw [← h0]
      · simp only [Outcome.ok.injEq] at h0
        rw [← h0]
        rfl
    · exact ih _ cs0 h1 c hc

theorem cpa_append_data (c c1 : Cpa) (d : Nat) (w : Int) (h : cpa_append c d w = .ok c1) :
    c1.entries.map (fun e => e.data) = c.entries.map (fun e => e.data) ++ [d] := by
  unfold cpa_append at h
  split at h
  · exact Outcome.noConfusion h
  · split at h
    · exact Outcome.noConfusion h
    · simp only [Outcome.ok.injEq] at h
      rw [← h]
      simp

/-- The appends of `match_pair` put every individual into the array its sex,
risk group and age group index. -/
theorem assign_placed (generate_weight : Indiv → Nat) (population : List Indiv) :
    ∀ (l : List Nat) (cpa cpa1 : List Cpa),
      assign generate_weight population l cpa = .ok cpa1 → Placed population cpa →
      Placed population cpa1 := by
  intro l
  induction l with
  | nil =>
    intro cpa cpa1 h hp
    simp only [assign, Outcome.ok.injEq] at h
    rw [← h]
    exact hp
  | cons i rest ih =>
    intro cpa cpa1 h hp
    simp only [assign, bind_eq_ok, read_eq_ok] at h
    obtain ⟨ind, hind, h⟩ := h
    by_cases he : ind.eligible = true
    · rw [if_pos he] at h
      simp only [bind_eq_ok, read_eq_ok] at h
      obtain ⟨c, hc, c1, ha, h⟩ := h
      refine ih _ cpa1 h ?_
      intro j cj hj d hd
      by_cases hjk : index ind.sex ind.risk_group ind.age_group = j
      · subst hjk
        have hlt := (List.getElem?_eq_some_iff.mp hc).1
        rw [List.getElem?_set_self hlt] at hj
        cases hj
        rw [cpa_append_data c c1 i _ ha, List.mem_append] at hd
        rcases hd with hd | hd
        · exact hp _ c hc d hd
        · simp only [List.mem_singleton] at hd
          subst hd
          exact ⟨ind, hind, rfl⟩
      · rw [List.getElem?_set_ne hjk] at hj
        exact hp j cj hj d hd
    · rw [if_neg he] at h
      exact ih cpa cpa1 h hp

theorem non_empty_scan_subset (cpa : List Cpa) (sex risk : Nat) :
    ∀ (l r : List Nat), non_empty_scan cpa sex risk l = .ok r → ∀ g ∈ r, g ∈ l := by
  intro l
  induction l with
  | nil =>
    intro r h g hg
    simp only [non_empty_scan, Outcome.ok.injEq] at h
    rw [← h] at hg
    exact hg
  | cons i rest ih =>
    intro r h g hg
    simp only [non_empty_scan, bind_eq_ok, read_eq_ok, pure_eq_ok] at h
    obtain ⟨c, _, r1, h1, h2⟩ := h
    rw [← h2] at hg
    split at hg
    · rcases List.mem_cons.mp hg with hg | hg
      · rw [hg]; exact List.mem_cons_self _ _
      · exact List.mem_cons_of_mem _ (ih r1 h1 g hg)
    · exact List.mem_cons_of_mem _ (ih r1 h1 g hg)

theorem non_empty_cpa_bound (cpa : List Cpa) (sex risk : Nat) (r : List Nat)
    (h : non_empty_cpa cpa sex risk = .ok r) : ∀ g ∈ r, g < HIGHEST_AGE_GROUP := by
  intro g hg
  exact List.mem_range.mp (non_empty_scan_subset cpa sex risk _ r h g hg)

theorem partner_of_eligible (population : List Indiv) (f : Indiv → Bool) (a : Nat) :
    partner_of (population.map (fun i => { i with eligible := f i })) a =
      partner_of population a := by
  unfold partner_of
  rw [List.getElem?_map]
  cases population[a]? <;> rfl

/-- The part of `match_pair` before the loop sets up the invariant of the loop. -/
theorem match_init_inv (can_pair : Option Indiv → Bool) (generate_weight : Indiv → Nat)
    (junk : Nat → Int) (indices : List Nat) (population : List Indiv)
    (x : List Indiv × List Cpa × List (List Nat)) (its : List Cpa_iterator) (rand : Nat)
    (h : match_init can_pair generate_weight junk indices population = .ok x)
    (hc : Consistent population) :
    Match_inv { population := x.1, cpa := x.2.1, cpa_iterator := its, age_groups := x.2.2,
                rand := rand, linked := [] } ∧
    x.1 = population.map (fun i => { i with eligible := can_pair (some i) }) := by
  simp only [match_init, match_arrays, bind_eq_ok, pure_eq_ok] at h
  obtain ⟨z, ⟨y, hy, cpa0, h0, cpa, ha, hz⟩, g1, hg1, g2, hg2, g3, hg3, g4, hg4, hx⟩ := h
  subst hx
  subst hz
  have hpop := count_eligible_population can_pair population _ y hy
  refine ⟨⟨?_, ?_, rfl, ?_, ?_⟩, hpop⟩
  · intro a b hab
    simp only [hpop] at hab ⊢
    rw [partner_of_eligible] at hab ⊢
    exact hc a b hab
  · refine assign_placed generate_weight y.1 indices cpa0 cpa ha ?_
    intro j c hj d hd
    rw [new_cpas_empty junk _ _ cpa0 h0 c (List.getElem?_mem hj)] at hd
    simp at hd
  · intro l hl g hg
    simp only [List.mem_cons, List.mem_singleton, List.not_mem_nil, or_false] at hl
    rcases hl with hl | hl | hl | hl
    · subst hl; exact non_empty_cpa_bound _ _ _ _ hg3 g hg
    · subst hl; exact non_empty_cpa_bound _ _ _ _ hg1 g hg
    · subst hl; exact non_empty_cpa_bound _ _ _ _ hg4 g hg
    · subst hl; exact non_empty_cpa_bound _ _ _ _ hg2 g hg
  · intro p hp
    simp at hp


/-- C19: if before a `match_pair` call every individual has no partner or is
the partner of its partner, the same holds after the call, for every generator,
every shuffle and every choice of callbacks for which the call completes; and
for individuals of the kind the 96 arrays are laid out for, sex 0 or 1, risk
group 0 or 1 and an age group below 24, every pair linked during the call
consists of one individual of sex MALE and one of sex FEMALE. -/
theorem match_pair_consistent (gen : Generator) (can_pair : Option Indiv → Bool)
    (select_age_group : Nat → List Nat → Indiv → Outcome (Nat × Nat))
    (generate_weight : Indiv → Nat) (junk : Nat → Int) (indices : List Nat) (rand : Nat)
    (population : List Indiv) (st : Match_state) (hc : Consistent population)
    (hrun : match_pair gen can_pair select_age_group generate_weight junk indices rand
      population = .ok st) :
    Consistent st.population ∧
    st.population.length = population.length ∧
    ((∀ ind ∈ population, in_range ind) →
      ∀ p ∈ st.linked, ∃ a b, st.population[p.1]? = some a ∧ st.population[p.2]? = some b ∧
        ((a.sex = MALE ∧ b.sex = FEMALE) ∨ (a.sex = FEMALE ∧ b.sex = MALE))) := by
  simp only [match_pair, bind_eq_ok] at hrun
  obtain ⟨x, hinit, hloop⟩ := hrun
  obtain ⟨hinv0, hpop⟩ := match_init_inv can_pair generate_weight junk indices population x
    (List.replicate NUM_CPA iterator_zero) rand hinit hc
  obtain ⟨⟨h1, _, _, _, h5⟩, hlen, hf⟩ :=
    match_loop_inv gen select_age_group _ _ st hloop hinv0
  simp only at hlen hf
  refine ⟨h1, by rw [hlen, hpop, List.length_map], ?_⟩
  intro hr p hp
  obtain ⟨a, b, ha, hb, hopp⟩ := h5 p hp
  have hin : ∀ (d : Nat) (ind : Indiv), st.population[d]? = some ind → in_range ind := by
    intro d ind hd
    have h2 := hf d
    rw [hd, hpop, List.getElem?_map] at h2
    cases h3 : population[d]? with
    | none => rw [h3] at h2; exact Option.noConfusion h2
    | some ind0 =>
      rw [h3] at h2
      have h4 := Option.some.inj h2
      simp only [other_fields, Prod.mk.injEq] at h4
      have h6 := hr ind0 (List.getElem?_mem h3)
      unfold in_range at h6 ⊢
      rw [h4.1, h4.2.2.1, h4.2.2.2.1]
      exact h6
  exact ⟨a, b, ha, hb, Opposite_sex a b hopp (hin _ a ha) (hin _ b hb)⟩

set_option maxRecDepth 100000 in
theorem match_pair_consistent_witness :
    Consistent (final_state (match_pair gen_low can_pair_default
      (select_age_group_default gen_low) generate_weight_default (fun _ => 0)
      [3, 1, 0, 5, 2, 4] 0 couple_population) empty_state).population ∧
    ∃ a b, (final_state (match_pair gen_low can_pair_default
        (select_age_group_default gen_low) generate_weight_default (fun _ => 0)
        [3, 1, 0, 5, 2, 4] 0 couple_population) empty_state).population[0]? = some a ∧
      (final_state (match_pair gen_low can_pair_default
        (select_age_group_default gen_low) generate_weight_default (fun _ => 0)
        [3, 1, 0, 5, 2, 4] 0 couple_population) empty_state).population[1]? = some b ∧
      ((a.sex = MALE ∧ b.sex = FEMALE) ∨ (a.sex = FEMALE ∧ b.sex = MALE)) :=
  have h := match_pair_consistent gen_low can_pair_default (select_age_group_default gen_low)
    generate_weight_default (fun _ => 0) [3, 1, 0, 5, 2, 4] 0 couple_population
    (final_state (match_pair gen_low can_pair_default (select_age_group_default gen_low)
      generate_weight_default (fun _ => 0) [3, 1, 0, 5, 2, 4] 0 couple_population) empty_state)
    (consistent_of_check _ (by decide)) (by decide)
  ⟨h.1, h.2.2 (by decide) (0, 1) (by decide)⟩

theorem upper_mid_eq (low high : Nat) (h : low ≤ high) :
    (low + high + 1) / 2 = upper_mid low high := by
  unfold upper_mid
  omega

theorem upper_mid_int (low high : Nat) (h : low ≤ high) :
    (((low : Int) + (high : Int) + 1) / 2).toNat = upper_mid low high := by
  unfold upper_mid
  omega

/-- C23, as stated, fails: for the range `[0, 0]` of an array with one entry the
formula gives 1, outside the range and the array, while `cpa_binary_search`,
`cpa_traverse` and `cpa_iterate` examine entry 0; for the range `[0, 2]` it gives
2 and the three functions start at entry 1. -/
theorem claimed_mid_counterexample :
    ∃ c0 c1 c2 c3 it3 c4,
      cpa_append_all (cpa_empty 1 0) [(101, 1)] = .ok c0 ∧
      claimed_mid 0 0 = 1 ∧ c0.entries[claimed_mid 0 0]? = none ∧
      cpa_binary_search c0 0 = .ok (c1, some 0) ∧
      cpa_traverse c0 true = .ok (c2, [101]) ∧
      cpa_iterate c0 iterator_zero = .ok (c3, it3, some 0) ∧
      claimed_mid 0 2 = 2 ∧
      cpa_append_all (cpa_empty 3 0) [(101, 1), (102, 1), (103, 1)] = .ok c4 ∧
      traversal_order 3 = [1, 2, 0] ∧
      (∃ c5, cpa_traverse c4 true = .ok (c5, [102, 103, 101])) ∧
      (∃ c6 it6, cpa_iterate c4 iterator_zero = .ok (c6, it6, some 1)) ∧
      (∃ c7, cpa_binary_search c4 1 = .ok (c7, some 1)) :=
  ⟨_, _, _, _, _, _, rfl, rfl, rfl, rfl, rfl, rfl, rfl, rfl, rfl, ⟨_, rfl⟩, ⟨_, _, rfl⟩,
    ⟨_, rfl⟩⟩

/-- C23, amended: for every index range `[low, high]` with `low ≤ high`, the node
that one round of the loops of `cpa_binary_search`, `cpa_traverse` and
`cpa_iterate` examines for that range is `mid = low + ceil((high - low) / 2)`,
which lies in the range: the round reads `entries[mid]` and goes on with the
ranges `[mid + 1, high]` and `[low, mid - 1]`. -/
theorem loops_examine_upper_mid (low high : Nat) (h : low ≤ high) :
    low ≤ upper_mid low high ∧ upper_mid low high ≤ high ∧
    (∀ (key : Int) (fuel : Nat) (cpa : Cpa) (q : List Nat) (sub : Int),
      binary_search_loop key (fuel + 1) cpa low high q sub =
        match cpa.entries[upper_mid low high]? with
        | none => .fault
        | some e =>
          if e.cumulative_weight + (sub + e.right_subtractor) ≤ key then
            binary_search_loop key fuel cpa ((upper_mid low high : Nat) + 1) high
              (q ++ [upper_mid low high]) (sub + e.right_subtractor)
          else if e.found = true ∨
              e.cumulative_weight +
                (sub + e.right_subtractor - e.right_subtractor + e.left_subtractor) -
                e.weight > key then
            binary_search_loop key fuel cpa low ((upper_mid low high : Nat) - 1)
              (q ++ [upper_mid low high])
              (sub + e.right_subtractor - e.right_subtractor + e.left_subtractor)
          else
            match cpa_set_subtractors
                { cpa with cumulative_weight := cpa.cumulative_weight - e.weight }
                (q ++ [upper_mid low high]) (q ++ [upper_mid low high]).length
                (upper_mid low high) with
            | .ok cpa1 => .ok (cpa1, some (upper_mid low high))
            | .fault => .fault
            | .timeout => .timeout) ∧
    (∀ (has_func : Bool) (fuel : Nat) (cpa : Cpa) (q_size : Nat)
        (rest : List (Nat × Nat × Nat)) (q out : List Nat),
      traverse_loop has_func (fuel + 1) cpa ((low, high, q_size) :: rest) q out =
        match cpa.entries[upper_mid low high]? with
        | none => .fault
        | some e =>
          match cpa_set_subtractors
              { cpa with cumulative_weight := cpa.cumulative_weight - e.weight }
              (q_write q (q_size - 1) (upper_mid low high)) q_size (upper_mid low high) with
          | .ok cpa1 =>
            traverse_loop has_func fuel cpa1 (push_frames low high q_size rest)
              (q_write q (q_size - 1) (upper_mid low high))
              (if has_func then out ++ [e.data] else out)
          | .fault => .fault
          | .timeout => .timeout) ∧
    (∀ (fuel : Nat) (cpa : Cpa) (it : Cpa_iterator) (q_size : Nat)
        (rest : List (Nat × Nat × Nat)), it.stack = (low, high, q_size) :: rest →
      iterate_loop cpa (fuel + 1) it =
        match cpa.entries[upper_mid low high]? with
        | none => .fault
        | some e =>
          if e.found = true then
            iterate_loop cpa fuel
              { it with q_size := q_size,
                        q := q_write it.q (q_size - 1) (upper_mid low high),
                        stack := push_frames low high q_size rest }
          else
            .ok ({ it with q_size := q_size,
                           q := q_write it.q (q_size - 1) (upper_mid low high),
                           stack := push_frames low high q_size rest },
                 upper_mid low high)) ∧
    (∀ (q_size : Nat) (rest : List (Nat × Nat × Nat)),
      push_frames low high q_size rest =
        (if upper_mid low high < high then [(upper_mid low high + 1, high, q_size + 1)]
          else []) ++
        ((if low < upper_mid low high then [(low, upper_mid low high - 1, q_size + 1)]
          else []) ++ rest)) := by
  have hm := upper_mid_eq low high h
  have hi := upper_mid_int low high h
  refine ⟨by unfold upper_mid; omega, by unfold upper_mid; omega, ?_, ?_, ?_, ?_⟩
  · intro key fuel cpa q sub
    simp only [binary_search_loop, hi]
    rw [if_neg (by omega)]
    try rfl
  · intro has_func fuel cpa q_size rest q out
    simp only [traverse_loop, hm]
    try rfl
  · intro fuel cpa it q_size rest hst
    simp only [iterate_loop, hst, hm]
    try rfl
  · intro q_size rest
    simp only [push_frames, hm]
    split <;> split <;> simp

theorem loops_examine_upper_mid_witness :
    (0 : Nat) ≤ 2 ∧ upper_mid 0 2 = 1 ∧
    iterate_loop scenario_cpa 1
        { started := true, stack := [(0, 2, 1)], q := [], q_size := 0 } =
      .ok ({ started := true, stack := [(2, 2, 2), (0, 0, 2)], q := [1], q_size := 1 }, 1) := by
  have h := (loops_examine_upper_mid 0 2 (by decide)).2.2.2.2.1 0 scenario_cpa
    { started := true, stack := [(0, 2, 1)], q := [], q_size := 0 } 1 [] rfl
  exact ⟨by decide, rfl, by rw [h]; rfl⟩

theorem to_int_small (u : Nat) (h : u < 2 ^ 31) : to_int u = (u : Int) := by
  unfold to_int
  have h1 : u % 2 ^ 32 = u := Nat.mod_eq_of_lt (by omega)
  rw [h1, if_pos h]

theorem to_unsigned_small (v : Int) (h0 : 0 ≤ v) (h1 : v < 2 ^ 32) :
    to_unsigned v = v.toNat := by
  unfold to_unsigned
  rw [Int.emod_eq_of_lt h0 h1]

theorem pairwise_getElem_lt (L : List Nat) (hasc : L.Pairwise (· < ·)) (i j : Nat) (a b : Nat)
    (hij : i < j) (ha : L[i]? = some a) (hb : L[j]? = some b) : a < b := by
  obtain ⟨hi, rfl⟩ := List.getElem?_eq_some_iff.mp ha
  obtain ⟨hj, rfl⟩ := List.getElem?_eq_some_iff.mp hb
  exact List.pairwise_iff_getElem.mp hasc i j hi hj hij

/-- The loop of `search_age_groups` on a strictly ascending vector, started on a
range left of which all values are below the key and right of which all are
above: it returns a position of the vector, the one of the key when the key is
there, and otherwise the last position below the key or the first above it. -/
theorem search_age_groups_loop_spec (gen : Generator) (hgen : in_bounds gen) (L : List Nat)
    (key : Nat) (hasc : L.Pairwise (· < ·)) (hlen : L.length < 2 ^ 31) :
    ∀ (fuel low high r : Nat), low ≤ high + 1 → high < L.length → high + 1 - low < fuel →
      (∀ j b, j < low → L[j]? = some b → b < key) →
      (∀ j b, high < j → L[j]? = some b → key < b) →
      ∃ i r1 a, search_age_groups_loop gen L key fuel low high r = .ok (i, r1) ∧
        L[i]? = some a ∧
        (a = key ∨
          (a < key ∧ ∀ j b, i < j → L[j]? = some b → key < b) ∨
          (key < a ∧ ∀ j b, j < i → L[j]? = some b → b < key)) := by
  intro fuel
  induction fuel with
  | zero => intro low high r _ _ h3; omega
  | succ fuel ih =>
    intro low high r h1 h2 h3 hlo hhi
    simp only [search_age_groups_loop]
    by_cases hle : high ≤ low
    · rw [if_pos hle]
      by_cases hlt : low < L.length
      · rw [if_pos hlt]
        simp only [rand_int_range]
        rw [to_int_small high (by omega), to_int_small low (by omega)]
        obtain ⟨g1, g2⟩ := hgen r (high : Int) (low : Int) (by omega)
        generalize (gen r (high : Int) (low : Int)) = v at g1 g2
        rw [to_unsigned_small v.1 (by omega) (by omega)]
        have hv : v.1.toNat = high ∨ v.1.toNat = low := by omega
        generalize v.1.toNat = i at hv
        by_cases heq : high = low
        · -- the range is one position, which the loop does not compare
          have hil : i = low := by omega
          rw [hil]
          refine ⟨low, v.2, L[low], rfl, List.getElem?_eq_getElem hlt, ?_⟩
          rcases Nat.lt_trichotomy (L[low]) key with hk | hk | hk
          · right; left
            exact ⟨hk, fun j b hj hb => hhi j b (by omega) hb⟩
          · left; exact hk
          · right; right
            exact ⟨hk, fun j b hj hb => hlo j b hj hb⟩
        · -- the range is empty: `high + 1 = low`
          rcases hv with hv | hv
          · rw [hv]
            refine ⟨high, v.2, L[high], rfl, List.getElem?_eq_getElem h2, ?_⟩
            right; left
            refine ⟨hlo high _ (by omega) (List.getElem?_eq_getElem h2), ?_⟩
            intro j b hj hb
            exact hhi j b hj hb
          · rw [hv]
            refine ⟨low, v.2, L[low], rfl, List.getElem?_eq_getElem hlt, ?_⟩
            right; right
            refine ⟨hhi low _ (by omega) (List.getElem?_eq_getElem hlt), ?_⟩
            intro j b hj hb
            exact hlo j b hj hb
      · rw [if_neg hlt]
        refine ⟨high, r, L[high], rfl, List.getElem?_eq_getElem h2, ?_⟩
        right; left
        refine ⟨hlo high _ (by omega) (List.getElem?_eq_getElem h2), ?_⟩
        intro j b hj hb
        exact hhi j b hj hb
    · rw [if_neg hle]
      have hidx : (low + high + 1) % 2 ^ 32 / 2 = (low + high + 1) / 2 := by
        rw [Nat.mod_eq_of_lt (by omega)]
      rw [hidx]
      have hm1 : low < (low + high + 1) / 2 := by omega
      have hm2 : (low + high + 1) / 2 ≤ high := by omega
      have hml : (low + high + 1) / 2 < L.length := by omega
      rw [List.getElem?_eq_getElem hml]
      simp only
      by_cases heq : L[(low + high + 1) / 2] = key
      · rw [if_pos heq]
        exact ⟨_, r, _, rfl, List.getElem?_eq_getElem hml, Or.inl heq⟩
      · rw [if_neg heq]
        by_cases hgt : L[(low + high + 1) / 2] > key
        · rw [if_pos hgt]
          have hw : ((low + high + 1) / 2 + 2 ^ 32 - 1) % 2 ^ 32 = (low + high + 1) / 2 - 1 := by
            omega
          rw [hw]
          apply ih
          · omega
          · omega
          · omega
          · exact hlo
          · intro j b hj hb
            by_cases hjm : j = (low + high + 1) / 2
            · subst hjm
              rw [List.getElem?_eq_getElem hml] at hb
              cases hb
              exact hgt
            · have := pairwise_getElem_lt L hasc ((low + high + 1) / 2) j _ b (by omega)
                (List.getElem?_eq_getElem hml) hb
              omega
        · rw [if_neg hgt]
          have hw : ((low + high + 1) / 2 + 1) % 2 ^ 32 = (low + high + 1) / 2 + 1 := by
            omega
          rw [hw]
          apply ih
          · omega
          · omega
          · omega
          · intro j b hj hb
            by_cases hjm : j = (low + high + 1) / 2
            · subst hjm
              rw [List.getElem?_eq_getElem hml] at hb
              cases hb
              omega
            · have := pairwise_getElem_lt L hasc j ((low + high + 1) / 2) b _ (by omega) hb
                (List.getElem?_eq_getElem hml)
              omega
          · exact hhi

/-- A strictly ascending list of numbers below `n` has at most `n` entries. -/
theorem ascending_length (L : List Nat) (hasc : L.Pairwise (· < ·)) (n : Nat)
    (h : ∀ g ∈ L, g < n) : L.length ≤ n := by
  have hsub : L ⊆ List.range n := fun g hg => List.mem_range.mpr (h g hg)
  have hnd : L.Nodup := hasc.imp (fun hab => Nat.ne_of_lt hab)
  have := (List.subperm_of_subset hnd hsub).length_le
  simpa using this

/-- C22: for every non-empty strictly ascending list `L` of age groups and every
key, with a generator that draws between its bounds, `search_age_groups`
returns (the rounds allowed are enough) a position `i` of `L`; if the key is in
`L` at position `p` then `i = p`; if the key is not in `L` then `i` is the last
position whose value is below the key or the first position whose value is
above it. -/
theorem search_age_groups_returns (gen : Generator) (hgen : in_bounds gen) (r : Nat)
    (L : List Nat) (key : Nat) (hne : L ≠ []) (hasc : L.Pairwise (· < ·))
    (hag : ∀ g ∈ L, g < HIGHEST_AGE_GROUP) :
    ∃ i r1, search_age_groups gen r L key = .ok (i, r1) ∧ i < L.length ∧
      (∀ p, L[p]? = some key → i = p) ∧
      (key ∉ L → ∃ a, L[i]? = some a ∧
        ((a < key ∧ ∀ j b, i < j → L[j]? = some b → key < b) ∨
         (key < a ∧ ∀ j b, j < i → L[j]? = some b → b < key))) := by
  have hl24 : L.length ≤ HIGHEST_AGE_GROUP := ascending_length L hasc _ hag
  have hlen : L.length < 2 ^ 31 := by
    simp only [HIGHEST_AGE_GROUP] at hl24
    omega
  have hpos : 0 < L.length := List.length_pos.mpr hne
  have hhigh : (L.length + 2 ^ 32 - 1) % 2 ^ 32 = L.length - 1 := by omega
  obtain ⟨i, r1, a, hres, hi, hcase⟩ := search_age_groups_loop_spec gen hgen L key hasc hlen
    (L.length + 1) 0 (L.length - 1) r (by omega) (by omega) (by omega)
    (by intro j b hj; omega)
    (by
      intro j b hj hb
      have := (List.getElem?_eq_some_iff.mp hb).1
      omega)
  refine ⟨i, r1, ?_, (List.getElem?_eq_some_iff.mp hi).1, ?_, ?_⟩
  · unfold search_age_groups
    rw [hhigh]
    exact hres
  · intro p hp
    rcases Nat.lt_trichotomy i p with h | h | h
    · have h1 := pairwise_getElem_lt L hasc i p a key h hi hp
      rcases hcase with hc | ⟨_, hc⟩ | ⟨hc, _⟩
      · omega
      · have := hc p key h hp
        omega
      · omega
    · exact h
    · have h1 := pairwise_getElem_lt L hasc p i key a h hp hi
      rcases hcase with hc | ⟨hc, _⟩ | ⟨_, hc⟩
      · omega
      · omega
      · have := hc p key h hp
        omega
  · intro hk
    refine ⟨a, hi, ?_⟩
    rcases hcase with hc | hc | hc
    · exact absurd (hc ▸ List.getElem?_mem hi) hk
    · exact Or.inl hc
    · exact Or.inr hc

theorem in_bounds_gen_low : in_bounds gen_low := by
  intro r lo hi h
  simp only [gen_low]
  rw [if_neg (by omega)]
  exact ⟨le_refl _, h⟩

theorem search_age_groups_returns_witness :
    ∃ i r1, search_age_groups gen_low 0 [4, 9, 11] 10 = .ok (i, r1) ∧ i < [4, 9, 11].length ∧
      (∀ p, [4, 9, 11][p]? = some 10 → i = p) ∧
      (10 ∉ [4, 9, 11] → ∃ a, [4, 9, 11][i]? = some a ∧
        ((a < 10 ∧ ∀ j b, i < j → [4, 9, 11][j]? = some b → 10 < b) ∨
         (10 < a ∧ ∀ j b, j < i → [4, 9, 11][j]? = some b → b < 10))) :=
  search_age_groups_returns gen_low in_bounds_gen_low 0 [4, 9, 11] 10 (by decide) (by decide)
    (by decide)

/-- What one round of the loop of `match_pair` does, read off its body: it draws
the source `F` with `cpa_iterate` from the array of sex `s`, HIGH risk and age
group `fag`, the target `T` with `cpa_binary_search` from the array of the other
sex, risk group `r` and age group `tag`, erases an age group from its vector
when its array is all found, and links `F` and `T`. -/
theorem match_step_facts (gen : Generator)
    (select_age_group : Nat → List Nat → Indiv → Outcome (Nat × Nat))
    (st st1 : Match_state) (h : match_step gen select_age_group st = .ok st1)
    (hlen : st.age_groups.length = 4)
    (hgr : ∀ l ∈ st.age_groups, ∀ g ∈ l, g < HIGHEST_AGE_GROUP) :
    ∃ (s fag idxf r tag idxt : Nat) (src dst : List Nat) (c c1 ct ct1 : Cpa)
      (it : Cpa_iterator) (key : Int) (i k F T : Nat),
      s ≤ 1 ∧ r ≤ 1 ∧ fag < HIGHEST_AGE_GROUP ∧ tag < HIGHEST_AGE_GROUP ∧
      st.age_groups[s * 2 + HIGH]? = some src ∧ src[idxf]? = some fag ∧
      st.age_groups[(1 - s) * 2 + r]? = some dst ∧ dst[idxt]? = some tag ∧
      st.cpa[index s HIGH fag]? = some c ∧
      do_call c (.iterate it) = .ok (c1, some i) ∧
      (c1.entries.map (fun e => e.data))[i]? = some F ∧
      st.cpa[index (1 - s) r tag]? = some ct ∧
      do_call ct (.binary key) = .ok (ct1, some k) ∧
      (ct1.entries.map (fun e => e.data))[k]? = some T ∧
      link st.population F T = .ok st1.population ∧
      st1.cpa = (st.cpa.set (index s HIGH fag) c1).set (index (1 - s) r tag) ct1 ∧
      st1.age_groups =
        (if cpa_all_found ct1 = true then
          (if cpa_all_found c1 = true then
            st.age_groups.set (s * 2 + HIGH) (src.eraseIdx idxf)
           else st.age_groups).set ((1 - s) * 2 + r) (dst.eraseIdx idxt)
         else
          (if cpa_all_found c1 = true then
            st.age_groups.set (s * 2 + HIGH) (src.eraseIdx idxf)
           else st.age_groups)) ∧
      st1.linked = st.linked ++ [(F, T)] := by
  simp only [match_step, bind_eq_ok, read_eq_ok, assert_found_eq_ok, pure_eq_ok] at h
  obtain ⟨mh, hmh, fh, hfh, src, hsrc, fag, hfag, c, hc, it, hit, x, hx, i, hi, ind_from, hif,
    th, hth, dst, hdst, f, hf, a, ha, tag, htag, ct, hct, y, hy, k, hk, ind_to, hito, pop1,
    hlink, hst⟩ := h
  subst hst
  generalize (if mh.length ≠ 0 ∧ fh.length ≠ 0 then
      (to_unsigned (rand_int_to gen st.rand 1).1, (rand_int_to gen st.rand 1).2)
    else (if mh.length ≠ 0 then MALE else FEMALE, st.rand)) = s at *
  generalize to_unsigned (rand_int_to gen s.2 (to_int ((src.length + 2 ^ 64 - 1) % 2 ^ 64))).1 =
    idx at *
  have hs1 : s.1 ≤ 1 := by
    have := (List.getElem?_eq_some_iff.mp hsrc).1
    simp only [HIGH] at this
    omega
  have hfag24 : fag < HIGHEST_AGE_GROUP :=
    hgr src (List.getElem?_mem hsrc) fag (List.getElem?_mem hfag)
  have hcf : index s.1 HIGH fag % 2 ^ 32 = index s.1 HIGH fag := by
    apply Nat.mod_eq_of_lt
    simp only [index, NUM_CPA, HIGH, HIGHEST_AGE_GROUP] at *
    omega
  rw [hcf] at hc hit hct ⊢
  have hts : (2 ^ 32 - 1 - s.1) % 2 = 1 - s.1 := by omega
  rw [hts] at hth hdst hct ⊢
  have hrisk : (if th.length ≠ 0 then HIGH else LOW) ≤ 1 := by
    split <;> simp [HIGH, LOW]
  generalize (if th.length ≠ 0 then HIGH else LOW) = to_risk at *
  -- the vector of the target is not the one of the source
  have hnel : s.1 * 2 + HIGH ≠ (1 - s.1) * 2 + to_risk := by
    simp only [HIGH]
    omega
  have hdst0 : st.age_groups[(1 - s.1) * 2 + to_risk]? = some dst := by
    by_cases hall : cpa_all_found x.1 = true
    · rw [if_pos hall, List.getElem?_set_ne hnel] at hdst
      exact hdst
    · rw [if_neg hall] at hdst
      exact hdst
  have htag24 : tag < HIGHEST_AGE_GROUP :=
    hgr dst (List.getElem?_mem hdst0) tag (List.getElem?_mem htag)
  have hct1 : index (1 - s.1) to_risk tag % 2 ^ 32 = index (1 - s.1) to_risk tag := by
    apply Nat.mod_eq_of_lt
    simp only [index, NUM_CPA, HIGHEST_AGE_GROUP] at *
    omega
  rw [hct1] at hct ⊢
  have hne : index s.1 HIGH fag ≠ index (1 - s.1) to_risk tag := by
    simp only [index, NUM_CPA, HIGH, HIGHEST_AGE_GROUP] at *
    omega
  rw [List.getElem?_set_ne hne] at hct
  have hxe : x = (x.1, x.2.1, x.2.2) := rfl
  have hye : y = (y.1, y.2) := rfl
  refine ⟨s.1, fag, idx, to_risk, tag, a.1, src, dst, c, x.1, ct, y.1, it,
    (rand_int_to_open gen a.2 ct.cumulative_weight).1, i, k, ind_from, ind_to,
    hs1, hrisk, hfag24, htag24, hsrc, hfag, hdst0, htag, hc, ?_, hif, hct, ?_, hito, hlink,
    rfl, ?_, rfl⟩
  · simp only [do_call, hx, hi.symm]
  · simp only [do_call]
    rw [hy, hye, hk]
  · by_cases h1 : cpa_all_found y.1 = true <;> by_cases h2 : cpa_all_found x.1 = true <;>
      simp only [h1, h2, if_true, if_false]

theorem mem_eraseIdx_nodup (l : List Nat) (hnd : l.Nodup) :
    ∀ (i a : Nat), l[i]? = some a → ∀ g, g ∈ l.eraseIdx i ↔ (g ∈ l ∧ g ≠ a) := by
  induction l with
  | nil => intro i a h; simp at h
  | cons x xs ih =>
    intro i a h g
    obtain ⟨hx, hxs⟩ := List.nodup_cons.mp hnd
    cases i with
    | zero =>
      simp only [List.getElem?_cons_zero, Option.some.injEq] at h
      subst h
      simp only [List.eraseIdx_cons_zero, List.mem_cons]
      constructor
      · intro hg
        exact ⟨Or.inr hg, fun h => hx (h ▸ hg)⟩
      · rintro ⟨hg | hg, hne⟩
        · exact absurd hg hne
        · exact hg
    | succ i =>
      simp only [List.getElem?_cons_succ] at h
      simp only [List.eraseIdx_cons_succ, List.mem_cons, ih hxs i a h g]
      have hxa : x ≠ a := fun hxa => hx (hxa ▸ List.getElem?_mem h)
      constructor
      · rintro (hg | ⟨hg, hne⟩)
        · exact ⟨Or.inl hg, by rw [hg]; exact hxa⟩
        · exact ⟨Or.inr hg, hne⟩
      · rintro ⟨hg | hg, hne⟩
        · exact Or.inl hg
        · exact Or.inr ⟨hg, hne⟩

/-- The property `Lists_exact` with the vectors and the arrays given on their own. -/
theorem Lists_exact_congr (st st1 : Match_state) (h1 : st1.age_groups = st.age_groups)
    (h2 : st1.cpa = st.cpa) (h : Lists_exact st) : Lists_exact st1 := by
  unfold Lists_exact at h ⊢
  rw [h1, h2]
  exact h

theorem Lists_exact_bound (st : Match_state) (h : Lists_exact st) :
    ∀ l ∈ st.age_groups, ∀ g ∈ l, g < HIGHEST_AGE_GROUP := by
  intro l hl g hg
  obtain ⟨k, hk, hkl⟩ := List.getElem_of_mem hl
  have hk4 : k < 4 := by rw [← h.1]; exact hk
  obtain ⟨l0, h0, _, hmem⟩ := h.2 (k / 2) (k % 2) (by omega) (by omega)
  have hkk : k / 2 * 2 + k % 2 = k := by omega
  rw [hkk, List.getElem?_eq_getElem hk, hkl] at h0
  cases h0
  exact ((hmem g).mp hg).1

/-- One draw keeps the vectors of age groups exact: the array drawn from has one
more entry found, and its age group is erased from its vector exactly when the
array is then all found. -/
theorem Lists_exact_draw (st : Match_state) (sx rk ag idx : Nat) (l : List Nat) (c c1 : Cpa)
    (hsx : sx ≤ 1) (hrk : rk ≤ 1) (hl : st.age_groups[sx * 2 + rk]? = some l)
    (hag : l[idx]? = some ag) (hc : st.cpa[index sx rk ag]? = some c)
    (hsize : c1.size = c.size) (hnum : c1.num_found = c.num_found + 1)
    (h : Lists_exact st) :
    Lists_exact { st with
      cpa := st.cpa.set (index sx rk ag) c1,
      age_groups := if cpa_all_found c1 = true then
          st.age_groups.set (sx * 2 + rk) (l.eraseIdx idx)
        else st.age_groups } := by
  obtain ⟨hlen, hall⟩ := h
  have hjl : index sx rk ag < st.cpa.length := (List.getElem?_eq_some_iff.mp hc).1
  have hkl : sx * 2 + rk < st.age_groups.length := (List.getElem?_eq_some_iff.mp hl).1
  obtain ⟨l1, hl1, hpw, hmem⟩ := hall sx rk hsx hrk
  rw [hl] at hl1
  cases hl1
  have hagl : ag ∈ l := List.getElem?_mem hag
  obtain ⟨hag24, c0, hc0, hlt⟩ := (hmem ag).mp hagl
  rw [hc] at hc0
  cases hc0
  have hfound : (cpa_all_found c1 = true) ↔ ¬ (c1.num_found < c1.size) := by
    unfold cpa_all_found
    rw [beq_iff_eq, hnum, hsize]
    omega
  refine ⟨?_, ?_⟩
  · simp only
    split
    · rw [List.length_set]; exact hlen
    · exact hlen
  · intro sex risk hsex hrisk
    simp only
    by_cases hsame : sex = sx ∧ risk = rk
    · obtain ⟨rfl, rfl⟩ := hsame
      by_cases haf : cpa_all_found c1 = true
      · rw [if_pos haf, List.getElem?_set_self hkl]
        refine ⟨_, rfl, hpw.sublist (List.eraseIdx_sublist l idx), ?_⟩
        intro g
        rw [mem_eraseIdx_nodup l (hpw.imp (fun hab => Nat.ne_of_lt hab)) idx ag hag g, hmem g]
        by_cases hg : g = ag
        · subst hg
          rw [List.getElem?_set_self hjl]
          constructor
          · rintro ⟨_, hne⟩; exact absurd rfl hne
          · rintro ⟨_, c2, hc2, hlt2⟩
            cases hc2
            exact absurd hlt2 (hfound.mp haf)
        · have hne : index sex risk ag ≠ index sex risk g := by
            simp only [index]
            omega
          rw [List.getElem?_set_ne hne]
          constructor
          · rintro ⟨h1, _⟩; exact h1
          · intro h1; exact ⟨h1, hg⟩
      · rw [if_neg haf]
        refine ⟨l, hl, hpw, ?_⟩
        intro g
        rw [hmem g]
        by_cases hg : g = ag
        · subst hg
          rw [List.getElem?_set_self hjl]
          constructor
          · intro _
            exact ⟨hag24, c1, rfl, by
              by_contra hcon
              exact haf (hfound.mpr hcon)⟩
          · intro _
            exact ⟨hag24, c, hc, hlt⟩
        · have hne : index sex risk ag ≠ index sex risk g := by
            simp only [index]
            omega
          rw [List.getElem?_set_ne hne]
    · obtain ⟨l2, hl2, hpw2, hmem2⟩ := hall sex risk hsex hrisk
      have hk : sx * 2 + rk ≠ sex * 2 + risk := by
        intro hk
        apply hsame
        constructor <;> omega
      have hlook : (if cpa_all_found c1 = true then
          st.age_groups.set (sx * 2 + rk) (l.eraseIdx idx)
          else st.age_groups)[sex * 2 + risk]? = some l2 := by
        split
        · rw [List.getElem?_set_ne hk]; exact hl2
        · exact hl2
      refine ⟨l2, hlook, hpw2, ?_⟩
      intro g
      rw [hmem2 g]
      by_cases hg : g < HIGHEST_AGE_GROUP
      · have hne : index sx rk ag ≠ index sex risk g := by
          intro hi
          apply hsame
          simp only [index, NUM_CPA, HIGHEST_AGE_GROUP] at *
          constructor <;> omega
        rw [List.getElem?_set_ne hne]
      · constructor
        · rintro ⟨h1, _⟩; exact absurd h1 hg
        · rintro ⟨h1, _⟩; exact absurd h1 hg

/-- One round of the loop of `match_pair` keeps the vectors of age groups exact. -/
theorem match_step_lists (gen : Generator)
    (select_age_group : Nat → List Nat → Indiv → Outcome (Nat × Nat))
    (st st1 : Match_state) (h : match_step gen select_age_group st = .ok st1)
    (hinv : Lists_exact st) : Lists_exact st1 := by
  obtain ⟨s, fag, idxf, r, tag, idxt, src, dst, c, c1, ct, ct1, it, key, i, k, F, T,
    hs, hr, hfag, htag, hsrc, hfagi, hdst, htagi, hc, hcall, hF, hct, hcallt, hT, hlink,
    hcpa, hgroups, hlinked⟩ :=
    match_step_facts gen select_age_group st st1 h hinv.1 (Lists_exact_bound st hinv)
  obtain ⟨hsz1, _, hnum1⟩ := do_call_found c c1 (.iterate it) (some i) hcall
  obtain ⟨hsz2, _, hnum2⟩ := do_call_found ct ct1 (.binary key) (some k) hcallt
  have hne : index s HIGH fag ≠ index (1 - s) r tag := by
    simp only [index, NUM_CPA, HIGH, HIGHEST_AGE_GROUP] at *
    omega
  have hnel : s * 2 + HIGH ≠ (1 - s) * 2 + r := by
    simp only [HIGH]
    omega
  have hstep1 := Lists_exact_draw st s HIGH fag idxf src c c1 hs (by simp [HIGH]) hsrc hfagi hc
    hsz1 (hnum1 i rfl).2.2.2 hinv
  have hstep2 := Lists_exact_draw _ (1 - s) r tag idxt dst ct ct1 (by omega) hr
    (by
      simp only
      split
      · rw [List.getElem?_set_ne hnel]; exact hdst
      · exact hdst)
    htagi
    (by
      simp only
      rw [List.getElem?_set_ne hne]
      exact hct)
    hsz2 (hnum2 k rfl).2.2.2 hstep1
  refine Lists_exact_congr _ st1 ?_ ?_ hstep2
  · simp only
    rw [hgroups]
  · simp only
    rw [hcpa]

/-- What `non_empty_cpa` collects from the age groups it runs through. -/
theorem non_empty_scan_spec (cpa : List Cpa) (sex risk : Nat) :
    ∀ (l r : List Nat), non_empty_scan cpa sex risk l = .ok r →
      r.Sublist l ∧
      ∀ g, g ∈ r ↔ (g ∈ l ∧ ∃ c, cpa[index sex risk g]? = some c ∧ c.size ≠ 0) := by
  intro l
  induction l with
  | nil =>
    intro r h
    simp only [non_empty_scan, Outcome.ok.injEq] at h
    subst h
    exact ⟨List.Sublist.refl _, fun g => by simp⟩
  | cons i rest ih =>
    intro r h
    simp only [non_empty_scan, bind_eq_ok, read_eq_ok, pure_eq_ok] at h
    obtain ⟨c, hc, r1, h1, h2⟩ := h
    obtain ⟨hsub, hmem⟩ := ih r1 h1
    subst h2
    by_cases hs : c.size ≠ 0
    · rw [if_pos hs]
      refine ⟨hsub.cons₂ i, ?_⟩
      intro g
      simp only [List.mem_cons, hmem g]
      constructor
      · rintro (hg | ⟨hg, hx⟩)
        · subst hg
          exact ⟨Or.inl rfl, c, hc, hs⟩
        · exact ⟨Or.inr hg, hx⟩
      · rintro ⟨hg | hg, hx⟩
        · exact Or.inl hg
        · exact Or.inr ⟨hg, hx⟩
    · rw [if_neg hs]
      refine ⟨hsub.cons i, ?_⟩
      intro g
      simp only [List.mem_cons, hmem g]
      constructor
      · rintro ⟨hg, hx⟩
        exact ⟨Or.inr hg, hx⟩
      · rintro ⟨hg | hg, c2, hc2, hs2⟩
        · subst hg
          rw [hc] at hc2
          cases hc2
          exact absurd hs2 hs
        · exact ⟨hg, c2, hc2, hs2⟩

theorem new_cpas_num_found (junk : Nat → Int) :
    ∀ (sizes : List Nat) (first : Nat) (cs : List Cpa),
      new_cpas junk sizes first = .ok cs → ∀ c ∈ cs, c.num_found = 0 := by
  intro sizes
  induction sizes with
  | nil =>
    intro first cs h c hc
    simp only [new_cpas, Outcome.ok.injEq] at h
    rw [← h] at hc
    simp at hc
  | cons size rest ih =>
    intro first cs h c hc
    simp only [new_cpas, bind_eq_ok, pure_eq_ok] at h
    obtain ⟨c0, h0, cs0, h1, h2⟩ := h
    rw [← h2] at hc
    rcases List.mem_cons.mp hc with hc | hc
    · subst hc
      unfold cpa_new at h0
      split at h0
      · simp only [Outcome.ok.injEq] at h0
        rw [← h0]
      · simp only [Outcome.ok.injEq] at h0
        rw [← h0]
        rfl
    · exact ih _ cs0 h1 c hc

theorem cpa_append_num_found (c c1 : Cpa) (d : Nat) (w : Int) (h : cpa_append c d w = .ok c1) :
    c1.num_found = c.num_found := by
  unfold cpa_append at h
  split at h
  · exact Outcome.noConfusion h
  · split at h
    · exact Outcome.noConfusion h
    · simp only [Outcome.ok.injEq] at h
      rw [← h]

theorem assign_num_found (generate_weight : Indiv → Nat) (population : List Indiv) :
    ∀ (l : List Nat) (cpa cpa1 : List Cpa),
      assign generate_weight population l cpa = .ok cpa1 → (∀ c ∈ cpa, c.num_found = 0) →
      ∀ c ∈ cpa1, c.num_found = 0 := by
  intro l
  induction l with
  | nil =>
    intro cpa cpa1 h hp
    simp only [assign, Outcome.ok.injEq] at h
    rw [← h]
    exact hp
  | cons i rest ih =>
    intro cpa cpa1 h hp
    simp only [assign, bind_eq_ok, read_eq_ok] at h
    obtain ⟨ind, hind, h⟩ := h
    by_cases he : ind.eligible = true
    · rw [if_pos he] at h
      simp only [bind_eq_ok, read_eq_ok] at h
      obtain ⟨c, hc, c1, ha, h⟩ := h
      refine ih _ cpa1 h ?_
      intro c2 hc2
      rcases List.mem_or_eq_of_mem_set hc2 with h2 | h2
      · exact hp c2 h2
      · rw [h2, cpa_append_num_found c c1 i _ ha]
        exact hp c (List.getElem?_mem hc)
    · rw [if_neg he] at h
      exact ih cpa cpa1 h hp

/-- The vectors of age groups are exact when the loop of `match_pair` starts. -/
theorem match_init_lists (can_pair : Option Indiv → Bool) (generate_weight : Indiv → Nat)
    (junk : Nat → Int) (indices : List Nat) (population : List Indiv)
    (x : List Indiv × List Cpa × List (List Nat)) (its : List Cpa_iterator) (rand : Nat)
    (h : match_init can_pair generate_weight junk indices population = .ok x) :
    Lists_exact { population := x.1, cpa := x.2.1, cpa_iterator := its, age_groups := x.2.2,
                  rand := rand, linked := [] } := by
  simp only [match_init, match_arrays, bind_eq_ok, pure_eq_ok] at h
  obtain ⟨z, ⟨y, hy, cpa0, h0, cpa, ha, hz⟩, g1, hg1, g2, hg2, g3, hg3, g4, hg4, hx⟩ := h
  subst hx
  subst hz
  have hnum : ∀ c ∈ cpa, c.num_found = 0 :=
    assign_num_found generate_weight y.1 indices cpa0 cpa ha
      (new_cpas_num_found junk _ _ cpa0 h0)
  have hone : ∀ (sex risk : Nat) (l : List Nat), non_empty_cpa cpa sex risk = .ok l →
      l.Pairwise (· < ·) ∧ ∀ g, g ∈ l ↔ (g < HIGHEST_AGE_GROUP ∧
        ∃ c, cpa[index sex risk g]? = some c ∧ c.num_found < c.size) := by
    intro sex risk l hl
    obtain ⟨hsub, hmem⟩ := non_empty_scan_spec cpa sex risk _ l hl
    refine ⟨(List.pairwise_lt_range _).sublist hsub, ?_⟩
    intro g
    rw [hmem g, List.mem_range]
    constructor
    · rintro ⟨hg, c, hc, hs⟩
      exact ⟨hg, c, hc, by
        rw [hnum c (List.getElem?_mem hc)]
        exact Nat.pos_of_ne_zero hs⟩
    · rintro ⟨hg, c, hc, hs⟩
      exact ⟨hg, c, hc, by omega⟩
  refine ⟨rfl, ?_⟩
  intro sex risk hsex hrisk
  simp only
  have hcases : (sex = 0 ∨ sex = 1) ∧ (risk = 0 ∨ risk = 1) := by omega
  rcases hcases with ⟨rfl | rfl, rfl | rfl⟩
  · exact ⟨g3, rfl, hone MALE LOW g3 hg3⟩
  · exact ⟨g1, rfl, hone MALE HIGH g1 hg1⟩
  · exact ⟨g4, rfl, hone FEMALE LOW g4 hg4⟩
  · exact ⟨g2, rfl, hone FEMALE HIGH g2 hg2⟩

/-- A loop that ended within its rounds ended in the state that the loop cut
after those rounds is in. -/
theorem match_loop_rounds (gen : Generator)
    (select_age_group : Nat → List Nat → Indiv → Outcome (Nat × Nat)) :
    ∀ (fuel : Nat) (st st1 : Match_state),
      match_loop gen select_age_group fuel st = .ok st1 →
      match_rounds gen select_age_group fuel st = .ok st1 := by
  intro fuel
  induction fuel with
  | zero =>
    intro st st1 h
    simp only [match_loop, bind_eq_ok, read_eq_ok] at h
    obtain ⟨mh, _, fh, _, h⟩ := h
    split at h
    · exact Outcome.noConfusion h
    · rw [pure_eq_ok] at h
      subst h
      rfl
  | succ fuel ih =>
    intro st st1 h
    simp only [match_loop, bind_eq_ok, read_eq_ok] at h
    obtain ⟨mh, hm, fh, hf, h⟩ := h
    simp only [match_rounds, bind_eq_ok, read_eq_ok]
    refine ⟨mh, hm, fh, hf, ?_⟩
    split at h
    · rename_i hcond
      rw [if_pos hcond]
      rw [bind_eq_ok] at h ⊢
      obtain ⟨st2, hs, hl⟩ := h
      exact ⟨st2, hs, ih st2 st1 hl⟩
    · rename_i hcond
      rw [if_neg hcond]
      exact h

/-- At loop exit both vectors of HIGH risk age groups are empty. -/
theorem match_loop_exit_empty (gen : Generator)
    (select_age_group : Nat → List Nat → Indiv → Outcome (Nat × Nat)) :
    ∀ (fuel : Nat) (st st1 : Match_state),
      match_loop gen select_age_group fuel st = .ok st1 →
      st1.age_groups[MALE * 2 + HIGH]? = some [] ∧
      st1.age_groups[FEMALE * 2 + HIGH]? = some [] := by
  intro fuel
  induction fuel with
  | zero =>
    intro st st1 h
    simp only [match_loop, bind_eq_ok, read_eq_ok] at h
    obtain ⟨mh, hm, fh, hf, h⟩ := h
    split at h
    · exact Outcome.noConfusion h
    · rename_i hcond
      rw [pure_eq_ok] at h
      subst h
      have h1 : mh = [] := List.length_eq_zero.mp (by omega)
      have h2 : fh = [] := List.length_eq_zero.mp (by omega)
      rw [hm, hf, h1, h2]
      exact ⟨rfl, rfl⟩
  | succ fuel ih =>
    intro st st1 h
    simp only [match_loop, bind_eq_ok, read_eq_ok] at h
    obtain ⟨mh, hm, fh, hf, h⟩ := h
    split at h
    · rw [bind_eq_ok] at h
      obtain ⟨st2, _, hl⟩ := h
      exact ih st2 st1 hl
    · rename_i hcond
      rw [pure_eq_ok] at h
      subst h
      have h1 : mh = [] := List.length_eq_zero.mp (by omega)
      have h2 : fh = [] := List.length_eq_zero.mp (by omega)
      rw [hm, hf, h1, h2]
      exact ⟨rfl, rfl⟩

theorem match_rounds_lists (gen : Generator)
    (select_age_group : Nat → List Nat → Indiv → Outcome (Nat × Nat)) :
    ∀ (k : Nat) (st st1 : Match_state),
      match_rounds gen select_age_group k st = .ok st1 → Lists_exact st → Lists_exact st1 := by
  intro k
  induction k with
  | zero =>
    intro st st1 h hinv
    simp only [match_rounds, Outcome.ok.injEq] at h
    subst h
    exact hinv
  | succ k ih =>
    intro st st1 h hinv
    simp only [match_rounds, bind_eq_ok, read_eq_ok] at h
    obtain ⟨mh, _, fh, _, h⟩ := h
    split at h
    · rw [bind_eq_ok] at h
      obtain ⟨st2, hs, hl⟩ := h
      exact ih st2 st1 hl (match_step_lists gen select_age_group st st2 hs hinv)
    · rw [pure_eq_ok] at h
      subst h
      exact hinv

theorem match_pair_as_rounds (gen : Generator) (can_pair : Option Indiv → Bool)
    (select_age_group : Nat → List Nat → Indiv → Outcome (Nat × Nat))
    (generate_weight : Indiv → Nat) (junk : Nat → Int) (indices : List Nat) (rand : Nat)
    (population : List Indiv) (st : Match_state)
    (h : match_pair gen can_pair select_age_group generate_weight junk indices rand
      population = .ok st) :
    match_pair_rounds gen can_pair select_age_group generate_weight junk indices rand
      population (population.length + 1) = .ok st := by
  simp only [match_pair, bind_eq_ok] at h
  obtain ⟨x, hx, hl⟩ := h
  simp only [match_pair_rounds, bind_eq_ok]
  exact ⟨x, hx, match_loop_rounds gen select_age_group _ _ st hl⟩

/-- C24: at the start of every round of the loop of `match_pair` (the state the
loop cut after `k` rounds is in, for every `k`) and at loop exit, each of the
four vectors `age_groups[sex * 2 + risk]` is strictly ascending and holds
exactly the age groups `g < 24` whose array `index(sex, risk, g)` has
`num_found < size`. -/
theorem age_group_lists_exact (gen : Generator) (can_pair : Option Indiv → Bool)
    (select_age_group : Nat → List Nat → Indiv → Outcome (Nat × Nat))
    (generate_weight : Indiv → Nat) (junk : Nat → Int) (indices : List Nat) (rand : Nat)
    (population : List Indiv) (k : Nat) (st : Match_state)
    (hrun : match_pair_rounds gen can_pair select_age_group generate_weight junk indices rand
        population k = .ok st ∨
      match_pair gen can_pair select_age_group generate_weight junk indices rand
        population = .ok st) :
    st.age_groups.length = 4 ∧
    ∀ sex risk, sex ≤ 1 → risk ≤ 1 →
      ∃ l, st.age_groups[sex * 2 + risk]? = some l ∧ l.Pairwise (· < ·) ∧
        ∀ g, g ∈ l ↔ (g < HIGHEST_AGE_GROUP ∧
          ∃ c, st.cpa[index sex risk g]? = some c ∧ c.num_found < c.size) := by
  have hr : ∃ k1, match_pair_rounds gen can_pair select_age_group generate_weight junk indices
      rand population k1 = .ok st := by
    rcases hrun with h | h
    · exact ⟨k, h⟩
    · exact ⟨_, match_pair_as_rounds _ _ _ _ _ _ _ _ _ h⟩
  obtain ⟨k1, h⟩ := hr
  simp only [match_pair_rounds, bind_eq_ok] at h
  obtain ⟨x, hx, hl⟩ := h
  exact match_rounds_lists gen select_age_group k1 _ st hl
    (match_init_lists can_pair generate_weight junk indices population x _ rand hx)

set_option maxRecDepth 100000 in
theorem age_group_lists_exact_witness :
    Lists_exact (final_state (match_pair_rounds gen_low can_pair_default
      (select_age_group_default gen_low) generate_weight_default (fun _ => 0)
      [3, 1, 0, 5, 2, 4] 0 couple_population 1) empty_state) :=
  age_group_lists_exact gen_low can_pair_default (select_age_group_default gen_low)
    generate_weight_default (fun _ => 0) [3, 1, 0, 5, 2, 4] 0 couple_population 1
    (final_state (match_pair_rounds gen_low can_pair_default (select_age_group_default gen_low)
      generate_weight_default (fun _ => 0) [3, 1, 0, 5, 2, 4] 0 couple_population 1)
      empty_state)
    (Or.inl (by decide))

/-- A call keeps every entry at its place with its payload, and keeps found what
was found. -/
theorem do_call_kept (cpa cpa1 : Cpa) (op : Call) (r : Option Nat)
    (h : do_call cpa op = .ok (cpa1, r)) :
    ∀ (j : Nat) (e : Cpa_entry), cpa.entries[j]? = some e →
      ∃ e1, cpa1.entries[j]? = some e1 ∧ e1.data = e.data ∧
        (e.found = true → e1.found = true) ∧ (r = some j → e.found = false ∧ e1.found = true) := by
  intro j e hj
  rcases do_call_effect cpa cpa1 op r h with ⟨hr, hc⟩ | ⟨i, e0, hr, he0, hf0, hcore, _, _⟩
  · subst hc
    exact ⟨e, hj, rfl, fun hf => hf, fun hrj => by rw [hr] at hrj; exact Option.noConfusion hrj⟩
  · have hlen : cpa1.entries.length = cpa.entries.length := by
      have := congrArg List.length hcore
      simpa using this
    have hjl : j < cpa.entries.length := (List.getElem?_eq_some_iff.mp hj).1
    have hj1 : cpa1.entries[j]? = some cpa1.entries[j] := List.getElem?_eq_getElem (by omega)
    obtain ⟨e2, he2, hc2⟩ := getElem?_core_congr _ _ hcore j _ hj1
    refine ⟨cpa1.entries[j], hj1, ?_, ?_, ?_⟩
    · by_cases hij : i = j
      · subst hij
        rw [List.getElem?_set_self hjl] at he2
        cases he2
        rw [he0] at hj
        cases hj
        simp only [core, Prod.mk.injEq] at hc2
        exact hc2.1
      · rw [List.getElem?_set_ne hij, hj] at he2
        cases he2
        simp only [core, Prod.mk.injEq] at hc2
        exact hc2.1
    · intro hf
      by_cases hij : i = j
      · subst hij
        rw [List.getElem?_set_self hjl] at he2
        cases he2
        simp only [core, Prod.mk.injEq] at hc2
        exact hc2.2.2.2
      · rw [List.getElem?_set_ne hij, hj] at he2
        cases he2
        simp only [core, Prod.mk.injEq] at hc2
        rw [hc2.2.2.2]
        exact hf
    · intro hrj
      rw [hr] at hrj
      have hij : i = j := Option.some.inj hrj
      subst hij
      rw [List.getElem?_set_self hjl] at he2
      cases he2
      rw [he0] at hj
      cases hj
      simp only [core, Prod.mk.injEq] at hc2
      exact ⟨hf0, hc2.2.2.2⟩

theorem nodup_index_unique (l : List Nat) (hnd : l.Nodup) (i j a : Nat)
    (hi : l[i]? = some a) (hj : l[j]? = some a) : i = j := by
  have hil := (List.getElem?_eq_some_iff.mp hi).1
  have hjl := (List.getElem?_eq_some_iff.mp hj).1
  rcases Nat.lt_trichotomy i j with h | h | h
  · exact absurd (hi.trans hj.symm) (List.nodup_iff_getElem?_ne_getElem?.mp hnd i j h hjl)
  · exact h
  · exact absurd (hj.trans hi.symm) (List.nodup_iff_getElem?_ne_getElem?.mp hnd j i h hil)

theorem set_partner_fields (population pop1 : List Indiv) (i : Nat) (p : Option Nat)
    (h : set_partner population i p = .ok pop1) :
    pop1.length = population.length ∧
    (∀ x : Nat, (pop1[x]?).map other_fields = (population[x]?).map other_fields) := by
  have hi : i < population.length := by
    by_contra hge
    unfold set_partner at h
    rw [List.getElem?_eq_none (by omega)] at h
    exact Outcome.noConfusion h
  obtain ⟨p1, e1, l1, _, o1⟩ := set_partner_spec population i p hi
  rw [e1] at h
  cases h
  exact ⟨l1, o1⟩

theorem release_fields (population pop1 : List Indiv) (p : Option Nat)
    (h : release population p = .ok pop1) :
    pop1.length = population.length ∧
    (∀ x : Nat, (pop1[x]?).map other_fields = (population[x]?).map other_fields) := by
  cases p with
  | none =>
    simp only [release, Outcome.ok.injEq] at h
    subst h
    exact ⟨rfl, fun _ => rfl⟩
  | some b => exact set_partner_fields population pop1 b none h

/-- The link statements change no field other than `partner`. -/
theorem link_fields (population pop1 : List Indiv) (f t : Nat)
    (h : link population f t = .ok pop1) :
    pop1.length = population.length ∧
    (∀ x : Nat, (pop1[x]?).map other_fields = (population[x]?).map other_fields) := by
  simp only [link, bind_eq_ok, read_eq_ok] at h
  obtain ⟨F, _, p1, h1, p2, h2, T, _, p3, h3, h4⟩ := h
  obtain ⟨l1, o1⟩ := release_fields _ _ _ h1
  obtain ⟨l2, o2⟩ := set_partner_fields _ _ _ _ h2
  obtain ⟨l3, o3⟩ := release_fields _ _ _ h3
  obtain ⟨l4, o4⟩ := set_partner_fields _ _ _ _ h4
  exact ⟨by omega, fun x => by rw [o4 x, o3 x, o2 x, o1 x]⟩

theorem Drawn_set (cpa : List Cpa) (j : Nat) (c c1 : Cpa) (op : Call) (r : Option Nat)
    (hc : cpa[j]? = some c) (hcall : do_call c op = .ok (c1, r)) (p : Nat)
    (h : Drawn cpa p) : Drawn (cpa.set j c1) p := by
  obtain ⟨j1, c2, i, e, hj1, hi, hd, hf⟩ := h
  have hjl : j < cpa.length := (List.getElem?_eq_some_iff.mp hc).1
  by_cases hjj : j = j1
  · subst hjj
    rw [hc] at hj1
    cases hj1
    obtain ⟨e1, he1, hd1, hf1, _⟩ := do_call_kept c c1 op r hcall i e hi
    exact ⟨j, c1, i, e1, List.getElem?_set_self hjl, he1, by rw [hd1, hd], hf1 hf⟩
  · exact ⟨j1, c2, i, e, by rw [List.getElem?_set_ne hjj]; exact hj1, hi, hd, hf⟩

/-- The entry a call returns becomes drawn, and it was not drawn before when the
array holds no payload twice. -/
theorem Drawn_new (cpa : List Cpa) (population : List Indiv) (j : Nat) (c c1 : Cpa)
    (op : Call) (i p : Nat)
    (hplaced : Placed population cpa)
    (hnodup : ∀ (j : Nat) (c : Cpa), cpa[j]? = some c →
      (c.entries.map (fun e => e.data)).Nodup)
    (hc : cpa[j]? = some c) (hcall : do_call c op = .ok (c1, some i))
    (hp : (c1.entries.map (fun e => e.data))[i]? = some p) :
    Drawn (cpa.set j c1) p ∧ ¬ Drawn cpa p ∧
    ∃ ind, population[p]? = some ind ∧ stratum ind = j := by
  have hjl : j < cpa.length := (List.getElem?_eq_some_iff.mp hc).1
  have hdx := do_call_data c c1 op (some i) hcall
  have hpc : (c.entries.map (fun e => e.data))[i]? = some p := by rw [← hdx]; exact hp
  rw [List.getElem?_map] at hpc
  cases hei : c.entries[i]? with
  | none => rw [hei] at hpc; exact Option.noConfusion hpc
  | some e =>
    rw [hei] at hpc
    have hed : e.data = p := Option.some.inj hpc
    obtain ⟨e1, he1, hd1, _, hnew⟩ := do_call_kept c c1 op (some i) hcall i e hei
    obtain ⟨hf0, hf1⟩ := hnew rfl
    have hmem : p ∈ c.entries.map (fun e => e.data) :=
      List.mem_map.mpr ⟨e, List.getElem?_mem hei, hed⟩
    obtain ⟨ind, hind, hstr⟩ := hplaced j c hc p hmem
    refine ⟨⟨j, c1, i, e1, List.getElem?_set_self hjl, he1, by rw [hd1, hed], hf1⟩, ?_,
      ind, hind, hstr⟩
    rintro ⟨j2, c2, i2, e2, hj2, hi2, hd2, hf2⟩
    have hmem2 : p ∈ c2.entries.map (fun e => e.data) :=
      List.mem_map.mpr ⟨e2, List.getElem?_mem hi2, hd2⟩
    obtain ⟨ind2, hind2, hstr2⟩ := hplaced j2 c2 hj2 p hmem2
    rw [hind] at hind2
    cases hind2
    have hjj : j2 = j := by rw [← hstr2, hstr]
    subst hjj
    rw [hc] at hj2
    cases hj2
    have h1 : (c.entries.map (fun e => e.data))[i]? = some p := by
      rw [List.getElem?_map, hei, ← hed]; rfl
    have h2 : (c.entries.map (fun e => e.data))[i2]? = some p := by
      rw [List.getElem?_map, hi2, ← hd2]; rfl
    have hii := nodup_index_unique _ (hnodup j2 c hc) i i2 p h1 h2
    subst hii
    rw [hei] at hi2
    cases hi2
    rw [hf0] at hf2
    exact Bool.noConfusion hf2

theorem selected_append (linked : List (Nat × Nat)) (f t : Nat) :
    selected (linked ++ [(f, t)]) = selected linked ++ [f, t] := by
  simp [selected]

theorem eligible_of_fields (a b : Indiv) (h : other_fields a = other_fields b) :
    a.eligible = b.eligible := by
  simp only [other_fields, Prod.mk.injEq] at h
  exact h.2.2.2.2.1

theorem data_prop_set (P : List Nat → Prop) (cpa : List Cpa) (j : Nat) (c c1 : Cpa)
    (hP : ∀ (k : Nat) (c : Cpa), cpa[k]? = some c → P (c.entries.map (fun e => e.data)))
    (hc : cpa[j]? = some c)
    (hd : c1.entries.map (fun e => e.data) = c.entries.map (fun e => e.data)) :
    ∀ (k : Nat) (c2 : Cpa), (cpa.set j c1)[k]? = some c2 →
      P (c2.entries.map (fun e => e.data)) := by
  intro k c2 hk
  by_cases hjk : j = k
  · subst hjk
    have hlt : j < cpa.length := (List.getElem?_eq_some_iff.mp hc).1
    rw [List.getElem?_set_self hlt] at hk
    cases hk
    rw [hd]
    exact hP j c hc
  · rw [List.getElem?_set_ne hjk] at hk
    exact hP k c2 hk

theorem index_opposite_ne (s r g h : Nat) (hs : s ≤ 1) (hr : r ≤ 1)
    (hg : g < HIGHEST_AGE_GROUP) (hh : h < HIGHEST_AGE_GROUP) :
    index s HIGH g ≠ index (1 - s) r h := by
  simp only [index, NUM_CPA, HIGH, HIGHEST_AGE_GROUP] at *
  omega

/-- One round of the loop draws two individuals that no earlier round drew, and
keeps `Drawn_inv`. -/
theorem match_step_drawn (gen : Generator)
    (select_age_group : Nat → List Nat → Indiv → Outcome (Nat × Nat))
    (st st1 : Match_state) (h : match_step gen select_age_group st = .ok st1)
    (hl : Lists_exact st) (hinv : Drawn_inv st) :
    ∃ F T, st1.linked = st.linked ++ [(F, T)] ∧
      link st.population F T = .ok st1.population ∧ F ≠ T ∧
      F < st.population.length ∧ T < st.population.length ∧
      F ∉ selected st.linked ∧ T ∉ selected st.linked ∧ Drawn_inv st1 := by
  obtain ⟨s, fag, idxf, r, tag, idxt, src, dst, c, c1, ct, ct1, it, key, i, k, F, T, hs, hr,
    hfag, htag, _, _, _, _, hc, hcall, hF, hct, hcallt, hT, hlink, hcpa, _, hlinked⟩ :=
    match_step_facts gen select_age_group st st1 h hl.1 (Lists_exact_bound st hl)
  obtain ⟨hplaced, hnodup, helig, hdrawn, hsel, hsrc⟩ := hinv
  obtain ⟨hlenp, hfields⟩ := link_fields _ _ _ _ hlink
  have hne := index_opposite_ne s r fag tag hs hr hfag htag
  obtain ⟨hFd, hFn, indF, hindF, hstrF⟩ :=
    Drawn_new st.cpa st.population _ c c1 _ i F hplaced hnodup hc hcall hF
  obtain ⟨hTd, hTn, indT, hindT, hstrT⟩ :=
    Drawn_new st.cpa st.population _ ct ct1 _ k T hplaced hnodup hct hcallt hT
  have hFT : F ≠ T := by
    intro hft
    subst hft
    rw [hindF] at hindT
    cases hindT
    exact hne (hstrF.symm.trans hstrT)
  have hdx := do_call_data c c1 _ _ hcall
  have hdxt := do_call_data ct ct1 _ _ hcallt
  have hct2 : (st.cpa.set (index s HIGH fag) c1)[index (1 - s) r tag]? = some ct := by
    rw [List.getElem?_set_ne hne]; exact hct
  have hc2 : (st.cpa.set (index (1 - s) r tag) ct1)[index s HIGH fag]? = some c := by
    rw [List.getElem?_set_ne (Ne.symm hne)]; exact hc
  have hcomm : (st.cpa.set (index s HIGH fag) c1).set (index (1 - s) r tag) ct1 =
      (st.cpa.set (index (1 - s) r tag) ct1).set (index s HIGH fag) c1 :=
    List.set_comm _ _ _ hne
  have hFmem : F ∈ c.entries.map (fun e => e.data) := by
    rw [← hdx]; exact List.getElem?_mem hF
  refine ⟨F, T, hlinked, hlink, hFT, (List.getElem?_eq_some_iff.mp hindF).1,
    (List.getElem?_eq_some_iff.mp hindT).1, fun hm => hFn (hdrawn F hm),
    fun hm => hTn (hdrawn T hm), ?_, ?_, ?_, ?_, ?_, ?_⟩
  · rw [hcpa]
    exact Placed_fields _ _ _ hfields
      (Placed_set _ _ _ ct ct1 (Placed_set _ _ _ c c1 hplaced hc hdx) hct2 hdxt)
  · rw [hcpa]
    exact data_prop_set (fun l => l.Nodup) _ _ ct ct1
      (data_prop_set (fun l => l.Nodup) _ _ c c1 hnodup hc hdx) hct2 hdxt
  · rw [hcpa]
    intro j c2 hj d hd
    obtain ⟨ind, hind, he⟩ := data_prop_set
      (fun l => ∀ d ∈ l, ∃ ind, st.population[d]? = some ind ∧ ind.eligible = true) _ _ ct ct1
      (data_prop_set
        (fun l => ∀ d ∈ l, ∃ ind, st.population[d]? = some ind ∧ ind.eligible = true)
        _ _ c c1 helig hc hdx) hct2 hdxt j c2 hj d hd
    obtain ⟨ind1, h1, h2⟩ := fields_getElem _ _ hfields d ind hind
    exact ⟨ind1, h1, by rw [eligible_of_fields _ _ h2, he]⟩
  · intro p hp
    rw [hlinked, selected_append, List.mem_append] at hp
    rw [hcpa]
    rcases hp with hp | hp
    · exact Drawn_set _ _ ct ct1 _ _ hct2 hcallt p
        (Drawn_set _ _ c c1 _ _ hc hcall p (hdrawn p hp))
    · simp only [List.mem_cons, List.mem_singleton, List.mem_nil_iff, or_false] at hp
      rcases hp with hp | hp
      · subst hp
        exact Drawn_set _ _ ct ct1 _ _ hct2 hcallt p hFd
      · subst hp
        rw [hcomm]
        exact Drawn_set _ _ c c1 _ _ hc2 hcall p hTd
  · rw [hlinked, selected_append, List.nodup_append]
    refine ⟨hsel, ?_, ?_⟩
    · simp [hFT]
    · intro a ha hb
      simp only [List.mem_cons, List.mem_singleton, List.mem_nil_iff, or_false] at hb
      rcases hb with hb | hb
      · subst hb; exact hFn (hdrawn a ha)
      · subst hb; exact hTn (hdrawn a ha)
  · intro p hp
    rw [hlinked, List.mem_append] at hp
    rcases hp with hp | hp
    · obtain ⟨ind, s1, g1, hi1, he1, hs1, hg1, hst1⟩ := hsrc p hp
      obtain ⟨ind1, h1, h2⟩ := fields_getElem _ _ hfields p.1 ind hi1
      exact ⟨ind1, s1, g1, h1, by rw [eligible_of_fields _ _ h2, he1], hs1, hg1,
        by rw [stratum_of_fields _ _ h2, hst1]⟩
    · simp only [List.mem_singleton] at hp
      subst hp
      obtain ⟨ind, hi1, he1⟩ := helig _ c hc F hFmem
      rw [hindF] at hi1
      cases hi1
      obtain ⟨ind1, h1, h2⟩ := fields_getElem _ _ hfields F indF hindF
      exact ⟨ind1, s, fag, h1, by rw [eligible_of_fields _ _ h2, he1], hs, hfag,
        by rw [stratum_of_fields _ _ h2, hstrF]⟩

/-- The appends of `match_pair` put no individual into an array twice when
`indices` holds no position twice, and they append eligible individuals only. -/
theorem assign_nodup (generate_weight : Indiv → Nat) (population : List Indiv) :
    ∀ (l : List Nat) (cpa cpa1 : List Cpa),
      assign generate_weight population l cpa = .ok cpa1 → l.Nodup →
      (∀ (j : Nat) (c : Cpa), cpa[j]? = some c →
        (c.entries.map (fun e => e.data)).Nodup ∧
        ∀ d ∈ c.entries.map (fun e => e.data),
          d ∉ l ∧ ∃ ind, population[d]? = some ind ∧ ind.eligible = true) →
      ∀ (j : Nat) (c : Cpa), cpa1[j]? = some c →
        (c.entries.map (fun e => e.data)).Nodup ∧
        ∀ d ∈ c.entries.map (fun e => e.data),
          ∃ ind, population[d]? = some ind ∧ ind.eligible = true := by
  intro l
  induction l with
  | nil =>
    intro cpa cpa1 h _ hp j c hj
    simp only [assign, Outcome.ok.injEq] at h
    subst h
    exact ⟨(hp j c hj).1, fun d hd => ((hp j c hj).2 d hd).2⟩
  | cons i rest ih =>
    intro cpa cpa1 h hnd hp
    obtain ⟨hi, hrest⟩ := List.nodup_cons.mp hnd
    simp only [assign, bind_eq_ok, read_eq_ok] at h
    obtain ⟨ind, hind, h⟩ := h
    by_cases he : ind.eligible = true
    · rw [if_pos he] at h
      simp only [bind_eq_ok, read_eq_ok] at h
      obtain ⟨c, hc, c1, ha, h⟩ := h
      refine ih _ cpa1 h hrest ?_
      intro j cj hj
      by_cases hjk : index ind.sex ind.risk_group ind.age_group = j
      · subst hjk
        have hlt := (List.getElem?_eq_some_iff.mp hc).1
        rw [List.getElem?_set_self hlt] at hj
        cases hj
        rw [cpa_append_data c c1 i _ ha]
        obtain ⟨hn, hm⟩ := hp _ c hc
        refine ⟨?_, ?_⟩
        · rw [List.nodup_append]
          refine ⟨hn, List.nodup_singleton i, ?_⟩
          intro a ha1 ha2
          simp only [List.mem_singleton] at ha2
          subst ha2
          exact (hm a ha1).1 (List.mem_cons_self _ _)
        · intro d hd
          rw [List.mem_append] at hd
          rcases hd with hd | hd
          · exact ⟨fun hr => (hm d hd).1 (List.mem_cons_of_mem _ hr), (hm d hd).2⟩
          · simp only [List.mem_singleton] at hd
            subst hd
            exact ⟨hi, ind, hind, he⟩
      · rw [List.getElem?_set_ne hjk] at hj
        obtain ⟨hn, hm⟩ := hp j cj hj
        exact ⟨hn, fun d hd => ⟨fun hr => (hm d hd).1 (List.mem_cons_of_mem _ hr), (hm d hd).2⟩⟩
    · rw [if_neg he] at h
      refine ih cpa cpa1 h hrest ?_
      intro j cj hj
      obtain ⟨hn, hm⟩ := hp j cj hj
      exact ⟨hn, fun d hd => ⟨fun hr => (hm d hd).1 (List.mem_cons_of_mem _ hr), (hm d hd).2⟩⟩

/-- The part of `match_pair` before the loop sets up `Drawn_inv`. -/
theorem match_init_drawn (can_pair : Option Indiv → Bool) (generate_weight : Indiv → Nat)
    (junk : Nat → Int) (indices : List Nat) (population : List Indiv)
    (x : List Indiv × List Cpa × List (List Nat)) (its : List Cpa_iterator) (rand : Nat)
    (h : match_init can_pair generate_weight junk indices population = .ok x)
    (hnd : indices.Nodup) :
    Drawn_inv { population := x.1, cpa := x.2.1, cpa_iterator := its, age_groups := x.2.2,
                rand := rand, linked := [] } ∧
    x.1 = population.map (fun i => { i with eligible := can_pair (some i) }) := by
  simp only [match_init, match_arrays, bind_eq_ok, pure_eq_ok] at h
  obtain ⟨z, ⟨y, hy, cpa0, h0, cpa, ha, hz⟩, g1, hg1, g2, hg2, g3, hg3, g4, hg4, hx⟩ := h
  subst hx
  subst hz
  have hpop := count_eligible_population can_pair population _ y hy
  have hboth := assign_nodup generate_weight y.1 indices cpa0 cpa ha hnd (by
    intro j c hj
    rw [new_cpas_empty junk _ _ cpa0 h0 c (List.getElem?_mem hj)]
    exact ⟨List.nodup_nil, fun d hd => by simp at hd⟩)
  refine ⟨⟨?_, fun j c hj => (hboth j c hj).1, fun j c hj => (hboth j c hj).2, ?_, ?_, ?_⟩,
    hpop⟩
  · refine assign_placed generate_weight y.1 indices cpa0 cpa ha ?_
    intro j c hj d hd
    rw [new_cpas_empty junk _ _ cpa0 h0 c (List.getElem?_mem hj)] at hd
    simp at hd
  · intro p hp
    simp [selected] at hp
  · simp [selected]
  · intro p hp
    simp at hp

theorem mem_selected (linked : List (Nat × Nat)) (p : Nat × Nat) (hp : p ∈ linked) :
    p.1 ∈ selected linked ∧ p.2 ∈ selected linked := by
  simp only [selected, List.mem_flatMap]
  exact ⟨⟨p, hp, by simp⟩, ⟨p, hp, by simp⟩⟩

/-- One round of the loop keeps the couples the earlier rounds formed, when
partnerships are mutual. -/
theorem match_step_couples (gen : Generator)
    (select_age_group : Nat → List Nat → Indiv → Outcome (Nat × Nat))
    (st st1 : Match_state) (h : match_step gen select_age_group st = .ok st1)
    (hl : Lists_exact st) (hinv : Drawn_inv st) (hc : Consistent st.population)
    (hk : Couples_kept st) : Consistent st1.population ∧ Couples_kept st1 := by
  obtain ⟨F, T, hlinked, hlink, hFT, hF, hT, hFn, hTn, _⟩ :=
    match_step_drawn gen select_age_group st st1 h hl hinv
  obtain ⟨pop1, hlink1, _, _, hpart⟩ := link_spec st.population F T hF hT hFT hc
  rw [hlink] at hlink1
  cases hlink1
  refine ⟨link_consistent _ _ F T hFT hc hpart, ?_⟩
  have hold : ∀ a b, a ∈ selected st.linked → partner_of st.population a = some b →
      b ∈ selected st.linked → partner_of st1.population a = some b := by
    intro a b ha hab hb
    have haF : a ≠ F := fun e => hFn (e ▸ ha)
    have haT : a ≠ T := fun e => hTn (e ▸ ha)
    have hbF : b ≠ F := fun e => hFn (e ▸ hb)
    have hbT : b ≠ T := fun e => hTn (e ▸ hb)
    rw [hpart a, if_neg haF, if_neg haT, if_neg, hab]
    rintro (h1 | h1)
    · have := hc F a h1
      rw [hab] at this
      exact hbF (Option.some.inj this)
    · have := hc T a h1
      rw [hab] at this
      exact hbT (Option.some.inj this)
  intro p hp
  rw [hlinked, List.mem_append] at hp
  rcases hp with hp | hp
  · obtain ⟨h1, h2⟩ := mem_selected _ p hp
    obtain ⟨k1, k2⟩ := hk p hp
    exact ⟨hold p.1 p.2 h1 k1 h2, hold p.2 p.1 h2 k2 h1⟩
  · simp only [List.mem_singleton] at hp
    subst hp
    refine ⟨?_, ?_⟩
    · rw [hpart F, if_pos rfl]
    · rw [hpart T, if_neg (Ne.symm hFT), if_pos rfl]

/-- Every number of rounds of the loop keeps the invariants. -/
theorem match_rounds_drawn (gen : Generator)
    (select_age_group : Nat → List Nat → Indiv → Outcome (Nat × Nat)) :
    ∀ (k : Nat) (st st1 : Match_state),
      match_rounds gen select_age_group k st = .ok st1 → Lists_exact st → Drawn_inv st →
      Lists_exact st1 ∧ Drawn_inv st1 ∧
      (∀ x : Nat, (st1.population[x]?).map other_fields =
        (st.population[x]?).map other_fields) ∧
      (Consistent st.population → Couples_kept st →
        Consistent st1.population ∧ Couples_kept st1) := by
  intro k
  induction k with
  | zero =>
    intro st st1 h hl hinv
    simp only [match_rounds, Outcome.ok.injEq] at h
    subst h
    exact ⟨hl, hinv, fun _ => rfl, fun hc hk => ⟨hc, hk⟩⟩
  | succ k ih =>
    intro st st1 h hl hinv
    simp only [match_rounds, bind_eq_ok, read_eq_ok] at h
    obtain ⟨mh, _, fh, _, h⟩ := h
    split at h
    · rw [bind_eq_ok] at h
      obtain ⟨st2, hs, hr⟩ := h
      obtain ⟨F, T, _, hlink, _, _, _, _, _, hinv2⟩ :=
        match_step_drawn gen select_age_group st st2 hs hl hinv
      have hl2 := match_step_lists gen select_age_group st st2 hs hl
      obtain ⟨a1, a2, a3, a4⟩ := ih st2 st1 hr hl2 hinv2
      refine ⟨a1, a2, fun x => by rw [a3 x, (link_fields _ _ _ _ hlink).2 x], ?_⟩
      intro hc hk
      obtain ⟨b1, b2⟩ := match_step_couples gen select_age_group st st2 hs hl hinv hc hk
      exact a4 b1 b2
    · rw [pure_eq_ok] at h
      subst h
      exact ⟨hl, hinv, fun _ => rfl, fun hc hk => ⟨hc, hk⟩⟩

theorem match_pair_rounds_drawn (gen : Generator) (can_pair : Option Indiv → Bool)
    (select_age_group : Nat → List Nat → Indiv → Outcome (Nat × Nat))
    (generate_weight : Indiv → Nat) (junk : Nat → Int) (indices : List Nat) (rand : Nat)
    (population : List Indiv) (k : Nat) (st : Match_state) (hnd : indices.Nodup)
    (h : match_pair_rounds gen can_pair select_age_group generate_weight junk indices rand
      population k = .ok st) :
    Drawn_inv st ∧
    (∀ x : Nat, (st.population[x]?).map other_fields =
      ((population.map (fun i => { i with eligible := can_pair (some i) }))[x]?).map
        other_fields) ∧
    (Consistent population → Couples_kept st) := by
  simp only [match_pair_rounds, bind_eq_ok] at h
  obtain ⟨x, hx, hl⟩ := h
  obtain ⟨hinv, hpop⟩ := match_init_drawn can_pair generate_weight junk indices population x
    (List.replicate NUM_CPA iterator_zero) rand hx hnd
  obtain ⟨_, a2, a3, a4⟩ := match_rounds_drawn gen select_age_group k _ st hl
    (match_init_lists can_pair generate_weight junk indices population x _ rand hx) hinv
  refine ⟨a2, fun y => by rw [a3 y, hpop], fun hc => (a4 ?_ ?_).2⟩
  · intro a b hab
    simp only [hpop] at hab ⊢
    rw [partner_of_eligible] at hab ⊢
    exact hc a b hab
  · intro p hp
    simp at hp

set_option maxRecDepth 100000 in
/-- C25, as stated, fails in its last part: the second male points to the first
as his partner while the first has none.  The first round links the first male
and the first female; the second round links the second male, and the statement
`ind_from->partner->partner = NULL` clears the pointer of the first male, whose
partnership of the first round is undone although nobody was selected twice. -/
theorem partnership_displaced_counterexample :
    (∀ ind ∈ one_sided_population, in_range ind) ∧
    (fun st => (st.linked, st.population.map (fun ind => ind.partner))) <$>
      match_pair_rounds gen_low can_pair_default (select_age_group_default gen_low)
        generate_weight_default (fun _ => 0) [0, 1, 2, 3] 0 one_sided_population 1 =
      .ok ([(0, 1)], [some 1, some 0, some 0, none]) ∧
    (fun st => (st.linked, st.population.map (fun ind => ind.partner))) <$>
      match_pair gen_low can_pair_default (select_age_group_default gen_low)
        generate_weight_default (fun _ => 0) [0, 1, 2, 3] 0 one_sided_population =
      .ok ([(0, 1), (2, 3)], [none, some 0, some 3, some 2]) :=
  ⟨by decide, by decide, by decide⟩

/-- C25, amended: within a `match_pair` call (`indices` holding no position
twice, as `random_shuffle` leaves it) the individuals the loop selected, the
sources `cpa_iterate` returned and the targets `cpa_binary_search` returned, are
pairwise distinct, at the start of every round and at loop exit; and if before
the call every individual has no partner or is the partner of its partner, every
pair linked in an earlier round of the call is still a couple. -/
theorem selected_pairwise_distinct (gen : Generator) (can_pair : Option Indiv → Bool)
    (select_age_group : Nat → List Nat → Indiv → Outcome (Nat × Nat))
    (generate_weight : Indiv → Nat) (junk : Nat → Int) (indices : List Nat) (rand : Nat)
    (population : List Indiv) (k : Nat) (st : Match_state) (hnd : indices.Nodup)
    (hrun : match_pair_rounds gen can_pair select_age_group generate_weight junk indices rand
        population k = .ok st ∨
      match_pair gen can_pair select_age_group generate_weight junk indices rand
        population = .ok st) :
    (selected st.linked).Nodup ∧
    (Consistent population →
      ∀ p ∈ st.linked, partner_of st.population p.1 = some p.2 ∧
        partner_of st.population p.2 = some p.1) := by
  have hr : ∃ k1, match_pair_rounds gen can_pair select_age_group generate_weight junk indices
      rand population k1 = .ok st := by
    rcases hrun with h | h
    · exact ⟨k, h⟩
    · exact ⟨_, match_pair_as_rounds _ _ _ _ _ _ _ _ _ h⟩
  obtain ⟨k1, h⟩ := hr
  obtain ⟨hinv, _, hk⟩ := match_pair_rounds_drawn gen can_pair select_age_group generate_weight
    junk indices rand population k1 st hnd h
  exact ⟨hinv.2.2.2.2.1, hk⟩

set_option maxRecDepth 100000 in
theorem selected_pairwise_distinct_witness :
    (selected (final_state (match_pair gen_low can_pair_default
      (select_age_group_default gen_low) generate_weight_default (fun _ => 0)
      [3, 1, 0, 5, 2, 4] 0 couple_population) empty_state).linked).Nodup ∧
    (∀ p ∈ (final_state (match_pair gen_low can_pair_default
        (select_age_group_default gen_low) generate_weight_default (fun _ => 0)
        [3, 1, 0, 5, 2, 4] 0 couple_population) empty_state).linked,
        partner_of (final_state (match_pair gen_low can_pair_default
          (select_age_group_default gen_low) generate_weight_default (fun _ => 0)
          [3, 1, 0, 5, 2, 4] 0 couple_population) empty_state).population p.1 = some p.2 ∧
        partner_of (final_state (match_pair gen_low can_pair_default
          (select_age_group_default gen_low) generate_weight_default (fun _ => 0)
          [3, 1, 0, 5, 2, 4] 0 couple_population) empty_state).population p.2 = some p.1) :=
  And.imp_right (fun h => h (consistent_of_check _ (by decide)))
    (selected_pairwise_distinct gen_low can_pair_default (select_age_group_default gen_low)
      generate_weight_default (fun _ => 0) [3, 1, 0, 5, 2, 4] 0 couple_population 0
      (final_state (match_pair gen_low can_pair_default (select_age_group_default gen_low)
        generate_weight_default (fun _ => 0) [3, 1, 0, 5, 2, 4] 0 couple_population)
        empty_state)
      (by decide) (Or.inr (by decide)))

theorem positions_length (P : Indiv → Bool) :
    ∀ l : List Indiv,
      ((List.range l.length).filter (fun i => (l[i]?).any P)).length = l.countP P := by
  intro l
  induction l with
  | nil => rfl
  | cons a l ih =>
    rw [List.length_cons, List.range_succ_eq_map, List.filter_cons, List.countP_cons,
      List.filter_map]
    have hf : ((fun i => ((a :: l)[i]?).any P) ∘ Nat.succ) = (fun i => (l[i]?).any P) := by
      funext i
      simp
    rw [hf]
    by_cases ha : P a = true
    · simp [ha, ih]
    · simp [ha, ih]

/-- No more positions without repetition hold an individual with a property than
there are individuals with it. -/
theorem nodup_positions_le (l : List Indiv) (P : Indiv → Bool) (S : List Nat)
    (hnd : S.Nodup) (h : ∀ p ∈ S, ∃ a, l[p]? = some a ∧ P a = true) :
    S.length ≤ l.countP P := by
  rw [← positions_length P l]
  refine (List.subperm_of_subset hnd ?_).length_le
  intro p hp
  obtain ⟨a, ha, hpa⟩ := h p hp
  rw [List.mem_filter, List.mem_range]
  exact ⟨(List.getElem?_eq_some_iff.mp ha).1, by rw [ha]; simpa using hpa⟩

theorem sources_sublist (linked : List (Nat × Nat)) :
    (linked.map Prod.fst).Sublist (selected linked) := by
  induction linked with
  | nil => exact List.Sublist.slnil
  | cons p ps ih =>
    have : selected (p :: ps) = p.1 :: p.2 :: selected ps := by simp [selected]
    rw [this, List.map_cons]
    exact List.Sublist.cons₂ _ (List.Sublist.cons _ ih)

theorem high_of_stratum (ind : Indiv) (s g : Nat) (hr : in_range ind)
    (hg : g < HIGHEST_AGE_GROUP) (h : stratum ind = index s HIGH g) :
    ind.risk_group = HIGH := by
  obtain ⟨h1, h2, h3⟩ := hr
  simp only [stratum, index, NUM_CPA, HIGH, HIGHEST_AGE_GROUP] at *
  omega

/-- The loop made no more rounds than there are eligible individuals of HIGH
risk. -/
theorem linked_length_le (can_pair : Option Indiv → Bool) (population : List Indiv)
    (st : Match_state) (hinv : Drawn_inv st)
    (hf : ∀ x : Nat, (st.population[x]?).map other_fields =
      ((population.map (fun i => { i with eligible := can_pair (some i) }))[x]?).map
        other_fields)
    (hr : ∀ ind ∈ population, in_range ind) :
    st.linked.length ≤ high_risk_count can_pair population := by
  have hlen : st.linked.length = (st.linked.map Prod.fst).length := by simp
  rw [hlen]
  unfold high_risk_count
  refine nodup_positions_le population _ _ (hinv.2.2.2.2.1.sublist (sources_sublist _)) ?_
  intro p hp
  obtain ⟨q, hq, hqp⟩ := List.mem_map.mp hp
  subst hqp
  obtain ⟨ind, s, g, hind, he, hs, hg, hstr⟩ := hinv.2.2.2.2.2 q hq
  have h1 := hf q.1
  rw [hind, List.getElem?_map] at h1
  cases h0 : population[q.1]? with
  | none => rw [h0] at h1; exact Option.noConfusion h1
  | some ind0 =>
    rw [h0] at h1
    have h2 : other_fields ind =
        other_fields { ind0 with eligible := can_pair (some ind0) } := Option.some.inj h1
    have h3 := h2
    simp only [other_fields, Prod.mk.injEq] at h3
    have hri : in_range ind := by
      obtain ⟨r1, r2, r3⟩ := hr ind0 (List.getElem?_mem h0)
      exact ⟨by rw [h3.1]; exact r1, by rw [h3.2.2.2.1]; exact r2, by rw [h3.2.2.1]; exact r3⟩
    have hhigh := high_of_stratum ind s g hri hg hstr
    refine ⟨ind0, rfl, ?_⟩
    rw [← h3.2.2.2.2.1, he, ← h3.2.2.2.1, hhigh]
    rfl

theorem match_loop_succ (gen : Generator)
    (select_age_group : Nat → List Nat → Indiv → Outcome (Nat × Nat)) :
    ∀ (fuel : Nat) (st st1 : Match_state),
      match_loop gen select_age_group fuel st = .ok st1 →
      match_loop gen select_age_group (fuel + 1) st = .ok st1 := by
  intro fuel
  induction fuel with
  | zero =>
    intro st st1 h
    simp only [match_loop, bind_eq_ok, read_eq_ok] at h ⊢
    obtain ⟨mh, hm, fh, hf, h⟩ := h
    refine ⟨mh, hm, fh, hf, ?_⟩
    split at h
    · exact Outcome.noConfusion h
    · rename_i hcond
      rw [if_neg hcond]
      exact h
  | succ fuel ih =>
    intro st st1 h
    rw [match_loop] at h ⊢
    simp only [bind_eq_ok, read_eq_ok] at h ⊢
    obtain ⟨mh, hm, fh, hf, h⟩ := h
    refine ⟨mh, hm, fh, hf, ?_⟩
    split at h
    · rename_i hcond
      rw [if_pos hcond]
      rw [bind_eq_ok] at h ⊢
      obtain ⟨st2, hs, hl⟩ := h
      exact ⟨st2, hs, ih st2 st1 hl⟩
    · rename_i hcond
      rw [if_neg hcond]
      exact h

theorem match_loop_mono (gen : Generator)
    (select_age_group : Nat → List Nat → Indiv → Outcome (Nat × Nat))
    (st st1 : Match_state) (fuel more : Nat)
    (h : match_loop gen select_age_group fuel st = .ok st1) :
    match_loop gen select_age_group (fuel + more) st = .ok st1 := by
  induction more with
  | zero => exact h
  | succ more ih => exact match_loop_succ gen select_age_group _ st st1 ih

/-- The loop cut after `k` rounds has left on its own, or it made `k` rounds. -/
theorem match_rounds_exit_or_count (gen : Generator)
    (select_age_group : Nat → List Nat → Indiv → Outcome (Nat × Nat)) :
    ∀ (k : Nat) (st st1 : Match_state),
      match_rounds gen select_age_group k st = .ok st1 → Lists_exact st → Drawn_inv st →
      match_loop gen select_age_group k st = .ok st1 ∨
      st1.linked.length = st.linked.length + k := by
  intro k
  induction k with
  | zero =>
    intro st st1 h _ _
    simp only [match_rounds, Outcome.ok.injEq] at h
    subst h
    exact Or.inr rfl
  | succ k ih =>
    intro st st1 h hl hinv
    rw [match_rounds] at h
    rw [match_loop]
    simp only [bind_eq_ok, read_eq_ok] at h ⊢
    obtain ⟨mh, hm, fh, hf, h⟩ := h
    split at h
    · rename_i hcond
      rw [bind_eq_ok] at h
      obtain ⟨st2, hs, hr⟩ := h
      obtain ⟨F, T, hlinked, _, _, _, _, _, _, hinv2⟩ :=
        match_step_drawn gen select_age_group st st2 hs hl hinv
      have hl2 := match_step_lists gen select_age_group st st2 hs hl
      rcases ih st2 st1 hr hl2 hinv2 with h1 | h1
      · left
        refine ⟨mh, hm, fh, hf, ?_⟩
        rw [if_pos hcond, bind_eq_ok]
        exact ⟨st2, hs, h1⟩
      · right
        rw [h1, hlinked, List.length_append, List.length_singleton]
        omega
    · rename_i hcond
      left
      refine ⟨mh, hm, fh, hf, ?_⟩
      rw [if_neg hcond]
      exact h

set_option maxRecDepth 100000 in
/-- C21, as stated, fails in its bound: of one male of HIGH risk and one female
of LOW risk none is a female of HIGH risk, so the bound claimed is 0, and the
loop makes one round, which links the two. -/
theorem round_bound_counterexample :
    claimed_round_bound can_pair_default [person MALE 20 HIGH, person FEMALE 22 LOW] = 0 ∧
    (fun st => (st.linked, st.age_groups)) <$>
      match_pair gen_low can_pair_default (select_age_group_default gen_low)
        generate_weight_default (fun _ => 0) [0, 1] 0
        [person MALE 20 HIGH, person FEMALE 22 LOW] =
      .ok ([(0, 1)], [[], [], [], []]) :=
  ⟨by decide, by decide⟩

/-- C21, amended: let `H` be the number of eligible individuals of HIGH risk, of
both sexes.  If every individual has sex 0 or 1, risk group 0 or 1 and an age
group below 24, `indices` holds no position twice, and no draw fails while the
loop of `match_pair` is run for up to `H + 1` rounds, then the loop has left on
its own after at most `H` rounds: `match_pair` returns, both vectors of HIGH
risk are empty, and the loop linked at most `H` pairs, one in every round. -/
theorem loop_bound (gen : Generator) (can_pair : Option Indiv → Bool)
    (select_age_group : Nat → List Nat → Indiv → Outcome (Nat × Nat))
    (generate_weight : Indiv → Nat) (junk : Nat → Int) (indices : List Nat) (rand : Nat)
    (population : List Indiv) (st : Match_state) (hnd : indices.Nodup)
    (hr : ∀ ind ∈ population, in_range ind)
    (hdraws : match_pair_rounds gen can_pair select_age_group generate_weight junk indices
      rand population (high_risk_count can_pair population + 1) = .ok st) :
    match_pair gen can_pair select_age_group generate_weight junk indices rand population =
      .ok st ∧
    st.age_groups[MALE * 2 + HIGH]? = some [] ∧
    st.age_groups[FEMALE * 2 + HIGH]? = some [] ∧
    st.linked.length ≤ high_risk_count can_pair population := by
  obtain ⟨hinv, hf, _⟩ := match_pair_rounds_drawn gen can_pair select_age_group
    generate_weight junk indices rand population _ st hnd hdraws
  have hle := linked_length_le can_pair population st hinv hf hr
  simp only [match_pair_rounds, bind_eq_ok] at hdraws
  obtain ⟨x, hx, hl⟩ := hdraws
  obtain ⟨hinv0, _⟩ := match_init_drawn can_pair generate_weight junk indices population x
    (List.replicate NUM_CPA iterator_zero) rand hx hnd
  have hloop : match_loop gen select_age_group (high_risk_count can_pair population + 1)
      { population := x.1, cpa := x.2.1,
        cpa_iterator := List.replicate NUM_CPA iterator_zero,
        age_groups := x.2.2, rand := rand, linked := [] } = .ok st := by
    rcases match_rounds_exit_or_count gen select_age_group _ _ st hl
      (match_init_lists can_pair generate_weight junk indices population x _ rand hx) hinv0
      with h1 | h1
    · exact h1
    · simp only [List.length_nil] at h1
      omega
  obtain ⟨e1, e2⟩ := match_loop_exit_empty gen select_age_group _ _ st hloop
  refine ⟨?_, e1, e2, hle⟩
  simp only [match_pair, bind_eq_ok]
  refine ⟨x, hx, ?_⟩
  have hH : high_risk_count can_pair population ≤ population.length := List.countP_le_length _
  have := match_loop_mono gen select_age_group _ st _
    (population.length - high_risk_count can_pair population) hloop
  have he : high_risk_count can_pair population + 1 +
      (population.length - high_risk_count can_pair population) = population.length + 1 := by
    omega
  rw [he] at this
  exact this

set_option maxRecDepth 100000 in
theorem loop_bound_witness :
    match_pair gen_low can_pair_default (select_age_group_default gen_low)
      generate_weight_default (fun _ => 0) [3, 1, 0, 5, 2, 4] 0 couple_population =
      .ok (final_state (match_pair_rounds gen_low can_pair_default
        (select_age_group_default gen_low) generate_weight_default (fun _ => 0)
        [3, 1, 0, 5, 2, 4] 0 couple_population 5) empty_state) ∧
    (final_state (match_pair_rounds gen_low can_pair_default
      (select_age_group_default gen_low) generate_weight_default (fun _ => 0)
      [3, 1, 0, 5, 2, 4] 0 couple_population 5) empty_state).age_groups[MALE * 2 + HIGH]? =
      some [] ∧
    (final_state (match_pair_rounds gen_low can_pair_default
      (select_age_group_default gen_low) generate_weight_default (fun _ => 0)
      [3, 1, 0, 5, 2, 4] 0 couple_population 5) empty_state).age_groups[FEMALE * 2 + HIGH]? =
      some [] ∧
    (final_state (match_pair_rounds gen_low can_pair_default
      (select_age_group_default gen_low) generate_weight_default (fun _ => 0)
      [3, 1, 0, 5, 2, 4] 0 couple_population 5) empty_state).linked.length ≤
      high_risk_count can_pair_default couple_population :=
  loop_bound gen_low can_pair_default (select_age_group_default gen_low)
    generate_weight_default (fun _ => 0) [3, 1, 0, 5, 2, 4] 0 couple_population
    (final_state (match_pair_rounds gen_low can_pair_default (select_age_group_default gen_low)
      generate_weight_default (fun _ => 0) [3, 1, 0, 5, 2, 4] 0 couple_population 5)
      empty_state)
    (by decide) (by decide) (by decide)

theorem ulp_exp_step_spec (m e b : Nat) (h : e = 0 ∨ 2 ^ (52 + e) ≤ m) :
    ulp_exp_step m e b = 0 ∨ 2 ^ (52 + ulp_exp_step m e b) ≤ m := by
  unfold ulp_exp_step
  split
  · rename_i hc
    right
    rw [← Nat.add_assoc]
    exact hc
  · exact h

theorem ulp_exp_foldl_spec (m : Nat) (bs : List Nat) :
    ∀ e, (e = 0 ∨ 2 ^ (52 + e) ≤ m) →
      bs.foldl (ulp_exp_step m) e = 0 ∨ 2 ^ (52 + bs.foldl (ulp_exp_step m) e) ≤ m := by
  induction bs with
  | nil => intro e h; exact h
  | cons b rest ih =>
    intro e h
    rw [List.foldl_cons]
    exact ih _ (ulp_exp_step_spec m e b h)

/-- The exponent found is 0 or `2^(52 + e) ≤ m`. -/
theorem ulp_exp_spec (m : Nat) : ulp_exp m = 0 ∨ 2 ^ (52 + ulp_exp m) ≤ m :=
  ulp_exp_foldl_spec m _ 0 (Or.inl rfl)

theorem round_nat_dvd (m : Nat) (h : 2 ^ ulp_exp m ∣ m) : round_nat m = m := by
  unfold round_nat
  have hu : 0 < 2 ^ ulp_exp m := Nat.two_pow_pos _
  simp only [Nat.mod_eq_zero_of_dvd h, Nat.mul_zero, hu, if_true]
  exact Nat.div_mul_cancel h

theorem round_nat_whole (x k : Nat) (hx : x ≤ 2 ^ 53) :
    round_nat (x * 2 ^ k) = x * 2 ^ k := by
  apply round_nat_dvd
  rcases ulp_exp_spec (x * 2 ^ k) with h0 | hle
  · rw [h0]
    exact Nat.one_dvd _
  · rcases Nat.lt_or_eq_of_le hx with hlt | heq
    · have hm : x * 2 ^ k < 2 ^ (53 + k) := by
        calc x * 2 ^ k < 2 ^ 53 * 2 ^ k :=
              Nat.mul_lt_mul_of_pos_right hlt (Nat.two_pow_pos _)
          _ = 2 ^ (53 + k) := by rw [← Nat.pow_add]
      have hexp : 52 + ulp_exp (x * 2 ^ k) < 53 + k :=
        (Nat.pow_lt_pow_iff_right (by decide : 1 < 2)).mp (lt_of_le_of_lt hle hm)
      exact Dvd.dvd.mul_left (Nat.pow_dvd_pow 2 (by omega)) x
    · have hxe : x * 2 ^ k = 2 ^ (53 + k) := by rw [heq, ← Nat.pow_add]
      rw [hxe] at hle ⊢
      have hexp : 52 + ulp_exp (2 ^ (53 + k)) ≤ 53 + k :=
        (Nat.pow_le_pow_iff_right (by decide : 1 < 2)).mp hle
      exact Nat.pow_dvd_pow 2 (by omega)

set_option exponentiation.threshold 5000 in
theorem unit_pos : (0 : Int) < (Double.unit : Int) := by
  have h : 0 < Double.unit := Nat.two_pow_pos 1074
  exact Int.ofNat_lt.mpr h

set_option exponentiation.threshold 5000 in
/-- A whole number of magnitude at most `2^53` is a double: rounding keeps it. -/
theorem round_of_int (z : Int) (h : z.natAbs ≤ 2 ^ 53) :
    Double.round (z * (Double.unit : Int)) = Double.of_int z := by
  unfold Double.round Double.of_int
  have hab : (z * (Double.unit : Int)).natAbs = z.natAbs * 2 ^ 1074 := by
    rw [Int.natAbs_mul, Int.natAbs_ofNat]
    rfl
  rw [hab, round_nat_whole _ _ h]
  have hlt : z.natAbs * 2 ^ 1074 < 2 ^ 2098 := by
    calc z.natAbs * 2 ^ 1074 ≤ 2 ^ 53 * 2 ^ 1074 := Nat.mul_le_mul_right _ h
      _ = 2 ^ (53 + 1074) := by rw [← Nat.pow_add]
      _ < 2 ^ 2098 := Nat.pow_lt_pow_right (by decide) (by decide)
  rw [if_neg (not_le.mpr hlt), if_pos hlt]
  congr 1
  rw [← hab]
  split
  · rename_i hneg
    rw [Int.ofNat_natAbs_of_nonpos (le_of_lt hneg), neg_neg]
  · rename_i hpos
    rw [Int.natAbs_of_nonneg (not_lt.mp hpos)]

theorem add_of_int (a b : Int) (h : (a + b).natAbs ≤ 2 ^ 53) :
    Double.add (Double.of_int a) (Double.of_int b) = Double.of_int (a + b) := by
  show Double.round (a * (Double.unit : Int) + b * (Double.unit : Int)) = _
  rw [← add_mul]
  exact round_of_int _ h

theorem sub_of_int (a b : Int) (h : (a - b).natAbs ≤ 2 ^ 53) :
    Double.sub (Double.of_int a) (Double.of_int b) = Double.of_int (a - b) := by
  show Double.round (a * (Double.unit : Int) - b * (Double.unit : Int)) = _
  rw [← sub_mul]
  exact round_of_int _ h

theorem lt_of_int (a b : Int) :
    Double.lt (Double.of_int a) (Double.of_int b) = decide (a < b) := by
  show decide (a * (Double.unit : Int) < b * (Double.unit : Int)) = _
  rw [decide_eq_decide]
  exact mul_lt_mul_right unit_pos

theorem le_of_int (a b : Int) :
    Double.le (Double.of_int a) (Double.of_int b) = decide (a ≤ b) := by
  show decide (a * (Double.unit : Int) ≤ b * (Double.unit : Int)) = _
  rw [decide_eq_decide]
  exact mul_le_mul_right unit_pos

theorem of_int_zero : Double.of_int 0 = Double.fin 0 := by
  unfold Double.of_int
  rw [zero_mul]

theorem of_int_inj (a b : Int) (h : Double.of_int a = Double.of_int b) : a = b := by
  unfold Double.of_int at h
  have h1 := Double.fin.inj h
  exact (mul_left_inj' (ne_of_gt unit_pos)).mp h1

theorem to_int_of_int (a : Int) : Double.to_int (Double.of_int a) = a := by
  show a * (Double.unit : Int) / (Double.unit : Int) = a
  exact Int.mul_ediv_cancel a (ne_of_gt unit_pos)

theorem of_int_eq_zero (a : Int) : Double.of_int a = Double.fin 0 ↔ a = 0 := by
  rw [← of_int_zero]
  exact ⟨of_int_inj a 0, fun h => by rw [h]⟩

theorem natAbs_le_of_bounds (z : Int) (B : Nat) (h1 : - (B : Int) ≤ z) (h2 : z ≤ (B : Int)) :
    z.natAbs ≤ B := by
  omega

theorem map_entry_getElem? (es : List Cpa_entry) (i : Nat) :
    (es.map entry_to_dbl)[i]? = (es[i]?).map entry_to_dbl := by
  rw [List.getElem?_map]

theorem to_dbl_size (cpa : Cpa) : (to_dbl cpa).size = cpa.size := by
  simp [to_dbl, Dbl.Cpa.size, Cpa.size]

theorem entry_to_dbl_inj (a b : Cpa_entry) (h : entry_to_dbl a = entry_to_dbl b) : a = b := by
  cases a
  cases b
  simp only [entry_to_dbl, Dbl.Cpa_entry.mk.injEq] at h
  obtain ⟨h1, h2, h3, h4, h5, h6, h7, h8⟩ := h
  simp only [Cpa_entry.mk.injEq]
  exact ⟨h1, of_int_inj _ _ h2, of_int_inj _ _ h3, of_int_inj _ _ h4, of_int_inj _ _ h5,
    of_int_inj _ _ h6, of_int_inj _ _ h7, h8⟩

theorem to_dbl_inj (a b : Cpa) (h : to_dbl a = to_dbl b) : a = b := by
  cases a
  cases b
  simp only [to_dbl, Dbl.Cpa.mk.injEq] at h
  obtain ⟨h1, h2, h3, h4, h5⟩ := h
  simp only [Cpa.mk.injEq]
  exact ⟨List.map_injective_iff.mpr (fun x y hxy => entry_to_dbl_inj x y hxy) h1, h2, h3,
    of_int_inj _ _ h4, h5⟩

/-- The append on doubles does what the append on whole numbers does, as long as
the new prefix weight is a whole number a double holds. -/
theorem cpa_append_to_dbl (cpa : Cpa) (d : Nat) (w : Int)
    (hb : (appended_weight cpa w).natAbs ≤ 2 ^ 53) :
    Dbl.cpa_append (to_dbl cpa) d (Double.of_int w) = to_dbl <$> cpa_append cpa d w := by
  unfold Dbl.cpa_append cpa_append
  rw [to_dbl_size]
  by_cases h0 : w = 0
  · rw [if_pos ((of_int_eq_zero w).mpr h0), if_pos h0]
    rfl
  · rw [if_neg (fun h => h0 ((of_int_eq_zero w).mp h)), if_neg h0]
    have hcap : (to_dbl cpa).capacity = cpa.capacity := rfl
    rw [hcap]
    by_cases h1 : cpa.capacity ≤ cpa.size
    · rw [if_pos h1, if_pos h1]
      rfl
    · rw [if_neg h1, if_neg h1, map_ok]
      unfold appended_weight at hb
      have hm : (to_dbl cpa).entries[cpa.size - 1]? =
          (cpa.entries[cpa.size - 1]?).map entry_to_dbl := map_entry_getElem? _ _
      by_cases hs : cpa.size = 0
      · simp only [if_pos hs, to_dbl, List.map_append, List.map_cons, List.map_nil,
          entry_to_dbl, of_int_zero]
      · rw [if_neg hs] at hb
        simp only [if_neg hs, hm]
        cases hl : cpa.entries[cpa.size - 1]? with
        | none =>
          simp only [Option.map, to_dbl, List.map_append, List.map_cons, List.map_nil,
            entry_to_dbl, of_int_zero]
        | some last =>
          rw [hl] at hb
          have hadd := add_of_int last.cumulative_weight w hb
          simp only [Option.map, to_dbl, List.map_append, List.map_cons, List.map_nil,
            entry_to_dbl, of_int_zero, hadd]

theorem totalWeight_nonneg (es : List Cpa_entry) (h : ∀ e ∈ es, 0 < e.weight) :
    0 ≤ totalWeight es := by
  induction es with
  | nil => simp [totalWeight]
  | cons e rest ih =>
    rw [totalWeight_cons]
    have := h e (List.mem_cons_self _ _)
    have := ih (fun x hx => h x (List.mem_cons_of_mem _ hx))
    omega

theorem weight_le_totalWeight (es : List Cpa_entry) (h : ∀ e ∈ es, 0 < e.weight) :
    ∀ e ∈ es, e.weight ≤ totalWeight es := by
  induction es with
  | nil => intro e he; simp at he
  | cons x rest ih =>
    intro e he
    rw [totalWeight_cons]
    have hx := h x (List.mem_cons_self _ _)
    have hr := totalWeight_nonneg rest (fun y hy => h y (List.mem_cons_of_mem _ hy))
    rcases List.mem_cons.mp he with he | he
    · subst he; omega
    · have := ih (fun y hy => h y (List.mem_cons_of_mem _ hy)) e he
      omega

/-- The appends on doubles build the array the appends on whole numbers build,
when the weights are positive and their sum is at most `2^53`. -/
theorem cpa_append_all_to_dbl (items : List (Nat × Int)) :
    ∀ (cpa : Cpa), WellBuilt cpa.entries 0 → 0 ≤ totalWeight cpa.entries →
      (∀ x ∈ items, 0 < x.2) →
      totalWeight cpa.entries + (items.map (fun x => x.2)).sum ≤ 2 ^ 53 →
      Dbl.cpa_append_all (to_dbl cpa) (items_to_dbl items) =
        to_dbl <$> cpa_append_all cpa items := by
  induction items with
  | nil =>
    intro cpa _ _ _ _
    rfl
  | cons x rest ih =>
    intro cpa hw h0 hpos hsum
    obtain ⟨d, w⟩ := x
    have hwpos : 0 < w := hpos (d, w) (List.mem_cons_self _ _)
    have hrest : ∀ y ∈ rest, 0 < y.2 := fun y hy => hpos y (List.mem_cons_of_mem _ hy)
    have hrs : 0 ≤ (rest.map (fun x => x.2)).sum := by
      apply List.sum_nonneg
      intro a ha
      obtain ⟨y, hy, rfl⟩ := List.mem_map.mp ha
      exact le_of_lt (hrest y hy)
    simp only [List.map_cons, List.sum_cons] at hsum
    have haw := appended_weight_of_WellBuilt cpa w hw
    have hb : (appended_weight cpa w).natAbs ≤ 2 ^ 53 := by
      rw [haw]
      omega
    simp only [items_to_dbl, List.map_cons, Dbl.cpa_append_all, cpa_append_all]
    rw [cpa_append_to_dbl cpa d w hb]
    cases hstep : cpa_append cpa d w with
    | fault => rfl
    | timeout => rfl
    | ok c2 =>
      rw [map_ok]
      simp only
      obtain ⟨hw0, hcap⟩ := cpa_append_ok_inv cpa c2 d w hstep
      rw [cpa_append_eq cpa d w hw0 hcap] at hstep
      simp only [Outcome.ok.injEq] at hstep
      have hent : c2.entries = cpa.entries ++
          [{ data := d, weight := w, cumulative_weight := appended_weight cpa w, adder := 0,
             left_subtractor := 0, right_subtractor := 0, linear_subtractor := 0,
             found := false }] := by rw [← hstep]
      have htot : totalWeight c2.entries = totalWeight cpa.entries + w := by
        rw [hent, totalWeight_append, totalWeight_cons, totalWeight_nil]
        dsimp only
        omega
      have hw2 : WellBuilt c2.entries 0 := by
        rw [hent]
        apply WellBuilt_append _ _ _ hw
        simp [haw]
      exact ih c2 hw2 (by omega) hrest (by omega)

theorem dbl_cpa_append_junk (cpa : Dbl.Cpa) (x : Double) (d : Nat) (w : Double) :
    Dbl.cpa_append { cpa with cumulative_weight := x } d w = Dbl.cpa_append cpa d w := by
  rfl

/-- The scan of the linear search on doubles takes the branches the scan on
whole numbers takes. -/
theorem linear_loop_to_dbl (key : Int) (suf : List Cpa_entry) :
    ∀ (i : Nat) (sub acc : Int), WellBuilt suf acc →
      (∀ e ∈ suf, 0 < e.weight ∧
        e.linear_subtractor = if e.found = true then - e.weight else 0) →
      0 ≤ acc → - acc ≤ sub → sub ≤ 0 → acc + totalWeight suf ≤ 2 ^ 53 →
      Dbl.linear_search_loop (Double.of_int key) (suf.map entry_to_dbl) i (Double.of_int sub) =
        linear_search_loop key suf i sub := by
  induction suf with
  | nil => intro i sub acc _ _ _ _ _ _; rfl
  | cons e rest ih =>
    intro i sub acc hw hl h0 h1 h2 h3
    obtain ⟨hcw, hwr⟩ := hw
    obtain ⟨hpos, hls⟩ := hl e (List.mem_cons_self _ _)
    have hrt := totalWeight_nonneg rest (fun y hy => (hl y (List.mem_cons_of_mem _ hy)).1)
    rw [totalWeight_cons] at h3
    have hs1 : - (acc + e.weight) ≤ sub + e.linear_subtractor ∧
        sub + e.linear_subtractor ≤ 0 := by
      rw [hls]
      split <;> constructor <;> omega
    simp only [List.map_cons, Dbl.linear_search_loop, linear_search_loop, entry_to_dbl]
    rw [add_of_int sub e.linear_subtractor (by omega),
      add_of_int e.cumulative_weight _ (by omega),
      sub_of_int _ e.weight (by omega), lt_of_int, le_of_int]
    simp only [decide_eq_true_eq, ge_iff_le]
    have hrec := ih (i + 1) (sub + e.linear_subtractor) (acc + e.weight) hwr
      (fun y hy => hl y (List.mem_cons_of_mem _ hy)) (by omega) hs1.1 hs1.2 (by omega)
    simp only [entry_to_dbl] at hrec
    rw [hrec]

theorem deadSum_nonneg (es : List Cpa_entry) (h : ∀ e ∈ es, 0 < e.weight) : 0 ≤ deadSum es := by
  induction es with
  | nil => simp [deadSum]
  | cons e rest ih =>
    rw [deadSum_cons]
    have h1 := h e (List.mem_cons_self _ _)
    have h2 := ih (fun x hx => h x (List.mem_cons_of_mem _ hx))
    have h3 : 0 ≤ deadWeight e := by
      unfold deadWeight
      split <;> omega
    omega

theorem liveSum_le_totalWeight (es : List Cpa_entry) (h : ∀ e ∈ es, 0 < e.weight) :
    liveSum es ≤ totalWeight es := by
  have h1 := liveSum_add_deadSum es
  have h2 := deadSum_nonneg es h
  omega

theorem totalWeight_congr (es es1 : List Cpa_entry) (h : es1.map core = es.map core) :
    totalWeight es1 = totalWeight es := by
  have h1 : ∀ l : List Cpa_entry, l.map (fun e => e.weight) = (l.map core).map (fun c => c.2.1) := by
    intro l
    rw [List.map_map]
    rfl
  unfold totalWeight
  rw [h1 es1, h1 es, h]

theorem map_core_set_found (es : List Cpa_entry) (i : Nat) (e e1 : Cpa_entry)
    (he : es[i]? = some e) (hw : e1.weight = e.weight) :
    (es.set i e1).map (fun x => x.weight) = es.map (fun x => x.weight) := by
  apply List.ext_getElem?
  intro j
  rw [List.getElem?_map, List.getElem?_map]
  by_cases hij : i = j
  · subst hij
    have hlt := (List.getElem?_eq_some_iff.mp he).1
    rw [List.getElem?_set_self hlt, he]
    simp [hw]
  · rw [List.getElem?_set_ne hij]

theorem totalWeight_set (es : List Cpa_entry) (i : Nat) (e e1 : Cpa_entry)
    (he : es[i]? = some e) (hw : e1.weight = e.weight) :
    totalWeight (es.set i e1) = totalWeight es := by
  unfold totalWeight
  rw [map_core_set_found es i e e1 he hw]

/-- No call changes a weight, so the sum of all weights stays. -/
theorem do_call_totalWeight (cpa cpa1 : Cpa) (op : Call) (r : Option Nat)
    (h : do_call cpa op = .ok (cpa1, r)) :
    totalWeight cpa1.entries = totalWeight cpa.entries := by
  rcases do_call_effect cpa cpa1 op r h with ⟨_, hc⟩ | ⟨i, e, _, he, _, hcore, _, _⟩
  · rw [hc]
  · rw [totalWeight_congr _ _ hcore]
    exact totalWeight_set _ i e _ he rfl

/-- The linear search on doubles does what the linear search on whole numbers
does, on an array in the state that search keeps, with a sum of weights of at
most `2^52`. -/
theorem cpa_linear_search_to_dbl (cpa : Cpa) (key : Int) (hinv : LinearInv cpa)
    (hB : totalWeight cpa.entries ≤ 2 ^ 52) :
    Dbl.cpa_linear_search (to_dbl cpa) (Double.of_int key) =
      (to_dbl (cpa_linear_search cpa key).1, (cpa_linear_search cpa key).2) := by
  obtain ⟨hw, hl, hcw⟩ := hinv
  have hpos : ∀ e ∈ cpa.entries, 0 < e.weight := fun e he => (hl e he).1
  have hloop := linear_loop_to_dbl key cpa.entries 0 0 0 hw hl (le_refl _) (by omega)
    (le_refl _) (by omega)
  unfold Dbl.cpa_linear_search cpa_linear_search
  have hent : (to_dbl cpa).entries = cpa.entries.map entry_to_dbl := rfl
  rw [hent, ← of_int_zero, hloop]
  cases hres : linear_search_loop key cpa.entries 0 0 with
  | none => rfl
  | some i =>
    simp only [List.getElem?_map]
    cases hi : cpa.entries[i]? with
    | none => rfl
    | some e =>
      have hmem : e ∈ cpa.entries := List.getElem?_mem hi
      obtain ⟨hep, hels⟩ := hl e hmem
      have hle := weight_le_totalWeight cpa.entries hpos e hmem
      have h1 : (e.linear_subtractor - e.weight).natAbs ≤ 2 ^ 53 := by
        rw [hels]
        split <;> omega
      have hl0 := liveSum_nonneg cpa.entries hpos
      have hl1 := liveSum_le_totalWeight cpa.entries hpos
      have h2 : (cpa.cumulative_weight - e.weight).natAbs ≤ 2 ^ 53 := by
        rw [hcw]
        omega
      have hs1 := sub_of_int e.linear_subtractor e.weight h1
      have hs2 := sub_of_int cpa.cumulative_weight e.weight h2
      simp only [Option.map, to_dbl, entry_to_dbl, List.map_set, hs1, hs2]

theorem linear_search_totalWeight (cpa : Cpa) (key : Int) :
    totalWeight (cpa_linear_search cpa key).1.entries = totalWeight cpa.entries :=
  do_call_totalWeight cpa _ (.linear key) _ rfl

theorem linear_history_to_dbl (keys : List Int) :
    ∀ (cpa : Cpa), LinearInv cpa → totalWeight cpa.entries ≤ 2 ^ 52 →
      Dbl.linear_history (to_dbl cpa) (keys.map Double.of_int) =
        to_dbl (linear_history cpa keys) := by
  induction keys with
  | nil => intro cpa _ _; rfl
  | cons k ks ih =>
    intro cpa hinv hB
    have hstep := cpa_linear_search_to_dbl cpa k hinv hB
    have hrec := ih (cpa_linear_search cpa k).1 (LinearInv_search cpa k hinv)
      (by rw [linear_search_totalWeight]; exact hB)
    simp only [Dbl.linear_history, linear_history, List.map_cons, List.foldl_cons] at hrec ⊢
    rw [hstep]
    exact hrec

theorem linear_trace_to_dbl (keys : List Int) :
    ∀ (cpa : Cpa), LinearInv cpa → totalWeight cpa.entries ≤ 2 ^ 52 →
      Dbl.linear_trace (to_dbl cpa) (keys.map Double.of_int) =
        (linear_trace cpa keys).map (fun x => (Double.of_int x.1, x.2)) := by
  induction keys with
  | nil => intro cpa _ _; rfl
  | cons k ks ih =>
    intro cpa hinv hB
    have hstep := cpa_linear_search_to_dbl cpa k hinv hB
    have hrec := ih (cpa_linear_search cpa k).1 (LinearInv_search cpa k hinv)
      (by rw [linear_search_totalWeight]; exact hB)
    simp only [Dbl.linear_trace, linear_trace, List.map_cons, hstep, hrec]
    rfl

theorem valid_keys_to_dbl (keys : List Int) :
    ∀ (cpa : Cpa), LinearInv cpa → totalWeight cpa.entries ≤ 2 ^ 52 →
      (Dbl.valid_keys (to_dbl cpa) (keys.map Double.of_int) ↔ valid_keys cpa keys) := by
  induction keys with
  | nil => intro cpa _ _; exact Iff.rfl
  | cons k ks ih =>
    intro cpa hinv hB
    have hstep := cpa_linear_search_to_dbl cpa k hinv hB
    have hrec := ih (cpa_linear_search cpa k).1 (LinearInv_search cpa k hinv)
      (by rw [linear_search_totalWeight]; exact hB)
    simp only [Dbl.valid_keys, valid_keys, List.map_cons, hstep]
    rw [hrec, ← of_int_zero, le_of_int]
    have hcw : (to_dbl cpa).cumulative_weight = Double.of_int cpa.cumulative_weight := rfl
    rw [hcw, lt_of_int]
    simp only [decide_eq_true_eq]

/-- The loop of `cpa_set_subtractors` on doubles does what the loop on whole
numbers does, when no index is twice on the path and the subtractors it
changes stay within `2^53`. -/
theorem set_subtractors_loop_to_dbl (t : Nat) (w : Int) (hw : w.natAbs ≤ 2 ^ 52)
    (p : List Nat) :
    ∀ (s : Bool) (es : List Cpa_entry), p.Nodup →
      (∀ v ∈ p, ∀ e, es[v]? = some e →
        e.left_subtractor.natAbs ≤ 2 ^ 52 ∧ e.right_subtractor.natAbs ≤ 2 ^ 52) →
      Dbl.set_subtractors_loop t (Double.of_int w) p s (es.map entry_to_dbl) =
        (List.map entry_to_dbl) <$> set_subtractors_loop t w p s es := by
  induction p with
  | nil => intro s es _ _; rfl
  | cons v rest ih =>
    intro s es hnd hb
    obtain ⟨hv, hrest⟩ := List.nodup_cons.mp hnd
    have hkeep : ∀ (e1 : Cpa_entry), ∀ u ∈ rest, ∀ e, (es.set v e1)[u]? = some e →
        e.left_subtractor.natAbs ≤ 2 ^ 52 ∧ e.right_subtractor.natAbs ≤ 2 ^ 52 := by
      intro e1 u hu e he
      have hne : v ≠ u := fun h => hv (h ▸ hu)
      rw [List.getElem?_set_ne hne] at he
      exact hb u (List.mem_cons_of_mem _ hu) e he
    simp only [Dbl.set_subtractors_loop, set_subtractors_loop, List.getElem?_map]
    cases he : es[v]? with
    | none =>
      simp only [Option.map]
      split
      · rfl
      · split
        · rfl
        · split
          · rfl
          · split
            · rfl
            · exact ih s es hrest (fun u hu => hb u (List.mem_cons_of_mem _ hu))
    | some e =>
      obtain ⟨b1, b2⟩ := hb v (List.mem_cons_self _ _) e he
      have a1 := sub_of_int e.left_subtractor w (by omega)
      have a2 := sub_of_int e.right_subtractor w (by omega)
      have a3 := add_of_int e.left_subtractor w (by omega)
      have a4 := add_of_int e.right_subtractor w (by omega)
      simp only [Option.map]
      split
      · have := ih true _ hrest (hkeep { e with left_subtractor := e.left_subtractor - w,
                                                  right_subtractor := e.right_subtractor - w })
        rw [← this]
        simp only [List.map_set, entry_to_dbl, a1, a2]
      · split
        · have := ih false _ hrest (hkeep { e with left_subtractor := e.left_subtractor + w,
                                                     right_subtractor := e.right_subtractor + w })
          rw [← this]
          simp only [List.map_set, entry_to_dbl, a3, a4]
        · split
          · have := ih s _ hrest (hkeep { e with right_subtractor := e.right_subtractor - w })
            rw [← this]
            simp only [List.map_set, entry_to_dbl, a2]
          · split
            · have := ih s _ hrest (hkeep { e with left_subtractor := e.left_subtractor + w })
              rw [← this]
              simp only [List.map_set, entry_to_dbl, a3]
            · exact ih s es hrest (fun u hu => hb u (List.mem_cons_of_mem _ hu))

theorem cpa_set_subtractors_to_dbl (cpa : Cpa) (q : List Nat) (q_size i : Nat)
    (hq : (q_read q q_size).Nodup)
    (hb : ∀ e ∈ cpa.entries, e.weight.natAbs ≤ 2 ^ 52 ∧
      e.left_subtractor.natAbs ≤ 2 ^ 52 ∧ e.right_subtractor.natAbs ≤ 2 ^ 52) :
    Dbl.cpa_set_subtractors (to_dbl cpa) q q_size i =
      to_dbl <$> cpa_set_subtractors cpa q q_size i := by
  unfold Dbl.cpa_set_subtractors cpa_set_subtractors
  have hent : (to_dbl cpa).entries = cpa.entries.map entry_to_dbl := rfl
  rw [hent, List.getElem?_map]
  cases he : cpa.entries[i]? with
  | none => rfl
  | some e =>
    have hmem := List.getElem?_mem he
    have hloop := set_subtractors_loop_to_dbl i e.weight (hb e hmem).1 (q_read q q_size) false
      (cpa.entries.set i { e with found := true }) hq (by
        intro v _ x hx
        by_cases hiv : i = v
        · subst hiv
          have hlt := (List.getElem?_eq_some_iff.mp he).1
          rw [List.getElem?_set_self hlt] at hx
          cases hx
          exact (hb e hmem).2
        · rw [List.getElem?_set_ne hiv] at hx
          exact (hb x (List.getElem?_mem hx)).2)
    simp only [Option.map]
    have hset : (cpa.entries.map entry_to_dbl).set i
        { entry_to_dbl e with found := true } =
        (cpa.entries.set i { e with found := true }).map entry_to_dbl := by
      rw [List.map_set]
      rfl
    have hwt : (entry_to_dbl e).weight = Double.of_int e.weight := rfl
    rw [hset, hwt, hloop]
    cases set_subtractors_loop i e.weight (q_read q q_size) false
        (cpa.entries.set i { e with found := true }) with
    | ok es => rfl
    | fault => rfl
    | timeout => rfl

theorem totalWeight_take_le (es : List Cpa_entry) (h : ∀ e ∈ es, 0 < e.weight) (k : Nat) :
    0 ≤ totalWeight (es.take k) ∧ totalWeight (es.take k) ≤ totalWeight es := by
  have h1 := totalWeight_nonneg (es.take k) (fun e he => h e (List.mem_of_mem_take he))
  have h2 := totalWeight_nonneg (es.drop k) (fun e he => h e (List.mem_of_mem_drop he))
  have h3 : totalWeight es = totalWeight (es.take k) + totalWeight (es.drop k) := by
    rw [← totalWeight_append, List.take_append_drop]
  omega

theorem deadBefore_bounds (es : List Cpa_entry) (h : ∀ e ∈ es, 0 < e.weight) (k : Nat) :
    0 ≤ deadBefore es k ∧ deadBefore es k ≤ totalWeight es := by
  have hp : ∀ e ∈ es.take k, 0 < e.weight := fun e he => h e (List.mem_of_mem_take he)
  have h1 := deadSum_nonneg (es.take k) hp
  have h2 := liveSum_add_deadSum (es.take k)
  have h3 := liveSum_nonneg (es.take k) hp
  have h4 := totalWeight_take_le es h k
  unfold deadBefore
  omega

/-- Under the tree invariant the left and right subtractors inside the range are
differences of removed weights, so they are within the sum of all weights. -/
theorem TreeInv_bounded (es : List Cpa_entry) (dead : Nat → Int) (W : Int)
    (hd : ∀ k, 0 ≤ dead k ∧ dead k ≤ W) (lo hi carry : Int)
    (h : TreeInv es dead lo hi carry) :
    0 ≤ lo → - W ≤ carry → carry ≤ 0 →
    ∀ (v : Nat) (e : Cpa_entry), lo ≤ (v : Int) → (v : Int) ≤ hi → es[v]? = some e →
      (- W ≤ e.left_subtractor ∧ e.left_subtractor ≤ W) ∧
      (- W ≤ e.right_subtractor ∧ e.right_subtractor ≤ W) := by
  induction h with
  | leaf lo hi carry hlt =>
    intro _ _ _ v e h1 h2 _
    omega
  | node lo hi carry e0 hle he hr hl left right ihl ihr =>
    intro h0 hc1 hc2 v e h1 h2 hv
    obtain ⟨m1, m2⟩ := mid_of_bounds lo hi h0 hle
    have d1 := hd (mid_of lo hi)
    have d2 := hd (mid_of lo hi + 1)
    rcases Nat.lt_trichotomy v (mid_of lo hi) with hlt | heq | hgt
    · exact ihl h0 (by omega) (by omega) v e h1 (by omega) hv
    · subst heq
      rw [he] at hv
      cases hv
      constructor <;> constructor <;> omega
    · exact ihr (by omega) (by omega) (by omega) v e (by omega) h2 hv

/-- The loop of the binary search on doubles takes the branches the loop on
whole numbers takes, under the tree invariant and with a sum of weights of at
most `2^52`. -/
theorem binary_loop_to_dbl (cpa : Cpa) (key : Int) (hb : WellBuilt cpa.entries 0)
    (hpos : ∀ e ∈ cpa.entries, 0 < e.weight)
    (hcw : cpa.cumulative_weight = liveSum cpa.entries)
    (hW : totalWeight cpa.entries ≤ 2 ^ 52)
    (hf : ∀ e ∈ cpa.entries, e.weight.natAbs ≤ 2 ^ 52 ∧
      e.left_subtractor.natAbs ≤ 2 ^ 52 ∧ e.right_subtractor.natAbs ≤ 2 ^ 52) :
    ∀ (fuel : Nat) (lo hi : Int) (q : List Nat) (carry : Int),
      TreeInv cpa.entries (deadBefore cpa.entries) lo hi carry → 0 ≤ lo →
      - totalWeight cpa.entries ≤ carry → carry ≤ 0 → q.Nodup →
      (∀ v ∈ q, (v : Int) < lo ∨ hi < (v : Int)) →
      Dbl.binary_search_loop (Double.of_int key) fuel (to_dbl cpa) lo hi q
          (Double.of_int carry) =
        (fun x => (to_dbl x.1, x.2)) <$> binary_search_loop key fuel cpa lo hi q carry := by
  intro fuel
  induction fuel with
  | zero => intro lo hi q carry _ _ _ _ _ _; rfl
  | succ fuel ih =>
    intro lo hi q carry hinv h0 hc1 hc2 hq hout
    by_cases hlt : hi < lo
    · simp only [Dbl.binary_search_loop, binary_search_loop, if_pos hlt]
      rfl
    · cases hinv with
      | leaf _ _ _ hl => exact absurd hl hlt
      | node _ _ _ e hle he hr hl left right =>
        obtain ⟨m1, m2⟩ := mid_of_bounds lo hi h0 hle
        have hmid : ((lo + hi + 1) / 2).toNat = mid_of lo hi := rfl
        have hent : (to_dbl cpa).entries = cpa.entries.map entry_to_dbl := rfl
        have d1 := deadBefore_bounds cpa.entries hpos (mid_of lo hi)
        have d2 := deadBefore_bounds cpa.entries hpos (mid_of lo hi + 1)
        have hmem := List.getElem?_mem he
        have hwp := hpos e hmem
        have hwl := weight_le_totalWeight cpa.entries hpos e hmem
        have hcwe := WellBuilt_getElem? cpa.entries 0 _ e hb he
        have htk := totalWeight_take_le cpa.entries hpos (mid_of lo hi + 1)
        have hl0 := liveSum_nonneg cpa.entries hpos
        have hl1 := liveSum_le_totalWeight cpa.entries hpos
        have a1 := add_of_int carry e.right_subtractor (by omega)
        have a2 := add_of_int e.cumulative_weight (carry + e.right_subtractor) (by omega)
        have a3 := sub_of_int (carry + e.right_subtractor) e.right_subtractor (by omega)
        have a4 := add_of_int (carry + e.right_subtractor - e.right_subtractor)
          e.left_subtractor (by omega)
        have a5 := add_of_int e.cumulative_weight
          (carry + e.right_subtractor - e.right_subtractor + e.left_subtractor) (by omega)
        have a6 := sub_of_int (e.cumulative_weight +
          (carry + e.right_subtractor - e.right_subtractor + e.left_subtractor)) e.weight
          (by omega)
        have a7 := sub_of_int cpa.cumulative_weight e.weight (by omega)
        have hq1 : (q ++ [mid_of lo hi]).Nodup := by
          rw [List.nodup_append]
          refine ⟨hq, List.nodup_singleton _, ?_⟩
          intro a ha hb1
          simp only [List.mem_singleton] at hb1
          subst hb1
          rcases hout _ ha with h | h <;> omega
        have hcwd : (to_dbl cpa).cumulative_weight = Double.of_int cpa.cumulative_weight := rfl
        simp only [Dbl.binary_search_loop, binary_search_loop, if_neg hlt, hmid, hent,
          List.getElem?_map, he, Option.map, entry_to_dbl, hcwd, a1, a2, a3, a4, a5, a6, a7,
          le_of_int, lt_of_int, decide_eq_true_eq, gt_iff_lt]
        split
        · exact ih _ _ _ _ right (by omega) (by omega) (by omega) hq1 (by
            intro v hv
            rcases List.mem_append.mp hv with hv | hv
            · rcases hout v hv with h | h
              · left; omega
              · right; exact h
            · simp only [List.mem_singleton] at hv
              subst hv
              left; omega)
        · split
          · exact ih _ _ _ _ (TreeInv_carry _ _ _ _ _ _ left (by omega)) h0 (by omega)
              (by omega) hq1 (by
                intro v hv
                rcases List.mem_append.mp hv with hv | hv
                · rcases hout v hv with h | h
                  · left; exact h
                  · right; omega
                · simp only [List.mem_singleton] at hv
                  subst hv
                  right; omega)
          · have hkey : Dbl.cpa_set_subtractors
                { entries := List.map entry_to_dbl cpa.entries,
                  capacity := (to_dbl cpa).capacity, num_found := (to_dbl cpa).num_found,
                  cumulative_weight := Double.of_int (cpa.cumulative_weight - e.weight),
                  error := (to_dbl cpa).error }
                (q ++ [mid_of lo hi]) (q ++ [mid_of lo hi]).length (mid_of lo hi) =
                to_dbl <$> cpa_set_subtractors
                  { cpa with cumulative_weight := cpa.cumulative_weight - e.weight }
                  (q ++ [mid_of lo hi]) (q ++ [mid_of lo hi]).length (mid_of lo hi) :=
              cpa_set_subtractors_to_dbl
                { cpa with cumulative_weight := cpa.cumulative_weight - e.weight } _ _ _
                (by rw [q_read_length]; exact hq1) hf
            rw [hkey]
            cases cpa_set_subtractors
                { cpa with cumulative_weight := cpa.cumulative_weight - e.weight }
                (q ++ [mid_of lo hi]) (q ++ [mid_of lo hi]).length (mid_of lo hi) with
            | ok c1 => rfl
            | fault => rfl
            | timeout => rfl

/-- The binary search on doubles does what the binary search on whole numbers
does, on an array in the state that search keeps, with a sum of weights of at
most `2^52`. -/
theorem cpa_binary_search_to_dbl (cpa : Cpa) (key : Int) (hinv : BinaryInv cpa)
    (hW : totalWeight cpa.entries ≤ 2 ^ 52) :
    Dbl.cpa_binary_search (to_dbl cpa) (Double.of_int key) =
      (fun x => (to_dbl x.1, x.2)) <$> cpa_binary_search cpa key := by
  obtain ⟨hb, hpos, htree, hcw⟩ := hinv
  have ht0 := totalWeight_nonneg cpa.entries hpos
  have hf : ∀ e ∈ cpa.entries, e.weight.natAbs ≤ 2 ^ 52 ∧
      e.left_subtractor.natAbs ≤ 2 ^ 52 ∧ e.right_subtractor.natAbs ≤ 2 ^ 52 := by
    intro e he
    obtain ⟨v, hv, hve⟩ := List.getElem_of_mem he
    have hvs : cpa.entries[v]? = some e := by rw [List.getElem?_eq_getElem hv, hve]
    have hbd := TreeInv_bounded cpa.entries (deadBefore cpa.entries) (totalWeight cpa.entries)
      (deadBefore_bounds cpa.entries hpos) 0 ((cpa.size : Int) - 1) 0 htree (le_refl _)
      (by omega) (le_refl _) v e (by omega) (by unfold Cpa.size; omega) hvs
    have hwp := hpos e he
    have hwl := weight_le_totalWeight cpa.entries hpos e he
    omega
  unfold Dbl.cpa_binary_search cpa_binary_search
  rw [to_dbl_size, ← of_int_zero]
  exact binary_loop_to_dbl cpa key hb hpos hcw hW hf _ _ _ _ _ htree (le_refl _) (by omega)
    (le_refl _) List.nodup_nil (by intro v hv; simp at hv)

theorem binary_search_totalWeight (cpa cpa1 : Cpa) (key : Int) (r : Option Nat)
    (h : cpa_binary_search cpa key = .ok (cpa1, r)) :
    totalWeight cpa1.entries = totalWeight cpa.entries :=
  do_call_totalWeight cpa cpa1 (.binary key) r h

theorem binary_history_to_dbl (keys : List Int) :
    ∀ (cpa : Cpa), BinaryInv cpa → totalWeight cpa.entries ≤ 2 ^ 52 →
      Dbl.binary_history (to_dbl cpa) (keys.map Double.of_int) =
        to_dbl <$> binary_history cpa keys := by
  induction keys with
  | nil => intro cpa _ _; rfl
  | cons k ks ih =>
    intro cpa hinv hW
    simp only [Dbl.binary_history, binary_history, List.map_cons,
      cpa_binary_search_to_dbl cpa k hinv hW]
    cases hs : cpa_binary_search cpa k with
    | fault => rfl
    | timeout => rfl
    | ok x =>
      obtain ⟨c1, r⟩ := x
      rw [map_ok]
      exact ih c1 (BinaryInv_search cpa c1 k r hinv hs)
        (by rw [binary_search_totalWeight cpa c1 k r hs]; exact hW)

theorem binary_trace_to_dbl (keys : List Int) :
    ∀ (cpa : Cpa), BinaryInv cpa → totalWeight cpa.entries ≤ 2 ^ 52 →
      Dbl.binary_trace (to_dbl cpa) (keys.map Double.of_int) =
        (List.map (fun x => (Double.of_int x.1, x.2))) <$> binary_trace cpa keys := by
  induction keys with
  | nil => intro cpa _ _; rfl
  | cons k ks ih =>
    intro cpa hinv hW
    simp only [Dbl.binary_trace, binary_trace, List.map_cons,
      cpa_binary_search_to_dbl cpa k hinv hW]
    cases hs : cpa_binary_search cpa k with
    | fault => rfl
    | timeout => rfl
    | ok x =>
      obtain ⟨c1, r⟩ := x
      rw [map_ok]
      simp only
      rw [ih c1 (BinaryInv_search cpa c1 k r hinv hs)
        (by rw [binary_search_totalWeight cpa c1 k r hs]; exact hW)]
      cases binary_trace c1 ks with
      | fault => rfl
      | timeout => rfl
      | ok t => rfl

/-- The appends of `cpa_new` on doubles, for positive whole-number weights with a
sum of at most `2^53`, build the array that holds the whole numbers the exact
appends build; the uninitialised field does not matter. -/
theorem built_to_dbl (size : Nat) (junk : Double) (items : List (Nat × Int))
    (cpa0 : Dbl.Cpa) (hne : items ≠ []) (hpos : ∀ x ∈ items, 0 < x.2)
    (hsum : (items.map (fun x => x.2)).sum ≤ 2 ^ 53)
    (hbuild : Dbl.cpa_append_all (Dbl.cpa_empty size junk) (items_to_dbl items) = .ok cpa0) :
    ∃ c0 : Cpa, cpa_append_all (cpa_empty size 0) items = .ok c0 ∧ cpa0 = to_dbl c0 := by
  have hjunk : Dbl.cpa_append_all (Dbl.cpa_empty size junk) (items_to_dbl items) =
      Dbl.cpa_append_all (to_dbl (cpa_empty size 0)) (items_to_dbl items) := by
    cases items with
    | nil => exact absurd rfl hne
    | cons x rest =>
      obtain ⟨d, w⟩ := x
      simp only [items_to_dbl, List.map_cons, Dbl.cpa_append_all]
      have : Dbl.cpa_append (Dbl.cpa_empty size junk) d (Double.of_int w) =
          Dbl.cpa_append (to_dbl (cpa_empty size 0)) d (Double.of_int w) :=
        dbl_cpa_append_junk (to_dbl (cpa_empty size 0)) junk d (Double.of_int w)
      rw [this]
  rw [hjunk, cpa_append_all_to_dbl items (cpa_empty size 0) trivial (le_refl _) hpos
    (by simp only [cpa_empty, totalWeight_nil]; omega)] at hbuild
  cases hc : cpa_append_all (cpa_empty size 0) items with
  | fault => rw [hc] at hbuild; exact Outcome.noConfusion hbuild
  | timeout => rw [hc] at hbuild; exact Outcome.noConfusion hbuild
  | ok c0 =>
    rw [hc, map_ok] at hbuild
    exact ⟨c0, rfl, (Outcome.ok.inj hbuild).symm⟩

theorem dbl_map_core_set (es : List Dbl.Cpa_entry) (v : Nat) (e e1 : Dbl.Cpa_entry)
    (he : es[v]? = some e) (hc : Dbl.core e1 = Dbl.core e) :
    (es.set v e1).map Dbl.core = es.map Dbl.core := by
  apply List.ext_getElem?
  intro j
  rw [List.getElem?_map, List.getElem?_map]
  by_cases hvj : v = j
  · subst hvj
    have hlt := (List.getElem?_eq_some_iff.mp he).1
    rw [List.getElem?_set_self hlt, he]
    simp [hc]
  · rw [List.getElem?_set_ne hvj]

/-- The loop of `cpa_set_subtractors` on doubles changes left and right
subtractors only. -/
theorem dbl_set_subtractors_loop_core (t : Nat) (w : Double) (p : List Nat) :
    ∀ (s : Bool) (es es1 : List Dbl.Cpa_entry),
      Dbl.set_subtractors_loop t w p s es = .ok es1 →
      es1.map Dbl.core = es.map Dbl.core := by
  induction p with
  | nil =>
    intro s es es1 h
    simp only [Dbl.set_subtractors_loop, Outcome.ok.injEq] at h
    subst h
    rfl
  | cons v rest ih =>
    intro s es es1 h
    simp only [Dbl.set_subtractors_loop] at h
    split at h
    · cases hv : es[v]? with
      | none => rw [hv] at h; simp at h
      | some e =>
        rw [hv] at h
        simp only at h
        rw [ih _ _ _ h]
        exact dbl_map_core_set es v e _ hv rfl
    · split at h
      · cases hv : es[v]? with
        | none => rw [hv] at h; simp at h
        | some e =>
          rw [hv] at h
          simp only at h
          rw [ih _ _ _ h]
          exact dbl_map_core_set es v e _ hv rfl
      · split at h
        · cases hv : es[v]? with
          | none => rw [hv] at h; simp at h
          | some e =>
            rw [hv] at h
            simp only at h
            rw [ih _ _ _ h]
            exact dbl_map_core_set es v e _ hv rfl
        · split at h
          · cases hv : es[v]? with
            | none => rw [hv] at h; simp at h
            | some e =>
              rw [hv] at h
              simp only at h
              rw [ih _ _ _ h]
              exact dbl_map_core_set es v e _ hv rfl
          · exact ih _ _ _ h

theorem dbl_set_subtractors_loop_ok (t : Nat) (w : Double) (p : List Nat) :
    ∀ (s : Bool) (es : List Dbl.Cpa_entry), (∀ v ∈ p, v < es.length) →
      ∃ es1, Dbl.set_subtractors_loop t w p s es = .ok es1 := by
  induction p with
  | nil => intro s es _; exact ⟨es, rfl⟩
  | cons v rest ih =>
    intro s es hb
    have hv : v < es.length := hb v (List.mem_cons_self _ _)
    have hrest : ∀ (e1 : Dbl.Cpa_entry), ∀ x ∈ rest, x < (es.set v e1).length := by
      intro e1 x hx
      rw [List.length_set]
      exact hb x (List.mem_cons_of_mem _ hx)
    have he : es[v]? = some es[v] := List.getElem?_eq_getElem hv
    simp only [Dbl.set_subtractors_loop, he]
    split
    · exact ih _ _ (hrest _)
    · split
      · exact ih _ _ (hrest _)
      · split
        · exact ih _ _ (hrest _)
        · split
          · exact ih _ _ (hrest _)
          · exact ih _ _ (fun x hx => hb x (List.mem_cons_of_mem _ hx))

/-- What a successful `cpa_set_subtractors` on doubles does. -/
theorem dbl_set_subtractors_effect (cpa cpa1 : Dbl.Cpa) (q : List Nat) (q_size i : Nat)
    (h : Dbl.cpa_set_subtractors cpa q q_size i = .ok cpa1) :
    ∃ e, cpa.entries[i]? = some e ∧
      cpa1.entries.map Dbl.core = (cpa.entries.set i { e with found := true }).map Dbl.core ∧
      cpa1.num_found = cpa.num_found + 1 ∧
      cpa1.cumulative_weight = cpa.cumulative_weight := by
  unfold Dbl.cpa_set_subtractors at h
  cases he : cpa.entries[i]? with
  | none => rw [he] at h; simp at h
  | some e =>
    rw [he] at h
    simp only at h
    cases hl : Dbl.set_subtractors_loop i e.weight (q_read q q_size) false
        (cpa.entries.set i { e with found := true }) with
    | fault => rw [hl] at h; simp at h
    | timeout => rw [hl] at h; simp at h
    | ok es1 =>
      rw [hl] at h
      simp only [Outcome.ok.injEq] at h
      subst h
      exact ⟨e, rfl, dbl_set_subtractors_loop_core _ _ _ _ _ _ hl, rfl, rfl⟩

theorem dbl_set_subtractors_ok (cpa : Dbl.Cpa) (q : List Nat) (q_size i : Nat)
    (hi : i < cpa.size) (hq : ∀ v ∈ q_read q q_size, v < cpa.size) :
    ∃ cpa1, Dbl.cpa_set_subtractors cpa q q_size i = .ok cpa1 := by
  unfold Dbl.cpa_set_subtractors
  have he : cpa.entries[i]? = some cpa.entries[i] := List.getElem?_eq_getElem hi
  rw [he]
  simp only
  obtain ⟨es1, h1⟩ := dbl_set_subtractors_loop_ok i cpa.entries[i].weight (q_read q q_size)
    false (cpa.entries.set i { cpa.entries[i] with found := true })
    (by intro v hv; rw [List.length_set]; exact hq v hv)
  rw [h1]
  exact ⟨_, rfl⟩

theorem dbl_linear_loop_some (key : Double) (suf : List Dbl.Cpa_entry) :
    ∀ (i : Nat) (sub : Double) (j : Nat), Dbl.linear_search_loop key suf i sub = some j →
      ∃ k e, j = i + k ∧ suf[k]? = some e ∧ e.found = false := by
  induction suf with
  | nil => intro i sub j h; simp [Dbl.linear_search_loop] at h
  | cons e rest ih =>
    intro i sub j h
    simp only [Dbl.linear_search_loop] at h
    split at h
    · rename_i hc
      simp only [Option.some.injEq] at h
      exact ⟨0, e, by omega, by simp, hc.1⟩
    · obtain ⟨k, e1, hk, he1, hf⟩ := ih _ _ _ h
      exact ⟨k + 1, e1, by omega, by simpa using he1, hf⟩

theorem dbl_binary_loop_effect (key : Double) (cpa : Dbl.Cpa) :
    ∀ (fuel : Nat) (lo hi : Int) (q : List Nat) (sub : Double) (cpa1 : Dbl.Cpa)
      (r : Option Nat),
      Dbl.binary_search_loop key fuel cpa lo hi q sub = .ok (cpa1, r) →
      (r = none ∧ cpa1 = cpa) ∨
      ∃ i e q1, r = some i ∧ cpa.entries[i]? = some e ∧ e.found = false ∧
        Dbl.cpa_set_subtractors
          { cpa with cumulative_weight := Double.sub cpa.cumulative_weight e.weight }
          q1 q1.length i = .ok cpa1 := by
  intro fuel
  induction fuel with
  | zero => intro lo hi q sub cpa1 r h; simp [Dbl.binary_search_loop] at h
  | succ fuel ih =>
    intro lo hi q sub cpa1 r h
    simp only [Dbl.binary_search_loop] at h
    split at h
    · simp only [Outcome.ok.injEq, Prod.mk.injEq] at h
      exact Or.inl ⟨h.2.symm, h.1.symm⟩
    · cases he : cpa.entries[((lo + hi + 1) / 2).toNat]? with
      | none => rw [he] at h; simp at h
      | some e =>
        rw [he] at h
        simp only at h
        split at h
        · exact ih _ _ _ _ _ _ h
        · split at h
          · exact ih _ _ _ _ _ _ h
          · rename_i hc1 hc2
            have hf : e.found = false := by
              cases hfe : e.found with
              | false => rfl
              | true => exact absurd (Or.inl hfe) hc2
            cases hs : Dbl.cpa_set_subtractors
                { cpa with
                  cumulative_weight := Double.sub cpa.cumulative_weight e.weight }
                (q ++ [((lo + hi + 1) / 2).toNat]) (q ++ [((lo + hi + 1) / 2).toNat]).length
                ((lo + hi + 1) / 2).toNat with
            | fault => rw [hs] at h; simp at h
            | timeout => rw [hs] at h; simp at h
            | ok c2 =>
              rw [hs] at h
              simp only [Outcome.ok.injEq, Prod.mk.injEq] at h
              right
              refine ⟨_, e, q ++ [((lo + hi + 1) / 2).toNat], h.2.symm, he, hf, ?_⟩
              rw [← h.1]
              exact hs

theorem dbl_iterate_loop_effect (cpa : Dbl.Cpa) :
    ∀ (fuel : Nat) (it it1 : Cpa_iterator) (index : Nat),
      Dbl.iterate_loop cpa fuel it = .ok (it1, index) →
      ∃ e, cpa.entries[index]? = some e ∧ e.found = false := by
  intro fuel
  induction fuel with
  | zero => intro it it1 index h; simp [Dbl.iterate_loop] at h
  | succ fuel ih =>
    intro it it1 index h
    simp only [Dbl.iterate_loop] at h
    cases hst : it.stack with
    | nil => rw [hst] at h; simp at h
    | cons f rest =>
      obtain ⟨lo, hi, qs⟩ := f
      rw [hst] at h
      simp only at h
      cases he : cpa.entries[(lo + hi + 1) / 2]? with
      | none => rw [he] at h; simp at h
      | some e =>
        rw [he] at h
        simp only at h
        split at h
        · exact ih _ _ _ h
        · rename_i hf
          simp only [Outcome.ok.injEq, Prod.mk.injEq] at h
          rw [← h.2]
          exact ⟨e, he, by simpa using hf⟩

theorem dbl_set_subtractors_call_effect (cpa cpa1 : Dbl.Cpa) (q : List Nat) (q_size i : Nat)
    (e : Dbl.Cpa_entry) (he : cpa.entries[i]? = some e)
    (h : Dbl.cpa_set_subtractors
      { cpa with cumulative_weight := Double.sub cpa.cumulative_weight e.weight }
      q q_size i = .ok cpa1) :
    cpa1.entries.map Dbl.core = (cpa.entries.set i { e with found := true }).map Dbl.core ∧
    cpa1.num_found = cpa.num_found + 1 ∧
    cpa1.cumulative_weight = Double.sub cpa.cumulative_weight e.weight := by
  obtain ⟨e0, he0, hsub, hnum, hcw⟩ := dbl_set_subtractors_effect _ _ _ _ _ h
  have hee : e0 = e := by
    have h1 : cpa.entries[i]? = some e0 := he0
    rw [he] at h1
    exact (Option.some.inj h1).symm
  subst hee
  exact ⟨hsub, hnum, hcw⟩

/-- A call on doubles either returns NULL and changes nothing, or returns an
entry that was not found, sets its flag, counts it and subtracts its weight
from the remaining weight; payloads, weights, prefix weights and the other
flags stay.  This holds for every key and all weights. -/
theorem dbl_do_call_effect (cpa cpa1 : Dbl.Cpa) (op : Dbl.Call) (r : Option Nat)
    (h : Dbl.do_call cpa op = .ok (cpa1, r)) :
    (r = none ∧ cpa1 = cpa) ∨
    ∃ i e, r = some i ∧ cpa.entries[i]? = some e ∧ e.found = false ∧
      cpa1.entries.map Dbl.core = (cpa.entries.set i { e with found := true }).map Dbl.core ∧
      cpa1.num_found = cpa.num_found + 1 ∧
      cpa1.cumulative_weight = Double.sub cpa.cumulative_weight e.weight := by
  cases op with
  | binary key =>
    simp only [Dbl.do_call, Dbl.cpa_binary_search] at h
    rcases dbl_binary_loop_effect key cpa _ _ _ _ _ _ _ h with h1 | ⟨i, e, q1, hr, he, hf, hs⟩
    · exact Or.inl h1
    · exact Or.inr ⟨i, e, hr, he, hf, dbl_set_subtractors_call_effect cpa cpa1 _ _ i e he hs⟩
  | linear key =>
    simp only [Dbl.do_call, Outcome.ok.injEq] at h
    unfold Dbl.cpa_linear_search at h
    cases hl : Dbl.linear_search_loop key cpa.entries 0 (Double.fin 0) with
    | none =>
      rw [hl] at h
      simp only [Prod.mk.injEq] at h
      exact Or.inl ⟨h.2.symm, h.1.symm⟩
    | some i =>
      obtain ⟨k, e, hk, he, hf⟩ := dbl_linear_loop_some key cpa.entries 0 _ i hl
      have hik : i = k := by omega
      subst hik
      rw [hl] at h
      simp only [he, Prod.mk.injEq] at h
      right
      refine ⟨i, e, h.2.symm, he, hf, ?_, ?_, ?_⟩
      · rw [← h.1]
        simp only [List.map_set]
        rfl
      · rw [← h.1]
      · rw [← h.1]
  | iterate it =>
    simp only [Dbl.do_call] at h
    cases hit : Dbl.cpa_iterate cpa it with
    | fault => rw [hit] at h; simp at h
    | timeout => rw [hit] at h; simp at h
    | ok x =>
      obtain ⟨c1, it1, r1⟩ := x
      rw [hit] at h
      simp only [Outcome.ok.injEq, Prod.mk.injEq] at h
      obtain ⟨hc, hr⟩ := h
      subst hc hr
      unfold Dbl.cpa_iterate at hit
      split at hit
      · simp only [Outcome.ok.injEq, Prod.mk.injEq] at hit
        exact Or.inl ⟨hit.2.2.symm, hit.1.symm⟩
      · simp only at hit
        cases hl : Dbl.iterate_loop cpa
            (iterate_fuel (if it.stack = [] then Dbl.cpa_iterate_init cpa it else it))
            (if it.stack = [] then Dbl.cpa_iterate_init cpa it else it) with
        | fault => rw [hl] at hit; simp at hit
        | timeout => rw [hl] at hit; simp at hit
        | ok y =>
          obtain ⟨it2, index⟩ := y
          rw [hl] at hit
          simp only at hit
          obtain ⟨e, he, hf⟩ := dbl_iterate_loop_effect cpa _ _ _ _ hl
          rw [he] at hit
          simp only at hit
          cases hs : Dbl.cpa_set_subtractors
              { cpa with cumulative_weight := Double.sub cpa.cumulative_weight e.weight }
              it2.q it2.q_size index with
          | fault => rw [hs] at hit; simp at hit
          | timeout => rw [hs] at hit; simp at hit
          | ok c2 =>
            rw [hs] at hit
            simp only [Outcome.ok.injEq, Prod.mk.injEq] at hit
            obtain ⟨h1, _, h3⟩ := hit
            subst h1
            exact Or.inr ⟨index, e, h3.symm, he, hf,
              dbl_set_subtractors_call_effect cpa c2 _ _ index e he hs⟩

/-- The loop of `cpa_binary_search` on doubles always returns. -/
theorem dbl_binary_loop_returns (key : Double) (cpa : Dbl.Cpa) :
    ∀ (fuel : Nat) (lo hi : Int) (q : List Nat) (sub : Double),
      0 ≤ lo → lo ≤ hi + 1 → hi < cpa.size → hi - lo + 1 < fuel →
      (∀ v ∈ q, v < cpa.size) →
      ∃ r, Dbl.binary_search_loop key fuel cpa lo hi q sub = .ok r := by
  intro fuel
  induction fuel with
  | zero => intro lo hi q sub _ h1 _ h3 _; omega
  | succ fuel ih =>
    intro lo hi q sub h0 h1 h2 h3 hq
    simp only [Dbl.binary_search_loop]
    by_cases hlt : hi < lo
    · rw [if_pos hlt]
      exact ⟨_, rfl⟩
    · rw [if_neg hlt]
      have hle : lo ≤ hi := by omega
      obtain ⟨m1, m2⟩ := mid_of_bounds lo hi h0 hle
      have hmid : ((lo + hi + 1) / 2).toNat = mid_of lo hi := rfl
      rw [hmid]
      have hm : mid_of lo hi < cpa.entries.length := by
        have : (cpa.size : Int) = cpa.entries.length := rfl
        omega
      have he : cpa.entries[mid_of lo hi]? = some cpa.entries[mid_of lo hi] :=
        List.getElem?_eq_getElem hm
      have hq1 : ∀ v ∈ q ++ [mid_of lo hi], v < cpa.size := by
        intro v hv
        simp only [List.mem_append, List.mem_singleton] at hv
        rcases hv with hv | hv
        · exact hq v hv
        · rw [hv]; exact hm
      rw [he]
      simp only
      split
      · exact ih _ _ _ _ (by omega) (by omega) h2 (by omega) hq1
      · split
        · exact ih _ _ _ _ h0 (by omega) (by omega) (by omega) hq1
        · obtain ⟨c1, hc1⟩ := dbl_set_subtractors_ok
            { cpa with
              cumulative_weight :=
                Double.sub cpa.cumulative_weight cpa.entries[mid_of lo hi].weight }
            (q ++ [mid_of lo hi]) (q ++ [mid_of lo hi]).length (mid_of lo hi) hm
            (by rw [q_read_length]; exact hq1)
          rw [hc1]
          exact ⟨_, rfl⟩

/-- In every state `cpa_binary_search` on doubles returns. -/
theorem dbl_binary_search_returns (cpa : Dbl.Cpa) (key : Double) :
    ∃ r, Dbl.cpa_binary_search cpa key = .ok r := by
  unfold Dbl.cpa_binary_search
  exact dbl_binary_loop_returns key cpa (cpa.size + 1) 0 _ [] _ (le_refl 0) (by omega)
    (by omega) (by push_cast; omega) (by intro v hv; simp at hv)

theorem totalWeight_of_built (items : List (Nat × Int)) (es : List Cpa_entry)
    (h : es.map (fun e => (e.data, e.weight)) = items) :
    totalWeight es = (items.map (fun x => x.2)).sum := by
  rw [← h]
  simp [totalWeight, List.map_map, Function.comp_def]

/-- What the appends on doubles build from positive whole-number weights with a
sum of at most `2^52`: the array that holds the whole numbers of the exact
array, which is in the state either search keeps. -/
theorem dbl_built (size : Nat) (junk : Double) (items : List (Nat × Int))
    (cpa0 : Dbl.Cpa) (hne : items ≠ []) (hpos : ∀ x ∈ items, 0 < x.2)
    (hsum : (items.map (fun x => x.2)).sum ≤ 2 ^ 52)
    (hbuild : Dbl.cpa_append_all (Dbl.cpa_empty size junk) (items_to_dbl items) = .ok cpa0) :
    ∃ c0 : Cpa, cpa_append_all (cpa_empty size 0) items = .ok c0 ∧ cpa0 = to_dbl c0 ∧
      LinearInv c0 ∧ BinaryInv c0 ∧ totalWeight c0.entries ≤ 2 ^ 52 := by
  obtain ⟨c0, hc, he⟩ := built_to_dbl size junk items cpa0 hne hpos (by omega) hbuild
  refine ⟨c0, hc, he, LinearInv_built size 0 items c0 hc hne hpos,
    BinaryInv_built size 0 items c0 hc hne hpos, ?_⟩
  rw [totalWeight_of_built items c0.entries (built_facts size 0 items c0 hc).2.2.2.2]
  exact hsum

theorem linear_history_totalWeight (keys : List Int) :
    ∀ cpa : Cpa, totalWeight (linear_history cpa keys).entries = totalWeight cpa.entries := by
  induction keys with
  | nil => intro cpa; rfl
  | cons k ks ih =>
    intro cpa
    have := ih (cpa_linear_search cpa k).1
    simp only [linear_history, List.foldl_cons] at this ⊢
    rw [this, linear_search_totalWeight]

theorem binary_history_totalWeight (keys : List Int) :
    ∀ (cpa cpa1 : Cpa), binary_history cpa keys = .ok cpa1 →
      totalWeight cpa1.entries = totalWeight cpa.entries := by
  induction keys with
  | nil =>
    intro cpa cpa1 h
    simp only [binary_history, Outcome.ok.injEq] at h
    rw [h]
  | cons k ks ih =>
    intro cpa cpa1 h
    simp only [binary_history] at h
    cases hs : cpa_binary_search cpa k with
    | fault => rw [hs] at h; simp at h
    | timeout => rw [hs] at h; simp at h
    | ok x =>
      obtain ⟨c1, r⟩ := x
      rw [hs] at h
      simp only at h
      rw [ih c1 cpa1 h, binary_search_totalWeight cpa c1 k r hs]

theorem payloadOf_to_dbl (cpa : Cpa) (i : Nat) : Dbl.payloadOf (to_dbl cpa) i = payloadOf cpa i := by
  unfold Dbl.payloadOf payloadOf
  have hent : (to_dbl cpa).entries = cpa.entries.map entry_to_dbl := rfl
  rw [hent, List.getElem?_map]
  cases cpa.entries[i]? <;> rfl

/-! ### The remaining weight on doubles -/

theorem dbl_liveSum_cons (e : Dbl.Cpa_entry) (es : List Dbl.Cpa_entry) :
    Dbl.liveSum (e :: es) =
      (if e.found = true then 0 else Double.to_int e.weight) + Dbl.liveSum es := by
  simp [Dbl.liveSum]

theorem dbl_liveSum_congr (es es1 : List Dbl.Cpa_entry)
    (h : es1.map Dbl.core = es.map Dbl.core) : Dbl.liveSum es1 = Dbl.liveSum es := by
  have h1 : ∀ l : List Dbl.Cpa_entry,
      l.map (fun e => if e.found = true then 0 else Double.to_int e.weight) =
        (l.map Dbl.core).map (fun c => if c.2.2.2 = true then 0 else Double.to_int c.2.1) := by
    intro l
    rw [List.map_map]
    rfl
  unfold Dbl.liveSum
  rw [h1 es1, h1 es, h]

theorem dbl_liveSum_set_found (es : List Dbl.Cpa_entry) :
    ∀ (i : Nat) (e : Dbl.Cpa_entry), es[i]? = some e → e.found = false →
      Dbl.liveSum (es.set i { e with found := true }) =
        Dbl.liveSum es - Double.to_int e.weight := by
  induction es with
  | nil => intro i e h; simp at h
  | cons x xs ih =>
    intro i e h hf
    cases i with
    | zero =>
      simp at h
      subst h
      simp only [List.set_cons_zero, dbl_liveSum_cons, hf]
      simp
    | succ j =>
      simp at h
      simp only [List.set_cons_succ, dbl_liveSum_cons, ih j e h hf]
      omega

theorem dbl_pairs_congr (es es1 : List Dbl.Cpa_entry)
    (h : es1.map Dbl.core = es.map Dbl.core) :
    es1.map (fun e => (e.data, e.weight)) = es.map (fun e => (e.data, e.weight)) := by
  have h1 : ∀ l : List Dbl.Cpa_entry,
      l.map (fun e => (e.data, e.weight)) = (l.map Dbl.core).map (fun c => (c.1, c.2.1)) := by
    intro l
    rw [List.map_map]
    rfl
  rw [h1 es1, h1 es, h]

theorem dbl_pairs_set_found (es : List Dbl.Cpa_entry) (i : Nat) (e : Dbl.Cpa_entry)
    (he : es[i]? = some e) :
    (es.set i { e with found := true }).map (fun e => (e.data, e.weight)) =
      es.map (fun e => (e.data, e.weight)) := by
  apply List.ext_getElem?
  intro j
  rw [List.getElem?_map, List.getElem?_map]
  by_cases hij : i = j
  · subst hij
    have hlt := (List.getElem?_eq_some_iff.mp he).1
    rw [List.getElem?_set_self hlt, he]
    rfl
  · rw [List.getElem?_set_ne hij]

/-- With positive whole-number weights the live sum lies between 0 and the sum
of all weights. -/
theorem dbl_liveSum_bounds (items : List (Nat × Int)) (hpos : ∀ x ∈ items, 0 < x.2) :
    ∀ es : List Dbl.Cpa_entry, es.map (fun e => (e.data, e.weight)) = items_to_dbl items →
      0 ≤ Dbl.liveSum es ∧ Dbl.liveSum es ≤ (items.map (fun x => x.2)).sum := by
  induction items with
  | nil =>
    intro es h
    cases es with
    | nil => simp [Dbl.liveSum]
    | cons e rest => simp [items_to_dbl] at h
  | cons x rest ih =>
    intro es h
    cases es with
    | nil => simp [items_to_dbl] at h
    | cons e es1 =>
      simp only [items_to_dbl, List.map_cons, List.cons.injEq, Prod.mk.injEq] at h
      obtain ⟨⟨_, hw⟩, ht⟩ := h
      have hx := hpos x (List.mem_cons_self _ _)
      obtain ⟨r1, r2⟩ := ih (fun y hy => hpos y (List.mem_cons_of_mem _ hy)) es1 ht
      rw [dbl_liveSum_cons, hw, to_int_of_int]
      simp only [List.map_cons, List.sum_cons]
      split <;> constructor <;> omega

theorem dbl_weight_whole (items : List (Nat × Int)) (es : List Dbl.Cpa_entry)
    (h : es.map (fun e => (e.data, e.weight)) = items_to_dbl items) (i : Nat)
    (e : Dbl.Cpa_entry) (he : es[i]? = some e) :
    e.weight = Double.of_int (Double.to_int e.weight) := by
  have h1 : (es.map (fun e => (e.data, e.weight)))[i]? = some (e.data, e.weight) := by
    rw [List.getElem?_map, he]
    rfl
  rw [h, items_to_dbl, List.getElem?_map] at h1
  cases hx : items[i]? with
  | none => rw [hx] at h1; exact Option.noConfusion h1
  | some x =>
    rw [hx] at h1
    simp only [Option.map, Option.some.injEq, Prod.mk.injEq] at h1
    rw [← h1.2, to_int_of_int]

/-- One call on doubles keeps the remaining weight equal to the live sum, for
positive whole-number weights with a sum of at most `2^53`; it lowers it by the
weight of the entry it returns, and leaves it alone when it returns NULL. -/
theorem dbl_do_call_weight (items : List (Nat × Int)) (hpos : ∀ x ∈ items, 0 < x.2)
    (hsum : (items.map (fun x => x.2)).sum ≤ 2 ^ 53)
    (cpa cpa1 : Dbl.Cpa) (op : Dbl.Call) (r : Option Nat)
    (h : Dbl.do_call cpa op = .ok (cpa1, r))
    (hw : cpa.entries.map (fun e => (e.data, e.weight)) = items_to_dbl items)
    (hinv : cpa.cumulative_weight = Double.of_int (Dbl.liveSum cpa.entries)) :
    cpa1.entries.map (fun e => (e.data, e.weight)) = items_to_dbl items ∧
    cpa1.cumulative_weight = Double.of_int (Dbl.liveSum cpa1.entries) ∧
    (∀ i, r = some i → ∃ e, cpa.entries[i]? = some e ∧ e.found = false ∧
      cpa1.cumulative_weight =
        Double.of_int (Double.to_int cpa.cumulative_weight - Double.to_int e.weight)) ∧
    (r = none → cpa1.cumulative_weight = cpa.cumulative_weight) := by
  rcases dbl_do_call_effect cpa cpa1 op r h with ⟨hr, hc⟩ | ⟨i, e, hr, he, hf, hcore, _, hcw⟩
  · subst hr hc
    exact ⟨hw, hinv, fun i hi => by simp at hi, fun _ => rfl⟩
  · subst hr
    have hw1 : cpa1.entries.map (fun e => (e.data, e.weight)) = items_to_dbl items := by
      rw [dbl_pairs_congr _ _ hcore, dbl_pairs_set_found _ i e he, hw]
    have hl1 : Dbl.liveSum cpa1.entries =
        Dbl.liveSum cpa.entries - Double.to_int e.weight := by
      rw [dbl_liveSum_congr _ _ hcore, dbl_liveSum_set_found _ i e he hf]
    obtain ⟨b1, b2⟩ := dbl_liveSum_bounds items hpos cpa1.entries hw1
    have hwe := dbl_weight_whole items cpa.entries hw i e he
    have hsub : Double.sub cpa.cumulative_weight e.weight =
        Double.of_int (Dbl.liveSum cpa.entries - Double.to_int e.weight) := by
      rw [hinv, hwe, to_int_of_int]
      exact sub_of_int _ _ (by omega)
    refine ⟨hw1, ?_, fun j hj => ?_, fun hn => by simp at hn⟩
    · rw [hcw, hsub, hl1]
    · simp only [Option.some.injEq] at hj
      subst hj
      refine ⟨e, he, hf, ?_⟩
      rw [hcw, hsub, hinv, to_int_of_int]

theorem dbl_run_calls_weight (items : List (Nat × Int)) (hpos : ∀ x ∈ items, 0 < x.2)
    (hsum : (items.map (fun x => x.2)).sum ≤ 2 ^ 53) (calls : List Dbl.Call) :
    ∀ (cpa cpa1 : Dbl.Cpa) (rs : List (Option Nat)),
      Dbl.run_calls cpa calls = .ok (cpa1, rs) →
      cpa.entries.map (fun e => (e.data, e.weight)) = items_to_dbl items →
      cpa.cumulative_weight = Double.of_int (Dbl.liveSum cpa.entries) →
      cpa1.entries.map (fun e => (e.data, e.weight)) = items_to_dbl items ∧
      cpa1.cumulative_weight = Double.of_int (Dbl.liveSum cpa1.entries) := by
  induction calls with
  | nil =>
    intro cpa cpa1 rs h hw hinv
    simp only [Dbl.run_calls, Outcome.ok.injEq, Prod.mk.injEq] at h
    rw [← h.1]
    exact ⟨hw, hinv⟩
  | cons op ops ih =>
    intro cpa cpa1 rs h hw hinv
    simp only [Dbl.run_calls] at h
    cases h1 : Dbl.do_call cpa op with
    | fault => rw [h1] at h; simp at h
    | timeout => rw [h1] at h; simp at h
    | ok x =>
      obtain ⟨c2, r⟩ := x
      rw [h1] at h
      simp only at h
      cases h2 : Dbl.run_calls c2 ops with
      | fault => rw [h2] at h; simp at h
      | timeout => rw [h2] at h; simp at h
      | ok y =>
        obtain ⟨c3, rs2⟩ := y
        rw [h2] at h
        simp only [Outcome.ok.injEq, Prod.mk.injEq] at h
        rw [← h.1]
        obtain ⟨a1, a2, _⟩ := dbl_do_call_weight items hpos hsum cpa c2 op r h1 hw hinv
        exact ih c2 c3 rs2 h2 a1 a2

theorem dbl_liveSum_to_dbl (es : List Cpa_entry) :
    Dbl.liveSum (es.map entry_to_dbl) = liveSum es := by
  induction es with
  | nil => rfl
  | cons e rest ih =>
    rw [List.map_cons, dbl_liveSum_cons, liveSum_cons, ih]
    simp only [entry_to_dbl, to_int_of_int, liveWeight]

theorem pairs_to_dbl (es : List Cpa_entry) (items : List (Nat × Int))
    (h : es.map (fun e => (e.data, e.weight)) = items) :
    (es.map entry_to_dbl).map (fun e => (e.data, e.weight)) = items_to_dbl items := by
  rw [← h, items_to_dbl, List.map_map, List.map_map]
  rfl

set_option maxRecDepth 100000 in
set_option exponentiation.threshold 5000 in
/-- C7, as stated, fails on the doubles of the source: after appends of the
weights `0.1` and `0.2` the remaining weight is `0.30000000000000004`; a draw
with key `0.0` returns entry 0 and leaves `0.30000000000000004 - 0.1 =
0.20000000000000004`, which is not the weight `0.2` of the one entry that is
not found. -/
theorem remaining_weight_drifts :
    (fun c =>
      ((Dbl.cpa_linear_search c (Double.fin 0)).2,
       (Dbl.cpa_linear_search c (Double.fin 0)).1.cumulative_weight,
       (Dbl.cpa_linear_search c (Double.fin 0)).1.entries.map
         (fun e => (e.found, e.weight)))) <$>
      Dbl.cpa_append_all (Dbl.cpa_empty 2 (Double.fin 0)) tenth_items =
      .ok (some 0, Double.dyadic 7205759403792795 55,
        [(true, Double.dyadic 3602879701896397 55),
         (false, Double.dyadic 3602879701896397 54)]) ∧
    (Dbl.cpa_append_all (Dbl.cpa_empty 2 (Double.fin 0)) tenth_items).bind
      (fun c => (fun r => (r.2, r.1.cumulative_weight)) <$>
        Dbl.cpa_binary_search c (Double.fin 0)) =
      .ok (some 0, Double.dyadic 7205759403792795 55) ∧
    Double.dyadic 7205759403792795 55 ≠ Double.dyadic 3602879701896397 54 :=
  ⟨by decide, by decide, by decide⟩

/-- C7, amended: on an array built from an empty one by one or more appends of
positive whole-number weights with a sum of at most `2^53`, in the `double`
arithmetic of the source, `cumulative_weight` is the sum of all appended
weights, and after any sequence of `cpa_binary_search`, `cpa_linear_search` and
`cpa_iterate` calls that return, with any keys, it is the sum of the weights of
the entries whose found flag is 0; a further call that returns an entry lowers
it by exactly the weight of that entry, and one that returns NULL leaves it
unchanged; the calls of the two searches always return. -/
theorem double_remaining_weight_invariant (size : Nat) (junk : Double)
    (items : List (Nat × Int)) (cpa0 cpa : Dbl.Cpa) (calls : List Dbl.Call)
    (rs : List (Option Nat))
    (hbuild : Dbl.cpa_append_all (Dbl.cpa_empty size junk) (items_to_dbl items) = .ok cpa0)
    (hne : items ≠ []) (hpos : ∀ x ∈ items, 0 < x.2)
    (hsum : (items.map (fun x => x.2)).sum ≤ 2 ^ 53)
    (hrun : Dbl.run_calls cpa0 calls = .ok (cpa, rs)) :
    cpa0.cumulative_weight = Double.of_int (items.map (fun x => x.2)).sum ∧
    cpa.entries.map (fun e => (e.data, e.weight)) = items_to_dbl items ∧
    cpa.cumulative_weight = Double.of_int (Dbl.liveSum cpa.entries) ∧
    (∀ (op : Dbl.Call) (cpa1 : Dbl.Cpa) (r : Option Nat),
      Dbl.do_call cpa op = .ok (cpa1, r) →
      cpa1.cumulative_weight = Double.of_int (Dbl.liveSum cpa1.entries) ∧
      (∀ i, r = some i → ∃ e, cpa.entries[i]? = some e ∧ e.found = false ∧
        cpa1.cumulative_weight =
          Double.of_int (Double.to_int cpa.cumulative_weight - Double.to_int e.weight)) ∧
      (r = none → cpa1.cumulative_weight = cpa.cumulative_weight)) ∧
    (∀ key, ∃ x, Dbl.do_call cpa (.binary key) = .ok x) ∧
    (∀ key, ∃ x, Dbl.do_call cpa (.linear key) = .ok x) := by
  obtain ⟨c0, hc, he⟩ := built_to_dbl size junk items cpa0 hne hpos hsum hbuild
  subst he
  obtain ⟨_, hf, hcw, _, hi⟩ := built_facts size 0 items c0 hc
  have hes : c0.entries ≠ [] := by
    intro hnil
    rw [hnil] at hi
    exact hne hi.symm
  have hw0 : (to_dbl c0).entries.map (fun e => (e.data, e.weight)) = items_to_dbl items :=
    pairs_to_dbl c0.entries items hi
  have hl0 : (to_dbl c0).cumulative_weight =
      Double.of_int (Dbl.liveSum (to_dbl c0).entries) := by
    show Double.of_int c0.cumulative_weight = Double.of_int (Dbl.liveSum (c0.entries.map entry_to_dbl))
    rw [dbl_liveSum_to_dbl, hcw hes, liveSum_eq_totalWeight_of_fresh _ (fun e he => (hf e he).1)]
  obtain ⟨hw, hinv⟩ := dbl_run_calls_weight items hpos hsum calls _ cpa rs hrun hw0 hl0
  refine ⟨?_, hw, hinv, ?_, fun key => dbl_binary_search_returns cpa key,
    fun key => ⟨_, rfl⟩⟩
  · show Double.of_int c0.cumulative_weight = _
    rw [hcw hes, totalWeight_of_built items c0.entries hi]
  · intro op cpa1 r h
    exact (dbl_do_call_weight items hpos hsum cpa cpa1 op r h hw hinv).2

set_option maxRecDepth 100000 in
set_option exponentiation.threshold 5000 in
theorem double_remaining_weight_invariant_witness :
    ∃ cpa, Dbl.run_calls (to_dbl scenario_cpa)
        [.binary (Double.of_int 5), .linear (Double.of_int 9), .iterate iterator_zero,
         .linear (Double.of_int 0), .binary (Double.of_int 42)] =
          .ok (cpa, [some 2, some 3, some 1, some 0, none]) ∧
      (to_dbl scenario_cpa).cumulative_weight = Double.of_int 10 ∧
      cpa.cumulative_weight = Double.of_int (Dbl.liveSum cpa.entries) := by
  have h := double_remaining_weight_invariant 4 (Double.fin 0) scenario_items
    (to_dbl scenario_cpa) _
    [.binary (Double.of_int 5), .linear (Double.of_int 9), .iterate iterator_zero,
     .linear (Double.of_int 0), .binary (Double.of_int 42)]
    [some 2, some 3, some 1, some 0, none] (by decide) (by decide) (by decide) (by decide) rfl
  exact ⟨_, rfl, h.1, h.2.2.1⟩

end CPA
